import Mathlib

/-!
# PPM-Compression: the Bitpack interface and the 32-bit codeword

Shallow embedding of `src/bitpack.c` and of the codeword packing functions of
`src/compress40.c`.

Machine integers:
* `uint64_t` is a `Nat` below `2^64`; each operation that can leave that range
  is reduced `% 2^64` where the C operation wraps;
* `int64_t` is an `Int` in `[-2^63, 2^63)`; the conversions between the two
  are `toInt64` and `toUInt64` (two's complement, as on the target);
* `unsigned` (`width`, `lsb`) is a `Nat` below `2^32`; `width + lsb` is
  reduced `% 2^32` as the C addition is.

Failures: a failed `assert` is the checked runtime error `Failure.CRE`,
`RAISE(Bitpack_Overflow)` is `Failure.Overflow`.
-/

namespace PPM

/-- The two ways a Bitpack call can fail: a failed `assert` (checked runtime
error) and `RAISE(Bitpack_Overflow)`. -/
inductive Failure where
  | CRE
  | Overflow
  deriving DecidableEq, Repr

deriving instance DecidableEq for Except

/-- The constant `__UINT64_MAX__`. -/
def UINT64_MAX : Nat := 2 ^ 64 - 1

/-- Conversion `uint64_t → int64_t` (two's complement reinterpretation). -/
def toInt64 (n : Nat) : Int :=
  if n % 2 ^ 64 < 2 ^ 63 then ((n % 2 ^ 64 : Nat) : Int)
  else ((n % 2 ^ 64 : Nat) : Int) - 2 ^ 64

/-- Conversion `int64_t → uint64_t` (reduction modulo `2^64`). -/
def toUInt64 (i : Int) : Nat := (i % 2 ^ 64).toNat

/-- Conversion `uint64_t → int` (keeps the low 32 bits, two's complement). -/
def toInt32 (n : Nat) : Int :=
  if n % 2 ^ 32 < 2 ^ 31 then ((n % 2 ^ 32 : Nat) : Int)
  else ((n % 2 ^ 32 : Nat) : Int) - 2 ^ 32

/-- Conversion `uint64_t → unsigned` (keeps the low 32 bits). -/
def toUInt32 (n : Nat) : Nat := n % 2 ^ 32

/-- The C operator `~` on a `uint64_t`: every one of the 64 bits flipped. -/
def bitNot64 (x : Nat) : Nat := UINT64_MAX ^^^ x

/-! ## Private helpers of bitpack.c -/

/-- `left_shift`: `0` when `shift >= 64`, else `n << shift` on 64 bits. -/
def left_shift (n shift : Nat) : Nat :=
  if shift ≥ 64 then 0 else (n <<< shift) % 2 ^ 64

/-- `right_shift_unsigned`: `0` when `shift >= 64`, else `n >> shift`. -/
def right_shift_unsigned (n shift : Nat) : Nat :=
  if shift ≥ 64 then 0 else n >>> shift

/-- `right_shift_signed`: arithmetic shift of an `int64_t`, returned as a
`uint64_t`; for `shift >= 64` all ones when `n` is negative, else `0`. -/
def right_shift_signed (n : Int) (shift : Nat) : Nat :=
  if shift ≥ 64 then
    if n < 0 then UINT64_MAX else 0
  else toUInt64 (n >>> shift)

/-! ## Width tests -/

/-- `Bitpack_fitsu(n, width)`. -/
def Bitpack_fitsu (n width : Nat) : Except Failure Bool :=
  if ¬ width ≤ 64 then .error .CRE
  else if width = 0 then .ok (decide (n = 0))
  else .ok (decide ((left_shift 1 width + 2 ^ 64 - 1) % 2 ^ 64 ≥ n))

/-- `Bitpack_fitss(n, width)`; `-n` is taken on 64 bits, so the minimum
`int64_t` has the corresponding unsigned value `2^63`. -/
def Bitpack_fitss (n : Int) (width : Nat) : Except Failure Bool :=
  if ¬ width ≤ 64 then .error .CRE
  else if width = 0 then .ok (decide (n = 0))
  else if n < 0 then
    let corresponding_unsigned := toUInt64 (-n)
    .ok (decide (left_shift 1 (width - 1) ≥ corresponding_unsigned))
  else
    .ok (decide ((left_shift 1 (width - 1) + 2 ^ 64 - 1) % 2 ^ 64 ≥ toUInt64 n))

/-! ## Field extraction -/

/-- The mask built by every extract and update function:
`left_shift(right_shift_unsigned(__UINT64_MAX__, 64 - width), lsb)`. -/
def fieldMask (width lsb : Nat) : Nat :=
  left_shift (right_shift_unsigned UINT64_MAX (64 - width)) lsb

/-- `Bitpack_getu(word, width, lsb)`. -/
def Bitpack_getu (word width lsb : Nat) : Except Failure Nat :=
  if ¬ width ≤ 64 then .error .CRE
  else if ¬ (width + lsb) % 2 ^ 32 ≤ 64 then .error .CRE
  else if width = 0 then .ok 0
  else
    let mask := fieldMask width lsb
    let word := word &&& mask
    .ok (right_shift_unsigned word lsb)

/-- `Bitpack_gets(word, width, lsb)`. -/
def Bitpack_gets (word width lsb : Nat) : Except Failure Int :=
  if ¬ width ≤ 64 then .error .CRE
  else if ¬ (width + lsb) % 2 ^ 32 ≤ 64 then .error .CRE
  else if width = 0 then .ok 0
  else
    let mask := fieldMask width lsb
    let word := word &&& mask
    let word := right_shift_signed (toInt64 word) lsb
    let word := left_shift word (64 - width)
    let word := right_shift_signed (toInt64 word) (64 - width)
    .ok (toInt64 word)

/-! ## Field update -/

/-- `Bitpack_newu(word, width, lsb, value)`. -/
def Bitpack_newu (word width lsb value : Nat) : Except Failure Nat :=
  if ¬ width ≤ 64 then .error .CRE
  else if ¬ (width + lsb) % 2 ^ 32 ≤ 64 then .error .CRE
  else
    match Bitpack_fitsu value width with
    | .error e => .error e
    | .ok false => .error .Overflow
    | .ok true =>
      let mask := fieldMask width lsb
      let word := word &&& bitNot64 mask
      .ok (word ||| left_shift value lsb)

/-- `Bitpack_news(word, width, lsb, value)`. -/
def Bitpack_news (word width lsb : Nat) (value : Int) : Except Failure Nat :=
  if ¬ width ≤ 64 then .error .CRE
  else if ¬ (width + lsb) % 2 ^ 32 ≤ 64 then .error .CRE
  else
    match Bitpack_fitss value width with
    | .error e => .error e
    | .ok false => .error .Overflow
    | .ok true =>
      let mask := fieldMask width lsb
      let word := word &&& bitNot64 mask
      let value := toInt64 (left_shift (toUInt64 value) (64 - width))
      let value := toInt64 (right_shift_unsigned (toUInt64 value) (64 - width))
      let value := toInt64 (left_shift (toUInt64 value) lsb)
      .ok (word ||| toUInt64 value)

/-! ## The codeword of compress40.c -/

/-- The struct `CodeWord_Element`: one field of the codeword. -/
structure CodeWord_Element where
  value : Nat
  isSigned : Bool
  width : Nat
  lsb : Nat
  deriving DecidableEq, Repr

/-- The constant `NUM_CODEWORD_ELEMENTS`. -/
def NUM_CODEWORD_ELEMENTS : Nat := 6

/-- Template `CODEWORD_A`. -/
def CODEWORD_A : CodeWord_Element := { value := 0, isSigned := false, width := 9, lsb := 23 }
/-- Template `CODEWORD_B`. -/
def CODEWORD_B : CodeWord_Element := { value := 0, isSigned := true, width := 5, lsb := 18 }
/-- Template `CODEWORD_C`. -/
def CODEWORD_C : CodeWord_Element := { value := 0, isSigned := true, width := 5, lsb := 13 }
/-- Template `CODEWORD_D`. -/
def CODEWORD_D : CodeWord_Element := { value := 0, isSigned := true, width := 5, lsb := 8 }
/-- Template `CODEWORD_PB`. -/
def CODEWORD_PB : CodeWord_Element := { value := 0, isSigned := false, width := 4, lsb := 4 }
/-- Template `CODEWORD_PR`. -/
def CODEWORD_PR : CodeWord_Element := { value := 0, isSigned := false, width := 4, lsb := 0 }

/-- The array `code_elems` as `applyCompress` and `applyDecompress` declare
it: the six templates in the order a, b, c, d, Pb, Pr. -/
def code_elems_template : List CodeWord_Element :=
  [CODEWORD_A, CODEWORD_B, CODEWORD_C, CODEWORD_D, CODEWORD_PB, CODEWORD_PR]

/-- The assignments of `applyCompress` into `code_elems`: the four `int`
entries of `quantized_abcd` and the two `unsigned` chroma indices are stored
in the `uint64_t` member `value` (an `int` is sign-extended). -/
def assign_code_elems (qa qb qc qd : Int) (pb_chromaIndex pr_chromaIndex : Nat) :
    List CodeWord_Element :=
  [ { CODEWORD_A with value := toUInt64 qa },
    { CODEWORD_B with value := toUInt64 qb },
    { CODEWORD_C with value := toUInt64 qc },
    { CODEWORD_D with value := toUInt64 qd },
    { CODEWORD_PB with value := pb_chromaIndex % 2 ^ 64 },
    { CODEWORD_PR with value := pr_chromaIndex % 2 ^ 64 } ]

/-- One iteration of the loop of `pack_codeword`. -/
def pack_step (new_word : Nat) (element : CodeWord_Element) : Except Failure Nat :=
  let value := element.value
  let width := element.width
  let lsb := element.lsb
  if element.isSigned then Bitpack_news new_word width lsb (toInt64 value)
  else Bitpack_newu new_word width lsb value

/-- The loop of `pack_codeword` over the remaining elements. -/
def pack_loop : Nat → List CodeWord_Element → Except Failure Nat
  | new_word, [] => .ok new_word
  | new_word, element :: rest =>
    match pack_step new_word element with
    | .error e => .error e
    | .ok w => pack_loop w rest

/-- `pack_codeword(elementArr)`: folds the first `NUM_CODEWORD_ELEMENTS`
entries of the array into a word that starts at `0`. -/
def pack_codeword (elementArr : List CodeWord_Element) : Except Failure Nat :=
  pack_loop 0 (elementArr.take NUM_CODEWORD_ELEMENTS)

/-- One iteration of the loop of `extract_bitpack`: the element with its
`value` replaced by the field read from the codeword. -/
def extract_step (codeword : Nat) (elem : CodeWord_Element) :
    Except Failure CodeWord_Element :=
  if elem.isSigned then
    match Bitpack_gets codeword elem.width elem.lsb with
    | .error e => .error e
    | .ok v => .ok { elem with value := toUInt64 v }
  else
    match Bitpack_getu codeword elem.width elem.lsb with
    | .error e => .error e
    | .ok v => .ok { elem with value := v }

/-- The loop of `extract_bitpack` over the remaining elements. -/
def extract_loop (codeword : Nat) : List CodeWord_Element → Except Failure (List CodeWord_Element)
  | [] => .ok []
  | elem :: rest =>
    match extract_step codeword elem with
    | .error e => .error e
    | .ok elem1 =>
      match extract_loop codeword rest with
      | .error e => .error e
      | .ok rest1 => .ok (elem1 :: rest1)

/-- `extract_bitpack(codeword, code_elems)`: the array after the call; the
first `NUM_CODEWORD_ELEMENTS` entries are updated. -/
def extract_bitpack (codeword : Nat) (code_elems : List CodeWord_Element) :
    Except Failure (List CodeWord_Element) :=
  match extract_loop codeword (code_elems.take NUM_CODEWORD_ELEMENTS) with
  | .error e => .error e
  | .ok updated => .ok (updated ++ code_elems.drop NUM_CODEWORD_ELEMENTS)

/-- The assignments of `applyDecompress` out of `code_elems` after
`extract_bitpack`: the `uint64_t` member `value` of each element is stored in
the `int` entries of `quantized_abcd` and in the two `unsigned` chroma
indices. -/
def read_code_elems : List CodeWord_Element → Option (Int × Int × Int × Int × Nat × Nat)
  | [ea, eb, ec, ed, epb, epr] =>
    some (toInt32 ea.value, toInt32 eb.value, toInt32 ec.value, toInt32 ed.value,
      toUInt32 epb.value, toUInt32 epr.value)
  | _ => none

/-! ## Rasters: uarray2.c and the image of pnm.h

`int` indices are `Int`; the `unsigned` width, height and denominator of an
image are `Nat`. The Hanson `UArray_T` that holds the cells is a `List` of
`width * height` elements. -/

/-- The struct `Pnm_rgb`: one pixel, three `unsigned` channels. -/
structure Pnm_rgb where
  red : Nat
  green : Nat
  blue : Nat
  deriving DecidableEq, Repr

/-- The struct `UArray2_T`. -/
structure UArray2_T (α : Type) where
  width : Int
  height : Int
  elementSize : Int
  elements : List α
  deriving DecidableEq, Repr

/-- Hanson's `UArray_new(length, size)`, called by `UArray2_new`: a checked
runtime error unless `length >= 0` and `size > 0`; the cells are zeroed. -/
def UArray_new {α : Type} (zero : α) (length size : Int) : Except Failure (List α) :=
  if ¬ (length ≥ 0 ∧ size > 0) then .error .CRE
  else .ok (List.replicate length.toNat zero)

/-- Hanson's `UArray_at(elements, index)`: a checked runtime error unless
`0 <= index < length`. -/
def UArray_at {α : Type} (elements : List α) (index : Int) : Except Failure α :=
  if ¬ (index ≥ 0 ∧ index < elements.length) then .error .CRE
  else
    match elements[index.toNat]? with
    | none => .error .CRE
    | some x => .ok x

/-- `UArray2_new(width, height, elementSize)`, the product `width * height`
taken without overflow; `UArray2_new_int` computes it on `int`. -/
def UArray2_new {α : Type} (zero : α) (width height elementSize : Int) :
    Except Failure (UArray2_T α) :=
  if ¬ (width ≥ 0 ∧ height ≥ 0 ∧ elementSize ≥ 0) then .error .CRE
  else
    match UArray_new zero (width * height) elementSize with
    | .error e => .error e
    | .ok elements =>
      .ok { width := width, height := height, elementSize := elementSize,
            elements := elements }

/-- `UArray2_width(uarray2)`. -/
def UArray2_width {α : Type} (uarray2 : UArray2_T α) : Int := uarray2.width

/-- `UArray2_height(uarray2)`. -/
def UArray2_height {α : Type} (uarray2 : UArray2_T α) : Int := uarray2.height

/-- `UArray2_size(uarray2)`. -/
def UArray2_size {α : Type} (uarray2 : UArray2_T α) : Int := uarray2.elementSize

/-- `UArray2_at(uarray2, col, row)`, read through the returned pointer. -/
def UArray2_at {α : Type} (uarray2 : UArray2_T α) (col row : Int) : Except Failure α :=
  if ¬ (col ≥ 0 ∧ col < uarray2.width) then .error .CRE
  else if ¬ (row ≥ 0 ∧ row < uarray2.height) then .error .CRE
  else
    let index := row * uarray2.width + col
    UArray_at uarray2.elements index

/-- The assignment `*UArray2_at(uarray2, col, row) = value`: the same checks as
`UArray2_at`, then the cell at `index` is overwritten. -/
def UArray2_at_assign {α : Type} (uarray2 : UArray2_T α) (col row : Int) (value : α) :
    Except Failure (UArray2_T α) :=
  if ¬ (col ≥ 0 ∧ col < uarray2.width) then .error .CRE
  else if ¬ (row ≥ 0 ∧ row < uarray2.height) then .error .CRE
  else
    let index := row * uarray2.width + col
    if ¬ (index ≥ 0 ∧ index < uarray2.elements.length) then .error .CRE
    else .ok { uarray2 with elements := uarray2.elements.set index.toNat value }

/-- A counting `for` loop: `k` iterations of the body `f`, the loop variable
starting at `i` and going up by one. -/
def loopFrom {σ : Type} (f : Nat → σ → Except Failure σ) : Nat → Nat → σ → Except Failure σ
  | _, 0, s => .ok s
  | i, k + 1, s =>
    match f i s with
    | .error e => .error e
    | .ok s1 => loopFrom f (i + 1) k s1

/-- The body of the inner loop of `UArray2_map_row_major`: the cell at
`(col, row)` is fetched and `apply` is called on it. -/
def map_row_major_cell {α σ : Type}
    (apply : Int → Int → UArray2_T α → α → σ → Except Failure (UArray2_T α × σ))
    (row col : Nat) (st : UArray2_T α × σ) : Except Failure (UArray2_T α × σ) :=
  match UArray2_at st.1 (col : Int) (row : Int) with
  | .error e => .error e
  | .ok elem => apply (col : Int) (row : Int) st.1 elem st.2

/-- The body of the outer loop of `UArray2_map_row_major`: the inner loop over
the columns of one row. -/
def map_row_major_row {α σ : Type}
    (apply : Int → Int → UArray2_T α → α → σ → Except Failure (UArray2_T α × σ))
    (width : Nat) (row : Nat) (st : UArray2_T α × σ) : Except Failure (UArray2_T α × σ) :=
  loopFrom (map_row_major_cell apply row) 0 width st

/-- `UArray2_map_row_major(uarray2, apply, cl)`. The array and the closure are
threaded through the calls of `apply`, which may write to both. The functions
applied in this program never change the dimensions, so the loop bounds are
those at entry. -/
def UArray2_map_row_major {α σ : Type} (uarray2 : UArray2_T α)
    (apply : Int → Int → UArray2_T α → α → σ → Except Failure (UArray2_T α × σ))
    (cl : σ) : Except Failure (UArray2_T α × σ) :=
  loopFrom (map_row_major_row apply uarray2.width.toNat) 0 uarray2.height.toNat (uarray2, cl)

/-- The struct `Pnm_ppm` of pnm.h (without its method table). -/
structure Pnm_ppm where
  width : Nat
  height : Nat
  denominator : Nat
  pixels : UArray2_T Pnm_rgb
  deriving DecidableEq, Repr

/-- The value of `sizeof(struct Pnm_rgb)`: three `unsigned`. -/
def sizeof_Pnm_rgb : Int := 12

/-- A zeroed pixel. -/
def Pnm_rgb_zero : Pnm_rgb := { red := 0, green := 0, blue := 0 }

/-- `trim_image(image)`. -/
def trim_image (image : Pnm_ppm) : Except Failure Pnm_ppm :=
  let new_width := if image.width % 2 ≠ 0 then image.width - 1 else image.width
  let new_height := if image.height % 2 ≠ 0 then image.height - 1 else image.height
  match UArray2_new Pnm_rgb_zero (toInt32 new_width) (toInt32 new_height) sizeof_Pnm_rgb with
  | .error e => .error e
  | .ok new_pixels0 =>
    match loopFrom (fun row np =>
        loopFrom (fun col np =>
          match UArray2_at image.pixels (toInt32 col) (toInt32 row) with
          | .error e => .error e
          | .ok old_pixel => UArray2_at_assign np (toInt32 col) (toInt32 row) old_pixel)
          0 new_width np)
        0 new_height new_pixels0 with
    | .error e => .error e
    | .ok new_pixels =>
      .ok { image with pixels := new_pixels, width := new_width, height := new_height }

/-! ## The block codec of compress40.c

A C `float` is modelled as an exact rational: the arithmetic of the codec is
taken without rounding error. `round` is the C library function (ties away
from zero); the conversion of a `float` to `unsigned` drops the fraction. The
section on binary floating point gives the transforms with every operation
rounded as the C code rounds it. -/

/-- The constant `BLOCKSIZE`. -/
def BLOCKSIZE : Nat := 2

/-- The constant `BLOCKAREA`. -/
def BLOCKAREA : Nat := BLOCKSIZE * BLOCKSIZE

/-- The constant `DECOMPRESSION_IMAGE_DENOMINATOR`. -/
def DECOMPRESSION_IMAGE_DENOMINATOR : Nat := 255

/-- The struct `ComponentVideo`. -/
structure ComponentVideo where
  y : ℚ
  pb : ℚ
  pr : ℚ
  deriving DecidableEq

/-- The struct `Block_Pixel_Info`; its C arrays are functions of the index. -/
structure Block_Pixel_Info where
  compvidArr : Nat → ComponentVideo
  discreteCosineArr : Nat → ℚ
  quantized_abcd : Nat → Int
  pb_chromaIndex : Nat
  pr_chromaIndex : Nat
  pb_mean : ℚ
  pr_mean : ℚ

/-- A `Block_Pixel_Info` before anything is stored in it (every member is
written before it is read). -/
def Block_Pixel_Info_zero : Block_Pixel_Info :=
  { compvidArr := fun _ => { y := 0, pb := 0, pr := 0 },
    discreteCosineArr := fun _ => 0,
    quantized_abcd := fun _ => 0,
    pb_chromaIndex := 0, pr_chromaIndex := 0, pb_mean := 0, pr_mean := 0 }

/-- The chroma quantization of arith40.h, which is not part of this
repository: the two lookups are parameters of the codec. -/
structure Arith40 where
  Arith40_index_of_chroma : ℚ → Nat
  Arith40_chroma_of_index : Nat → ℚ

/-- The C library function `round`: nearest integer, ties away from zero. -/
def round_half_away (x : ℚ) : Int :=
  if x ≥ 0 then ⌊x + 1 / 2⌋ else -⌊-x + 1 / 2⌋

/-- The conversion `(unsigned) x` of a non-negative `float`: the fraction is
dropped. -/
def float_to_unsigned (x : ℚ) : Nat := ⌊x⌋.toNat

/-- `RGB_to_ComponentVideo(pixel, denominator, compvid)`: the value stored in
`*compvid`. -/
def RGB_to_ComponentVideo (pixel : Pnm_rgb) (denominator : Nat) : ComponentVideo :=
  let r : ℚ := (pixel.red : ℚ) / (denominator : ℚ)
  let g : ℚ := (pixel.green : ℚ) / (denominator : ℚ)
  let b : ℚ := (pixel.blue : ℚ) / (denominator : ℚ)
  let y : ℚ := 0.299 * r + 0.587 * g + 0.114 * b
  let pb : ℚ := -0.168736 * r - 0.331264 * g + 0.5 * b
  let pr : ℚ := 0.5 * r - 0.418688 * g - 0.081312 * b
  { y := y, pb := pb, pr := pr }

/-- `discrete_Cosine_Transform(block)`. -/
def discrete_Cosine_Transform (block : Block_Pixel_Info) : Block_Pixel_Info :=
  let y1 := (block.compvidArr 0).y
  let y2 := (block.compvidArr 1).y
  let y3 := (block.compvidArr 2).y
  let y4 := (block.compvidArr 3).y
  let arr := block.discreteCosineArr
  let arr := Function.update arr 0 ((y4 + y3 + y2 + y1) / (BLOCKAREA : ℚ))
  let arr := Function.update arr 1 ((y4 + y3 - y2 - y1) / (BLOCKAREA : ℚ))
  let arr := Function.update arr 2 ((y4 - y3 + y2 - y1) / (BLOCKAREA : ℚ))
  let arr := Function.update arr 3 ((y4 - y3 - y2 + y1) / (BLOCKAREA : ℚ))
  { block with discreteCosineArr := arr }

/-- `clamp(value, min, max)`. -/
def clamp (value min max : ℚ) : ℚ :=
  if value < min then min
  else if value > max then max
  else value

/-- `abcd_quantization(block)`. -/
def abcd_quantization (block : Block_Pixel_Info) : Block_Pixel_Info :=
  let a := block.discreteCosineArr 0
  let b := block.discreteCosineArr 1
  let c := block.discreteCosineArr 2
  let d := block.discreteCosineArr 3
  let a := clamp a 0.0 1.0
  let b := clamp b (-0.3) 0.3
  let c := clamp c (-0.3) 0.3
  let d := clamp d (-0.3) 0.3
  let a_scaling_factor : ℚ := 511.0
  let bcd_scaling_factor : ℚ := 50.0
  let quantized_a : Nat := (round_half_away (a * a_scaling_factor)).toNat
  let quantized_b : Int := round_half_away (b * bcd_scaling_factor)
  let quantized_c : Int := round_half_away (c * bcd_scaling_factor)
  let quantized_d : Int := round_half_away (d * bcd_scaling_factor)
  let arr := block.quantized_abcd
  let arr := Function.update arr 0 (toInt32 quantized_a)
  let arr := Function.update arr 1 quantized_b
  let arr := Function.update arr 2 quantized_c
  let arr := Function.update arr 3 quantized_d
  { block with quantized_abcd := arr }

/-- The summing loop of `chroma_quantization` over `pixel_index`. -/
def chroma_sum (block : Block_Pixel_Info) : Nat → Nat → ℚ × ℚ → ℚ × ℚ
  | _, 0, means => means
  | pixel_index, k + 1, means =>
    chroma_sum block (pixel_index + 1) k
      (means.1 + (block.compvidArr pixel_index).pb,
       means.2 + (block.compvidArr pixel_index).pr)

/-- `chroma_quantization(block)`. -/
def chroma_quantization (arith : Arith40) (block : Block_Pixel_Info) : Block_Pixel_Info :=
  let sums := chroma_sum block 0 4 (0.0, 0.0)
  let pb_mean := sums.1 / (BLOCKAREA : ℚ)
  let pr_mean := sums.2 / (BLOCKAREA : ℚ)
  { block with
      pb_mean := pb_mean, pr_mean := pr_mean,
      pb_chromaIndex := arith.Arith40_index_of_chroma pb_mean,
      pr_chromaIndex := arith.Arith40_index_of_chroma pr_mean }

/-- The loop of `print_codeword`: `k` bytes remain, the next one is the byte
of index `k - 1`; `putchar` appends it to the standard output. -/
def print_codeword_loop (codeword : Nat) : Nat → List Nat → Except Failure (List Nat)
  | 0, out => .ok out
  | byte_index + 1, out =>
    match Bitpack_getu codeword 8 (byte_index * 8) with
    | .error e => .error e
    | .ok byte => print_codeword_loop codeword byte_index (out ++ [byte % 256])

/-- `print_codeword(codeword)`: the standard output after the call. -/
def print_codeword (codeword : Nat) (out : List Nat) : Except Failure (List Nat) :=
  print_codeword_loop codeword 4 out

/-- The loop of `applyCompress` over `block_i`: the four pixels of the block
are read and converted. -/
def applyCompress_loop (image : Pnm_ppm) (uarray2 : UArray2_T Pnm_rgb) (col row : Int) :
    Nat → Nat → Block_Pixel_Info → Except Failure Block_Pixel_Info
  | _, 0, block => .ok block
  | block_i, k + 1, block =>
    let block_col := col + ((block_i % BLOCKSIZE : Nat) : Int)
    let block_row := row + ((block_i / BLOCKSIZE : Nat) : Int)
    match UArray2_at uarray2 block_col block_row with
    | .error e => .error e
    | .ok pixel =>
      let compvid := RGB_to_ComponentVideo pixel image.denominator
      let arr := Function.update block.compvidArr block_i compvid
      applyCompress_loop image uarray2 col row (block_i + 1) k { block with compvidArr := arr }

/-- The part of `applyCompress` that runs for the first pixel of a block:
the codeword of the block at `(col, row)`. -/
def compress_block (arith : Arith40) (image : Pnm_ppm) (uarray2 : UArray2_T Pnm_rgb)
    (col row : Int) : Except Failure Nat :=
  match applyCompress_loop image uarray2 col row 0 (BLOCKSIZE * BLOCKSIZE)
      Block_Pixel_Info_zero with
  | .error e => .error e
  | .ok block =>
    let block := discrete_Cosine_Transform block
    let block := abcd_quantization block
    let block := chroma_quantization arith block
    let code_elems := assign_code_elems (block.quantized_abcd 0) (block.quantized_abcd 1)
      (block.quantized_abcd 2) (block.quantized_abcd 3) block.pb_chromaIndex
      block.pr_chromaIndex
    pack_codeword code_elems

/-- `applyCompress(col, row, uarray2, elem, cl)`: `cl` is the image; the
standard output is threaded as the closure of the map. -/
def applyCompress (arith : Arith40) (image : Pnm_ppm) (col row : Int)
    (uarray2 : UArray2_T Pnm_rgb) (_elem : Pnm_rgb) (out : List Nat) :
    Except Failure (UArray2_T Pnm_rgb × List Nat) :=
  if col + (BLOCKSIZE : Int) - 1 ≥ toInt32 image.width
      ∨ row + (BLOCKSIZE : Int) - 1 ≥ toInt32 image.height then .ok (uarray2, out)
  else if Int.tmod col (BLOCKSIZE : Int) ≠ 0 ∨ Int.tmod row (BLOCKSIZE : Int) ≠ 0 then
    .ok (uarray2, out)
  else
    match compress_block arith image uarray2 col row with
    | .error e => .error e
    | .ok bitpacked_codeword =>
      match print_codeword bitpacked_codeword out with
      | .error e => .error e
      | .ok out1 => .ok (uarray2, out1)

/-- The bytes of a C string. -/
def string_bytes (s : String) : List Nat := s.toList.map Char.toNat

/-- The header that `compress40` prints:
`printf("COMP40 Compressed image format 2\n%u %u\n", width, height)`. -/
def compress40_header (width height : Nat) : List Nat :=
  string_bytes "COMP40 Compressed image format 2\n" ++ string_bytes (Nat.repr width)
    ++ string_bytes " " ++ string_bytes (Nat.repr height) ++ string_bytes "\n"

/-- The first step of `compress40`: the image is trimmed if its width or its
height is odd. -/
def compress40_trim (image : Pnm_ppm) : Except Failure Pnm_ppm :=
  if image.width % 2 ≠ 0 ∨ image.height % 2 ≠ 0 then trim_image image else .ok image

/-- `compress40(input)` after `Pnm_ppmread` has returned `image`: the bytes
written to the standard output. -/
def compress40 (arith : Arith40) (image : Pnm_ppm) : Except Failure (List Nat) :=
  match compress40_trim image with
  | .error e => .error e
  | .ok image =>
    let out := compress40_header image.width image.height
    match UArray2_map_row_major image.pixels (applyCompress arith image) out with
    | .error e => .error e
    | .ok st => .ok st.2

/-! ## Decompression

The input stream is the list of the bytes that remain to be read. -/

/-- The C library function `getc`: `none` at end of file, else the next byte
(an `unsigned char`) and the rest of the stream. -/
def getc (input : List Nat) : Option (Nat × List Nat) :=
  match input with
  | [] => none
  | c :: rest => some (c % 256, rest)

/-- The loop of `read_codeword`: `k` bytes remain to be read, the next one is
the byte of index `k - 1`. -/
def read_codeword_loop : Nat → Nat → List Nat → Except Failure (Nat × List Nat)
  | 0, codeword, input => .ok (codeword, input)
  | byte_index + 1, codeword, input =>
    match getc input with
    | none => .error .CRE
    | some (curr_char, rest) =>
      let value := curr_char
      match Bitpack_newu codeword 8 (byte_index * 8) value with
      | .error e => .error e
      | .ok codeword1 => read_codeword_loop byte_index codeword1 rest

/-- `read_codeword(input, codeword)`: the codeword stored and the rest of the
stream. -/
def read_codeword (input : List Nat) : Except Failure (Nat × List Nat) :=
  read_codeword_loop 4 0 input

/-- The four assignments `block->compvidArr[i].y = ...` at the end of
`inverse_discrete_Cosine_Transform`: the inverse formulas on the
coefficients `a`, `b`, `c`, `d`. -/
def inverse_luma (block : Block_Pixel_Info) (a b c d : ℚ) : Block_Pixel_Info :=
  let arr := block.compvidArr
  let arr := Function.update arr 0 { arr 0 with y := a - b - c + d }
  let arr := Function.update arr 1 { arr 1 with y := a - b + c - d }
  let arr := Function.update arr 2 { arr 2 with y := a + b - c - d }
  let arr := Function.update arr 3 { arr 3 with y := a + b + c + d }
  { block with compvidArr := arr }

/-- `inverse_discrete_Cosine_Transform(block)`. -/
def inverse_discrete_Cosine_Transform (block : Block_Pixel_Info) : Block_Pixel_Info :=
  let a_scaling_factor : ℚ := 511.0
  let bcd_scaling_factor : ℚ := 50.0
  let a : ℚ := (block.quantized_abcd 0 : ℚ) / a_scaling_factor
  let b : ℚ := (block.quantized_abcd 1 : ℚ) / bcd_scaling_factor
  let c : ℚ := (block.quantized_abcd 2 : ℚ) / bcd_scaling_factor
  let d : ℚ := (block.quantized_abcd 3 : ℚ) / bcd_scaling_factor
  inverse_luma block a b c d

/-- `ComponentVideo_to_RGB(pb_mean, pr_mean, compvid, denominator, pixel)`:
the pixel after the call. -/
def ComponentVideo_to_RGB (pb_mean pr_mean : ℚ) (compvid : ComponentVideo)
    (denominator : Nat) (_pixel : Pnm_rgb) : Pnm_rgb :=
  let y := compvid.y
  let pb := pb_mean
  let pr := pr_mean
  let r : ℚ := 1.0 * y + 0.0 * pb + 1.402 * pr
  let g : ℚ := 1.0 * y - 0.344136 * pb - 0.714136 * pr
  let b : ℚ := 1.0 * y + 1.772 * pb + 0.0 * pr
  { red := float_to_unsigned (clamp (r * (denominator : ℚ)) 0 (denominator : ℚ)),
    green := float_to_unsigned (clamp (g * (denominator : ℚ)) 0 (denominator : ℚ)),
    blue := float_to_unsigned (clamp (b * (denominator : ℚ)) 0 (denominator : ℚ)) }

/-- The loop of `applyDecompress` over `block_i`: the four pixels of the
block are converted and stored. -/
def applyDecompress_loop (block : Block_Pixel_Info) (col row : Int) :
    Nat → Nat → UArray2_T Pnm_rgb → Except Failure (UArray2_T Pnm_rgb)
  | _, 0, uarray2 => .ok uarray2
  | block_i, k + 1, uarray2 =>
    let block_col := col + ((block_i % BLOCKSIZE : Nat) : Int)
    let block_row := row + ((block_i / BLOCKSIZE : Nat) : Int)
    match UArray2_at uarray2 block_col block_row with
    | .error e => .error e
    | .ok pixel =>
      let pixel1 := ComponentVideo_to_RGB block.pb_mean block.pr_mean
        (block.compvidArr block_i) 255 pixel
      match UArray2_at_assign uarray2 block_col block_row pixel1 with
      | .error e => .error e
      | .ok uarray21 => applyDecompress_loop block col row (block_i + 1) k uarray21

/-- The block that `applyDecompress` builds from a codeword, up to the
inverse transform. -/
def decode_block (arith : Arith40) (codeword : Nat) : Except Failure Block_Pixel_Info :=
  match extract_bitpack codeword code_elems_template with
  | .error e => .error e
  | .ok code_elems =>
    match read_code_elems code_elems with
    | none => .error .CRE
    | some (qa, qb, qc, qd, pb_index, pr_index) =>
      let block := Block_Pixel_Info_zero
      let arr := block.quantized_abcd
      let arr := Function.update arr 0 qa
      let arr := Function.update arr 1 qb
      let arr := Function.update arr 2 qc
      let arr := Function.update arr 3 qd
      let block := { block with quantized_abcd := arr,
                                pb_chromaIndex := pb_index, pr_chromaIndex := pr_index }
      let block := { block with
        pb_mean := arith.Arith40_chroma_of_index block.pb_chromaIndex,
        pr_mean := arith.Arith40_chroma_of_index block.pr_chromaIndex }
      .ok (inverse_discrete_Cosine_Transform block)

/-- `applyDecompress(col, row, uarray2, elem, cl)`: `cl` is the input stream. -/
def applyDecompress (arith : Arith40) (col row : Int) (uarray2 : UArray2_T Pnm_rgb)
    (_elem : Pnm_rgb) (input : List Nat) : Except Failure (UArray2_T Pnm_rgb × List Nat) :=
  if Int.tmod col (BLOCKSIZE : Int) ≠ 0 ∨ Int.tmod row (BLOCKSIZE : Int) ≠ 0 then
    .ok (uarray2, input)
  else if ¬ (col + (BLOCKSIZE : Int) - 1 < UArray2_width uarray2
      ∧ row + (BLOCKSIZE : Int) - 1 < UArray2_height uarray2) then .error .CRE
  else
    match read_codeword input with
    | .error e => .error e
    | .ok (codeword, rest) =>
      match decode_block arith codeword with
      | .error e => .error e
      | .ok block =>
        match applyDecompress_loop block col row 0 (BLOCKSIZE * BLOCKSIZE) uarray2 with
        | .error e => .error e
        | .ok uarray21 => .ok (uarray21, rest)

/-- One directive of a `scanf` format. -/
inductive ScanDirective where
  | literal (c : Nat)
  | whitespace
  | unsignedInt
  deriving DecidableEq, Repr

/-- The C library predicate `isspace` in the C locale. -/
def isspace (c : Nat) : Bool := c = 32 ∨ (9 ≤ c ∧ c ≤ 13)

/-- The C library predicate `isdigit`. -/
def isdigit (c : Nat) : Bool := 48 ≤ c ∧ c ≤ 57

/-- Skipping of white space by `scanf`. -/
def skip_whitespace : List Nat → List Nat
  | [] => []
  | c :: rest => if isspace c then skip_whitespace rest else c :: rest

/-- The digits that `%u` consumes: the value so far and the rest. -/
def scan_digits : Nat → List Nat → Nat × List Nat
  | acc, [] => (acc, [])
  | acc, c :: rest => if isdigit c then scan_digits (acc * 10 + (c - 48)) rest else (acc, c :: rest)

/-- The conversion `%u`: white space is skipped, then an optional sign and at
least one decimal digit are read as by `strtoul` and stored in an `unsigned`;
`none` is a matching failure. -/
def scan_unsigned (input : List Nat) : Option (Nat × List Nat) :=
  let input := skip_whitespace input
  let signed : Bool × List Nat :=
    match input with
    | 45 :: rest => (true, rest)
    | 43 :: rest => (false, rest)
    | _ => (false, input)
  match signed.2 with
  | [] => none
  | c :: _ =>
    if isdigit c then
      let r := scan_digits 0 signed.2
      let v := if r.1 ≥ 2 ^ 64 then 2 ^ 64 - 1 else r.1
      let v := if signed.1 then (2 ^ 64 - v) % 2 ^ 64 else v
      some (v % 2 ^ 32, r.2)
    else none

/-- The C library function `fscanf` on a list of directives: the values
assigned so far are extended until a directive fails to match. -/
def fscanf_run : List ScanDirective → List Nat → List Nat → List Nat × List Nat
  | [], assigned, input => (assigned, input)
  | ScanDirective.literal c :: ds, assigned, input =>
    match input with
    | [] => (assigned, input)
    | x :: rest => if x = c then fscanf_run ds assigned rest else (assigned, input)
  | ScanDirective.whitespace :: ds, assigned, input =>
    fscanf_run ds assigned (skip_whitespace input)
  | ScanDirective.unsignedInt :: ds, assigned, input =>
    match scan_unsigned input with
    | none => (assigned, input)
    | some (v, rest) => fscanf_run ds (assigned ++ [v]) rest

/-- The directives of a format string in which `%u` is the only conversion. -/
def scan_format : List Nat → List ScanDirective
  | [] => []
  | 37 :: 117 :: rest => ScanDirective.unsignedInt :: scan_format rest
  | c :: rest =>
    (if isspace c then ScanDirective.whitespace else ScanDirective.literal c)
      :: scan_format rest

/-- The format of the header: `"COMP40 Compressed image format 2\n%u %u"`. -/
def decompress40_format : List ScanDirective :=
  scan_format (string_bytes "COMP40 Compressed image format 2\n%u %u")

/-- `decompress40(input)`: the image handed to `Pnm_ppmwrite`. -/
def decompress40 (arith : Arith40) (input : List Nat) : Except Failure Pnm_ppm :=
  let scanned := fscanf_run decompress40_format [] input
  match scanned.1 with
  | [width, height] =>
    match getc scanned.2 with
    | none => .error .CRE
    | some (c, rest) =>
      if ¬ c = 10 then .error .CRE
      else
        let denominator := DECOMPRESSION_IMAGE_DENOMINATOR
        match UArray2_new Pnm_rgb_zero (toInt32 width) (toInt32 height) sizeof_Pnm_rgb with
        | .error e => .error e
        | .ok array =>
          match UArray2_map_row_major array (applyDecompress arith) rest with
          | .error e => .error e
          | .ok st =>
            .ok { width := width, height := height, denominator := denominator,
                  pixels := st.1 }
  | _ => .error .CRE

/-! ## Representation invariants and reference loops -/

/-- The representation invariant of a `UArray2_T` made by `UArray2_new`: the
dimensions are not negative and the `UArray_T` has `width * height` cells. -/
def UArray2_wf {α : Type} (uarray2 : UArray2_T α) : Prop :=
  0 ≤ uarray2.width ∧ 0 ≤ uarray2.height ∧
    (uarray2.elements.length : Int) = uarray2.width * uarray2.height

/-- The cell of linear index `row * width + col`, the one that `UArray2_at`
addresses for an in-bounds `(col, row)`. -/
def UArray2_cell {α : Type} (uarray2 : UArray2_T α) (col row : Nat) : Option α :=
  uarray2.elements[row * uarray2.width.toNat + col]?

/-- The invariant of an image returned by `Pnm_ppmread`: the raster has the
dimensions of the image, which are representable as an `int`. -/
def Pnm_ppm_wf (image : Pnm_ppm) : Prop :=
  image.pixels.width = (image.width : Int) ∧ image.pixels.height = (image.height : Int) ∧
    UArray2_wf image.pixels ∧ image.width < 2 ^ 31 ∧ image.height < 2 ^ 31

/-- The body of the block-indexed loop: the codeword of the block with origin
`(2 * block_col, 2 * block_row)` is computed and printed. -/
def block_indexed_cell (arith : Arith40) (image : Pnm_ppm) (block_row block_col : Nat)
    (out : List Nat) : Except Failure (List Nat) :=
  match compress_block arith image image.pixels ((2 * block_col : Nat) : Int)
      ((2 * block_row : Nat) : Int) with
  | .error e => .error e
  | .ok codeword => print_codeword codeword out

/-- One block row of the block-indexed loop. -/
def block_indexed_row (arith : Arith40) (image : Pnm_ppm) (block_row : Nat)
    (out : List Nat) : Except Failure (List Nat) :=
  loopFrom (block_indexed_cell arith image block_row) 0 (image.width / 2) out

/-- The block-indexed loop of the specification: for each block row, for each
block column, the codeword of the block with origin `(2 * bx, 2 * by)` is
computed and printed. -/
def block_indexed_compress (arith : Arith40) (image : Pnm_ppm) (out : List Nat) :
    Except Failure (List Nat) :=
  loopFrom (block_indexed_row arith image) 0 (image.height / 2) out

/-- The result of a loop over pairs whose first component is never changed. -/
def liftPair {α β : Type} (c : α) (r : Except Failure β) : Except Failure (α × β) :=
  match r with
  | .error e => .error e
  | .ok o => .ok (c, o)

/-- The body of the visit at one cell, on the standard output alone. -/
def visit_cell (arith : Arith40) (image : Pnm_ppm) (row col : Nat) (out : List Nat) :
    Except Failure (List Nat) :=
  if col % 2 ≠ 0 ∨ row % 2 ≠ 0 then .ok out
  else
    match compress_block arith image image.pixels (col : Int) (row : Int) with
    | .error e => .error e
    | .ok codeword => print_codeword codeword out

/-- The block after the loop of `applyCompress` has read the four pixels
`p0`, `p1`, `p2`, `p3` and converted them. -/
def block_of_pixels (denominator : Nat) (p0 p1 p2 p3 : Pnm_rgb) : Block_Pixel_Info :=
  let arr := Block_Pixel_Info_zero.compvidArr
  let arr := Function.update arr 0 (RGB_to_ComponentVideo p0 denominator)
  let arr := Function.update arr 1 (RGB_to_ComponentVideo p1 denominator)
  let arr := Function.update arr 2 (RGB_to_ComponentVideo p2 denominator)
  let arr := Function.update arr 3 (RGB_to_ComponentVideo p3 denominator)
  { Block_Pixel_Info_zero with compvidArr := arr }

/-- The four bytes of a codeword in the order in which they are written. -/
def codeword_bytes (codeword : Nat) : List Nat :=
  [codeword / 2 ^ 24 % 256, codeword / 2 ^ 16 % 256, codeword / 2 ^ 8 % 256, codeword % 256]

/-- The codeword that `compress40` emits for the block of block indices
`(block_col, block_row)` when its encode chain succeeds. -/
def block_codeword (arith : Arith40) (image : Pnm_ppm) (block_col block_row : Nat) : Nat :=
  match compress_block arith image image.pixels ((2 * block_col : Nat) : Int)
      ((2 * block_row : Nat) : Int) with
  | .ok codeword => codeword
  | .error _ => 0

/-- The codeword stream in block order: block rows outer, block columns
inner, four bytes per codeword. -/
def codeword_stream (codewords : Nat → Nat → Nat) (block_cols block_rows : Nat) : List Nat :=
  (List.range block_rows).flatMap (fun block_row =>
    (List.range block_cols).flatMap (fun block_col =>
      codeword_bytes (codewords block_col block_row)))

/-- The pixels of a raster all have their channels in `[0, 255]`. -/
def pixels_in_range (uarray2 : UArray2_T Pnm_rgb) : Prop :=
  ∀ p ∈ uarray2.elements, p.red ≤ 255 ∧ p.green ≤ 255 ∧ p.blue ≤ 255

/-- The codeword that `read_codeword` assembles from four bytes read in the
order `b3`, `b2`, `b1`, `b0`. -/
def codeword_of_bytes (b3 b2 b1 b0 : Nat) : Nat :=
  b3 % 256 * 2 ^ 24 + b2 % 256 * 2 ^ 16 + b1 % 256 * 2 ^ 8 + b0 % 256

/-- The codeword of index `k` in a stream of four-byte codewords. -/
def stream_codeword (body : List Nat) (k : Nat) : Nat :=
  codeword_of_bytes (body.getD (4 * k) 0) (body.getD (4 * k + 1) 0)
    (body.getD (4 * k + 2) 0) (body.getD (4 * k + 3) 0)

/-- The value of a five-bit field read as a two's complement number. -/
def signed_field5 (u : Nat) : Int := if u < 16 then (u : Int) else (u : Int) - 32

/-- The pixel that `applyDecompress` stores for sample `block_i` of the block
decoded from `codeword`. -/
def decoded_pixel (arith : Arith40) (codeword block_i : Nat) : Pnm_rgb :=
  match decode_block arith codeword with
  | .ok block =>
    ComponentVideo_to_RGB block.pb_mean block.pr_mean (block.compvidArr block_i) 255
      Pnm_rgb_zero
  | .error _ => Pnm_rgb_zero

/-- The cells of the blocks of index below `nblocks`, in block order
(`W / 2` blocks per block row), hold the pixels decoded from the codewords of
the stream `body`. -/
def decoded_upto (arith : Arith40) (body : List Nat) (W : Nat) (a : UArray2_T Pnm_rgb)
    (nblocks : Nat) : Prop :=
  ∀ c r, c < W → r / 2 * (W / 2) + c / 2 < nblocks →
    UArray2_cell a c r =
      some (decoded_pixel arith (stream_codeword body (r / 2 * (W / 2) + c / 2))
        (c % 2 + 2 * (r % 2)))

/-! ## Sample inputs -/

/-- A sample chroma table: sixteen values. -/
def sample_chroma_values : List ℚ :=
  [-0.35, -0.20, -0.15, -0.10, -0.077, -0.055, -0.033, -0.011,
   0.011, 0.033, 0.055, 0.077, 0.10, 0.15, 0.20, 0.35]

/-- The index of the value of `sample_chroma_values` nearest to `x`. -/
def sample_index_of_chroma (x : ℚ) : Nat :=
  if x < -0.275 then 0 else if x < -0.175 then 1 else if x < -0.125 then 2
  else if x < -0.0885 then 3 else if x < -0.066 then 4 else if x < -0.044 then 5
  else if x < -0.022 then 6 else if x < 0 then 7 else if x < 0.022 then 8
  else if x < 0.044 then 9 else if x < 0.066 then 10 else if x < 0.0885 then 11
  else if x < 0.125 then 12 else if x < 0.175 then 13 else if x < 0.275 then 14 else 15

/-- A sample instance of the chroma quantization. -/
def sample_arith : Arith40 :=
  { Arith40_index_of_chroma := sample_index_of_chroma,
    Arith40_chroma_of_index := fun index => sample_chroma_values.getD index 0 }

/-- The image that `Pnm_ppmread` returns for a raster of the given
dimensions, denominator and cells in row-major order. -/
def Pnm_ppm_of (width height denominator : Nat) (cells : List Pnm_rgb) : Pnm_ppm :=
  { width := width, height := height, denominator := denominator,
    pixels := { width := (width : Int), height := (height : Int),
                elementSize := sizeof_Pnm_rgb, elements := cells } }

/-- A sample image of width 3 and height 5. -/
def sample_image_3x5 : Pnm_ppm :=
  Pnm_ppm_of 3 5 255
    ((List.range 15).map (fun i => { red := 17 * i, green := 255 - 17 * i, blue := 5 * i }))

/-- A sample image of width 4 and height 2. -/
def sample_image_4x2 : Pnm_ppm :=
  Pnm_ppm_of 4 2 255
    ((List.range 8).map (fun i => { red := 30 * i, green := 255 - 30 * i, blue := 9 * i }))

/-- A 2x2 image whose four pixels are all `p`. -/
def uniform_image_2x2 (p : Pnm_rgb) (denominator : Nat) : Pnm_ppm :=
  Pnm_ppm_of 2 2 denominator (List.replicate 4 p)

/-- The codeword that the encode chain of `applyCompress` builds for a block
whose four pixels are all `p`: the three coefficients `b`, `c`, `d` are zero. -/
def uniform_codeword (arith : Arith40) (p : Pnm_rgb) (denominator : Nat) : Nat :=
  (round_half_away (clamp (RGB_to_ComponentVideo p denominator).y 0.0 1.0 * 511.0)).toNat
      * 2 ^ 23
    + arith.Arith40_index_of_chroma (RGB_to_ComponentVideo p denominator).pb * 2 ^ 4
    + arith.Arith40_index_of_chroma (RGB_to_ComponentVideo p denominator).pr

/-- A sample raster of width 3 and height 2 -/
def sample_uarray2_3x2 : UArray2_T Nat :=
  { width := 3, height := 2, elementSize := 4, elements := [10, 11, 12, 20, 21, 22] }

/-- The positions `(col, row)` of a `width x height` array in row-major order:
`(0, 0)`, `(1, 0)`, ..., `(width - 1, 0)`, `(0, 1)`, ... -/
def row_major_positions (width height : Nat) : List (Nat × Nat) :=
  (List.range height).flatMap (fun row => (List.range width).map (fun col => (col, row)))

/-- The calls that `UArray2_map_row_major` makes on a list of positions, in
the order of the list: at each one the cell is fetched and `apply` is called
on it. -/
def visit_positions {α σ : Type}
    (apply : Int → Int → UArray2_T α → α → σ → Except Failure (UArray2_T α × σ)) :
    List (Nat × Nat) → UArray2_T α × σ → Except Failure (UArray2_T α × σ)
  | [], st => .ok st
  | position :: rest, st =>
    match map_row_major_cell apply position.2 position.1 st with
    | .error e => .error e
    | .ok st1 => visit_positions apply rest st1

/-- An `apply` function that records its arguments: the closure is the list
of the calls made so far. -/
def record_call {α : Type} (col row : Int) (uarray2 : UArray2_T α) (elem : α)
    (cl : List (Int × Int × α)) : Except Failure (UArray2_T α × List (Int × Int × α)) :=
  .ok (uarray2, cl ++ [(col, row, elem)])

/-! ## The driver 40image.c -/

/-- What `main` does with its argument list: it ends with `exit(1)` after a
message on the standard error, or its `assert` fails, or it calls the chosen
function (`decompress` tells which) on the file of the given name (after
`fopen` and `assert(fp != NULL)`) or on the standard input. -/
inductive MainOutcome where
  | exit_failure
  | assert_failed
  | run (decompress : Bool) (filename : Option String)
  deriving DecidableEq, Repr

/-- The test `*argv[i] == '-'`. -/
def starts_with_dash (arg : String) : Bool :=
  match arg.toList with
  | c :: _ => c = '-'
  | [] => false

/-- The `for` loop of `main` on the arguments `argv[i]`, ..., `argv[argc - 1]`
that remain, followed by the rest of `main`; `decompress` tells whether
`compress_or_decompress` is `decompress40`. The number of remaining arguments
is `argc - i`. -/
def main_loop (decompress : Bool) : List String → MainOutcome
  | [] => .run decompress none
  | arg :: rest =>
    if arg = "-c" then main_loop false rest
    else if arg = "-d" then main_loop true rest
    else if starts_with_dash arg then .exit_failure
    else if (arg :: rest).length > 2 then .exit_failure
    else if ¬ ((arg :: rest).length ≤ 1) then .assert_failed
    else .run decompress (some arg)

/-- `main(argc, argv)` on the arguments `argv[1]`, ..., `argv[argc - 1]`;
`compress_or_decompress` is `compress40` at the start. -/
def main (args : List String) : MainOutcome := main_loop false args

/-- The encode chain of `applyCompress` on the four pixels of a block, in
the order of the samples 0..3. -/
def encode_block (arith : Arith40) (denominator : Nat) (p0 p1 p2 p3 : Pnm_rgb) :
    Except Failure Nat :=
  let block := block_of_pixels denominator p0 p1 p2 p3
  let block := discrete_Cosine_Transform block
  let block := abcd_quantization block
  let block := chroma_quantization arith block
  let code_elems := assign_code_elems (block.quantized_abcd 0) (block.quantized_abcd 1)
    (block.quantized_abcd 2) (block.quantized_abcd 3) block.pb_chromaIndex
    block.pr_chromaIndex
  pack_codeword code_elems

/-- A second sample image of width 4 and height 2: it has the pixels of
`sample_image_4x2` in the block of columns 0 and 1, and black pixels in the
block of columns 2 and 3. -/
def sample_image_4x2_alt : Pnm_ppm :=
  Pnm_ppm_of 4 2 255
    ((List.range 8).map (fun i =>
      if i % 4 < 2 then { red := 30 * i, green := 255 - 30 * i, blue := 9 * i }
      else { red := 0, green := 0, blue := 0 }))

/-- The state of the visit of `decompress40` over a raster of `2 * m` columns
and `2 * n` rows after `k` blocks: the dimensions are kept, `4 * k` bytes of
the stream `body` are consumed, and the first `k` blocks are decoded. -/
def decompress_inv (arith : Arith40) (body : List Nat) (m n k : Nat)
    (t : UArray2_T Pnm_rgb × List Nat) : Prop :=
  t.1.width = ((2 * m : Nat) : Int) ∧ t.1.height = ((2 * n : Nat) : Int) ∧
    t.1.elements.length = 2 * m * (2 * n) ∧ t.2 = body.drop (4 * k) ∧
    decoded_upto arith body (2 * m) t.1 k

/-- The three transform calls of `applyCompress` on a block whose four
pixels are converted: `discrete_Cosine_Transform`, `abcd_quantization`,
`chroma_quantization`. -/
def quantize_block (arith : Arith40) (block : Block_Pixel_Info) : Block_Pixel_Info :=
  let block := discrete_Cosine_Transform block
  let block := abcd_quantization block
  let block := chroma_quantization arith block
  block

/-- The precondition under which one iteration of the loop of
`pack_codeword` succeeds: the `uint64_t` value and the field lie within 64
bits and the value passes the width test of its field. -/
def element_fits (element : CodeWord_Element) : Prop :=
  element.value < 2 ^ 64 ∧ element.width + element.lsb ≤ 64 ∧
    (if element.isSigned then Bitpack_fitss (toInt64 element.value) element.width
      else Bitpack_fitsu element.value element.width) = .ok true

/-- Two fields have disjoint bit ranges: no bit index lies in both
`[lsb, lsb + width)` ranges. -/
def fields_disjoint (e1 e2 : CodeWord_Element) : Prop :=
  ∀ i : Nat, ¬ ((e1.lsb ≤ i ∧ i < e1.lsb + e1.width) ∧ (e2.lsb ≤ i ∧ i < e2.lsb + e2.width))

/-- The integer nearest to `x`; a tie goes to the even one. -/
def round_half_even (x : ℚ) : Int :=
  if x - ⌊x⌋ < 1 / 2 then ⌊x⌋
  else if x - ⌊x⌋ > 1 / 2 then ⌊x⌋ + 1
  else if ⌊x⌋ % 2 = 0 then ⌊x⌋ else ⌊x⌋ + 1

/-- The number of the binary format with `p` significand bits and least
normal exponent `emin` that is nearest to `x`, ties to even: `x` is rounded to
a multiple of the spacing `2 ^ (e - (p - 1))` of its binade `e`, and of the
binade `emin` for a subnormal `x`. -/
def round_to_format (p : Nat) (emin : Int) (x : ℚ) : ℚ :=
  let e : Int := max (Int.log 2 |x|) emin
  let quantum : ℚ := (2 : ℚ) ^ (e - ((p : Int) - 1))
  (round_half_even (x / quantum) : ℚ) * quantum

/-- Rounding to binary32, the format of `float`. -/
def to_float (x : ℚ) : ℚ := round_to_format 24 (-126) x

/-- Rounding to binary64, the format of `double`. -/
def to_double (x : ℚ) : ℚ := round_to_format 53 (-1022) x

/-- `discrete_Cosine_Transform(block)` with every `float` operation rounded
to binary32. -/
def discrete_Cosine_Transform_binary32 (block : Block_Pixel_Info) : Block_Pixel_Info :=
  let y1 := (block.compvidArr 0).y
  let y2 := (block.compvidArr 1).y
  let y3 := (block.compvidArr 2).y
  let y4 := (block.compvidArr 3).y
  let area : ℚ := to_float (BLOCKAREA : ℚ)
  let arr := block.discreteCosineArr
  let arr := Function.update arr 0
    (to_float (to_float (to_float (to_float (y4 + y3) + y2) + y1) / area))
  let arr := Function.update arr 1
    (to_float (to_float (to_float (to_float (y4 + y3) - y2) - y1) / area))
  let arr := Function.update arr 2
    (to_float (to_float (to_float (to_float (y4 - y3) + y2) - y1) / area))
  let arr := Function.update arr 3
    (to_float (to_float (to_float (to_float (y4 - y3) - y2) + y1) / area))
  { block with discreteCosineArr := arr }

/-- The four assignments `block->compvidArr[i].y = ...` at the end of
`inverse_discrete_Cosine_Transform` with every `float` operation rounded to
binary32. -/
def inverse_luma_binary32 (block : Block_Pixel_Info) (a b c d : ℚ) : Block_Pixel_Info :=
  let arr := block.compvidArr
  let arr := Function.update arr 0
    { arr 0 with y := to_float (to_float (to_float (a - b) - c) + d) }
  let arr := Function.update arr 1
    { arr 1 with y := to_float (to_float (to_float (a - b) + c) - d) }
  let arr := Function.update arr 2
    { arr 2 with y := to_float (to_float (to_float (a + b) - c) - d) }
  let arr := Function.update arr 3
    { arr 3 with y := to_float (to_float (to_float (a + b) + c) + d) }
  { block with compvidArr := arr }

/-- `abcd_quantization(block)` with the `double` constants converted to
`float` and the two `float` products rounded to binary32 before `round`. -/
def abcd_quantization_binary32 (block : Block_Pixel_Info) : Block_Pixel_Info :=
  let a := block.discreteCosineArr 0
  let b := block.discreteCosineArr 1
  let c := block.discreteCosineArr 2
  let d := block.discreteCosineArr 3
  let a := clamp a (to_float (to_double 0.0)) (to_float (to_double 1.0))
  let b := clamp b (to_float (-(to_double 0.3))) (to_float (to_double 0.3))
  let c := clamp c (to_float (-(to_double 0.3))) (to_float (to_double 0.3))
  let d := clamp d (to_float (-(to_double 0.3))) (to_float (to_double 0.3))
  let a_scaling_factor : ℚ := to_float (to_double 511.0)
  let bcd_scaling_factor : ℚ := to_float (to_double 50.0)
  let quantized_a : Nat := (round_half_away (to_float (a * a_scaling_factor))).toNat
  let quantized_b : Int := round_half_away (to_float (b * bcd_scaling_factor))
  let quantized_c : Int := round_half_away (to_float (c * bcd_scaling_factor))
  let quantized_d : Int := round_half_away (to_float (d * bcd_scaling_factor))
  let arr := block.quantized_abcd
  let arr := Function.update arr 0 (toInt32 quantized_a)
  let arr := Function.update arr 1 quantized_b
  let arr := Function.update arr 2 quantized_c
  let arr := Function.update arr 3 quantized_d
  { block with quantized_abcd := arr }

/-- `ComponentVideo_to_RGB(pb_mean, pr_mean, compvid, denominator, pixel)`
with the matrix evaluated in binary64 (its constants are `double`), the
result stored in a `float`, the denominator converted to `float` and the
scaled product rounded to binary32. -/
def ComponentVideo_to_RGB_binary32 (pb_mean pr_mean : ℚ) (compvid : ComponentVideo)
    (denominator : Nat) (_pixel : Pnm_rgb) : Pnm_rgb :=
  let y := compvid.y
  let pb := pb_mean
  let pr := pr_mean
  let r : ℚ := to_float (to_double (to_double (to_double (to_double 1.0 * y)
    + to_double (to_double 0.0 * pb)) + to_double (to_double 1.402 * pr)))
  let g : ℚ := to_float (to_double (to_double (to_double (to_double 1.0 * y)
    - to_double (to_double 0.344136 * pb)) - to_double (to_double 0.714136 * pr)))
  let b : ℚ := to_float (to_double (to_double (to_double (to_double 1.0 * y)
    + to_double (to_double 1.772 * pb)) + to_double (to_double 0.0 * pr)))
  let denominator_float : ℚ := to_float (denominator : ℚ)
  { red := float_to_unsigned
      (clamp (to_float (r * denominator_float)) (to_float 0) denominator_float),
    green := float_to_unsigned
      (clamp (to_float (g * denominator_float)) (to_float 0) denominator_float),
    blue := float_to_unsigned
      (clamp (to_float (b * denominator_float)) (to_float 0) denominator_float) }

/-- The block whose coefficient `a` is the `float` `4498001 / 2^25`. -/
def sample_coefficient_block : Block_Pixel_Info :=
  { Block_Pixel_Info_zero with discreteCosineArr := fun _ => 4498001 / 33554432 }

/-- A block of the four luma samples `(1, 0, 0, 2^-24)`, each of them a
`float`. -/
def sample_luma_block : Block_Pixel_Info :=
  { Block_Pixel_Info_zero with
    compvidArr := fun i =>
      { y := if i = 0 then 1 else if i = 3 then 1 / 16777216 else 0, pb := 0, pr := 0 } }

/-- The constant `INT_MAX` of a 32-bit `int`. -/
def INT_MAX : Int := 2 ^ 31 - 1

/-- The product of two `int` values in C: the mathematical product when an
`int` represents it; a signed overflow is undefined behaviour, which is
`none`. -/
def int_mul (a b : Int) : Option Int :=
  if -2 ^ 31 ≤ a * b ∧ a * b ≤ INT_MAX then some (a * b) else none

/-- `UArray2_new(width, height, elementSize)` with the product
`width * height` computed on `int`: `none` when the product overflows, where
the behaviour of the C code is undefined; `UArray2_new` above takes the
product without overflow. -/
def UArray2_new_int {α : Type} (zero : α) (width height elementSize : Int) :
    Option (Except Failure (UArray2_T α)) :=
  if ¬ (width ≥ 0 ∧ height ≥ 0 ∧ elementSize ≥ 0) then some (.error .CRE)
  else
    match int_mul width height with
    | none => none
    | some length =>
      match UArray_new zero length elementSize with
      | .error e => some (.error e)
      | .ok elements =>
        some (.ok { width := width, height := height, elementSize := elementSize,
                    elements := elements })

/-- A run of white space: every character satisfies `isspace`. -/
def all_space (ws : List Nat) : Prop := ∀ c ∈ ws, isspace c = true

/-- A decimal number as `%u` accepts it: an optional sign `+` or `-`
followed by at least one decimal digit. -/
def is_number (number : List Nat) : Prop :=
  ∃ sign digits : List Nat, number = sign ++ digits ∧
    (sign = [] ∨ sign = [43] ∨ sign = [45]) ∧ digits ≠ [] ∧ ∀ c ∈ digits, isdigit c = true

/-- The header text up to white space: the words `COMP40`, `Compressed`,
`image`, `format`, `2` in this order, each followed by a run of white space
that may be empty, then a number, a run of white space, a second number and a
newline character; the second number begins with a sign if no white space
separates it from the first one. -/
def header_matches (input : List Nat) : Prop :=
  ∃ ws1 ws2 ws3 ws4 ws5 number1 ws6 number2 : List Nat, ∃ (newline : Nat) (rest : List Nat),
    input = string_bytes "COMP40" ++ (ws1 ++ (string_bytes "Compressed" ++ (ws2 ++
      (string_bytes "image" ++ (ws3 ++ (string_bytes "format" ++ (ws4 ++
      (string_bytes "2" ++ (ws5 ++ (number1 ++ (ws6 ++ (number2 ++ newline :: rest))))))))))))
    ∧ all_space ws1 ∧ all_space ws2 ∧ all_space ws3 ∧ all_space ws4 ∧ all_space ws5
    ∧ all_space ws6 ∧ is_number number1 ∧ is_number number2
    ∧ (ws6 ≠ [] ∨ ∃ t, number2 = 43 :: t ∨ number2 = 45 :: t)
    ∧ newline % 256 = 10

/-! ## Bit-level facts about the helpers -/

theorem testBit_left_shift (n s i : Nat) :
    (left_shift n s).testBit i =
      (decide (s < 64) && (decide (i < 64) && (decide (s ≤ i) && n.testBit (i - s)))) := by
  unfold left_shift
  by_cases hs : s ≥ 64
  · have : ¬ s < 64 := by omega
    simp [hs, this]
  · have : s < 64 := by omega
    rw [if_neg hs, Nat.testBit_mod_two_pow, Nat.testBit_shiftLeft]
    simp [this]

theorem testBit_right_shift_unsigned (n s i : Nat) :
    (right_shift_unsigned n s).testBit i = (decide (s < 64) && n.testBit (s + i)) := by
  unfold right_shift_unsigned
  by_cases hs : s ≥ 64
  · have : ¬ s < 64 := by omega
    simp [hs, this]
  · have : s < 64 := by omega
    simp [hs, this, Nat.testBit_shiftRight]

theorem testBit_UINT64_MAX (i : Nat) : UINT64_MAX.testBit i = decide (i < 64) := by
  unfold UINT64_MAX
  exact Nat.testBit_two_pow_sub_one 64 i

theorem testBit_bitNot64 (x i : Nat) :
    (bitNot64 x).testBit i = (decide (i < 64) ^^ x.testBit i) := by
  unfold bitNot64
  rw [Nat.testBit_xor, testBit_UINT64_MAX]

theorem testBit_fieldMask (w lsb i : Nat) (hw : w ≤ 64) (h : w + lsb ≤ 64) :
    (fieldMask w lsb).testBit i = decide (lsb ≤ i ∧ i < lsb + w) := by
  unfold fieldMask
  rw [testBit_left_shift, testBit_right_shift_unsigned, testBit_UINT64_MAX]
  by_cases h1 : lsb ≤ i <;> by_cases h2 : i < lsb + w <;> simp [h1, h2] <;> omega

theorem left_shift_one (s : Nat) (h : s < 64) : left_shift 1 s = 2 ^ s := by
  unfold left_shift
  rw [if_neg (by omega), Nat.one_shiftLeft]
  exact Nat.mod_eq_of_lt (Nat.pow_lt_pow_right (by norm_num) h)

theorem fitsu_eq (n w : Nat) (hn : n < 2 ^ 64) (hw : w ≤ 64) :
    Bitpack_fitsu n w = .ok (decide (n < 2 ^ w)) := by
  unfold Bitpack_fitsu
  rw [if_neg (by omega)]
  by_cases h0 : w = 0
  · subst h0
    simp
  · rw [if_neg h0]
    by_cases h64 : w = 64
    · subst h64
      have : left_shift 1 64 = 0 := by decide
      rw [this]
      simp only [Except.ok.injEq, decide_eq_decide]
      omega
    · have hlt : w < 64 := by omega
      rw [left_shift_one w hlt]
      have hp : 2 ^ w < 2 ^ 64 := Nat.pow_lt_pow_right (by norm_num) hlt
      have hpos : 0 < 2 ^ w := Nat.two_pow_pos w
      simp only [Except.ok.injEq, decide_eq_decide]
      generalize 2 ^ w = p at hp hpos ⊢
      omega

theorem testBit_getu_mask (word w lsb j : Nat) (hw : w ≤ 64) (h : w + lsb ≤ 64) :
    (right_shift_unsigned (word &&& fieldMask w lsb) lsb).testBit j =
      (decide (j < w) && word.testBit (lsb + j)) := by
  rw [testBit_right_shift_unsigned, Nat.testBit_and, testBit_fieldMask _ _ _ hw h]
  by_cases h1 : j < w <;> simp [h1]; omega

theorem getu_eq (word w lsb : Nat) (hw : w ≤ 64) (h : w + lsb ≤ 64) :
    Bitpack_getu word w lsb = .ok (word / 2 ^ lsb % 2 ^ w) := by
  unfold Bitpack_getu
  rw [if_neg (by omega), if_neg (by omega)]
  by_cases h0 : w = 0
  · subst h0
    simp [Nat.mod_one]
  · rw [if_neg h0]
    simp only [Except.ok.injEq]
    apply Nat.eq_of_testBit_eq
    intro j
    rw [testBit_getu_mask _ _ _ _ hw h, Nat.testBit_mod_two_pow, ← Nat.shiftRight_eq_div_pow,
      Nat.testBit_shiftRight]

theorem testBit_of_lt_two_pow (x n i : Nat) (hx : x < 2 ^ n) (hi : n ≤ i) :
    x.testBit i = false :=
  Nat.testBit_lt_two_pow (Nat.lt_of_lt_of_le hx (Nat.pow_le_pow_right (by norm_num) hi))

theorem toUInt64_toInt64 (n : Nat) (h : n < 2 ^ 64) : toUInt64 (toInt64 n) = n := by
  unfold toUInt64 toInt64
  rw [Nat.mod_eq_of_lt h]
  split <;> omega

theorem toInt64_toUInt64 (i : Int) (h1 : -2 ^ 63 ≤ i) (h2 : i < 2 ^ 63) :
    toInt64 (toUInt64 i) = i := by
  unfold toUInt64 toInt64
  split <;> omega

theorem left_shift_lt (n s : Nat) : left_shift n s < 2 ^ 64 := by
  unfold left_shift
  split
  · norm_num
  · exact Nat.mod_lt _ (by norm_num)

/-- The word written by an update: `value` in the field, `word` elsewhere. -/
theorem testBit_insert (word w lsb value i : Nat) (hword : word < 2 ^ 64) (hw : w ≤ 64)
    (h : w + lsb ≤ 64) (hfit : value < 2 ^ w) :
    (word &&& bitNot64 (fieldMask w lsb) ||| left_shift value lsb).testBit i =
      if lsb ≤ i ∧ i < lsb + w then value.testBit (i - lsb) else word.testBit i := by
  rw [Nat.testBit_or, Nat.testBit_and, testBit_bitNot64, testBit_fieldMask _ _ _ hw h,
    testBit_left_shift]
  by_cases h1 : lsb ≤ i ∧ i < lsb + w
  · have h64 : i < 64 := by omega
    have hl : lsb < 64 := by omega
    simp [h1, h64, hl]
  · rw [if_neg h1]
    have hv : (decide (lsb ≤ i) && value.testBit (i - lsb)) = false := by
      by_cases h2 : lsb ≤ i
      · have : value.testBit (i - lsb) = false :=
          testBit_of_lt_two_pow value w (i - lsb) hfit (by omega)
        simp [this]
      · simp [h2]
    by_cases h64 : i < 64
    · simp [h1, h64, hv]
    · have : word.testBit i = false := testBit_of_lt_two_pow word 64 i hword (by omega)
      simp [this, h64]

theorem insert_eq_arith (word w lsb value : Nat) (hword : word < 2 ^ 64) (hw : w ≤ 64)
    (h : w + lsb ≤ 64) (hfit : value < 2 ^ w) :
    (word &&& bitNot64 (fieldMask w lsb) ||| left_shift value lsb) =
      2 ^ lsb * (2 ^ w * (word / 2 ^ (lsb + w)) + value) + word % 2 ^ lsb := by
  apply Nat.eq_of_testBit_eq
  intro i
  rw [testBit_insert word w lsb value i hword hw h hfit,
    Nat.testBit_mul_pow_two_add _ (Nat.mod_lt _ (Nat.two_pow_pos lsb)),
    Nat.testBit_mul_pow_two_add _ hfit, Nat.testBit_mod_two_pow,
    ← Nat.shiftRight_eq_div_pow, Nat.testBit_shiftRight]
  by_cases h1 : i < lsb
  · have : ¬ (lsb ≤ i ∧ i < lsb + w) := by omega
    simp [h1, this]
  · by_cases h2 : i < lsb + w
    · have h3 : i - lsb < w := by omega
      have h4 : lsb ≤ i ∧ i < lsb + w := by omega
      simp [h1, h3, h4]
    · have h3 : ¬ i - lsb < w := by omega
      have h4 : ¬ (lsb ≤ i ∧ i < lsb + w) := by omega
      have h5 : lsb + w + (i - lsb - w) = i := by omega
      simp [h1, h3, h4, h5]

theorem newu_eq (word w lsb value : Nat) (hw : w ≤ 64) (h : w + lsb ≤ 64)
    (hv : value < 2 ^ 64) :
    Bitpack_newu word w lsb value =
      if value < 2 ^ w then
        .ok (word &&& bitNot64 (fieldMask w lsb) ||| left_shift value lsb)
      else .error .Overflow := by
  unfold Bitpack_newu
  rw [if_neg (by omega), if_neg (by omega), fitsu_eq value w hv hw]
  by_cases hf : value < 2 ^ w <;> simp [hf]

theorem fitss_eq (n : Int) (w : Nat) (h1 : -2 ^ 63 ≤ n) (h2 : n < 2 ^ 63) (hw1 : 1 ≤ w)
    (hw : w ≤ 64) :
    Bitpack_fitss n w = .ok (decide (-2 ^ (w - 1) ≤ n ∧ n ≤ 2 ^ (w - 1) - 1)) := by
  unfold Bitpack_fitss
  rw [if_neg (by omega), if_neg (by omega), left_shift_one (w - 1) (by omega)]
  have hp : 2 ^ (w - 1) < 2 ^ 64 := Nat.pow_lt_pow_right (by norm_num) (by omega)
  have hpos : 0 < 2 ^ (w - 1) := Nat.two_pow_pos (w - 1)
  have hcast : ((2 ^ (w - 1) : Nat) : Int) = 2 ^ (w - 1) := by push_cast; rfl
  rw [← hcast]
  generalize 2 ^ (w - 1) = p at hp hpos ⊢
  unfold toUInt64
  by_cases hneg : n < 0
  · rw [if_pos hneg]
    simp only [Except.ok.injEq, decide_eq_decide]
    omega
  · rw [if_neg hneg]
    simp only [Except.ok.injEq, decide_eq_decide]
    omega

theorem toInt64_of_lt (x : Nat) (h : x < 2 ^ 63) : toInt64 x = (x : Int) := by
  unfold toInt64
  rw [Nat.mod_eq_of_lt (by omega), if_pos h]

theorem toInt64_of_ge (x : Nat) (h : 2 ^ 63 ≤ x) (hx : x < 2 ^ 64) :
    toInt64 x = Int.negSucc (2 ^ 64 - (x + 1)) := by
  unfold toInt64
  rw [Nat.mod_eq_of_lt hx, if_neg (by omega), Int.negSucc_eq]
  omega

theorem testBit_63 (x : Nat) (hx : x < 2 ^ 64) : x.testBit 63 = decide (2 ^ 63 ≤ x) := by
  rw [Nat.testBit_to_div_mod]
  simp only [decide_eq_decide]
  omega

theorem shiftRight_ofNat (x s : Nat) : ((x : Int) >>> s) = ((x >>> s : Nat) : Int) := rfl

theorem shiftRight_negSucc (m s : Nat) : (Int.negSucc m >>> s) = Int.negSucc (m >>> s) := rfl

theorem toUInt64_ofNat (m : Nat) (h : m < 2 ^ 64) : toUInt64 (m : Int) = m := by
  unfold toUInt64
  omega

theorem toUInt64_negSucc (k : Nat) (h : k < 2 ^ 64) :
    toUInt64 (Int.negSucc k) = 2 ^ 64 - (k + 1) := by
  unfold toUInt64
  rw [Int.negSucc_eq]
  omega

/-- Bits of an arithmetic right shift: the bits of `x` moved down, the sign
bit of `x` repeated above them. -/
theorem testBit_right_shift_signed (x s i : Nat) (hx : x < 2 ^ 64) :
    (right_shift_signed (toInt64 x) s).testBit i =
      (decide (i < 64) && (if s + i < 64 then x.testBit (s + i) else x.testBit 63)) := by
  have h63 := testBit_63 x hx
  unfold right_shift_signed
  by_cases hlt : x < 2 ^ 63
  · have hsign : x.testBit 63 = false := by rw [h63]; simp; omega
    rw [toInt64_of_lt x hlt, hsign]
    by_cases hs : s ≥ 64
    · have : ¬ ((x : Int) < 0) := by omega
      have h2 : ¬ s + i < 64 := by omega
      simp [hs, this, h2]
    · rw [if_neg hs, shiftRight_ofNat, toUInt64_ofNat, Nat.testBit_shiftRight]
      · by_cases h2 : s + i < 64
        · have : i < 64 := by omega
          simp [h2, this]
        · have : x.testBit (s + i) = false := testBit_of_lt_two_pow x 64 _ hx (by omega)
          simp [h2, this]
      · rw [Nat.shiftRight_eq_div_pow]
        exact Nat.lt_of_le_of_lt (Nat.div_le_self _ _) hx
  · have hge : 2 ^ 63 ≤ x := by omega
    have hsign : x.testBit 63 = true := by rw [h63]; simp; omega
    rw [toInt64_of_ge x hge hx, hsign]
    by_cases hs : s ≥ 64
    · have h2 : ¬ s + i < 64 := by omega
      have : Int.negSucc (2 ^ 64 - (x + 1)) < 0 := Int.negSucc_lt_zero _
      rw [if_pos hs, if_pos this, testBit_UINT64_MAX]
      simp [h2]
    · have hk : (2 ^ 64 - (x + 1)) >>> s < 2 ^ 64 := by
        rw [Nat.shiftRight_eq_div_pow]
        exact Nat.lt_of_le_of_lt (Nat.div_le_self _ _) (by omega)
      rw [if_neg hs, shiftRight_negSucc, toUInt64_negSucc _ hk,
        Nat.testBit_two_pow_sub_succ hk, Nat.testBit_shiftRight,
        Nat.testBit_two_pow_sub_succ hx]
      by_cases h2 : s + i < 64 <;> simp [h2]

theorem two_pow_pred_double (w : Nat) (hw : 1 ≤ w) : 2 ^ w = 2 * 2 ^ (w - 1) := by
  have : w = (w - 1) + 1 := by omega
  conv_lhs => rw [this, Nat.pow_succ]
  omega

theorem testBit_top (u w : Nat) (hu : u < 2 ^ w) (hw : 1 ≤ w) :
    u.testBit (w - 1) = decide (2 ^ (w - 1) ≤ u) := by
  rw [Nat.testBit_to_div_mod]
  have hpos : 0 < 2 ^ (w - 1) := Nat.two_pow_pos _
  have hq : u / 2 ^ (w - 1) < 2 := by
    rw [Nat.div_lt_iff_lt_mul hpos]
    rw [two_pow_pred_double w hw] at hu
    omega
  have h1 : 1 ≤ u / 2 ^ (w - 1) ↔ 2 ^ (w - 1) ≤ u := Nat.one_le_div_iff hpos
  simp only [decide_eq_decide]
  generalize u / 2 ^ (w - 1) = q at hq h1 ⊢
  omega

theorem getu_lt (word w lsb : Nat) : word / 2 ^ lsb % 2 ^ w < 2 ^ w :=
  Nat.mod_lt _ (Nat.two_pow_pos w)

/-- The word that `Bitpack_gets` converts on return: the field `u` in the low
bits, its top bit repeated up to bit 63. -/
theorem signFill_toInt64 (x u w : Nat) (hw1 : 1 ≤ w) (hw : w ≤ 64) (hu : u < 2 ^ w)
    (hx : ∀ i, x.testBit i =
      (decide (i < 64) && (if i < w then u.testBit i else u.testBit (w - 1)))) :
    toInt64 x = if u < 2 ^ (w - 1) then (u : Int) else (u : Int) - 2 ^ w := by
  have htop := testBit_top u w hu hw1
  have hdouble := two_pow_pred_double w hw1
  have hle : 2 ^ (w - 1) ≤ 2 ^ 63 := Nat.pow_le_pow_right (by norm_num) (by omega)
  by_cases hlt : u < 2 ^ (w - 1)
  · have hsign : u.testBit (w - 1) = false := by rw [htop]; simp; omega
    have hxu : x = u := by
      apply Nat.eq_of_testBit_eq
      intro i
      rw [hx i, hsign]
      by_cases hi : i < w
      · have : i < 64 := by omega
        simp [hi, this]
      · have : u.testBit i = false := testBit_of_lt_two_pow u w i hu (by omega)
        simp [hi, this]
    rw [hxu, if_pos hlt, toInt64_of_lt u (by omega)]
  · have hsign : u.testBit (w - 1) = true := by rw [htop]; simp; omega
    have hxu : x = 2 ^ w * (2 ^ (64 - w) - 1) + u := by
      apply Nat.eq_of_testBit_eq
      intro i
      rw [hx i, hsign, Nat.testBit_mul_pow_two_add _ hu, Nat.testBit_two_pow_sub_one]
      by_cases hi : i < w
      · have : i < 64 := by omega
        simp [hi, this]
      · simp [hi]
        omega
    have hsplit : 2 ^ w * 2 ^ (64 - w) = 2 ^ 64 := by
      rw [← Nat.pow_add]
      congr 1
      omega
    have hq : 0 < 2 ^ (64 - w) := Nat.two_pow_pos _
    have hx2 : x = 2 ^ 64 - 2 ^ w + u := by
      rw [hxu, Nat.mul_sub, Nat.mul_one, hsplit]
    have hwle : 2 ^ w ≤ 2 ^ 64 := Nat.pow_le_pow_right (by norm_num) hw
    have hcast : ((2 ^ w : Nat) : Int) = 2 ^ w := by push_cast; rfl
    rw [if_neg hlt, ← hcast]
    unfold toInt64
    rw [hx2]
    generalize 2 ^ w = p at *
    generalize 2 ^ (w - 1) = r at *
    have hmod : (2 ^ 64 - p + u) % 2 ^ 64 = 2 ^ 64 - p + u := Nat.mod_eq_of_lt (by omega)
    rw [hmod, if_neg (by omega)]
    omega

theorem testBit_field (word w lsb j : Nat) :
    (word / 2 ^ lsb % 2 ^ w).testBit j = (decide (j < w) && word.testBit (lsb + j)) := by
  rw [Nat.testBit_mod_two_pow, ← Nat.shiftRight_eq_div_pow, Nat.testBit_shiftRight]

theorem and_fieldMask_lt (word w lsb : Nat) : word &&& fieldMask w lsb < 2 ^ 64 :=
  Nat.lt_of_le_of_lt Nat.and_le_right (left_shift_lt _ _)

/-- Bits of the word after the first two shifts of `Bitpack_gets`: the field
moved to the top of the word. -/
theorem testBit_gets_aligned (word w lsb k : Nat) (hw1 : 1 ≤ w) (hw : w ≤ 64)
    (h : w + lsb ≤ 64) (hk1 : 64 - w ≤ k) (hk2 : k < 64) :
    (left_shift (right_shift_signed (toInt64 (word &&& fieldMask w lsb)) lsb)
        (64 - w)).testBit k = (word / 2 ^ lsb % 2 ^ w).testBit (k - (64 - w)) := by
  rw [testBit_left_shift, testBit_right_shift_signed _ _ _ (and_fieldMask_lt word w lsb),
    Nat.testBit_and, testBit_fieldMask _ _ _ hw h, testBit_field]
  have e1 : 64 - w < 64 := by omega
  have e2 : k - (64 - w) < 64 := by omega
  have e3 : lsb + (k - (64 - w)) < 64 := by omega
  have e4 : k - (64 - w) < w := by omega
  have e5 : lsb + (k - (64 - w)) < lsb + w := by omega
  simp [e1, e2, e3, e4, e5, hk1, hk2]

theorem gets_eq (word w lsb : Nat) (hw1 : 1 ≤ w) (hw : w ≤ 64) (h : w + lsb ≤ 64) :
    Bitpack_gets word w lsb =
      .ok (if word / 2 ^ lsb % 2 ^ w < 2 ^ (w - 1) then ((word / 2 ^ lsb % 2 ^ w : Nat) : Int)
           else ((word / 2 ^ lsb % 2 ^ w : Nat) : Int) - 2 ^ w) := by
  unfold Bitpack_gets
  rw [if_neg (by omega), if_neg (by omega), if_neg (by omega)]
  simp only [Except.ok.injEq]
  apply signFill_toInt64 _ _ w hw1 hw (getu_lt word w lsb)
  intro i
  rw [testBit_right_shift_signed _ _ _ (left_shift_lt _ _)]
  by_cases hi : i < 64
  · by_cases hiw : i < w
    · rw [if_pos (by omega), if_pos hiw,
        testBit_gets_aligned word w lsb _ hw1 hw h (by omega) (by omega)]
      have : 64 - w + i - (64 - w) = i := by omega
      simp [hi, this]
    · rw [if_neg (by omega), if_neg hiw,
        testBit_gets_aligned word w lsb 63 hw1 hw h (by omega) (by omega)]
      have : 63 - (64 - w) = w - 1 := by omega
      simp [hi, this]
  · simp [hi]

theorem right_shift_unsigned_lt (n s : Nat) (hn : n < 2 ^ 64) :
    right_shift_unsigned n s < 2 ^ 64 := by
  unfold right_shift_unsigned
  split
  · norm_num
  · rw [Nat.shiftRight_eq_div_pow]
    exact Nat.lt_of_le_of_lt (Nat.div_le_self _ _) hn

/-- The two shifts of `Bitpack_news` keep the low `w` bits of the value. -/
theorem truncate_shifts (tv w : Nat) (hw : w ≤ 64) :
    right_shift_unsigned (left_shift tv (64 - w)) (64 - w) = tv % 2 ^ w := by
  apply Nat.eq_of_testBit_eq
  intro j
  rw [testBit_right_shift_unsigned, testBit_left_shift, Nat.testBit_mod_two_pow]
  by_cases hj : j < w
  · have e1 : 64 - w < 64 := by omega
    have e2 : 64 - w + j < 64 := by omega
    have e3 : 64 - w + j - (64 - w) = j := by omega
    simp [hj, e1, e2, e3]
  · simp [hj]
    omega

theorem toUInt64_lt (i : Int) : toUInt64 i < 2 ^ 64 := by
  unfold toUInt64
  omega

/-- The value that `Bitpack_news` ors into the cleared word. -/
theorem news_value (value : Int) (w lsb : Nat) (hw : w ≤ 64) :
    toUInt64 (toInt64 (left_shift (toUInt64 (toInt64 (right_shift_unsigned
      (toUInt64 (toInt64 (left_shift (toUInt64 value) (64 - w)))) (64 - w)))) lsb)) =
      left_shift (toUInt64 value % 2 ^ w) lsb := by
  rw [toUInt64_toInt64 _ (left_shift_lt _ _), toUInt64_toInt64 _ (left_shift_lt _ _),
    toUInt64_toInt64 _ (right_shift_unsigned_lt _ _ (left_shift_lt _ _)),
    truncate_shifts _ _ hw]

theorem fitss_total (n : Int) (w : Nat) (hw : w ≤ 64) : ∃ b, Bitpack_fitss n w = .ok b := by
  unfold Bitpack_fitss
  rw [if_neg (by omega)]
  split
  · exact ⟨_, rfl⟩
  · split
    · exact ⟨_, rfl⟩
    · exact ⟨_, rfl⟩

theorem fitsu_total (n w : Nat) (hw : w ≤ 64) : ∃ b, Bitpack_fitsu n w = .ok b := by
  unfold Bitpack_fitsu
  rw [if_neg (by omega)]
  split
  · exact ⟨_, rfl⟩
  · exact ⟨_, rfl⟩

theorem newu_of_fits (word w lsb value : Nat) (hw : w ≤ 64) (h : w + lsb ≤ 64)
    (hf : Bitpack_fitsu value w = .ok true) :
    Bitpack_newu word w lsb value =
      .ok (word &&& bitNot64 (fieldMask w lsb) ||| left_shift value lsb) := by
  unfold Bitpack_newu
  rw [if_neg (by omega), if_neg (by omega), hf]

theorem news_of_fits (word w lsb : Nat) (value : Int) (hw : w ≤ 64) (h : w + lsb ≤ 64)
    (hf : Bitpack_fitss value w = .ok true) :
    Bitpack_news word w lsb value =
      .ok (word &&& bitNot64 (fieldMask w lsb) ||| left_shift (toUInt64 value % 2 ^ w) lsb) := by
  unfold Bitpack_news
  rw [if_neg (by omega), if_neg (by omega), hf]
  simp only
  rw [news_value value w lsb hw]

theorem newu_of_not_fits (word w lsb value : Nat) (hw : w ≤ 64) (h : w + lsb ≤ 64)
    (hf : Bitpack_fitsu value w = .ok false) :
    Bitpack_newu word w lsb value = .error .Overflow := by
  unfold Bitpack_newu
  rw [if_neg (by omega), if_neg (by omega), hf]

theorem news_of_not_fits (word w lsb : Nat) (value : Int) (hw : w ≤ 64) (h : w + lsb ≤ 64)
    (hf : Bitpack_fitss value w = .ok false) :
    Bitpack_news word w lsb value = .error .Overflow := by
  unfold Bitpack_news
  rw [if_neg (by omega), if_neg (by omega), hf]

/-- Reading back the low `w` bits of a fitting signed value with sign
extension gives the value. -/
theorem signExtend_truncate (v : Int) (w : Nat) (hw1 : 1 ≤ w) (hw : w ≤ 64)
    (hlo : -2 ^ (w - 1) ≤ v) (hhi : v ≤ 2 ^ (w - 1) - 1) :
    (if toUInt64 v % 2 ^ w < 2 ^ (w - 1) then ((toUInt64 v % 2 ^ w : Nat) : Int)
     else ((toUInt64 v % 2 ^ w : Nat) : Int) - 2 ^ w) = v := by
  have hdvd : ((2 : Int) ^ w) ∣ 2 ^ 64 := pow_dvd_pow 2 hw
  have hdouble : (2 : Int) ^ w = 2 * 2 ^ (w - 1) := by
    have := two_pow_pred_double w hw1
    exact_mod_cast this
  have hu : ((toUInt64 v % 2 ^ w : Nat) : Int) = v % 2 ^ w := by
    unfold toUInt64
    rw [Int.natCast_mod, Int.toNat_of_nonneg (Int.emod_nonneg _ (by norm_num))]
    push_cast
    exact Int.emod_emod_of_dvd v hdvd
  have hpos : (0 : Int) < 2 ^ (w - 1) := by positivity
  have hlt : (toUInt64 v % 2 ^ w < 2 ^ (w - 1)) ↔
      ((toUInt64 v % 2 ^ w : Nat) : Int) < 2 ^ (w - 1) := by
    constructor
    · intro hx
      exact_mod_cast hx
    · intro hx
      exact_mod_cast hx
  by_cases hv : 0 ≤ v
  · have hmod : v % 2 ^ w = v := Int.emod_eq_of_lt hv (by rw [hdouble]; omega)
    rw [hu, hmod] at hlt
    rw [if_pos (hlt.mpr (by omega)), hu, hmod]
  · have hmod : v % 2 ^ w = v + 2 ^ w := by
      rw [← Int.add_emod_self]
      exact Int.emod_eq_of_lt (by rw [hdouble]; omega) (by rw [hdouble]; omega)
    rw [hu, hmod] at hlt
    rw [if_neg (fun hx => by have := hlt.mp hx; rw [hdouble] at this; omega), hu, hmod]
    omega

theorem fitsu_true_lt (value w : Nat) (hw : w ≤ 64) (hf : Bitpack_fitsu value w = .ok true) :
    value < 2 ^ w := by
  by_cases hv : value < 2 ^ 64
  · rw [fitsu_eq value w hv hw] at hf
    simpa using hf
  · exfalso
    unfold Bitpack_fitsu at hf
    rw [if_neg (by omega)] at hf
    by_cases h0 : w = 0
    · rw [if_pos h0] at hf
      simp at hf
      omega
    · rw [if_neg h0] at hf
      simp only [Except.ok.injEq, decide_eq_true_eq] at hf
      have := Nat.mod_lt (left_shift 1 w + 2 ^ 64 - 1) (show 0 < 2 ^ 64 by norm_num)
      omega

theorem fitss_true_range (v : Int) (w : Nat) (h1 : -2 ^ 63 ≤ v) (h2 : v < 2 ^ 63)
    (hw1 : 1 ≤ w) (hw : w ≤ 64) (hf : Bitpack_fitss v w = .ok true) :
    -2 ^ (w - 1) ≤ v ∧ v ≤ 2 ^ (w - 1) - 1 := by
  rw [fitss_eq v w h1 h2 hw1 hw] at hf
  simpa using hf

/-- The field of an updated word holds the inserted value. -/
theorem field_of_insert (word w lsb value : Nat) (hword : word < 2 ^ 64) (hw : w ≤ 64)
    (h : w + lsb ≤ 64) (hfit : value < 2 ^ w) :
    (word &&& bitNot64 (fieldMask w lsb) ||| left_shift value lsb) / 2 ^ lsb % 2 ^ w =
      value := by
  rw [insert_eq_arith word w lsb value hword hw h hfit,
    Nat.mul_add_div (Nat.two_pow_pos lsb),
    Nat.div_eq_of_lt (Nat.mod_lt _ (Nat.two_pow_pos lsb)), Nat.add_zero,
    Nat.mul_add_mod, Nat.mod_eq_of_lt hfit]

theorem insert_lt (word w lsb value : Nat) (hword : word < 2 ^ 64) :
    (word &&& bitNot64 (fieldMask w lsb) ||| left_shift value lsb) < 2 ^ 64 :=
  Nat.or_lt_two_pow (Nat.lt_of_le_of_lt Nat.and_le_left hword) (left_shift_lt _ _)

/-- A field disjoint from the updated one reads the same before and after. -/
theorem field_of_insert_disjoint (word w lsb w2 lsb2 value : Nat) (hword : word < 2 ^ 64)
    (hw : w ≤ 64) (h : w + lsb ≤ 64) (hfit : value < 2 ^ w)
    (hdisj : lsb + w ≤ lsb2 ∨ lsb2 + w2 ≤ lsb) :
    (word &&& bitNot64 (fieldMask w lsb) ||| left_shift value lsb) / 2 ^ lsb2 % 2 ^ w2 =
      word / 2 ^ lsb2 % 2 ^ w2 := by
  apply Nat.eq_of_testBit_eq
  intro j
  rw [testBit_field, testBit_field, testBit_insert word w lsb value _ hword hw h hfit]
  by_cases hj : j < w2
  · rw [if_neg (by omega)]
  · simp [hj]

/-! ## Claims about the Bitpack interface -/

/-- C7: for every unsigned 64-bit `n` and every width `w` in [0,64],
`Bitpack_fitsu n w` returns true exactly when `n < 2^w`; at width 0 it is true
only for `n = 0`, and at width 64 it is true for every `n`. -/
theorem Bitpack_fitsu_iff_lt (n w : Nat) (hn : n < 2 ^ 64) (hw : w ≤ 64) :
    Bitpack_fitsu n w = .ok (decide (n < 2 ^ w)) ∧
    (Bitpack_fitsu n 0 = .ok true ↔ n = 0) ∧
    Bitpack_fitsu n 64 = .ok true := by
  refine ⟨fitsu_eq n w hn hw, ?_, ?_⟩
  · rw [fitsu_eq n 0 hn (by omega)]
    simp
  · rw [fitsu_eq n 64 hn (by omega)]
    simpa using hn

theorem Bitpack_fitsu_iff_lt_witness :
    Bitpack_fitsu 16 4 = .ok (decide (16 < 2 ^ 4)) ∧
    (Bitpack_fitsu 16 0 = .ok true ↔ 16 = 0) ∧
    Bitpack_fitsu 16 64 = .ok true :=
  Bitpack_fitsu_iff_lt 16 4 (by decide) (by decide)

/-- C8: for every signed 64-bit `n` and every width `w` in [1,64],
`Bitpack_fitss n w` returns true exactly when `-2^(w-1) ≤ n ≤ 2^(w-1) - 1`;
at width 0 it is true only for `n = 0`. -/
theorem Bitpack_fitss_iff_range (n : Int) (w : Nat) (h1 : -2 ^ 63 ≤ n) (h2 : n < 2 ^ 63)
    (hw1 : 1 ≤ w) (hw : w ≤ 64) :
    Bitpack_fitss n w = .ok (decide (-2 ^ (w - 1) ≤ n ∧ n ≤ 2 ^ (w - 1) - 1)) ∧
    (Bitpack_fitss n 0 = .ok true ↔ n = 0) := by
  refine ⟨fitss_eq n w h1 h2 hw1 hw, ?_⟩
  simp [Bitpack_fitss]

theorem Bitpack_fitss_iff_range_witness :
    Bitpack_fitss (-16) 5 = .ok (decide (-2 ^ (5 - 1) ≤ (-16 : Int) ∧ (-16 : Int) ≤ 2 ^ (5 - 1) - 1)) ∧
    (Bitpack_fitss (-16) 0 = .ok true ↔ (-16 : Int) = 0) :=
  Bitpack_fitss_iff_range (-16) 5 (by decide) (by decide) (by decide) (by decide)

/-- C9: for every word (in particular every 64-bit word), width `w` in [0,64] and `lsb` with
`w + lsb ≤ 64`, `Bitpack_getu word w lsb` returns
`floor(word / 2^lsb) mod 2^w`; a field of width 0 yields 0 for every
`lsb ≤ 64`. -/
theorem Bitpack_getu_eq_div_mod (word w lsb : Nat) (hw : w ≤ 64) (h : w + lsb ≤ 64) :
    Bitpack_getu word w lsb = .ok (word / 2 ^ lsb % 2 ^ w) ∧
    (∀ lsb0, lsb0 ≤ 64 → Bitpack_getu word 0 lsb0 = .ok 0) := by
  refine ⟨getu_eq word w lsb hw h, ?_⟩
  intro lsb0 h0
  rw [getu_eq word 0 lsb0 (by omega) (by omega)]
  simp [Nat.mod_one]

theorem Bitpack_getu_eq_div_mod_witness :
    Bitpack_getu 4290904051 5 18 = .ok (4290904051 / 2 ^ 18 % 2 ^ 5) ∧
    (∀ lsb0, lsb0 ≤ 64 → Bitpack_getu 4290904051 0 lsb0 = .ok 0) :=
  Bitpack_getu_eq_div_mod 4290904051 5 18 (by decide) (by decide)

/-- C10: for every word (in particular every 64-bit word), width `w` in [1,64] and `lsb` with
`w + lsb ≤ 64`, `Bitpack_gets word w lsb` is the field `u` that
`Bitpack_getu word w lsb` returns, sign-extended from bit `w-1`: `u` when
`u < 2^(w-1)` and `u - 2^w` otherwise (the field may contain bit 63);
width 0 yields 0. -/
theorem Bitpack_gets_sign_extends (word w lsb : Nat) (hw1 : 1 ≤ w) (h : w + lsb ≤ 64) :
    (∃ u, Bitpack_getu word w lsb = .ok u ∧
      Bitpack_gets word w lsb =
        .ok (if u < 2 ^ (w - 1) then (u : Int) else (u : Int) - 2 ^ w)) ∧
    (∀ lsb0, lsb0 ≤ 64 → Bitpack_gets word 0 lsb0 = .ok 0) := by
  refine ⟨⟨word / 2 ^ lsb % 2 ^ w, getu_eq word w lsb (by omega) h,
    gets_eq word w lsb hw1 (by omega) h⟩, ?_⟩
  intro lsb0 h0
  unfold Bitpack_gets
  rw [if_neg (by omega), if_neg (by omega), if_pos rfl]

theorem Bitpack_gets_sign_extends_witness :
    (∃ u, Bitpack_getu (2 ^ 63) 2 62 = .ok u ∧
      Bitpack_gets (2 ^ 63) 2 62 =
        .ok (if u < 2 ^ (2 - 1) then (u : Int) else (u : Int) - 2 ^ 2)) ∧
    (∀ lsb0, lsb0 ≤ 64 → Bitpack_gets (2 ^ 63) 0 lsb0 = .ok 0) :=
  Bitpack_gets_sign_extends (2 ^ 63) 2 62 (by decide) (by decide)

/-- C4: unsigned round trip. For every width `w` in [0,64], every `lsb` with
`w + lsb ≤ 64`, every 64-bit word and every `n < 2^w`: `Bitpack_fitsu n w`
holds, `Bitpack_newu word w lsb n` succeeds, and `Bitpack_getu` of the result
at `(w, lsb)` returns `n`. -/
theorem Bitpack_newu_getu_roundtrip (word w lsb n : Nat) (hword : word < 2 ^ 64)
    (hw : w ≤ 64) (h : w + lsb ≤ 64) (hn : n < 2 ^ w) :
    Bitpack_fitsu n w = .ok true ∧
    ∃ word1, Bitpack_newu word w lsb n = .ok word1 ∧ Bitpack_getu word1 w lsb = .ok n := by
  have hn64 : n < 2 ^ 64 := Nat.lt_of_lt_of_le hn (Nat.pow_le_pow_right (by norm_num) hw)
  have hfit : Bitpack_fitsu n w = .ok true := by
    rw [fitsu_eq n w hn64 hw]
    simp [hn]
  refine ⟨hfit, _, newu_of_fits word w lsb n hw h hfit, ?_⟩
  rw [getu_eq _ w lsb hw h, field_of_insert word w lsb n hword hw h hn]

theorem Bitpack_newu_getu_roundtrip_witness :
    Bitpack_fitsu 15 4 = .ok true ∧
    ∃ word1, Bitpack_newu 0 4 0 15 = .ok word1 ∧ Bitpack_getu word1 4 0 = .ok 15 :=
  Bitpack_newu_getu_roundtrip 0 4 0 15 (by decide) (by decide) (by decide) (by decide)

/-- C3: signed round trip. For every width `w` in [1,64], every `lsb` with
`w + lsb ≤ 64`, every 64-bit word and every signed 64-bit `v` for which
`Bitpack_fitss v w` holds, `Bitpack_news word w lsb v` succeeds and
`Bitpack_gets` of the result at `(w, lsb)` returns `v`; the most negative
value `-2^(w-1)` of the width is among the fitting values. -/
theorem Bitpack_news_gets_roundtrip (word w lsb : Nat) (v : Int) (hword : word < 2 ^ 64)
    (hv1 : -2 ^ 63 ≤ v) (hv2 : v < 2 ^ 63) (hw1 : 1 ≤ w) (h : w + lsb ≤ 64)
    (hfit : Bitpack_fitss v w = .ok true) :
    (∃ word1, Bitpack_news word w lsb v = .ok word1 ∧ Bitpack_gets word1 w lsb = .ok v) ∧
    Bitpack_fitss (-2 ^ (w - 1)) w = .ok true := by
  have hw : w ≤ 64 := by omega
  have hr := fitss_true_range v w hv1 hv2 hw1 hw hfit
  constructor
  · refine ⟨_, news_of_fits word w lsb v hw h hfit, ?_⟩
    rw [gets_eq _ w lsb hw1 hw h,
      field_of_insert word w lsb _ hword hw h (Nat.mod_lt _ (Nat.two_pow_pos w)),
      signExtend_truncate v w hw1 hw hr.1 hr.2]
  · have hle : (2 : Int) ^ (w - 1) ≤ 2 ^ 63 :=
      pow_le_pow_right₀ (by norm_num) (by omega)
    have hpos : (0 : Int) < 2 ^ (w - 1) := by positivity
    rw [fitss_eq _ w (by omega) (by omega) hw1 hw]
    simp only [Except.ok.injEq, decide_eq_true_eq]
    omega

theorem Bitpack_news_gets_roundtrip_witness :
    (∃ word1, Bitpack_news 0 64 0 (-2 ^ 63) = .ok word1 ∧
      Bitpack_gets word1 64 0 = .ok (-2 ^ 63)) ∧
    Bitpack_fitss (-2 ^ (64 - 1)) 64 = .ok true :=
  Bitpack_news_gets_roundtrip 0 64 0 (-2 ^ 63) (by decide) (by decide) (by decide)
    (by decide) (by decide) (by decide)

/-- C5: for every word, width `w ≤ 64` and `lsb` with `w + lsb ≤ 64`,
`Bitpack_newu` raises `Bitpack_Overflow` exactly when `Bitpack_fitsu` of the
value is false and succeeds exactly when it is true, and likewise
`Bitpack_news` with `Bitpack_fitss`; inserting 16 into a 4-bit unsigned field
raises, inserting 15 succeeds and extracts back as 15. -/
theorem Bitpack_insert_overflow_iff (word w lsb value : Nat) (svalue : Int) (hw : w ≤ 64)
    (h : w + lsb ≤ 64) :
    (Bitpack_newu word w lsb value = .error .Overflow ↔ Bitpack_fitsu value w = .ok false) ∧
    ((∃ r, Bitpack_newu word w lsb value = .ok r) ↔ Bitpack_fitsu value w = .ok true) ∧
    (Bitpack_news word w lsb svalue = .error .Overflow ↔
      Bitpack_fitss svalue w = .ok false) ∧
    ((∃ r, Bitpack_news word w lsb svalue = .ok r) ↔ Bitpack_fitss svalue w = .ok true) ∧
    Bitpack_newu word 4 0 16 = .error .Overflow ∧
    (∃ r, Bitpack_newu 0 4 0 15 = .ok r ∧ Bitpack_getu r 4 0 = .ok 15) := by
  obtain ⟨bu, hbu⟩ := fitsu_total value w hw
  obtain ⟨bs, hbs⟩ := fitss_total svalue w hw
  refine ⟨?_, ?_, ?_, ?_, ?_, ?_⟩
  · cases bu
    · simp [hbu, newu_of_not_fits word w lsb value hw h hbu]
    · simp [hbu, newu_of_fits word w lsb value hw h hbu]
  · cases bu
    · simp [hbu, newu_of_not_fits word w lsb value hw h hbu]
    · simp [hbu, newu_of_fits word w lsb value hw h hbu]
  · cases bs
    · simp [hbs, news_of_not_fits word w lsb svalue hw h hbs]
    · simp [hbs, news_of_fits word w lsb svalue hw h hbs]
  · cases bs
    · simp [hbs, news_of_not_fits word w lsb svalue hw h hbs]
    · simp [hbs, news_of_fits word w lsb svalue hw h hbs]
  · exact newu_of_not_fits word 4 0 16 (by decide) (by decide) (by decide)
  · exact ⟨15, by decide, by decide⟩

theorem Bitpack_insert_overflow_iff_witness :
    (Bitpack_newu 0 4 0 16 = .error .Overflow ↔ Bitpack_fitsu 16 4 = .ok false) ∧
    ((∃ r, Bitpack_newu 0 4 0 16 = .ok r) ↔ Bitpack_fitsu 16 4 = .ok true) ∧
    (Bitpack_news 0 4 0 (-9) = .error .Overflow ↔ Bitpack_fitss (-9) 4 = .ok false) ∧
    ((∃ r, Bitpack_news 0 4 0 (-9) = .ok r) ↔ Bitpack_fitss (-9) 4 = .ok true) ∧
    Bitpack_newu 0 4 0 16 = .error .Overflow ∧
    (∃ r, Bitpack_newu 0 4 0 15 = .ok r ∧ Bitpack_getu r 4 0 = .ok 15) :=
  Bitpack_insert_overflow_iff 0 4 0 16 (-9) (by decide) (by decide)

/-- C6: insertion changes only the target field. For every 64-bit word, every
field `(w, lsb)` with `w + lsb ≤ 64`, every fitting value, and every field
`(w2, lsb2)` with `w2 + lsb2 ≤ 64` disjoint from it, `Bitpack_getu` at
`(w2, lsb2)` returns the same before and after `Bitpack_newu`, and the same
after `Bitpack_news`; every bit of the result outside `[lsb, lsb+w)` equals
the corresponding bit of `word`. -/
theorem Bitpack_insert_frame (word w lsb w2 lsb2 value : Nat) (svalue : Int)
    (hword : word < 2 ^ 64) (h : w + lsb ≤ 64) (h2 : w2 + lsb2 ≤ 64)
    (hdisj : lsb + w ≤ lsb2 ∨ lsb2 + w2 ≤ lsb)
    (hfit : Bitpack_fitsu value w = .ok true)
    (hfits : Bitpack_fitss svalue w = .ok true) :
    (∃ r, Bitpack_newu word w lsb value = .ok r ∧
      Bitpack_getu r w2 lsb2 = Bitpack_getu word w2 lsb2 ∧
      ∀ i, ¬ (lsb ≤ i ∧ i < lsb + w) → r.testBit i = word.testBit i) ∧
    (∃ r, Bitpack_news word w lsb svalue = .ok r ∧
      Bitpack_getu r w2 lsb2 = Bitpack_getu word w2 lsb2 ∧
      ∀ i, ¬ (lsb ≤ i ∧ i < lsb + w) → r.testBit i = word.testBit i) := by
  have hw : w ≤ 64 := by omega
  have hw2 : w2 ≤ 64 := by omega
  have hv := fitsu_true_lt value w hw hfit
  have hsv : toUInt64 svalue % 2 ^ w < 2 ^ w := Nat.mod_lt _ (Nat.two_pow_pos w)
  constructor
  · refine ⟨_, newu_of_fits word w lsb value hw h hfit, ?_, ?_⟩
    · rw [getu_eq _ w2 lsb2 hw2 h2, getu_eq _ w2 lsb2 hw2 h2,
        field_of_insert_disjoint word w lsb w2 lsb2 value hword hw h hv hdisj]
    · intro i hi
      rw [testBit_insert word w lsb value i hword hw h hv, if_neg hi]
  · refine ⟨_, news_of_fits word w lsb svalue hw h hfits, ?_, ?_⟩
    · rw [getu_eq _ w2 lsb2 hw2 h2, getu_eq _ w2 lsb2 hw2 h2,
        field_of_insert_disjoint word w lsb w2 lsb2 _ hword hw h hsv hdisj]
    · intro i hi
      rw [testBit_insert word w lsb _ i hword hw h hsv, if_neg hi]

theorem Bitpack_insert_frame_witness :
    (∃ r, Bitpack_newu 4290904051 5 18 7 = .ok r ∧
      Bitpack_getu r 9 23 = Bitpack_getu 4290904051 9 23 ∧
      ∀ i, ¬ (18 ≤ i ∧ i < 18 + 5) → r.testBit i = (4290904051 : Nat).testBit i) ∧
    (∃ r, Bitpack_news 4290904051 5 18 (-7) = .ok r ∧
      Bitpack_getu r 9 23 = Bitpack_getu 4290904051 9 23 ∧
      ∀ i, ¬ (18 ≤ i ∧ i < 18 + 5) → r.testBit i = (4290904051 : Nat).testBit i) :=
  Bitpack_insert_frame 4290904051 5 18 9 23 7 (-7) (by decide) (by decide) (by decide)
    (by decide) (by decide) (by decide)

/-! ## The codeword -/

theorem newu_arith (word w lsb value : Nat) (hword : word < 2 ^ 64) (hw : w ≤ 64)
    (h : w + lsb ≤ 64) (hfit : value < 2 ^ w) :
    Bitpack_newu word w lsb value =
      .ok (2 ^ lsb * (2 ^ w * (word / 2 ^ (lsb + w)) + value) + word % 2 ^ lsb) := by
  have hv64 : value < 2 ^ 64 :=
    Nat.lt_of_lt_of_le hfit (Nat.pow_le_pow_right (by norm_num) hw)
  have hf : Bitpack_fitsu value w = .ok true := by
    rw [fitsu_eq value w hv64 hw]
    simp [hfit]
  rw [newu_of_fits word w lsb value hw h hf, insert_eq_arith word w lsb value hword hw h hfit]

theorem news_arith (word w lsb : Nat) (v : Int) (hword : word < 2 ^ 64) (hw1 : 1 ≤ w)
    (hw : w ≤ 64) (h : w + lsb ≤ 64) (hv1 : -2 ^ 63 ≤ v) (hv2 : v < 2 ^ 63)
    (hfit : -2 ^ (w - 1) ≤ v ∧ v ≤ 2 ^ (w - 1) - 1) :
    Bitpack_news word w lsb v =
      .ok (2 ^ lsb * (2 ^ w * (word / 2 ^ (lsb + w)) + toUInt64 v % 2 ^ w) + word % 2 ^ lsb) := by
  have hf : Bitpack_fitss v w = .ok true := by
    rw [fitss_eq v w hv1 hv2 hw1 hw]
    simp [hfit]
  rw [news_of_fits word w lsb v hw h hf,
    insert_eq_arith word w lsb _ hword hw h (Nat.mod_lt _ (Nat.two_pow_pos w))]

/-- The word that `pack_codeword` builds from six fields within their widths. -/
theorem pack_codeword_eq (a b c d : Int) (pb pr : Nat) (ha0 : 0 ≤ a) (ha1 : a ≤ 511)
    (hb0 : -16 ≤ b) (hb1 : b ≤ 15) (hc0 : -16 ≤ c) (hc1 : c ≤ 15) (hd0 : -16 ≤ d)
    (hd1 : d ≤ 15) (hpb : pb ≤ 15) (hpr : pr ≤ 15) :
    pack_codeword (assign_code_elems a b c d pb pr) =
      .ok (a.toNat * 2 ^ 23 + (b % 32).toNat * 2 ^ 18 + (c % 32).toNat * 2 ^ 13 +
        (d % 32).toNat * 2 ^ 8 + pb * 2 ^ 4 + pr) := by
  have s1 : Bitpack_newu 0 9 23 (toUInt64 a) = .ok (a.toNat * 2 ^ 23) := by
    rw [newu_arith 0 9 23 _ (by norm_num) (by norm_num) (by norm_num)
      (by unfold toUInt64; omega)]
    unfold toUInt64
    simp only [Except.ok.injEq]
    omega
  have s2 : Bitpack_news (a.toNat * 2 ^ 23) 5 18 (toInt64 (toUInt64 b)) =
      .ok (a.toNat * 2 ^ 23 + (b % 32).toNat * 2 ^ 18) := by
    rw [toInt64_toUInt64 b (by omega) (by omega),
      news_arith _ 5 18 b (by omega) (by norm_num) (by norm_num) (by norm_num) (by omega)
        (by omega) (by norm_num; omega)]
    unfold toUInt64
    simp only [Except.ok.injEq]
    omega
  have s3 : Bitpack_news (a.toNat * 2 ^ 23 + (b % 32).toNat * 2 ^ 18) 5 13
      (toInt64 (toUInt64 c)) =
      .ok (a.toNat * 2 ^ 23 + (b % 32).toNat * 2 ^ 18 + (c % 32).toNat * 2 ^ 13) := by
    rw [toInt64_toUInt64 c (by omega) (by omega),
      news_arith _ 5 13 c (by omega) (by norm_num) (by norm_num) (by norm_num) (by omega)
        (by omega) (by norm_num; omega)]
    unfold toUInt64
    simp only [Except.ok.injEq]
    omega
  have s4 : Bitpack_news (a.toNat * 2 ^ 23 + (b % 32).toNat * 2 ^ 18 +
      (c % 32).toNat * 2 ^ 13) 5 8 (toInt64 (toUInt64 d)) =
      .ok (a.toNat * 2 ^ 23 + (b % 32).toNat * 2 ^ 18 + (c % 32).toNat * 2 ^ 13 +
        (d % 32).toNat * 2 ^ 8) := by
    rw [toInt64_toUInt64 d (by omega) (by omega),
      news_arith _ 5 8 d (by omega) (by norm_num) (by norm_num) (by norm_num) (by omega)
        (by omega) (by norm_num; omega)]
    unfold toUInt64
    simp only [Except.ok.injEq]
    omega
  have s5 : Bitpack_newu (a.toNat * 2 ^ 23 + (b % 32).toNat * 2 ^ 18 +
      (c % 32).toNat * 2 ^ 13 + (d % 32).toNat * 2 ^ 8) 4 4 (pb % 2 ^ 64) =
      .ok (a.toNat * 2 ^ 23 + (b % 32).toNat * 2 ^ 18 + (c % 32).toNat * 2 ^ 13 +
        (d % 32).toNat * 2 ^ 8 + pb * 2 ^ 4) := by
    rw [newu_arith _ 4 4 _ (by omega) (by norm_num) (by norm_num) (by omega)]
    simp only [Except.ok.injEq]
    omega
  have s6 : Bitpack_newu (a.toNat * 2 ^ 23 + (b % 32).toNat * 2 ^ 18 +
      (c % 32).toNat * 2 ^ 13 + (d % 32).toNat * 2 ^ 8 + pb * 2 ^ 4) 4 0 (pr % 2 ^ 64) =
      .ok (a.toNat * 2 ^ 23 + (b % 32).toNat * 2 ^ 18 + (c % 32).toNat * 2 ^ 13 +
        (d % 32).toNat * 2 ^ 8 + pb * 2 ^ 4 + pr) := by
    rw [newu_arith _ 4 0 _ (by omega) (by norm_num) (by norm_num) (by omega)]
    simp only [Except.ok.injEq]
    omega
  simp only [pack_codeword, assign_code_elems, NUM_CODEWORD_ELEMENTS, List.take, pack_loop,
    pack_step, CODEWORD_A, CODEWORD_B, CODEWORD_C, CODEWORD_D, CODEWORD_PB, CODEWORD_PR,
    s1, s2, s3, s4, s5, s6, Bool.false_eq_true, if_false, if_true]

theorem gets5_of_layout (W lsb : Nat) (v : Int) (hlsb : 5 + lsb ≤ 64) (hv0 : -16 ≤ v)
    (hv1 : v ≤ 15) (hW : W / 2 ^ lsb % 2 ^ 5 = (v % 32).toNat) :
    Bitpack_gets W 5 lsb = .ok v := by
  rw [gets_eq W 5 lsb (by norm_num) (by norm_num) hlsb, hW]
  simp only [Except.ok.injEq]
  split <;> omega

theorem toInt32_toUInt64 (v : Int) (h1 : -2 ^ 31 ≤ v) (h2 : v < 2 ^ 31) :
    toInt32 (toUInt64 v) = v := by
  unfold toInt32 toUInt64
  split <;> omega

theorem read_assign_code_elems (a b c d : Int) (pb pr : Nat) (ha0 : -2 ^ 31 ≤ a)
    (ha1 : a < 2 ^ 31) (hb0 : -2 ^ 31 ≤ b) (hb1 : b < 2 ^ 31) (hc0 : -2 ^ 31 ≤ c)
    (hc1 : c < 2 ^ 31) (hd0 : -2 ^ 31 ≤ d) (hd1 : d < 2 ^ 31) (hpb : pb < 2 ^ 32)
    (hpr : pr < 2 ^ 32) :
    read_code_elems (assign_code_elems a b c d pb pr) = some (a, b, c, d, pb, pr) := by
  have e1 : toUInt32 (pb % 2 ^ 64) = pb := by unfold toUInt32; omega
  have e2 : toUInt32 (pr % 2 ^ 64) = pr := by unfold toUInt32; omega
  simp only [read_code_elems, assign_code_elems, toInt32_toUInt64 a ha0 ha1,
    toInt32_toUInt64 b hb0 hb1, toInt32_toUInt64 c hc0 hc1, toInt32_toUInt64 d hd0 hd1,
    e1, e2]

/-- C2: for fields within their widths, `pack_codeword` returns the word
`a*2^23 + (b mod 32)*2^18 + (c mod 32)*2^13 + (d mod 32)*2^8 + pb*2^4 + pr`;
the word is below `2^32`, and each field occupies its own bits: bits 23..31
hold `a`, bits 18..22, 13..17, 8..12 hold `b`, `c`, `d` in two's complement,
bits 4..7 the Pb index and bits 0..3 the Pr index. -/
theorem pack_codeword_layout (a b c d : Int) (pb pr : Nat) (ha0 : 0 ≤ a) (ha1 : a ≤ 511)
    (hb0 : -16 ≤ b) (hb1 : b ≤ 15) (hc0 : -16 ≤ c) (hc1 : c ≤ 15) (hd0 : -16 ≤ d)
    (hd1 : d ≤ 15) (hpb : pb ≤ 15) (hpr : pr ≤ 15) :
    ∃ W, W = a.toNat * 2 ^ 23 + (b % 32).toNat * 2 ^ 18 + (c % 32).toNat * 2 ^ 13 +
        (d % 32).toNat * 2 ^ 8 + pb * 2 ^ 4 + pr ∧
      pack_codeword (assign_code_elems a b c d pb pr) = .ok W ∧
      W < 2 ^ 32 ∧
      W / 2 ^ 23 = a.toNat ∧
      W / 2 ^ 18 % 2 ^ 5 = (b % 32).toNat ∧
      W / 2 ^ 13 % 2 ^ 5 = (c % 32).toNat ∧
      W / 2 ^ 8 % 2 ^ 5 = (d % 32).toNat ∧
      W / 2 ^ 4 % 2 ^ 4 = pb ∧
      W % 2 ^ 4 = pr := by
  refine ⟨_, rfl, pack_codeword_eq a b c d pb pr ha0 ha1 hb0 hb1 hc0 hc1 hd0 hd1 hpb hpr,
    ?_, ?_, ?_, ?_, ?_, ?_, ?_⟩ <;> omega

theorem pack_codeword_layout_witness :
    ∃ W, W = (511 : Int).toNat * 2 ^ 23 + ((-16 : Int) % 32).toNat * 2 ^ 18 +
        ((15 : Int) % 32).toNat * 2 ^ 13 + ((-1 : Int) % 32).toNat * 2 ^ 8 + 15 * 2 ^ 4 + 3 ∧
      pack_codeword (assign_code_elems 511 (-16) 15 (-1) 15 3) = .ok W ∧
      W < 2 ^ 32 ∧
      W / 2 ^ 23 = (511 : Int).toNat ∧
      W / 2 ^ 18 % 2 ^ 5 = ((-16 : Int) % 32).toNat ∧
      W / 2 ^ 13 % 2 ^ 5 = ((15 : Int) % 32).toNat ∧
      W / 2 ^ 8 % 2 ^ 5 = ((-1 : Int) % 32).toNat ∧
      W / 2 ^ 4 % 2 ^ 4 = 15 ∧
      W % 2 ^ 4 = 3 :=
  pack_codeword_layout 511 (-16) 15 (-1) 15 3 (by decide) (by decide) (by decide) (by decide)
    (by decide) (by decide) (by decide) (by decide) (by decide) (by decide)

/-- C1: for every six codeword fields within their widths (`a` in 0..511;
`b`, `c`, `d` in -16..15; Pb index and Pr index in 0..15), `pack_codeword`
succeeds and `extract_bitpack` applied to the packed word returns exactly the
same six field values: the array equals the packed one, and the six values
that `applyDecompress` reads out of it are `a`, `b`, `c`, `d`, Pb and Pr. -/
theorem extract_bitpack_pack_codeword (a b c d : Int) (pb pr : Nat) (ha0 : 0 ≤ a)
    (ha1 : a ≤ 511) (hb0 : -16 ≤ b) (hb1 : b ≤ 15) (hc0 : -16 ≤ c) (hc1 : c ≤ 15)
    (hd0 : -16 ≤ d) (hd1 : d ≤ 15) (hpb : pb ≤ 15) (hpr : pr ≤ 15) :
    ∃ W elems, pack_codeword (assign_code_elems a b c d pb pr) = .ok W ∧
      extract_bitpack W code_elems_template = .ok elems ∧
      elems = assign_code_elems a b c d pb pr ∧
      read_code_elems elems = some (a, b, c, d, pb, pr) := by
  refine ⟨_, _, pack_codeword_eq a b c d pb pr ha0 ha1 hb0 hb1 hc0 hc1 hd0 hd1 hpb hpr, ?_,
    rfl, read_assign_code_elems a b c d pb pr (by omega) (by omega) (by omega) (by omega)
      (by omega) (by omega) (by omega) (by omega) (by omega) (by omega)⟩
  have ga := getu_eq (a.toNat * 2 ^ 23 + (b % 32).toNat * 2 ^ 18 + (c % 32).toNat * 2 ^ 13 +
    (d % 32).toNat * 2 ^ 8 + pb * 2 ^ 4 + pr) 9 23 (by norm_num) (by norm_num)
  have gb := gets5_of_layout (a.toNat * 2 ^ 23 + (b % 32).toNat * 2 ^ 18 +
    (c % 32).toNat * 2 ^ 13 + (d % 32).toNat * 2 ^ 8 + pb * 2 ^ 4 + pr) 18 b (by norm_num)
    hb0 hb1 (by omega)
  have gc := gets5_of_layout (a.toNat * 2 ^ 23 + (b % 32).toNat * 2 ^ 18 +
    (c % 32).toNat * 2 ^ 13 + (d % 32).toNat * 2 ^ 8 + pb * 2 ^ 4 + pr) 13 c (by norm_num)
    hc0 hc1 (by omega)
  have gd := gets5_of_layout (a.toNat * 2 ^ 23 + (b % 32).toNat * 2 ^ 18 +
    (c % 32).toNat * 2 ^ 13 + (d % 32).toNat * 2 ^ 8 + pb * 2 ^ 4 + pr) 8 d (by norm_num)
    hd0 hd1 (by omega)
  have gpb := getu_eq (a.toNat * 2 ^ 23 + (b % 32).toNat * 2 ^ 18 + (c % 32).toNat * 2 ^ 13 +
    (d % 32).toNat * 2 ^ 8 + pb * 2 ^ 4 + pr) 4 4 (by norm_num) (by norm_num)
  have gpr := getu_eq (a.toNat * 2 ^ 23 + (b % 32).toNat * 2 ^ 18 + (c % 32).toNat * 2 ^ 13 +
    (d % 32).toNat * 2 ^ 8 + pb * 2 ^ 4 + pr) 4 0 (by norm_num) (by norm_num)
  have ea : (a.toNat * 2 ^ 23 + (b % 32).toNat * 2 ^ 18 + (c % 32).toNat * 2 ^ 13 +
    (d % 32).toNat * 2 ^ 8 + pb * 2 ^ 4 + pr) / 2 ^ 23 % 2 ^ 9 = toUInt64 a := by
    unfold toUInt64
    omega
  have epb : (a.toNat * 2 ^ 23 + (b % 32).toNat * 2 ^ 18 + (c % 32).toNat * 2 ^ 13 +
    (d % 32).toNat * 2 ^ 8 + pb * 2 ^ 4 + pr) / 2 ^ 4 % 2 ^ 4 = pb % 2 ^ 64 := by omega
  have epr : (a.toNat * 2 ^ 23 + (b % 32).toNat * 2 ^ 18 + (c % 32).toNat * 2 ^ 13 +
    (d % 32).toNat * 2 ^ 8 + pb * 2 ^ 4 + pr) / 2 ^ 0 % 2 ^ 4 = pr % 2 ^ 64 := by omega
  rw [ea] at ga
  rw [epb] at gpb
  rw [epr] at gpr
  simp only [extract_bitpack, code_elems_template, assign_code_elems, NUM_CODEWORD_ELEMENTS,
    List.take, List.drop, extract_loop, extract_step, CODEWORD_A, CODEWORD_B, CODEWORD_C,
    CODEWORD_D, CODEWORD_PB, CODEWORD_PR, ga, gb, gc, gd, gpb, gpr, Bool.false_eq_true,
    if_false, if_true, List.append_nil]

theorem extract_bitpack_pack_codeword_witness :
    ∃ W elems, pack_codeword (assign_code_elems 511 (-16) 15 (-1) 15 3) = .ok W ∧
      extract_bitpack W code_elems_template = .ok elems ∧
      elems = assign_code_elems 511 (-16) 15 (-1) 15 3 ∧
      read_code_elems elems = some (511, -16, 15, -1, 15, 3) :=
  extract_bitpack_pack_codeword 511 (-16) 15 (-1) 15 3 (by decide) (by decide) (by decide)
    (by decide) (by decide) (by decide) (by decide) (by decide) (by decide) (by decide)

/-! ## Claims about the preconditions of Bitpack and the byte order -/

/-- C11 (the code differs): with `width = 1` and `lsb = 2^32 - 1` the C sum
`width + lsb` wraps to `0`, both asserts pass, and none of the four
functions fails: each returns a word although `width + lsb > 64`. -/
theorem Bitpack_assert_wraps :
    (1 : Nat) + 4294967295 > 64 ∧
    Bitpack_getu 5 1 4294967295 = .ok 0 ∧
    Bitpack_gets 5 1 4294967295 = .ok 0 ∧
    Bitpack_newu 5 1 4294967295 1 = .ok 5 ∧
    Bitpack_news 5 1 4294967295 (-1) = .ok 5 := by
  refine ⟨by decide, by decide, by decide, by decide, by decide⟩

theorem print_codeword_loop_eq (codeword : Nat) (out : List Nat) :
    print_codeword codeword out =
      .ok (out ++ [codeword / 2 ^ 24 % 256, codeword / 2 ^ 16 % 256, codeword / 2 ^ 8 % 256,
        codeword % 256]) := by
  have g3 := getu_eq codeword 8 24 (by norm_num) (by norm_num)
  have g2 := getu_eq codeword 8 16 (by norm_num) (by norm_num)
  have g1 := getu_eq codeword 8 8 (by norm_num) (by norm_num)
  have g0 := getu_eq codeword 8 0 (by norm_num) (by norm_num)
  norm_num at g3 g2 g1 g0
  simp [print_codeword, print_codeword_loop, g3, g2, g1, g0]

/-- C13: `print_codeword` writes exactly four bytes in big-endian order: bits
24..31, then bits 16..23, bits 8..15 and bits 0..7 of the word; nothing else
is appended, so bits 32..63 are never written (two codewords that agree
modulo `2^32` print the same bytes). -/
theorem print_codeword_big_endian (codeword : Nat) (out : List Nat) :
    print_codeword codeword out =
      .ok (out ++ [codeword / 2 ^ 24 % 256, codeword / 2 ^ 16 % 256, codeword / 2 ^ 8 % 256,
        codeword % 256]) ∧
    print_codeword (codeword % 2 ^ 32) out = print_codeword codeword out := by
  refine ⟨print_codeword_loop_eq codeword out, ?_⟩
  rw [print_codeword_loop_eq, print_codeword_loop_eq]
  simp only [Except.ok.injEq, List.append_cancel_left_eq, List.cons.injEq, and_true]
  refine ⟨?_, ?_, ?_, ?_⟩ <;> omega

/-! ## Claims about the transforms -/

theorem clamp_nonneg (x : ℚ) (d : Nat) : 0 ≤ clamp x 0 (d : ℚ) := by
  unfold clamp
  have hd : (0 : ℚ) ≤ (d : ℚ) := Nat.cast_nonneg d
  split
  · exact le_refl 0
  · split
    · exact hd
    · linarith

theorem clamp_le (x : ℚ) (d : Nat) : clamp x 0 (d : ℚ) ≤ (d : ℚ) := by
  unfold clamp
  have hd : (0 : ℚ) ≤ (d : ℚ) := Nat.cast_nonneg d
  split
  · exact hd
  · split
    · exact le_refl _
    · linarith

theorem float_to_unsigned_le (x : ℚ) (d : Nat) (h : x ≤ (d : ℚ)) : float_to_unsigned x ≤ d := by
  unfold float_to_unsigned
  have h1 : ⌊x⌋ ≤ (d : Int) := by
    have : ⌊x⌋ ≤ ⌊(d : ℚ)⌋ := Int.floor_le_floor h
    simpa using this
  omega

theorem float_to_unsigned_spec (x : ℚ) (h : 0 ≤ x) :
    ((float_to_unsigned x : Nat) : ℚ) ≤ x ∧ x < ((float_to_unsigned x : Nat) : ℚ) + 1 := by
  unfold float_to_unsigned
  have h0 : 0 ≤ ⌊x⌋ := Int.floor_nonneg.mpr h
  have hc : ((⌊x⌋.toNat : Nat) : ℚ) = ((⌊x⌋ : Int) : ℚ) := by
    have : ((⌊x⌋.toNat : Nat) : Int) = ⌊x⌋ := Int.toNat_of_nonneg h0
    exact_mod_cast this
  rw [hc]
  exact ⟨Int.floor_le x, Int.lt_floor_add_one x⟩

theorem floor_eq_of_bounds (x : ℚ) (n : Int) (h1 : (n : ℚ) ≤ x) (h2 : x < (n : ℚ) + 1) :
    ⌊x⌋ = n := Int.floor_eq_iff.mpr ⟨h1, h2⟩

/-! ## Loops -/

theorem loopFrom_zero {σ : Type} (f : Nat → σ → Except Failure σ) (i : Nat) (s : σ) :
    loopFrom f i 0 s = .ok s := rfl

theorem loopFrom_succ_ok {σ : Type} (f : Nat → σ → Except Failure σ) (i k : Nat) (s s1 : σ)
    (h : f i s = .ok s1) : loopFrom f i (k + 1) s = loopFrom f (i + 1) k s1 := by
  simp [loopFrom, h]

theorem loopFrom_succ_error {σ : Type} (f : Nat → σ → Except Failure σ) (i k : Nat) (s : σ)
    (e : Failure) (h : f i s = .error e) : loopFrom f i (k + 1) s = .error e := by
  simp [loopFrom, h]

/-- Total correctness of a counting loop from an invariant. -/
theorem loopFrom_invariant {σ : Type} (f : Nat → σ → Except Failure σ) (P : Nat → σ → Prop) :
    ∀ (k i : Nat) (s : σ), P i s →
      (∀ j t, i ≤ j → j < i + k → P j t → ∃ t1, f j t = .ok t1 ∧ P (j + 1) t1) →
      ∃ s1, loopFrom f i k s = .ok s1 ∧ P (i + k) s1 := by
  intro k
  induction k with
  | zero =>
    intro i s h0 _
    exact ⟨s, rfl, by simpa using h0⟩
  | succ k ih =>
    intro i s h0 hstep
    obtain ⟨t1, ht1, hP1⟩ := hstep i s (le_refl i) (by omega) h0
    obtain ⟨s1, hs1, hP⟩ := ih (i + 1) t1 hP1 (fun j t hj1 hj2 hPj =>
      hstep j t (by omega) (by omega) hPj)
    refine ⟨s1, ?_, ?_⟩
    · rw [loopFrom_succ_ok f i k s t1 ht1, hs1]
    · have : i + 1 + k = i + (k + 1) := by omega
      rw [← this]
      exact hP

/-- Two loops whose bodies agree on the states of an invariant agree. -/
theorem loopFrom_congr {σ : Type} (f g : Nat → σ → Except Failure σ) (Inv : σ → Prop)
    (hfg : ∀ j s, Inv s → f j s = g j s)
    (hinv : ∀ j s s1, Inv s → g j s = .ok s1 → Inv s1) :
    ∀ (k i : Nat) (s : σ), Inv s → loopFrom f i k s = loopFrom g i k s := by
  intro k
  induction k with
  | zero => intro i s _; rfl
  | succ k ih =>
    intro i s hs
    cases hg : g i s with
    | error e =>
      rw [loopFrom_succ_error g i k s e hg, loopFrom_succ_error f i k s e (by rw [hfg i s hs, hg])]
    | ok s1 =>
      rw [loopFrom_succ_ok g i k s s1 hg, loopFrom_succ_ok f i k s s1 (by rw [hfg i s hs, hg])]
      exact ih (i + 1) s1 (hinv i s s1 hs hg)

/-- A loop whose body does nothing on the states of an invariant does nothing. -/
theorem loopFrom_noop {σ : Type} (f : Nat → σ → Except Failure σ) (Inv : σ → Prop)
    (hf : ∀ j s, Inv s → f j s = .ok s) :
    ∀ (k i : Nat) (s : σ), Inv s → loopFrom f i k s = .ok s := by
  intro k
  induction k with
  | zero => intro i s _; rfl
  | succ k ih =>
    intro i s hs
    rw [loopFrom_succ_ok f i k s s (hf i s hs)]
    exact ih (i + 1) s hs

/-- A loop over `2 * n` indices whose body does nothing at odd indices is the
loop over `n` indices of the body at the even ones. -/
theorem loopFrom_even {σ : Type} (f : Nat → σ → Except Failure σ) (Inv : σ → Prop)
    (hodd : ∀ j s, Inv s → f (2 * j + 1) s = .ok s)
    (hinv : ∀ j s s1, Inv s → f (2 * j) s = .ok s1 → Inv s1) :
    ∀ (n i : Nat) (s : σ), Inv s →
      loopFrom f (2 * i) (2 * n) s = loopFrom (fun j t => f (2 * j) t) i n s := by
  intro n
  induction n with
  | zero => intro i s _; rfl
  | succ n ih =>
    intro i s hs
    have e2 : 2 * (n + 1) = (2 * n + 1) + 1 := by omega
    rw [e2]
    cases hf : f (2 * i) s with
    | error e =>
      rw [loopFrom_succ_error f (2 * i) (2 * n + 1) s e hf,
        loopFrom_succ_error (fun j t => f (2 * j) t) i n s e hf]
    | ok s1 =>
      have hs1 := hinv i s s1 hs hf
      rw [loopFrom_succ_ok f (2 * i) (2 * n + 1) s s1 hf,
        loopFrom_succ_ok f (2 * i + 1) (2 * n) s1 s1 (hodd i s1 hs1),
        loopFrom_succ_ok (fun j t => f (2 * j) t) i n s s1 hf]
      have e3 : 2 * i + 1 + 1 = 2 * (i + 1) := by omega
      rw [e3]
      exact ih (i + 1) s1 hs1

/-! ## Cells of a raster -/

theorem index_lt (W H col row : Nat) (hc : col < W) (hr : row < H) :
    row * W + col < W * H := by
  have h1 : row * W + col < (row + 1) * W := by
    rw [Nat.add_mul, Nat.one_mul]
    omega
  have h2 : (row + 1) * W ≤ H * W := Nat.mul_le_mul_right W (by omega)
  rw [Nat.mul_comm W H]
  omega

theorem index_inj (W col row col1 row1 : Nat) (hc : col < W) (hc1 : col1 < W)
    (h : row * W + col = row1 * W + col1) : col = col1 ∧ row = row1 := by
  have hW : 0 < W := by omega
  have d1 : (row * W + col) / W = row := by
    rw [Nat.add_comm, Nat.add_mul_div_right _ _ hW, Nat.div_eq_of_lt hc, Nat.zero_add]
  have d2 : (row1 * W + col1) / W = row1 := by
    rw [Nat.add_comm, Nat.add_mul_div_right _ _ hW, Nat.div_eq_of_lt hc1, Nat.zero_add]
  have m1 : (row * W + col) % W = col := by
    rw [Nat.add_comm, Nat.add_mul_mod_self_right, Nat.mod_eq_of_lt hc]
  have m2 : (row1 * W + col1) % W = col1 := by
    rw [Nat.add_comm, Nat.add_mul_mod_self_right, Nat.mod_eq_of_lt hc1]
  rw [h] at d1 m1
  exact ⟨by rw [← m1, m2], by rw [← d1, d2]⟩

theorem UArray2_wf_dims {α : Type} (a : UArray2_T α) (hwf : UArray2_wf a) :
    ∃ W H : Nat, a.width = (W : Int) ∧ a.height = (H : Int) ∧ a.elements.length = W * H := by
  obtain ⟨h1, h2, h3⟩ := hwf
  refine ⟨a.width.toNat, a.height.toNat, (Int.toNat_of_nonneg h1).symm,
    (Int.toNat_of_nonneg h2).symm, ?_⟩
  have e1 : a.width = (a.width.toNat : Int) := (Int.toNat_of_nonneg h1).symm
  have e2 : a.height = (a.height.toNat : Int) := (Int.toNat_of_nonneg h2).symm
  rw [e1, e2] at h3
  exact_mod_cast h3

theorem UArray2_at_of_dims {α : Type} (a : UArray2_T α) (W H : Nat) (hw : a.width = (W : Int))
    (hh : a.height = (H : Int)) (hlen : a.elements.length = W * H) (col row : Nat)
    (hc : col < W) (hr : row < H) :
    ∃ x, UArray2_at a (col : Int) (row : Int) = .ok x ∧ UArray2_cell a col row = some x := by
  have hidx := index_lt W H col row hc hr
  have hi : ((row : Int) * (W : Int) + (col : Int)).toNat = row * W + col := by
    have : ((row : Int) * (W : Int) + (col : Int)) = ((row * W + col : Nat) : Int) := by
      push_cast; ring
    rw [this, Int.toNat_ofNat]
  have hlt : row * W + col < a.elements.length := by rw [hlen]; exact hidx
  refine ⟨a.elements[row * W + col], ?_, ?_⟩
  · unfold UArray2_at UArray_at
    rw [hw, hh, if_neg (by omega), if_neg (by omega)]
    simp only
    rw [if_neg (by
      rw [hlen]
      have : ((row : Int) * (W : Int) + (col : Int)) = ((row * W + col : Nat) : Int) := by
        push_cast; ring
      rw [this]
      omega), hi, List.getElem?_eq_getElem hlt]
  · unfold UArray2_cell
    rw [hw, Int.toNat_ofNat, List.getElem?_eq_getElem hlt]

theorem UArray2_at_assign_of_dims {α : Type} (a : UArray2_T α) (W H : Nat)
    (hw : a.width = (W : Int)) (hh : a.height = (H : Int)) (hlen : a.elements.length = W * H)
    (col row : Nat) (hc : col < W) (hr : row < H) (v : α) :
    ∃ a1, UArray2_at_assign a (col : Int) (row : Int) v = .ok a1 ∧ a1.width = (W : Int) ∧
      a1.height = (H : Int) ∧ a1.elements.length = W * H ∧
      a1.elementSize = a.elementSize ∧
      a1.elements = a.elements.set (row * W + col) v ∧
      ∀ c r, c < W → UArray2_cell a1 c r =
        if c = col ∧ r = row then some v else UArray2_cell a c r := by
  have hidx := index_lt W H col row hc hr
  have hcast : ((row : Int) * (W : Int) + (col : Int)) = ((row * W + col : Nat) : Int) := by
    push_cast; ring
  have hi : ((row : Int) * (W : Int) + (col : Int)).toNat = row * W + col := by
    rw [hcast, Int.toNat_ofNat]
  have hlt : row * W + col < a.elements.length := by rw [hlen]; exact hidx
  refine ⟨{ a with elements := a.elements.set (row * W + col) v }, ?_, hw, hh, ?_, rfl, rfl, ?_⟩
  · unfold UArray2_at_assign
    rw [hw, hh, if_neg (by omega), if_neg (by omega)]
    simp only
    rw [if_neg (by rw [hlen, hcast]; omega), hi]
  · simp [hlen]
  · intro c r hcW
    unfold UArray2_cell
    simp only [hw, Int.toNat_ofNat]
    by_cases hcr : c = col ∧ r = row
    · obtain ⟨rfl, rfl⟩ := hcr
      simp [List.getElem?_set, hlt]
    · rw [if_neg hcr, List.getElem?_set]
      have hne : row * W + col ≠ r * W + c := by
        intro heq
        have := index_inj W col row c r hc hcW heq
        exact hcr ⟨this.1.symm, this.2.symm⟩
      rw [if_neg hne]

/-! ## Trimming -/

theorem toInt32_of_lt (n : Nat) (h : n < 2 ^ 31) : toInt32 n = (n : Int) := by
  unfold toInt32
  rw [Nat.mod_eq_of_lt (by omega), if_pos h]

theorem UArray2_new_of_dims {α : Type} (zero : α) (W H : Nat) (size : Int) (hs : 0 < size) :
    ∃ a, UArray2_new zero (W : Int) (H : Int) size = .ok a ∧ a.width = (W : Int) ∧
      a.height = (H : Int) ∧ a.elementSize = size ∧ a.elements = List.replicate (W * H) zero := by
  refine ⟨{ width := W, height := H, elementSize := size,
            elements := List.replicate (W * H) zero }, ?_, rfl, rfl, rfl, rfl⟩
  unfold UArray2_new UArray_new
  have h0 : (0 : Int) ≤ (W : Int) * (H : Int) := by positivity
  have e : ((W : Int) * (H : Int)).toNat = W * H := by
    have : ((W : Int) * (H : Int)) = ((W * H : Nat) : Int) := by push_cast; ring
    rw [this, Int.toNat_ofNat]
  rw [if_neg (by omega), if_neg (by omega)]
  simp only [e]

/-- The copy loops of `trim_image`: every cell of the new raster receives the
cell of the old raster at the same position. -/
theorem trim_copy_loops (old np0 : UArray2_T Pnm_rgb) (W H nw nh : Nat)
    (how : old.width = (W : Int)) (hoh : old.height = (H : Int))
    (holen : old.elements.length = W * H) (hnw : nw ≤ W) (hnh : nh ≤ H) (hW : W < 2 ^ 31)
    (hH : H < 2 ^ 31)
    (hw0 : np0.width = (nw : Int)) (hh0 : np0.height = (nh : Int))
    (hlen0 : np0.elements.length = nw * nh) :
    ∃ np, loopFrom (fun row np =>
        loopFrom (fun col np =>
          match UArray2_at old (toInt32 col) (toInt32 row) with
          | .error e => .error e
          | .ok old_pixel => UArray2_at_assign np (toInt32 col) (toInt32 row) old_pixel)
          0 nw np) 0 nh np0 = .ok np ∧
      np.width = (nw : Int) ∧ np.height = (nh : Int) ∧ np.elements.length = nw * nh ∧
      ∀ c r, c < nw → r < nh → UArray2_cell np c r = UArray2_cell old c r := by
  have houter := loopFrom_invariant (fun row np =>
        loopFrom (fun col np =>
          match UArray2_at old (toInt32 col) (toInt32 row) with
          | .error e => .error e
          | .ok old_pixel => UArray2_at_assign np (toInt32 col) (toInt32 row) old_pixel)
          0 nw np)
    (fun r np => np.width = (nw : Int) ∧ np.height = (nh : Int) ∧
      np.elements.length = nw * nh ∧
      ∀ c r1, c < nw → r1 < r → UArray2_cell np c r1 = UArray2_cell old c r1)
    nh 0 np0 ⟨hw0, hh0, hlen0, fun c r1 _ hr => absurd hr (Nat.not_lt_zero r1)⟩
    (by
      intro r np hr0 hr1 hP
      obtain ⟨pw, ph, plen, pcells⟩ := hP
      have hr : r < nh := by omega
      have hinner := loopFrom_invariant (fun col np =>
          match UArray2_at old (toInt32 col) (toInt32 r) with
          | .error e => .error e
          | .ok old_pixel => UArray2_at_assign np (toInt32 col) (toInt32 r) old_pixel)
        (fun c np => np.width = (nw : Int) ∧ np.height = (nh : Int) ∧
          np.elements.length = nw * nh ∧
          ∀ c1 r1, c1 < nw → (r1 < r ∨ (r1 = r ∧ c1 < c)) →
            UArray2_cell np c1 r1 = UArray2_cell old c1 r1)
        nw 0 np ⟨pw, ph, plen, fun c1 r1 hc1 h => by
          rcases h with h | ⟨_, h⟩
          · exact pcells c1 r1 hc1 h
          · exact absurd h (Nat.not_lt_zero c1)⟩
        (by
          intro c t hc0 hc1 hQ
          obtain ⟨qw, qh, qlen, qcells⟩ := hQ
          have hc : c < nw := by omega
          obtain ⟨x, hx, hxc⟩ := UArray2_at_of_dims old W H how hoh holen c r (by omega)
            (by omega)
          obtain ⟨t1, ht1, tw, th, tlen, _, _, tcells⟩ :=
            UArray2_at_assign_of_dims t nw nh qw qh qlen c r hc hr x
          refine ⟨t1, ?_, tw, th, tlen, ?_⟩
          · simp only [toInt32_of_lt c (by omega), toInt32_of_lt r (by omega), hx, ht1]
          · intro c1 r1 hc1 h
            rw [tcells c1 r1 hc1]
            by_cases hcr : c1 = c ∧ r1 = r
            · obtain ⟨rfl, rfl⟩ := hcr
              rw [if_pos ⟨rfl, rfl⟩, hxc]
            · rw [if_neg hcr]
              apply qcells c1 r1 hc1
              rcases h with h | ⟨h1, h2⟩
              · exact Or.inl h
              · right
                refine ⟨h1, ?_⟩
                by_contra hge
                exact hcr ⟨by omega, h1⟩)
      obtain ⟨t, ht, tw, th, tlen, tcells⟩ := hinner
      refine ⟨t, ht, tw, th, tlen, ?_⟩
      intro c r1 hc hr1
      apply tcells c r1 hc
      by_cases h : r1 < r
      · exact Or.inl h
      · exact Or.inr ⟨by omega, by omega⟩)
  obtain ⟨np, hnp, w1, h1, len1, cells1⟩ := houter
  exact ⟨np, hnp, w1, h1, len1, fun c r hc hr => cells1 c r hc (by omega)⟩

theorem trim_image_facts (image : Pnm_ppm) (hwf : Pnm_ppm_wf image) :
    ∃ t, trim_image image = .ok t ∧
      t.width = image.width - image.width % 2 ∧ t.height = image.height - image.height % 2 ∧
      t.denominator = image.denominator ∧ Pnm_ppm_wf t ∧
      ∀ col row, col < t.width → row < t.height →
        UArray2_cell t.pixels col row = UArray2_cell image.pixels col row := by
  obtain ⟨hpw, hph, hpwf, hW, hH⟩ := hwf
  obtain ⟨W, H, how, hoh, holen⟩ := UArray2_wf_dims image.pixels hpwf
  have eW : W = image.width := by rw [hpw] at how; exact_mod_cast how.symm
  have eH : H = image.height := by rw [hph] at hoh; exact_mod_cast hoh.symm
  subst eW
  subst eH
  have hnw : (if image.width % 2 ≠ 0 then image.width - 1 else image.width)
      = image.width - image.width % 2 := by
    split <;> omega
  have hnh : (if image.height % 2 ≠ 0 then image.height - 1 else image.height)
      = image.height - image.height % 2 := by
    split <;> omega
  obtain ⟨np0, hnew, w0, h0, _, el0⟩ := UArray2_new_of_dims Pnm_rgb_zero
    (image.width - image.width % 2) (image.height - image.height % 2) sizeof_Pnm_rgb
    (by decide)
  have len0 : np0.elements.length
      = (image.width - image.width % 2) * (image.height - image.height % 2) := by
    rw [el0, List.length_replicate]
  obtain ⟨np, hloop, w1, h1, len1, cells1⟩ := trim_copy_loops image.pixels np0 image.width
    image.height (image.width - image.width % 2) (image.height - image.height % 2) how hoh
    holen (by omega) (by omega) hW hH w0 h0 len0
  refine ⟨{ image with pixels := np, width := image.width - image.width % 2,
                       height := image.height - image.height % 2 }, ?_, rfl, rfl, rfl, ?_, ?_⟩
  · unfold trim_image
    simp only [hnw, hnh, toInt32_of_lt (image.width - image.width % 2) (by omega),
      toInt32_of_lt (image.height - image.height % 2) (by omega), hnew, hloop]
  · refine ⟨w1, h1, ⟨by rw [w1]; positivity, by rw [h1]; positivity, ?_⟩, ?_, ?_⟩
    · rw [w1, h1, len1]
      push_cast
      rfl
    · show image.width - image.width % 2 < 2 ^ 31
      omega
    · show image.height - image.height % 2 < 2 ^ 31
      omega
  · intro col row hc hr
    exact cells1 col row hc hr

theorem compress40_trim_facts (image : Pnm_ppm) (hwf : Pnm_ppm_wf image) :
    ∃ t, compress40_trim image = .ok t ∧
      t.width = image.width - image.width % 2 ∧ t.height = image.height - image.height % 2 ∧
      t.denominator = image.denominator ∧ Pnm_ppm_wf t ∧
      ∀ col row, col < t.width → row < t.height →
        UArray2_cell t.pixels col row = UArray2_cell image.pixels col row := by
  unfold compress40_trim
  by_cases h : image.width % 2 ≠ 0 ∨ image.height % 2 ≠ 0
  · rw [if_pos h]
    exact trim_image_facts image hwf
  · rw [if_neg h]
    refine ⟨image, rfl, by omega, by omega, rfl, hwf, fun _ _ _ _ => rfl⟩

theorem UArray2_at_of_wf (image : Pnm_ppm) (hwf : Pnm_ppm_wf image) (col row : Nat)
    (hc : col < image.width) (hr : row < image.height) :
    ∃ p, UArray2_at image.pixels (col : Int) (row : Int) = .ok p ∧
      UArray2_cell image.pixels col row = some p := by
  obtain ⟨hpw, hph, hpwf, _, _⟩ := hwf
  obtain ⟨W, H, how, hoh, holen⟩ := UArray2_wf_dims image.pixels hpwf
  have eW : W = image.width := by rw [hpw] at how; exact_mod_cast how.symm
  have eH : H = image.height := by rw [hph] at hoh; exact_mod_cast hoh.symm
  subst eW
  subst eH
  exact UArray2_at_of_dims image.pixels _ _ how hoh holen col row hc hr

/-- C14: for every raster of width `W` and height `H`, the raster that
`compress40` encodes has width `W - W mod 2` and height `H - H mod 2`, and
its pixel at `(col, row)` is the original pixel at `(col, row)` for every
`col` below the new width and `row` below the new height; a 1x1 image trims
to 0x0 and a 3x5 image to 2x4. -/
theorem compress40_trim_keeps_pixels (image : Pnm_ppm) (hwf : Pnm_ppm_wf image) :
    ∃ t, compress40_trim image = .ok t ∧
      t.width = image.width - image.width % 2 ∧ t.height = image.height - image.height % 2 ∧
      t.pixels.width = (t.width : Int) ∧ t.pixels.height = (t.height : Int) ∧
      (∀ col row, col < t.width → row < t.height →
        ∃ p, UArray2_at t.pixels (col : Int) (row : Int) = .ok p ∧
          UArray2_at image.pixels (col : Int) (row : Int) = .ok p) ∧
      (image.width = 1 → image.height = 1 → t.width = 0 ∧ t.height = 0) ∧
      (image.width = 3 → image.height = 5 → t.width = 2 ∧ t.height = 4) := by
  obtain ⟨t, ht, tw, th, _, twf, tcells⟩ := compress40_trim_facts image hwf
  refine ⟨t, ht, tw, th, twf.1, twf.2.1, ?_, ?_, ?_⟩
  · intro col row hc hr
    obtain ⟨p, hp, hpc⟩ := UArray2_at_of_wf t twf col row hc hr
    obtain ⟨q, hq, hqc⟩ := UArray2_at_of_wf image hwf col row (by omega) (by omega)
    have : p = q := by
      have := tcells col row hc hr
      rw [hpc, hqc] at this
      exact Option.some.inj this
    subst this
    exact ⟨p, hp, hq⟩
  · intro h1 h2
    omega
  · intro h1 h2
    omega

/-! ## The skip-filtered visit of compress40 -/

theorem loopFrom_pair {α β : Type} (c : α) (f : Nat → α × β → Except Failure (α × β))
    (g : Nat → β → Except Failure β) (N : Nat)
    (h : ∀ j o, j < N → f j (c, o) = liftPair c (g j o)) :
    ∀ (k i : Nat) (o : β), i + k ≤ N →
      loopFrom f i k (c, o) = liftPair c (loopFrom g i k o) := by
  intro k
  induction k with
  | zero => intro i o _; rfl
  | succ k ih =>
    intro i o hik
    have hfi := h i o (by omega)
    cases hg : g i o with
    | error e =>
      rw [hg] at hfi
      rw [loopFrom_succ_error g i k o e hg, loopFrom_succ_error f i k (c, o) e hfi]
      rfl
    | ok o1 =>
      rw [hg] at hfi
      rw [loopFrom_succ_ok g i k o o1 hg, loopFrom_succ_ok f i k (c, o) (c, o1) hfi]
      exact ih (i + 1) o1 (by omega)

theorem tmod_two_natCast (n : Nat) : Int.tmod (n : Int) 2 = ((n % 2 : Nat) : Int) := by
  rw [Int.tmod_eq_emod (by positivity) (by norm_num)]
  rfl

theorem applyCompress_visit_cell (arith : Arith40) (image : Pnm_ppm) (hwf : Pnm_ppm_wf image)
    (hw : image.width % 2 = 0) (hh : image.height % 2 = 0) (row col : Nat)
    (hc : col < image.width) (hr : row < image.height) (out : List Nat) :
    map_row_major_cell (applyCompress arith image) row col (image.pixels, out)
      = liftPair image.pixels (visit_cell arith image row col out) := by
  obtain ⟨p, hp, _⟩ := UArray2_at_of_wf image hwf col row hc hr
  unfold map_row_major_cell
  simp only [hp]
  unfold applyCompress visit_cell
  rw [toInt32_of_lt _ hwf.2.2.2.1, toInt32_of_lt _ hwf.2.2.2.2]
  simp only [BLOCKSIZE, Nat.cast_ofNat, tmod_two_natCast]
  by_cases hodd : col % 2 ≠ 0 ∨ row % 2 ≠ 0
  · rw [if_pos hodd]
    by_cases hg : (col : Int) + 2 - 1 ≥ (image.width : Int)
        ∨ (row : Int) + 2 - 1 ≥ (image.height : Int)
    · rw [if_pos hg]
      rfl
    · rw [if_neg hg, if_pos (by
        rcases hodd with h | h
        · left; exact_mod_cast h
        · right; exact_mod_cast h)]
      rfl
  · rw [if_neg hodd]
    have hce : col % 2 = 0 := by omega
    have hre : row % 2 = 0 := by omega
    rw [if_neg (by omega), if_neg (by
      intro h
      rcases h with h | h
      · exact absurd (by exact_mod_cast h) (by omega : ¬ col % 2 ≠ 0)
      · exact absurd (by exact_mod_cast h) (by omega : ¬ row % 2 ≠ 0))]
    cases hcb : compress_block arith image image.pixels (col : Int) (row : Int) with
    | error e => rfl
    | ok cw =>
      simp only
      cases hpc : print_codeword cw out with
      | error e => rfl
      | ok o1 => rfl

theorem visit_cell_odd_row (arith : Arith40) (image : Pnm_ppm) (row : Nat) (hr : row % 2 ≠ 0)
    (col : Nat) (out : List Nat) : visit_cell arith image row col out = .ok out := by
  unfold visit_cell
  rw [if_pos (Or.inr hr)]

theorem visit_cell_odd_col (arith : Arith40) (image : Pnm_ppm) (row j : Nat) (out : List Nat) :
    visit_cell arith image row (2 * j + 1) out = .ok out := by
  unfold visit_cell
  rw [if_pos (Or.inl (by omega))]

theorem visit_cell_even (arith : Arith40) (image : Pnm_ppm) (i j : Nat) (out : List Nat) :
    visit_cell arith image (2 * i) (2 * j) out = block_indexed_cell arith image i j out := by
  unfold visit_cell block_indexed_cell
  rw [if_neg (by omega)]

/-- The skip-filtered row-major visit of an even raster is the block-indexed
loop. -/
theorem map_row_major_applyCompress (arith : Arith40) (image : Pnm_ppm)
    (hwf : Pnm_ppm_wf image) (hw : image.width % 2 = 0) (hh : image.height % 2 = 0)
    (out : List Nat) :
    UArray2_map_row_major image.pixels (applyCompress arith image) out =
      liftPair image.pixels (block_indexed_compress arith image out) := by
  have hpw := hwf.1
  have hph := hwf.2.1
  unfold UArray2_map_row_major
  rw [hpw, hph, Int.toNat_ofNat, Int.toNat_ofNat]
  have hrow : ∀ row o, row < image.height →
      map_row_major_row (applyCompress arith image) image.width row (image.pixels, o)
      = liftPair image.pixels (loopFrom (visit_cell arith image row) 0 image.width o) := by
    intro row o hr
    unfold map_row_major_row
    exact loopFrom_pair image.pixels _ _ image.width
      (fun j o1 hj => applyCompress_visit_cell arith image hwf hw hh row j hj hr o1)
      image.width 0 o (by omega)
  rw [loopFrom_pair image.pixels (map_row_major_row (applyCompress arith image) image.width)
    (fun row o => loopFrom (visit_cell arith image row) 0 image.width o)
    image.height (fun j o hj => hrow j o hj) image.height 0 out (by omega)]
  congr 1
  have hwn : image.width = 2 * (image.width / 2) := by omega
  have hhn : image.height = 2 * (image.height / 2) := by omega
  have hodd : ∀ i o, loopFrom (visit_cell arith image (2 * i + 1)) 0 image.width o = .ok o := by
    intro i o
    exact loopFrom_noop _ (fun _ => True)
      (fun j s _ => visit_cell_odd_row arith image (2 * i + 1) (by omega) j s)
      image.width 0 o trivial
  have heven : ∀ i o, loopFrom (visit_cell arith image (2 * i)) 0 image.width o
      = block_indexed_row arith image i o := by
    intro i o
    unfold block_indexed_row
    have h0 : (0 : Nat) = 2 * 0 := rfl
    conv_lhs => rw [hwn, h0]
    rw [loopFrom_even (visit_cell arith image (2 * i)) (fun _ => True)
      (fun j s _ => visit_cell_odd_col arith image (2 * i) j s) (fun _ _ _ _ _ => trivial)
      (image.width / 2) 0 o trivial]
    exact loopFrom_congr _ _ (fun _ => True)
      (fun j s _ => visit_cell_even arith image i j s) (fun _ _ _ _ _ => trivial)
      (image.width / 2) 0 o trivial
  unfold block_indexed_compress
  have h0 : (0 : Nat) = 2 * 0 := rfl
  conv_lhs => rw [hhn, h0]
  rw [loopFrom_even (fun row o => loopFrom (visit_cell arith image row) 0 image.width o)
    (fun _ => True) (fun j s _ => hodd j s) (fun _ _ _ _ _ => trivial)
    (image.height / 2) 0 out trivial]
  exact loopFrom_congr _ _ (fun _ => True) (fun j s _ => heven j s)
    (fun _ _ _ _ _ => trivial) (image.height / 2) 0 out trivial

/-! ## Quantization bounds and the success of the encode chain -/

theorem clamp_bounds (v lo hi : ℚ) (h : lo ≤ hi) : lo ≤ clamp v lo hi ∧ clamp v lo hi ≤ hi := by
  unfold clamp
  split
  · exact ⟨le_refl _, h⟩
  · split
    · exact ⟨h, le_refl _⟩
    · constructor <;> linarith

theorem round_half_away_bounds (x : ℚ) (n : Nat) (h1 : -(n : ℚ) ≤ x) (h2 : x ≤ (n : ℚ)) :
    -(n : Int) ≤ round_half_away x ∧ round_half_away x ≤ (n : Int) := by
  unfold round_half_away
  by_cases hx : x ≥ 0
  · rw [if_pos hx]
    have hlo : (0 : Int) ≤ ⌊x + 1 / 2⌋ := Int.floor_nonneg.mpr (by linarith)
    have hhi : ⌊x + 1 / 2⌋ < (n : Int) + 1 := by
      rw [Int.floor_lt]
      push_cast
      linarith
    omega
  · rw [if_neg hx]
    have hx' : x < 0 := lt_of_not_ge hx
    have hlo : (0 : Int) ≤ ⌊-x + 1 / 2⌋ := Int.floor_nonneg.mpr (by linarith)
    have hhi : ⌊-x + 1 / 2⌋ < (n : Int) + 1 := by
      rw [Int.floor_lt]
      push_cast
      linarith
    omega

theorem round_half_away_nonneg (x : ℚ) (h : 0 ≤ x) : 0 ≤ round_half_away x := by
  unfold round_half_away
  rw [if_pos h]
  exact Int.floor_nonneg.mpr (by linarith)

/-- The quantized coefficients stored by `abcd_quantization` fit their
fields. -/
theorem abcd_quantization_bounds (block : Block_Pixel_Info) :
    (0 ≤ (abcd_quantization block).quantized_abcd 0 ∧
      (abcd_quantization block).quantized_abcd 0 ≤ 511) ∧
    (-15 ≤ (abcd_quantization block).quantized_abcd 1 ∧
      (abcd_quantization block).quantized_abcd 1 ≤ 15) ∧
    (-15 ≤ (abcd_quantization block).quantized_abcd 2 ∧
      (abcd_quantization block).quantized_abcd 2 ≤ 15) ∧
    (-15 ≤ (abcd_quantization block).quantized_abcd 3 ∧
      (abcd_quantization block).quantized_abcd 3 ≤ 15) := by
  have ha := clamp_bounds (block.discreteCosineArr 0) 0.0 1.0 (by norm_num)
  have hb := clamp_bounds (block.discreteCosineArr 1) (-0.3) 0.3 (by norm_num)
  have hc := clamp_bounds (block.discreteCosineArr 2) (-0.3) 0.3 (by norm_num)
  have hd := clamp_bounds (block.discreteCosineArr 3) (-0.3) 0.3 (by norm_num)
  have ra := round_half_away_bounds (clamp (block.discreteCosineArr 0) 0.0 1.0 * 511.0) 511
    (by push_cast; nlinarith [ha.1, ha.2]) (by push_cast; nlinarith [ha.1, ha.2])
  have ra0 := round_half_away_nonneg (clamp (block.discreteCosineArr 0) 0.0 1.0 * 511.0)
    (by nlinarith [ha.1, ha.2])
  have rb := round_half_away_bounds (clamp (block.discreteCosineArr 1) (-0.3) 0.3 * 50.0) 15
    (by push_cast; nlinarith [hb.1, hb.2]) (by push_cast; nlinarith [hb.1, hb.2])
  have rc := round_half_away_bounds (clamp (block.discreteCosineArr 2) (-0.3) 0.3 * 50.0) 15
    (by push_cast; nlinarith [hc.1, hc.2]) (by push_cast; nlinarith [hc.1, hc.2])
  have rd := round_half_away_bounds (clamp (block.discreteCosineArr 3) (-0.3) 0.3 * 50.0) 15
    (by push_cast; nlinarith [hd.1, hd.2]) (by push_cast; nlinarith [hd.1, hd.2])
  have qa : toInt32 (round_half_away (clamp (block.discreteCosineArr 0) 0.0 1.0 * 511.0)).toNat
      = round_half_away (clamp (block.discreteCosineArr 0) 0.0 1.0 * 511.0) := by
    rw [toInt32_of_lt _ (by omega)]
    exact Int.toNat_of_nonneg ra0
  simp only [abcd_quantization, Function.update, qa]
  simp
  refine ⟨⟨ra0, ra.2⟩, ?_, ?_, ?_⟩
  · exact_mod_cast rb
  · exact_mod_cast rc
  · exact_mod_cast rd

/-- The loop of `applyCompress` reads the four pixels of an in-bounds block:
sample `i` comes from the pixel at `(col + i mod 2, row + i div 2)`. -/
theorem applyCompress_loop_ok (image : Pnm_ppm) (hwf : Pnm_ppm_wf image) (col row : Nat)
    (hc : col + 1 < image.width) (hr : row + 1 < image.height) :
    ∃ p0 p1 p2 p3,
      UArray2_at image.pixels (col : Int) (row : Int) = .ok p0 ∧
      UArray2_at image.pixels ((col + 1 : Nat) : Int) (row : Int) = .ok p1 ∧
      UArray2_at image.pixels (col : Int) ((row + 1 : Nat) : Int) = .ok p2 ∧
      UArray2_at image.pixels ((col + 1 : Nat) : Int) ((row + 1 : Nat) : Int) = .ok p3 ∧
      applyCompress_loop image image.pixels (col : Int) (row : Int) 0 (BLOCKSIZE * BLOCKSIZE)
          Block_Pixel_Info_zero = .ok (block_of_pixels image.denominator p0 p1 p2 p3) := by
  obtain ⟨p0, h0, _⟩ := UArray2_at_of_wf image hwf col row (by omega) (by omega)
  obtain ⟨p1, h1, _⟩ := UArray2_at_of_wf image hwf (col + 1) row (by omega) (by omega)
  obtain ⟨p2, h2, _⟩ := UArray2_at_of_wf image hwf col (row + 1) (by omega) (by omega)
  obtain ⟨p3, h3, _⟩ := UArray2_at_of_wf image hwf (col + 1) (row + 1) (by omega) (by omega)
  refine ⟨p0, p1, p2, p3, h0, h1, h2, h3, ?_⟩
  have e0 : (col : Int) + ((0 % 2 : Nat) : Int) = (col : Int) := by simp
  have e1 : (col : Int) + ((1 % 2 : Nat) : Int) = ((col + 1 : Nat) : Int) := by simp
  have f0 : (row : Int) + ((0 / 2 : Nat) : Int) = (row : Int) := by simp
  have f1 : (row : Int) + ((1 / 2 : Nat) : Int) = (row : Int) := by simp
  have e2 : (col : Int) + ((2 % 2 : Nat) : Int) = (col : Int) := by simp
  have f2 : (row : Int) + ((2 / 2 : Nat) : Int) = ((row + 1 : Nat) : Int) := by simp
  have e3 : (col : Int) + ((3 % 2 : Nat) : Int) = ((col + 1 : Nat) : Int) := by simp
  have f3 : (row : Int) + ((3 / 2 : Nat) : Int) = ((row + 1 : Nat) : Int) := by simp
  simp only [BLOCKSIZE, applyCompress_loop, Nat.reduceMul, Nat.zero_add, Nat.reduceAdd,
    e0, e1, e2, e3, f0, f1, f2, f3, h0, h1, h2, h3, block_of_pixels]

/-- The encode chain of an in-bounds block succeeds when the chroma lookup
returns indices below 16. -/
theorem compress_block_ok (arith : Arith40) (harith : ∀ x, arith.Arith40_index_of_chroma x ≤ 15)
    (image : Pnm_ppm) (hwf : Pnm_ppm_wf image) (col row : Nat)
    (hc : col + 1 < image.width) (hr : row + 1 < image.height) :
    ∃ codeword, compress_block arith image image.pixels (col : Int) (row : Int) = .ok codeword := by
  obtain ⟨p0, p1, p2, p3, _, _, _, _, hloop⟩ := applyCompress_loop_ok image hwf col row hc hr
  unfold compress_block
  rw [hloop]
  simp only
  generalize hb : discrete_Cosine_Transform _ = blk
  have hq := abcd_quantization_bounds blk
  have hcq : ∀ b : Block_Pixel_Info,
      (chroma_quantization arith b).quantized_abcd = b.quantized_abcd := fun _ => rfl
  have hpb : ∀ b : Block_Pixel_Info, (chroma_quantization arith b).pb_chromaIndex ≤ 15 :=
    fun b => harith _
  have hpr : ∀ b : Block_Pixel_Info, (chroma_quantization arith b).pr_chromaIndex ≤ 15 :=
    fun b => harith _
  rw [hcq]
  exact ⟨_, pack_codeword_eq _ _ _ _ _ _ hq.1.1 hq.1.2 (by omega) (by omega) (by omega)
    (by omega) (by omega) (by omega) (hpb _) (hpr _)⟩

/-! ## The codeword stream -/

theorem print_codeword_bytes (codeword : Nat) (out : List Nat) :
    print_codeword codeword out = .ok (out ++ codeword_bytes codeword) :=
  print_codeword_loop_eq codeword out

theorem flatMap_range_succ {β : Type} (f : Nat → List β) (n : Nat) :
    (List.range (n + 1)).flatMap f = (List.range n).flatMap f ++ f n := by
  rw [List.range_succ, List.flatMap_append, List.flatMap_singleton]

/-- The block-indexed loop appends the codewords in block order when every
block of the raster encodes to the given codeword. -/
theorem block_indexed_compress_stream (arith : Arith40) (image : Pnm_ppm)
    (codewords : Nat → Nat → Nat)
    (hok : ∀ bx by1, bx < image.width / 2 → by1 < image.height / 2 →
      compress_block arith image image.pixels ((2 * bx : Nat) : Int) ((2 * by1 : Nat) : Int)
        = .ok (codewords bx by1))
    (out : List Nat) :
    block_indexed_compress arith image out =
      .ok (out ++ codeword_stream codewords (image.width / 2) (image.height / 2)) := by
  have hrow : ∀ by1 o, by1 < image.height / 2 →
      block_indexed_row arith image by1 o =
        .ok (o ++ (List.range (image.width / 2)).flatMap (fun bx =>
          codeword_bytes (codewords bx by1))) := by
    intro by1 o hby
    obtain ⟨s1, hs1, hP⟩ := loopFrom_invariant (block_indexed_cell arith image by1)
      (fun j o1 => o1 = o ++ (List.range j).flatMap (fun bx =>
        codeword_bytes (codewords bx by1)))
      (image.width / 2) 0 o (by simp)
      (by
        intro j t _ hj ht
        refine ⟨t ++ codeword_bytes (codewords j by1), ?_, ?_⟩
        · unfold block_indexed_cell
          rw [hok j by1 (by omega) hby]
          exact print_codeword_bytes _ _
        · show _ = _
          rw [ht, flatMap_range_succ, List.append_assoc])
    unfold block_indexed_row
    rw [hs1, hP, Nat.zero_add]
  obtain ⟨s1, hs1, hP⟩ := loopFrom_invariant (block_indexed_row arith image)
    (fun i o1 => o1 = out ++ codeword_stream codewords (image.width / 2) i)
    (image.height / 2) 0 out (by simp [codeword_stream])
    (by
      intro i t _ hi ht
      refine ⟨_, hrow i t (by omega), ?_⟩
      show _ = _
      rw [ht]
      unfold codeword_stream
      rw [flatMap_range_succ, List.append_assoc])
  unfold block_indexed_compress
  rw [hs1, hP, Nat.zero_add]

theorem codeword_stream_length (codewords : Nat → Nat → Nat) (n m : Nat) :
    (codeword_stream codewords n m).length = 4 * (n * m) := by
  have hinner : ∀ by1 k, ((List.range k).flatMap (fun bx =>
      codeword_bytes (codewords bx by1))).length = 4 * k := by
    intro by1 k
    induction k with
    | zero => rfl
    | succ k ih =>
      rw [flatMap_range_succ, List.length_append, ih]
      simp [codeword_bytes]
      omega
  unfold codeword_stream
  induction m with
  | zero => rfl
  | succ m ih =>
    rw [flatMap_range_succ, List.length_append, ih, hinner]
    rw [Nat.mul_succ]
    omega

theorem block_codeword_eq (arith : Arith40)
    (harith : ∀ x, arith.Arith40_index_of_chroma x ≤ 15) (image : Pnm_ppm)
    (hwf : Pnm_ppm_wf image) (hw : image.width % 2 = 0) (hh : image.height % 2 = 0)
    (bx by1 : Nat) (hbx : bx < image.width / 2) (hby : by1 < image.height / 2) :
    compress_block arith image image.pixels ((2 * bx : Nat) : Int) ((2 * by1 : Nat) : Int)
      = .ok (block_codeword arith image bx by1) := by
  obtain ⟨cw, hcw⟩ := compress_block_ok arith harith image hwf (2 * bx) (2 * by1) (by omega)
    (by omega)
  unfold block_codeword
  rw [hcw]

/-- The bytes that `compress40` writes for an image that needs no trimming. -/
theorem compress40_even (arith : Arith40) (harith : ∀ x, arith.Arith40_index_of_chroma x ≤ 15)
    (image : Pnm_ppm) (hwf : Pnm_ppm_wf image) (hw : image.width % 2 = 0)
    (hh : image.height % 2 = 0) :
    compress40 arith image =
      .ok (compress40_header image.width image.height ++
        codeword_stream (block_codeword arith image) (image.width / 2) (image.height / 2)) := by
  unfold compress40 compress40_trim
  rw [if_neg (by omega)]
  simp only
  rw [map_row_major_applyCompress arith image hwf hw hh,
    block_indexed_compress_stream arith image (block_codeword arith image)
      (fun bx by1 hbx hby => block_codeword_eq arith harith image hwf hw hh bx by1 hbx hby)]
  rfl

theorem ite_le_of {c : Prop} [Decidable c] {a b n : Nat} (ha : a ≤ n) (hb : b ≤ n) :
    (if c then a else b) ≤ n := by
  split <;> assumption

theorem sample_arith_index_le (x : ℚ) : sample_arith.Arith40_index_of_chroma x ≤ 15 := by
  show sample_index_of_chroma x ≤ 15
  unfold sample_index_of_chroma
  repeat' apply ite_le_of
  all_goals decide

theorem sample_image_3x5_wf : Pnm_ppm_wf sample_image_3x5 := by
  unfold Pnm_ppm_wf UArray2_wf sample_image_3x5 Pnm_ppm_of
  refine ⟨rfl, rfl, ⟨by decide, by decide, by decide⟩, by decide, by decide⟩

/-- The nested block order is the order of the block number
`k = block_row * block_cols + block_col`. -/
theorem codeword_stream_flat (codewords : Nat → Nat → Nat) (n m : Nat) :
    codeword_stream codewords n m =
      (List.range (n * m)).flatMap (fun k => codeword_bytes (codewords (k % n) (k / n))) := by
  unfold codeword_stream
  induction m with
  | zero => rfl
  | succ m ih =>
    rw [flatMap_range_succ, ih, Nat.mul_succ, List.range_add, List.flatMap_append,
      List.flatMap_map]
    congr 1
    apply List.flatMap_congr
    intro x hx
    have hxn : x < n := List.mem_range.mp hx
    have e1 : (n * m + x) % n = x := by rw [Nat.mul_add_mod, Nat.mod_eq_of_lt hxn]
    have e2 : (n * m + x) / n = m := by
      rw [Nat.mul_add_div (by omega), Nat.div_eq_of_lt hxn, Nat.add_zero]
    rw [e1, e2]

/-- The bytes that `compress40` writes: the header of the trimmed dimensions
and the codewords of the trimmed raster in block order. -/
theorem compress40_stream (arith : Arith40)
    (harith : ∀ x, arith.Arith40_index_of_chroma x ≤ 15) (image : Pnm_ppm)
    (hwf : Pnm_ppm_wf image) :
    ∃ t, compress40_trim image = .ok t ∧
      t.width = image.width - image.width % 2 ∧ t.height = image.height - image.height % 2 ∧
      t.denominator = image.denominator ∧ Pnm_ppm_wf t ∧
      (∀ col row, col < t.width → row < t.height →
        UArray2_cell t.pixels col row = UArray2_cell image.pixels col row) ∧
      compress40 arith image =
        .ok (compress40_header t.width t.height ++
          codeword_stream (block_codeword arith t) (t.width / 2) (t.height / 2)) := by
  obtain ⟨t, ht, tw, th, td, twf, tcells⟩ := compress40_trim_facts image hwf
  refine ⟨t, ht, tw, th, td, twf, tcells, ?_⟩
  have hw : t.width % 2 = 0 := by omega
  have hh : t.height % 2 = 0 := by omega
  unfold compress40
  rw [ht]
  simp only
  rw [map_row_major_applyCompress arith t twf hw hh,
    block_indexed_compress_stream arith t (block_codeword arith t)
      (fun bx by1 hbx hby => block_codeword_eq arith harith t twf hw hh bx by1 hbx hby)]
  rfl

/-- C12: for every input raster of width `W` and height `H`, the bytes
written by `compress40` are the header
`"COMP40 Compressed image format 2\n<w> <h>\n"` with `w = W - W mod 2` and
`h = H - H mod 2` in decimal, followed by exactly `(w/2)*(h/2)` codewords of
four bytes each; a raster trimmed to 0x0 gives the header with `0 0` and no
codeword. -/
theorem compress40_output_format (arith : Arith40)
    (harith : ∀ x, arith.Arith40_index_of_chroma x ≤ 15) (image : Pnm_ppm)
    (hwf : Pnm_ppm_wf image) :
    ∃ codewords : Nat → Nat → Nat,
      compress40 arith image =
        .ok (string_bytes "COMP40 Compressed image format 2\n"
          ++ string_bytes (Nat.repr (image.width - image.width % 2)) ++ string_bytes " "
          ++ string_bytes (Nat.repr (image.height - image.height % 2)) ++ string_bytes "\n"
          ++ codeword_stream codewords ((image.width - image.width % 2) / 2)
              ((image.height - image.height % 2) / 2)) ∧
      (codeword_stream codewords ((image.width - image.width % 2) / 2)
          ((image.height - image.height % 2) / 2)).length
        = 4 * (((image.width - image.width % 2) / 2) * ((image.height - image.height % 2) / 2)) ∧
      (image.width - image.width % 2 = 0 → image.height - image.height % 2 = 0 →
        compress40 arith image = .ok (string_bytes "COMP40 Compressed image format 2\n0 0\n")) := by
  obtain ⟨t, _, tw, th, _, _, _, hc⟩ := compress40_stream arith harith image hwf
  rw [tw, th] at hc
  refine ⟨block_codeword arith t, ?_, codeword_stream_length _ _ _, ?_⟩
  · rw [hc]
    rfl
  · intro h1 h2
    have e : compress40_header 0 0 = string_bytes "COMP40 Compressed image format 2\n0 0\n" := by
      decide
    rw [hc, h1, h2, e]
    simp [codeword_stream]

theorem compress40_output_format_witness :
    (∀ x, sample_arith.Arith40_index_of_chroma x ≤ 15) ∧ Pnm_ppm_wf sample_image_3x5 ∧
    ∃ codewords : Nat → Nat → Nat,
      compress40 sample_arith sample_image_3x5 =
        .ok (string_bytes "COMP40 Compressed image format 2\n"
          ++ string_bytes (Nat.repr (sample_image_3x5.width - sample_image_3x5.width % 2))
          ++ string_bytes " "
          ++ string_bytes (Nat.repr (sample_image_3x5.height - sample_image_3x5.height % 2))
          ++ string_bytes "\n"
          ++ codeword_stream codewords
              ((sample_image_3x5.width - sample_image_3x5.width % 2) / 2)
              ((sample_image_3x5.height - sample_image_3x5.height % 2) / 2)) ∧
      (codeword_stream codewords ((sample_image_3x5.width - sample_image_3x5.width % 2) / 2)
          ((sample_image_3x5.height - sample_image_3x5.height % 2) / 2)).length
        = 4 * (((sample_image_3x5.width - sample_image_3x5.width % 2) / 2)
            * ((sample_image_3x5.height - sample_image_3x5.height % 2) / 2)) ∧
      (sample_image_3x5.width - sample_image_3x5.width % 2 = 0 →
        sample_image_3x5.height - sample_image_3x5.height % 2 = 0 →
        compress40 sample_arith sample_image_3x5
          = .ok (string_bytes "COMP40 Compressed image format 2\n0 0\n")) :=
  ⟨sample_arith_index_le, sample_image_3x5_wf,
    compress40_output_format sample_arith sample_arith_index_le sample_image_3x5
      sample_image_3x5_wf⟩

theorem compress40_trim_keeps_pixels_witness :
    Pnm_ppm_wf sample_image_3x5 ∧
    ∃ t, compress40_trim sample_image_3x5 = .ok t ∧
      t.width = sample_image_3x5.width - sample_image_3x5.width % 2 ∧
      t.height = sample_image_3x5.height - sample_image_3x5.height % 2 ∧
      t.pixels.width = (t.width : Int) ∧ t.pixels.height = (t.height : Int) ∧
      (∀ col row, col < t.width → row < t.height →
        ∃ p, UArray2_at t.pixels (col : Int) (row : Int) = .ok p ∧
          UArray2_at sample_image_3x5.pixels (col : Int) (row : Int) = .ok p) ∧
      (sample_image_3x5.width = 1 → sample_image_3x5.height = 1 → t.width = 0 ∧ t.height = 0) ∧
      (sample_image_3x5.width = 3 → sample_image_3x5.height = 5 →
        t.width = 2 ∧ t.height = 4) :=
  ⟨sample_image_3x5_wf, compress40_trim_keeps_pixels sample_image_3x5 sample_image_3x5_wf⟩

theorem sample_image_4x2_wf : Pnm_ppm_wf sample_image_4x2 := by
  unfold Pnm_ppm_wf UArray2_wf sample_image_4x2 Pnm_ppm_of
  refine ⟨rfl, rfl, ⟨by decide, by decide, by decide⟩, by decide, by decide⟩

/-- C15: for a raster of even width `w` and height `h`, the skip-filtered
row-major visit (`UArray2_map_row_major` driving `applyCompress`) is the
block-indexed loop over block rows, then block columns: it appends the
codewords of the blocks with origins `(2*bx, 2*by)` for `by = 0..h/2-1`
(outer) and `bx = 0..w/2-1` (inner), so that codeword `k` is the one of the
block with origin `(2*(k mod (w/2)), 2*(k div (w/2)))`. -/
theorem applyCompress_block_order (arith : Arith40)
    (harith : ∀ x, arith.Arith40_index_of_chroma x ≤ 15) (image : Pnm_ppm)
    (hwf : Pnm_ppm_wf image) (hw : image.width % 2 = 0) (hh : image.height % 2 = 0)
    (out : List Nat) :
    UArray2_map_row_major image.pixels (applyCompress arith image) out =
      liftPair image.pixels (block_indexed_compress arith image out) ∧
    (∀ bx by1, bx < image.width / 2 → by1 < image.height / 2 →
      compress_block arith image image.pixels ((2 * bx : Nat) : Int) ((2 * by1 : Nat) : Int)
        = .ok (block_codeword arith image bx by1)) ∧
    UArray2_map_row_major image.pixels (applyCompress arith image) out =
      .ok (image.pixels,
        out ++ codeword_stream (block_codeword arith image) (image.width / 2)
          (image.height / 2)) ∧
    codeword_stream (block_codeword arith image) (image.width / 2) (image.height / 2) =
      (List.range (image.width / 2 * (image.height / 2))).flatMap (fun k =>
        codeword_bytes (block_codeword arith image (k % (image.width / 2))
          (k / (image.width / 2)))) := by
  have hok := fun bx by1 hbx hby =>
    block_codeword_eq arith harith image hwf hw hh bx by1 hbx hby
  refine ⟨map_row_major_applyCompress arith image hwf hw hh out, hok, ?_,
    codeword_stream_flat _ _ _⟩
  rw [map_row_major_applyCompress arith image hwf hw hh out,
    block_indexed_compress_stream arith image _ hok]
  rfl

theorem applyCompress_block_order_witness :
    (∀ x, sample_arith.Arith40_index_of_chroma x ≤ 15) ∧
    Pnm_ppm_wf sample_image_4x2 ∧ sample_image_4x2.width % 2 = 0 ∧
    sample_image_4x2.height % 2 = 0 ∧
    (UArray2_map_row_major sample_image_4x2.pixels (applyCompress sample_arith sample_image_4x2)
        [] =
      liftPair sample_image_4x2.pixels
        (block_indexed_compress sample_arith sample_image_4x2 []) ∧
    (∀ bx by1, bx < sample_image_4x2.width / 2 → by1 < sample_image_4x2.height / 2 →
      compress_block sample_arith sample_image_4x2 sample_image_4x2.pixels
        ((2 * bx : Nat) : Int) ((2 * by1 : Nat) : Int)
        = .ok (block_codeword sample_arith sample_image_4x2 bx by1)) ∧
    UArray2_map_row_major sample_image_4x2.pixels
        (applyCompress sample_arith sample_image_4x2) [] =
      .ok (sample_image_4x2.pixels,
        [] ++ codeword_stream (block_codeword sample_arith sample_image_4x2)
          (sample_image_4x2.width / 2) (sample_image_4x2.height / 2)) ∧
    codeword_stream (block_codeword sample_arith sample_image_4x2)
        (sample_image_4x2.width / 2) (sample_image_4x2.height / 2) =
      (List.range (sample_image_4x2.width / 2 * (sample_image_4x2.height / 2))).flatMap
        (fun k => codeword_bytes (block_codeword sample_arith sample_image_4x2
          (k % (sample_image_4x2.width / 2)) (k / (sample_image_4x2.width / 2))))) :=
  ⟨sample_arith_index_le, sample_image_4x2_wf, by decide, by decide,
    applyCompress_block_order sample_arith sample_arith_index_le sample_image_4x2
      sample_image_4x2_wf (by decide) (by decide) []⟩

/-! ## Range of the decompressed pixels -/

/-- Partial correctness of a counting loop: a predicate that every iteration
keeps holds at the end. -/
theorem loopFrom_preserves {σ : Type} (f : Nat → σ → Except Failure σ) (Inv : σ → Prop)
    (h : ∀ j s s1, Inv s → f j s = .ok s1 → Inv s1) :
    ∀ (k i : Nat) (s s1 : σ), Inv s → loopFrom f i k s = .ok s1 → Inv s1 := by
  intro k
  induction k with
  | zero =>
    intro i s s1 hs hl
    have : s = s1 := by simpa [loopFrom] using hl
    rw [← this]
    exact hs
  | succ k ih =>
    intro i s s1 hs hl
    cases hf : f i s with
    | error e =>
      rw [loopFrom_succ_error f i k s e hf] at hl
      exact absurd hl (by simp)
    | ok s2 =>
      rw [loopFrom_succ_ok f i k s s2 hf] at hl
      exact ih (i + 1) s2 s1 (h i s s2 hs hf) hl

theorem ComponentVideo_to_RGB_le (pb_mean pr_mean : ℚ) (compvid : ComponentVideo)
    (denominator : Nat) (pixel : Pnm_rgb) :
    (ComponentVideo_to_RGB pb_mean pr_mean compvid denominator pixel).red ≤ denominator ∧
    (ComponentVideo_to_RGB pb_mean pr_mean compvid denominator pixel).green ≤ denominator ∧
    (ComponentVideo_to_RGB pb_mean pr_mean compvid denominator pixel).blue ≤ denominator := by
  simp only [ComponentVideo_to_RGB]
  exact ⟨float_to_unsigned_le _ _ (clamp_le _ _), float_to_unsigned_le _ _ (clamp_le _ _),
    float_to_unsigned_le _ _ (clamp_le _ _)⟩

theorem UArray2_at_assign_in_range (uarray2 uarray21 : UArray2_T Pnm_rgb) (col row : Int)
    (v : Pnm_rgb) (hv : v.red ≤ 255 ∧ v.green ≤ 255 ∧ v.blue ≤ 255)
    (h : pixels_in_range uarray2)
    (ha : UArray2_at_assign uarray2 col row v = .ok uarray21) : pixels_in_range uarray21 := by
  unfold UArray2_at_assign at ha
  split at ha
  · exact absurd ha (by simp)
  · split at ha
    · exact absurd ha (by simp)
    · simp only at ha
      split at ha
      · exact absurd ha (by simp)
      · cases ha
        intro p hp
        rcases List.mem_or_eq_of_mem_set hp with h1 | h1
        · exact h p h1
        · rw [h1]; exact hv

theorem applyDecompress_loop_in_range (block : Block_Pixel_Info) (col row : Int) :
    ∀ (k block_i : Nat) (uarray2 uarray21 : UArray2_T Pnm_rgb), pixels_in_range uarray2 →
      applyDecompress_loop block col row block_i k uarray2 = .ok uarray21 →
      pixels_in_range uarray21 := by
  intro k
  induction k with
  | zero =>
    intro block_i uarray2 uarray21 h hl
    have : uarray2 = uarray21 := by simpa [applyDecompress_loop] using hl
    rw [← this]
    exact h
  | succ k ih =>
    intro block_i uarray2 uarray21 h hl
    unfold applyDecompress_loop at hl
    simp only at hl
    split at hl
    · exact absurd hl (by simp)
    · split at hl
      · exact absurd hl (by simp)
      · rename_i _ pixel _ _ u1 hassign
        exact ih (block_i + 1) u1 uarray21
          (UArray2_at_assign_in_range uarray2 u1 _ _ _
            (ComponentVideo_to_RGB_le _ _ _ 255 _) h hassign) hl

theorem applyDecompress_in_range (arith : Arith40) (col row : Int)
    (uarray2 : UArray2_T Pnm_rgb) (elem : Pnm_rgb) (input : List Nat)
    (st : UArray2_T Pnm_rgb × List Nat) (h : pixels_in_range uarray2)
    (ha : applyDecompress arith col row uarray2 elem input = .ok st) :
    pixels_in_range st.1 := by
  unfold applyDecompress at ha
  split at ha
  · cases ha
    exact h
  · split at ha
    · exact absurd ha (by simp)
    · split at ha
      · exact absurd ha (by simp)
      · split at ha
        · exact absurd ha (by simp)
        · split at ha
          · exact absurd ha (by simp)
          · rename_i _ _ _ _ _ _ _ _ u1 hloop
            cases ha
            exact applyDecompress_loop_in_range _ col row _ 0 uarray2 u1 h hloop

theorem map_row_major_applyDecompress_in_range (arith : Arith40) (uarray2 : UArray2_T Pnm_rgb)
    (input : List Nat) (st : UArray2_T Pnm_rgb × List Nat) (h : pixels_in_range uarray2)
    (hm : UArray2_map_row_major uarray2 (applyDecompress arith) input = .ok st) :
    pixels_in_range st.1 := by
  unfold UArray2_map_row_major at hm
  refine loopFrom_preserves (map_row_major_row (applyDecompress arith) uarray2.width.toNat)
    (fun s => pixels_in_range s.1) ?_ _ 0 (uarray2, input) st h hm
  intro row s s1 hs hrow
  unfold map_row_major_row at hrow
  refine loopFrom_preserves (map_row_major_cell (applyDecompress arith) row)
    (fun s => pixels_in_range s.1) ?_ _ 0 s s1 hs hrow
  intro col t t1 ht hcell
  unfold map_row_major_cell at hcell
  split at hcell
  · exact absurd hcell (by simp)
  · exact applyDecompress_in_range arith _ _ t.1 _ t.2 t1 ht hcell

theorem UArray2_new_in_range (width height size : Int) (a : UArray2_T Pnm_rgb)
    (h : UArray2_new Pnm_rgb_zero width height size = .ok a) : pixels_in_range a := by
  unfold UArray2_new UArray_new at h
  split at h
  · exact absurd h (by simp)
  · split at h
    · exact absurd h (by simp)
    · rename_i els heq
      split at heq
      · exact absurd heq (by simp)
      · cases h
        cases heq
        intro p hp
        have := List.eq_of_mem_replicate hp
        rw [this]
        exact ⟨by decide, by decide, by decide⟩

theorem decompress40_in_range (arith : Arith40) (input : List Nat) (image : Pnm_ppm)
    (h : decompress40 arith input = .ok image) : pixels_in_range image.pixels := by
  unfold decompress40 at h
  simp only at h
  split at h
  · split at h
    · exact absurd h (by simp)
    · split at h
      · exact absurd h (by simp)
      · split at h
        · exact absurd h (by simp)
        · split at h
          · exact absurd h (by simp)
          · rename_i _ _ _ _ _ _ _ _ _ array hnew _ st hmap
            cases h
            exact map_row_major_applyDecompress_in_range arith array _ st
              (UArray2_new_in_range _ _ _ array hnew) hmap
  · exact absurd h (by simp)

/-! ## Parsing the header that compress40 prints -/

theorem digitChar_toNat (k : Nat) (h : k < 10) : (Nat.digitChar k).toNat = 48 + k := by
  interval_cases k <;> rfl

theorem toDigitsCore_spec : ∀ (fuel n : Nat) (ds : List Char), n < fuel →
    ∃ L : List Char, Nat.toDigitsCore 10 fuel n ds = L ++ ds ∧ L ≠ [] ∧
      (∀ c ∈ L, isdigit c.toNat = true) ∧
      ∀ acc, (L.map Char.toNat).foldl (fun a c => a * 10 + (c - 48)) acc
        = acc * 10 ^ L.length + n := by
  intro fuel
  induction fuel with
  | zero => intro n ds h; omega
  | succ fuel ih =>
    intro n ds hn
    unfold Nat.toDigitsCore
    simp only
    have hd : (Nat.digitChar (n % 10)).toNat = 48 + n % 10 :=
      digitChar_toNat (n % 10) (Nat.mod_lt _ (by norm_num))
    by_cases h0 : n / 10 = 0
    · rw [if_pos h0]
      refine ⟨[Nat.digitChar (n % 10)], rfl, by simp, ?_, ?_⟩
      · intro c hc
        simp only [List.mem_singleton] at hc
        rw [hc, hd]
        simp [isdigit]
        omega
      · intro acc
        simp only [List.map_cons, List.map_nil, List.foldl_cons, List.foldl_nil, hd,
          List.length_singleton, pow_one]
        omega
    · rw [if_neg h0]
      obtain ⟨L, hL, _, hdig, hval⟩ := ih (n / 10) (Nat.digitChar (n % 10) :: ds) (by omega)
      refine ⟨L ++ [Nat.digitChar (n % 10)], ?_, by simp, ?_, ?_⟩
      · rw [hL]; simp
      · intro c hc
        rcases List.mem_append.mp hc with h1 | h1
        · exact hdig c h1
        · simp only [List.mem_singleton] at h1
          rw [h1, hd]
          simp [isdigit]
          omega
      · intro acc
        simp only [List.map_append, List.foldl_append, List.map_cons, List.map_nil,
          List.foldl_cons, List.foldl_nil, hval, hd, List.length_append, List.length_singleton,
          pow_succ]
        have := Nat.div_add_mod n 10
        have e : 48 + n % 10 - 48 = n % 10 := by omega
        rw [e]
        generalize 10 ^ L.length = p
        nlinarith

/-- The decimal digits that `printf("%u")` writes for `n`. -/
theorem repr_digits (n : Nat) :
    ∃ L : List Nat, string_bytes (Nat.repr n) = L ∧ L ≠ [] ∧ (∀ c ∈ L, isdigit c = true) ∧
      ∀ acc, L.foldl (fun a c => a * 10 + (c - 48)) acc = acc * 10 ^ L.length + n := by
  obtain ⟨L, hL, hne, hdig, hval⟩ := toDigitsCore_spec (n + 1) n [] (by omega)
  refine ⟨L.map Char.toNat, ?_, by simpa using hne, ?_, ?_⟩
  · unfold string_bytes Nat.repr Nat.toDigits
    rw [hL, List.append_nil]
    rfl
  · intro c hc
    obtain ⟨ch, hch, rfl⟩ := List.mem_map.mp hc
    exact hdig ch hch
  · intro acc
    rw [hval acc, List.length_map]

theorem scan_digits_append (L rest : List Nat) (c : Nat) (hL : ∀ x ∈ L, isdigit x = true)
    (hc : isdigit c = false) (acc : Nat) :
    scan_digits acc (L ++ c :: rest) =
      (L.foldl (fun a x => a * 10 + (x - 48)) acc, c :: rest) := by
  induction L generalizing acc with
  | nil => simp [scan_digits, hc]
  | cons x xs ih =>
    have hx := hL x (List.mem_cons_self x xs)
    simp only [List.cons_append, scan_digits, hx, if_true, List.foldl_cons]
    exact ih (fun y hy => hL y (List.mem_cons_of_mem x hy)) _

theorem skip_whitespace_digit (x : Nat) (xs : List Nat) (hx : isdigit x = true) :
    skip_whitespace (x :: xs) = x :: xs := by
  have : isspace x = false := by
    simp only [isdigit, decide_eq_true_eq] at hx
    simp [isspace]
    omega
  simp [skip_whitespace, this]

/-- The conversion `%u` reads back a number printed by `%u`. -/
theorem scan_unsigned_repr (n : Nat) (hn : n < 2 ^ 32) (c : Nat) (rest : List Nat)
    (hc : isdigit c = false) :
    scan_unsigned (string_bytes (Nat.repr n) ++ c :: rest) = some (n, c :: rest) := by
  obtain ⟨L, hL, hne, hdig, hval⟩ := repr_digits n
  rw [hL]
  obtain ⟨x, xs, rfl⟩ := List.exists_cons_of_ne_nil hne
  have hx := hdig x (List.mem_cons_self x xs)
  have hx' : 48 ≤ x ∧ x ≤ 57 := by simpa [isdigit] using hx
  unfold scan_unsigned
  simp only [List.cons_append, skip_whitespace_digit x _ hx]
  have hsign : (match x :: (xs ++ c :: rest) with
      | 45 :: rest1 => (true, rest1)
      | 43 :: rest1 => (false, rest1)
      | _ => (false, x :: (xs ++ c :: rest))) = (false, x :: (xs ++ c :: rest)) := by
    split
    · rename_i h; simp at h; omega
    · rename_i h; simp at h; omega
    · rfl
  rw [hsign]
  simp only [hx, if_true]
  have hs := scan_digits_append (x :: xs) rest c hdig hc 0
  simp only [List.cons_append] at hs
  rw [hs, hval 0]
  simp only [Nat.zero_mul, Nat.zero_add, Bool.false_eq_true, if_false]
  rw [if_neg (by omega)]
  simp only [Nat.mod_eq_of_lt hn]

theorem skip_whitespace_repr (n : Nat) (tail : List Nat) :
    skip_whitespace (string_bytes (Nat.repr n) ++ tail) = string_bytes (Nat.repr n) ++ tail := by
  obtain ⟨L, hL, hne, hdig, _⟩ := repr_digits n
  rw [hL]
  obtain ⟨x, xs, rfl⟩ := List.exists_cons_of_ne_nil hne
  exact skip_whitespace_digit x _ (hdig x (List.mem_cons_self x xs))

theorem fscanf_run_prefix (R : List Nat) :
    fscanf_run decompress40_format []
        (string_bytes "COMP40 Compressed image format 2\n" ++ R) =
      fscanf_run [ScanDirective.unsignedInt, ScanDirective.whitespace,
        ScanDirective.unsignedInt] [] (skip_whitespace R) := by
  have hfmt : decompress40_format =
      [.literal 67, .literal 79, .literal 77, .literal 80, .literal 52, .literal 48,
       .whitespace,
       .literal 67, .literal 111, .literal 109, .literal 112, .literal 114, .literal 101,
       .literal 115, .literal 115, .literal 101, .literal 100,
       .whitespace,
       .literal 105, .literal 109, .literal 97, .literal 103, .literal 101,
       .whitespace,
       .literal 102, .literal 111, .literal 114, .literal 109, .literal 97, .literal 116,
       .whitespace,
       .literal 50,
       .whitespace, .unsignedInt, .whitespace, .unsignedInt] := by decide
  have hpre : string_bytes "COMP40 Compressed image format 2\n" =
      [67, 79, 77, 80, 52, 48, 32, 67, 111, 109, 112, 114, 101, 115, 115, 101, 100, 32,
       105, 109, 97, 103, 101, 32, 102, 111, 114, 109, 97, 116, 32, 50, 10] := by decide
  rw [hfmt, hpre]
  simp [fscanf_run, skip_whitespace, isspace]

/-- The `fscanf` of `decompress40` reads back the header that `compress40`
prints. -/
theorem fscanf_run_header (w h : Nat) (hw : w < 2 ^ 32) (hh : h < 2 ^ 32) (rest : List Nat) :
    fscanf_run decompress40_format [] (compress40_header w h ++ rest) = ([w, h], 10 :: rest) := by
  have e : compress40_header w h ++ rest =
      string_bytes "COMP40 Compressed image format 2\n" ++
        (string_bytes (Nat.repr w) ++ 32 :: (string_bytes (Nat.repr h) ++ 10 :: rest)) := by
    have h1 : string_bytes " " = [32] := by decide
    have h2 : string_bytes "\n" = [10] := by decide
    unfold compress40_header
    rw [h1, h2]
    simp
  rw [e, fscanf_run_prefix, skip_whitespace_repr]
  have s1 := scan_unsigned_repr w hw 32 (string_bytes (Nat.repr h) ++ 10 :: rest) (by decide)
  have s2 := scan_unsigned_repr h hh 10 rest (by decide)
  have hsk : skip_whitespace (32 :: (string_bytes (Nat.repr h) ++ 10 :: rest))
      = string_bytes (Nat.repr h) ++ 10 :: rest := by
    have : isspace 32 = true := by decide
    simp only [skip_whitespace, this, if_true]
    exact skip_whitespace_repr h _
  simp only [fscanf_run, s1, hsk, s2, List.nil_append, List.cons_append]

/-! ## Decompression of a well-formed stream -/

theorem read_codeword_cons (b3 b2 b1 b0 : Nat) (rest : List Nat) :
    read_codeword (b3 :: b2 :: b1 :: b0 :: rest) = .ok (codeword_of_bytes b3 b2 b1 b0, rest) := by
  have s1 : Bitpack_newu 0 8 (3 * 8) (b3 % 256) = .ok (b3 % 256 * 2 ^ 24) := by
    rw [newu_arith 0 8 (3 * 8) _ (by norm_num) (by norm_num) (by norm_num) (by omega)]
    simp only [Except.ok.injEq]
    omega
  have s2 : Bitpack_newu (b3 % 256 * 2 ^ 24) 8 (2 * 8) (b2 % 256) =
      .ok (b3 % 256 * 2 ^ 24 + b2 % 256 * 2 ^ 16) := by
    rw [newu_arith _ 8 (2 * 8) _ (by omega) (by norm_num) (by norm_num) (by omega)]
    simp only [Except.ok.injEq]
    omega
  have s3 : Bitpack_newu (b3 % 256 * 2 ^ 24 + b2 % 256 * 2 ^ 16) 8 (1 * 8) (b1 % 256) =
      .ok (b3 % 256 * 2 ^ 24 + b2 % 256 * 2 ^ 16 + b1 % 256 * 2 ^ 8) := by
    rw [newu_arith _ 8 (1 * 8) _ (by omega) (by norm_num) (by norm_num) (by omega)]
    simp only [Except.ok.injEq]
    omega
  have s4 : Bitpack_newu (b3 % 256 * 2 ^ 24 + b2 % 256 * 2 ^ 16 + b1 % 256 * 2 ^ 8) 8 (0 * 8)
      (b0 % 256) =
      .ok (b3 % 256 * 2 ^ 24 + b2 % 256 * 2 ^ 16 + b1 % 256 * 2 ^ 8 + b0 % 256) := by
    rw [newu_arith _ 8 (0 * 8) _ (by omega) (by norm_num) (by norm_num) (by omega)]
    simp only [Except.ok.injEq]
    omega
  simp only [read_codeword, read_codeword_loop, getc, s1, s2, s3, s4, codeword_of_bytes]

theorem codeword_of_bytes_lt (b3 b2 b1 b0 : Nat) : codeword_of_bytes b3 b2 b1 b0 < 2 ^ 32 := by
  unfold codeword_of_bytes
  omega

theorem codeword_of_codeword_bytes (cw : Nat) (h : cw < 2 ^ 32) (rest : List Nat) :
    read_codeword (codeword_bytes cw ++ rest) = .ok (cw, rest) := by
  unfold codeword_bytes
  rw [List.cons_append, List.cons_append, List.cons_append, List.cons_append, List.nil_append,
    read_codeword_cons]
  unfold codeword_of_bytes
  simp only [Except.ok.injEq, Prod.mk.injEq, and_true]
  omega

/-- The unpacking of a codeword never fails: the six fields are the bit
ranges of the word. -/
theorem extract_read_code_elems (cw : Nat) :
    ∃ elems, extract_bitpack cw code_elems_template = .ok elems ∧
      read_code_elems elems = some (((cw / 2 ^ 23 % 2 ^ 9 : Nat) : Int),
        signed_field5 (cw / 2 ^ 18 % 2 ^ 5), signed_field5 (cw / 2 ^ 13 % 2 ^ 5),
        signed_field5 (cw / 2 ^ 8 % 2 ^ 5), cw / 2 ^ 4 % 2 ^ 4, cw % 2 ^ 4) := by
  have ga := getu_eq cw 9 23 (by norm_num) (by norm_num)
  have gb := gets_eq cw 5 18 (by norm_num) (by norm_num) (by norm_num)
  have gc := gets_eq cw 5 13 (by norm_num) (by norm_num) (by norm_num)
  have gd := gets_eq cw 5 8 (by norm_num) (by norm_num) (by norm_num)
  have gpb := getu_eq cw 4 4 (by norm_num) (by norm_num)
  have gpr := getu_eq cw 4 0 (by norm_num) (by norm_num)
  have hs : ∀ u : Nat, u < 32 →
      toInt32 (toUInt64 (if u < 2 ^ (5 - 1) then (u : Int) else (u : Int) - 2 ^ 5))
        = signed_field5 u := by
    intro u hu
    rw [toInt32_toUInt64 _ (by split <;> omega) (by split <;> omega)]
    unfold signed_field5
    norm_num
  have ha : toInt32 (cw / 2 ^ 23 % 2 ^ 9) = ((cw / 2 ^ 23 % 2 ^ 9 : Nat) : Int) :=
    toInt32_of_lt _ (by omega)
  have hpb : toUInt32 (cw / 2 ^ 4 % 2 ^ 4) = cw / 2 ^ 4 % 2 ^ 4 := by unfold toUInt32; omega
  have hpr : toUInt32 (cw / 2 ^ 0 % 2 ^ 4) = cw % 2 ^ 4 := by unfold toUInt32; omega
  refine ⟨[{ CODEWORD_A with value := cw / 2 ^ 23 % 2 ^ 9 },
    { CODEWORD_B with value := toUInt64 (if cw / 2 ^ 18 % 2 ^ 5 < 2 ^ (5 - 1)
        then ((cw / 2 ^ 18 % 2 ^ 5 : Nat) : Int) else ((cw / 2 ^ 18 % 2 ^ 5 : Nat) : Int) - 2 ^ 5) },
    { CODEWORD_C with value := toUInt64 (if cw / 2 ^ 13 % 2 ^ 5 < 2 ^ (5 - 1)
        then ((cw / 2 ^ 13 % 2 ^ 5 : Nat) : Int) else ((cw / 2 ^ 13 % 2 ^ 5 : Nat) : Int) - 2 ^ 5) },
    { CODEWORD_D with value := toUInt64 (if cw / 2 ^ 8 % 2 ^ 5 < 2 ^ (5 - 1)
        then ((cw / 2 ^ 8 % 2 ^ 5 : Nat) : Int) else ((cw / 2 ^ 8 % 2 ^ 5 : Nat) : Int) - 2 ^ 5) },
    { CODEWORD_PB with value := cw / 2 ^ 4 % 2 ^ 4 },
    { CODEWORD_PR with value := cw / 2 ^ 0 % 2 ^ 4 }], ?_, ?_⟩
  · simp only [extract_bitpack, code_elems_template, NUM_CODEWORD_ELEMENTS,
      List.take, List.drop, extract_loop, extract_step, CODEWORD_A, CODEWORD_B, CODEWORD_C,
      CODEWORD_D, CODEWORD_PB, CODEWORD_PR, ga, gb, gc, gd, gpb, gpr, Bool.false_eq_true,
      if_false, if_true, List.append_nil]
  · simp only [read_code_elems, ha, hpb, hpr]
    rw [hs (cw / 2 ^ 18 % 2 ^ 5) (by omega), hs (cw / 2 ^ 13 % 2 ^ 5) (by omega),
      hs (cw / 2 ^ 8 % 2 ^ 5) (by omega)]

/-- The block decoded from a codeword: the chroma of the two indices and the
four luma samples of the inverse transform. -/
theorem decode_block_ok (arith : Arith40) (cw : Nat) :
    ∃ block, decode_block arith cw = .ok block ∧
      block.pb_mean = arith.Arith40_chroma_of_index (cw / 2 ^ 4 % 2 ^ 4) ∧
      block.pr_mean = arith.Arith40_chroma_of_index (cw % 2 ^ 4) ∧
      (block.compvidArr 0).y =
        ((cw / 2 ^ 23 % 2 ^ 9 : Nat) : ℚ) / 511 - (signed_field5 (cw / 2 ^ 18 % 2 ^ 5) : ℚ) / 50
          - (signed_field5 (cw / 2 ^ 13 % 2 ^ 5) : ℚ) / 50
          + (signed_field5 (cw / 2 ^ 8 % 2 ^ 5) : ℚ) / 50 ∧
      (block.compvidArr 1).y =
        ((cw / 2 ^ 23 % 2 ^ 9 : Nat) : ℚ) / 511 - (signed_field5 (cw / 2 ^ 18 % 2 ^ 5) : ℚ) / 50
          + (signed_field5 (cw / 2 ^ 13 % 2 ^ 5) : ℚ) / 50
          - (signed_field5 (cw / 2 ^ 8 % 2 ^ 5) : ℚ) / 50 ∧
      (block.compvidArr 2).y =
        ((cw / 2 ^ 23 % 2 ^ 9 : Nat) : ℚ) / 511 + (signed_field5 (cw / 2 ^ 18 % 2 ^ 5) : ℚ) / 50
          - (signed_field5 (cw / 2 ^ 13 % 2 ^ 5) : ℚ) / 50
          - (signed_field5 (cw / 2 ^ 8 % 2 ^ 5) : ℚ) / 50 ∧
      (block.compvidArr 3).y =
        ((cw / 2 ^ 23 % 2 ^ 9 : Nat) : ℚ) / 511 + (signed_field5 (cw / 2 ^ 18 % 2 ^ 5) : ℚ) / 50
          + (signed_field5 (cw / 2 ^ 13 % 2 ^ 5) : ℚ) / 50
          + (signed_field5 (cw / 2 ^ 8 % 2 ^ 5) : ℚ) / 50 := by
  obtain ⟨elems, h1, h2⟩ := extract_read_code_elems cw
  unfold decode_block
  rw [h1]
  simp only [h2]
  have hcast : ((cw / 2 ^ 23 % 2 ^ 9 : Nat) : ℚ) = (((cw / 2 ^ 23 % 2 ^ 9 : Nat) : Int) : ℚ) :=
    (Int.cast_natCast _).symm
  rw [hcast]
  generalize ((cw / 2 ^ 23 % 2 ^ 9 : Nat) : Int) = A
  refine ⟨_, rfl, rfl, rfl, ?_, ?_, ?_, ?_⟩ <;>
    simp [inverse_discrete_Cosine_Transform, inverse_luma, Function.update,
      Block_Pixel_Info_zero] <;> norm_num

theorem ComponentVideo_to_RGB_pixel (pb_mean pr_mean : ℚ) (compvid : ComponentVideo)
    (denominator : Nat) (pixel : Pnm_rgb) :
    ComponentVideo_to_RGB pb_mean pr_mean compvid denominator pixel =
      ComponentVideo_to_RGB pb_mean pr_mean compvid denominator Pnm_rgb_zero := rfl

/-- The loop of `applyDecompress` stores the four samples of an in-bounds
block: sample `i` goes to the pixel at `(col + i mod 2, row + i div 2)`, and
no other cell changes. -/
theorem applyDecompress_loop_ok (block : Block_Pixel_Info) (a : UArray2_T Pnm_rgb) (W H : Nat)
    (hw : a.width = (W : Int)) (hh : a.height = (H : Int)) (hlen : a.elements.length = W * H)
    (col row : Nat) (hc : col + 1 < W) (hr : row + 1 < H) :
    ∃ a1, applyDecompress_loop block (col : Int) (row : Int) 0 (BLOCKSIZE * BLOCKSIZE) a
        = .ok a1 ∧
      a1.width = (W : Int) ∧ a1.height = (H : Int) ∧ a1.elements.length = W * H ∧
      a1.elementSize = a.elementSize ∧
      ∀ c r, c < W → UArray2_cell a1 c r =
        if (c = col ∨ c = col + 1) ∧ (r = row ∨ r = row + 1) then
          some (ComponentVideo_to_RGB block.pb_mean block.pr_mean
            (block.compvidArr ((c - col) + 2 * (r - row))) 255 Pnm_rgb_zero)
        else UArray2_cell a c r := by
  obtain ⟨p0, hp0, _⟩ := UArray2_at_of_dims a W H hw hh hlen col row (by omega) (by omega)
  obtain ⟨a1, ha1, hw1, hh1, hl1, hs1, _, hc1⟩ := UArray2_at_assign_of_dims a W H hw hh hlen
    col row (by omega) (by omega)
    (ComponentVideo_to_RGB block.pb_mean block.pr_mean (block.compvidArr 0) 255 p0)
  obtain ⟨p1, hp1, _⟩ := UArray2_at_of_dims a1 W H hw1 hh1 hl1 (col + 1) row (by omega)
    (by omega)
  obtain ⟨a2, ha2, hw2, hh2, hl2, hs2, _, hc2⟩ := UArray2_at_assign_of_dims a1 W H hw1 hh1 hl1
    (col + 1) row (by omega) (by omega)
    (ComponentVideo_to_RGB block.pb_mean block.pr_mean (block.compvidArr 1) 255 p1)
  obtain ⟨p2, hp2, _⟩ := UArray2_at_of_dims a2 W H hw2 hh2 hl2 col (row + 1) (by omega)
    (by omega)
  obtain ⟨a3, ha3, hw3, hh3, hl3, hs3, _, hc3⟩ := UArray2_at_assign_of_dims a2 W H hw2 hh2 hl2
    col (row + 1) (by omega) (by omega)
    (ComponentVideo_to_RGB block.pb_mean block.pr_mean (block.compvidArr 2) 255 p2)
  obtain ⟨p3, hp3, _⟩ := UArray2_at_of_dims a3 W H hw3 hh3 hl3 (col + 1) (row + 1) (by omega)
    (by omega)
  obtain ⟨a4, ha4, hw4, hh4, hl4, hs4, _, hc4⟩ := UArray2_at_assign_of_dims a3 W H hw3 hh3 hl3
    (col + 1) (row + 1) (by omega) (by omega)
    (ComponentVideo_to_RGB block.pb_mean block.pr_mean (block.compvidArr 3) 255 p3)
  have e0 : (col : Int) + ((0 % 2 : Nat) : Int) = (col : Int) := by simp
  have e1 : (col : Int) + ((1 % 2 : Nat) : Int) = ((col + 1 : Nat) : Int) := by simp
  have f0 : (row : Int) + ((0 / 2 : Nat) : Int) = (row : Int) := by simp
  have f1 : (row : Int) + ((1 / 2 : Nat) : Int) = (row : Int) := by simp
  have e2 : (col : Int) + ((2 % 2 : Nat) : Int) = (col : Int) := by simp
  have f2 : (row : Int) + ((2 / 2 : Nat) : Int) = ((row + 1 : Nat) : Int) := by simp
  have e3 : (col : Int) + ((3 % 2 : Nat) : Int) = ((col + 1 : Nat) : Int) := by simp
  have f3 : (row : Int) + ((3 / 2 : Nat) : Int) = ((row + 1 : Nat) : Int) := by simp
  refine ⟨a4, ?_, hw4, hh4, hl4, by rw [hs4, hs3, hs2, hs1], ?_⟩
  · simp only [BLOCKSIZE, applyDecompress_loop, Nat.reduceMul, Nat.zero_add, Nat.reduceAdd,
      e0, e1, e2, e3, f0, f1, f2, f3, hp0, ha1, hp1, ha2, hp2, ha3, hp3, ha4]
  · intro c r hcW
    rw [hc4 c r hcW, hc3 c r hcW, hc2 c r hcW, hc1 c r hcW]
    by_cases h3 : c = col + 1 ∧ r = row + 1
    · obtain ⟨rfl, rfl⟩ := h3
      rw [if_pos ⟨rfl, rfl⟩, if_pos ⟨Or.inr rfl, Or.inr rfl⟩]
      have : col + 1 - col + 2 * (row + 1 - row) = 3 := by omega
      rw [this]
      rfl
    · rw [if_neg h3]
      by_cases h2 : c = col ∧ r = row + 1
      · obtain ⟨rfl, rfl⟩ := h2
        rw [if_pos ⟨rfl, rfl⟩, if_pos ⟨Or.inl rfl, Or.inr rfl⟩]
        have : c - c + 2 * (row + 1 - row) = 2 := by omega
        rw [this]
        rfl
      · rw [if_neg h2]
        by_cases h1 : c = col + 1 ∧ r = row
        · obtain ⟨rfl, rfl⟩ := h1
          rw [if_pos ⟨rfl, rfl⟩, if_pos ⟨Or.inr rfl, Or.inl rfl⟩]
          have : col + 1 - col + 2 * (r - r) = 1 := by omega
          rw [this]
          rfl
        · rw [if_neg h1]
          by_cases h0 : c = col ∧ r = row
          · obtain ⟨rfl, rfl⟩ := h0
            rw [if_pos ⟨rfl, rfl⟩, if_pos ⟨Or.inl rfl, Or.inl rfl⟩]
            have : c - c + 2 * (r - r) = 0 := by omega
            rw [this]
            rfl
          · rw [if_neg h0, if_neg (by omega)]

theorem drop_four (body : List Nat) (o : Nat) (h : o + 4 ≤ body.length) :
    body.drop o = body.getD o 0 :: body.getD (o + 1) 0 :: body.getD (o + 2) 0
      :: body.getD (o + 3) 0 :: body.drop (o + 4) := by
  have h0 : o < body.length := by omega
  have h1 : o + 1 < body.length := by omega
  have h2 : o + 2 < body.length := by omega
  have h3 : o + 3 < body.length := by omega
  rw [List.drop_eq_getElem_cons h0, List.drop_eq_getElem_cons h1,
    List.drop_eq_getElem_cons h2, List.drop_eq_getElem_cons h3]
  simp [List.getD_eq_getElem?_getD, List.getElem?_eq_getElem, h0, h1, h2, h3]

/-- At a position with an odd column or an odd row `applyDecompress` does
nothing. -/
theorem map_row_major_cell_applyDecompress_odd (arith : Arith40)
    (s : UArray2_T Pnm_rgb × List Nat) (W H : Nat) (hw : s.1.width = (W : Int))
    (hh : s.1.height = (H : Int)) (hlen : s.1.elements.length = W * H) (col row : Nat)
    (hc : col < W) (hr : row < H) (hodd : col % 2 ≠ 0 ∨ row % 2 ≠ 0) :
    map_row_major_cell (applyDecompress arith) row col s = .ok s := by
  obtain ⟨p, hp, _⟩ := UArray2_at_of_dims s.1 W H hw hh hlen col row hc hr
  unfold map_row_major_cell
  simp only [hp]
  unfold applyDecompress
  simp only [BLOCKSIZE, Nat.cast_ofNat, tmod_two_natCast]
  rw [if_pos (by
    rcases hodd with h | h
    · left; exact_mod_cast h
    · right; exact_mod_cast h)]

/-- At the origin of an in-bounds block `applyDecompress` reads one codeword,
decodes it and stores the four pixels of the block. -/
theorem map_row_major_cell_applyDecompress_block (arith : Arith40) (body : List Nat)
    (s : UArray2_T Pnm_rgb × List Nat) (W H : Nat) (hw : s.1.width = (W : Int))
    (hh : s.1.height = (H : Int)) (hlen : s.1.elements.length = W * H) (i j k : Nat)
    (hc : 2 * j + 1 < W) (hr : 2 * i + 1 < H) (hin : s.2 = body.drop (4 * k))
    (hk : 4 * k + 4 ≤ body.length) :
    ∃ s1, map_row_major_cell (applyDecompress arith) (2 * i) (2 * j) s = .ok s1 ∧
      s1.1.width = (W : Int) ∧ s1.1.height = (H : Int) ∧ s1.1.elements.length = W * H ∧
      s1.1.elementSize = s.1.elementSize ∧
      s1.2 = body.drop (4 * (k + 1)) ∧
      ∀ c r, c < W → UArray2_cell s1.1 c r =
        if c / 2 = j ∧ r / 2 = i then
          some (decoded_pixel arith (stream_codeword body k) (c % 2 + 2 * (r % 2)))
        else UArray2_cell s.1 c r := by
  obtain ⟨p, hp, _⟩ := UArray2_at_of_dims s.1 W H hw hh hlen (2 * j) (2 * i) (by omega)
    (by omega)
  obtain ⟨block, hblock, _⟩ := decode_block_ok arith (stream_codeword body k)
  obtain ⟨a1, ha1, hw1, hh1, hl1, hs1, hcells⟩ := applyDecompress_loop_ok block s.1 W H hw hh
    hlen (2 * j) (2 * i) hc hr
  have hread : read_codeword s.2 = .ok (stream_codeword body k, body.drop (4 * (k + 1))) := by
    rw [hin, drop_four body (4 * k) hk, read_codeword_cons]
    rfl
  refine ⟨(a1, body.drop (4 * (k + 1))), ?_, hw1, hh1, hl1, hs1, rfl, ?_⟩
  · unfold map_row_major_cell
    simp only [hp]
    unfold applyDecompress
    simp only [BLOCKSIZE, Nat.cast_ofNat, tmod_two_natCast, UArray2_width, UArray2_height, hw,
      hh]
    rw [if_neg (by
      intro h
      rcases h with h | h
      · exact absurd (by exact_mod_cast h) (by omega : ¬ (2 * j) % 2 ≠ 0)
      · exact absurd (by exact_mod_cast h) (by omega : ¬ (2 * i) % 2 ≠ 0)),
      if_neg (by push_cast; omega)]
    simp only [hread, hblock]
    have := ha1
    simp only [BLOCKSIZE] at this
    rw [this]
  · intro c r hcW
    rw [hcells c r hcW]
    by_cases hb : c / 2 = j ∧ r / 2 = i
    · rw [if_pos hb, if_pos (by omega)]
      have e : c - 2 * j + 2 * (r - 2 * i) = c % 2 + 2 * (r % 2) := by omega
      rw [e]
      unfold decoded_pixel
      rw [hblock]
    · rw [if_neg hb, if_neg (by omega)]

/-- Total correctness of a loop over `2 * n` indices whose body does nothing
at the odd indices, from an invariant indexed by the even steps taken. -/
theorem loopFrom_even_invariant {σ : Type} (f : Nat → σ → Except Failure σ)
    (P : Nat → σ → Prop) (N : Nat)
    (hstep : ∀ j s, 2 * j + 1 < N → P j s → ∃ s1, f (2 * j) s = .ok s1 ∧ P (j + 1) s1)
    (hodd : ∀ j s, 2 * j + 1 < N → P (j + 1) s → f (2 * j + 1) s = .ok s) :
    ∀ (n i : Nat) (s : σ), 2 * (i + n) ≤ N → P i s →
      ∃ s1, loopFrom f (2 * i) (2 * n) s = .ok s1 ∧ P (i + n) s1 := by
  intro n
  induction n with
  | zero =>
    intro i s _ hs
    exact ⟨s, rfl, by simpa using hs⟩
  | succ n ih =>
    intro i s hN hs
    obtain ⟨s1, hf, hP1⟩ := hstep i s (by omega) hs
    obtain ⟨s2, hl, hP2⟩ := ih (i + 1) s1 (by omega) hP1
    refine ⟨s2, ?_, ?_⟩
    · have e2 : 2 * (n + 1) = (2 * n + 1) + 1 := by omega
      rw [e2, loopFrom_succ_ok f (2 * i) (2 * n + 1) s s1 hf,
        loopFrom_succ_ok f (2 * i + 1) (2 * n) s1 s1 (hodd i s1 (by omega) hP1)]
      have e3 : 2 * i + 1 + 1 = 2 * (i + 1) := by omega
      rw [e3]
      exact hl
    · have : i + 1 + n = i + (n + 1) := by omega
      rw [← this]
      exact hP2

/-- The visit of `decompress40` over a raster of even dimensions succeeds when
the stream holds one codeword for each block: the dimensions are kept, the
stream is consumed four bytes per block, and the cells of every block hold the
pixels decoded from the codeword of the block, in block order. -/
theorem map_row_major_applyDecompress (arith : Arith40) (body : List Nat)
    (a : UArray2_T Pnm_rgb) (m n : Nat) (hw : a.width = ((2 * m : Nat) : Int))
    (hh : a.height = ((2 * n : Nat) : Int)) (hlen : a.elements.length = 2 * m * (2 * n))
    (hbody : 4 * (m * n) ≤ body.length) :
    ∃ st, UArray2_map_row_major a (applyDecompress arith) body = .ok st ∧
      st.1.width = ((2 * m : Nat) : Int) ∧ st.1.height = ((2 * n : Nat) : Int) ∧
      st.1.elements.length = 2 * m * (2 * n) ∧ st.1.elementSize = a.elementSize ∧
      st.2 = body.drop (4 * (m * n)) ∧
      decoded_upto arith body (2 * m) st.1 (n * m) := by
  have hm2 : 2 * m / 2 = m := by omega
  -- one block row
  have hrow : ∀ i s, i < n →
      (s.1.width = ((2 * m : Nat) : Int) ∧ s.1.height = ((2 * n : Nat) : Int) ∧
        s.1.elements.length = 2 * m * (2 * n) ∧ s.1.elementSize = a.elementSize ∧
        s.2 = body.drop (4 * (i * m)) ∧ decoded_upto arith body (2 * m) s.1 (i * m)) →
      ∃ s1, map_row_major_row (applyDecompress arith) (2 * m) (2 * i) s = .ok s1 ∧
        (s1.1.width = ((2 * m : Nat) : Int) ∧ s1.1.height = ((2 * n : Nat) : Int) ∧
          s1.1.elements.length = 2 * m * (2 * n) ∧ s1.1.elementSize = a.elementSize ∧
          s1.2 = body.drop (4 * ((i + 1) * m)) ∧
          decoded_upto arith body (2 * m) s1.1 ((i + 1) * m)) := by
    intro i s hi hs
    have key := loopFrom_even_invariant (map_row_major_cell (applyDecompress arith) (2 * i))
      (fun j t => t.1.width = ((2 * m : Nat) : Int) ∧ t.1.height = ((2 * n : Nat) : Int) ∧
        t.1.elements.length = 2 * m * (2 * n) ∧ t.1.elementSize = a.elementSize ∧
        t.2 = body.drop (4 * (i * m + j)) ∧ decoded_upto arith body (2 * m) t.1 (i * m + j))
      (2 * m)
      (by
        intro j t hj ⟨tw, th, tl, ts, tin, tdec⟩
        have hjm : j < m := by omega
        have hk : i * m + j < m * n := index_lt m n j i hjm hi
        obtain ⟨s1, h1, w1, h1h, l1, e1, in1, c1⟩ :=
          map_row_major_cell_applyDecompress_block arith body t (2 * m) (2 * n) tw th tl i j
            (i * m + j) (by omega) (by omega) tin (by omega)
        refine ⟨s1, h1, w1, h1h, l1, by rw [e1, ts], in1, ?_⟩
        intro c r hc hlt
        rw [hm2] at hlt
        rw [c1 c r hc, hm2]
        by_cases hb : c / 2 = j ∧ r / 2 = i
        · rw [if_pos hb, hb.1, hb.2]
        · rw [if_neg hb]
          have hne : r / 2 * m + c / 2 ≠ i * m + j := by
            intro heq
            have := index_inj m (c / 2) (r / 2) j i (by omega) hjm heq
            exact hb this
          have := tdec c r hc (by rw [hm2]; omega)
          rw [hm2] at this
          exact this)
      (by
        intro j t hj ⟨tw, th, tl, _, _, _⟩
        exact map_row_major_cell_applyDecompress_odd arith t (2 * m) (2 * n) tw th tl
          (2 * j + 1) (2 * i) (by omega) (by omega) (Or.inl (by omega)))
      m 0 s (by omega) (by simpa using hs)
    obtain ⟨s1, hl, hP⟩ := key
    refine ⟨s1, ?_, ?_⟩
    · unfold map_row_major_row
      simpa using hl
    · have e : i * m + (0 + m) = (i + 1) * m := by rw [Nat.add_mul]; omega
      rw [e] at hP
      exact hP
  have hoddrow : ∀ i s, i < n →
      (s.1.width = ((2 * m : Nat) : Int) ∧ s.1.height = ((2 * n : Nat) : Int) ∧
        s.1.elements.length = 2 * m * (2 * n)) →
      map_row_major_row (applyDecompress arith) (2 * m) (2 * i + 1) s = .ok s := by
    intro i s hi ⟨sw, sh, sl⟩
    obtain ⟨s1, hl, hP⟩ := loopFrom_invariant
      (map_row_major_cell (applyDecompress arith) (2 * i + 1)) (fun _ t => t = s) (2 * m) 0 s
      rfl
      (by
        intro j t _ hj ht
        subst ht
        exact ⟨t, map_row_major_cell_applyDecompress_odd arith t (2 * m) (2 * n) sw sh sl j
          (2 * i + 1) (by omega) (by omega) (Or.inr (by omega)), rfl⟩)
    unfold map_row_major_row
    rw [hl, hP]
  have key := loopFrom_even_invariant (map_row_major_row (applyDecompress arith) (2 * m))
    (fun i t => t.1.width = ((2 * m : Nat) : Int) ∧ t.1.height = ((2 * n : Nat) : Int) ∧
      t.1.elements.length = 2 * m * (2 * n) ∧ t.1.elementSize = a.elementSize ∧
      t.2 = body.drop (4 * (i * m)) ∧ decoded_upto arith body (2 * m) t.1 (i * m))
    (2 * n)
    (fun i t hi ht => hrow i t (by omega) ht)
    (fun i t hi ht => hoddrow i t (by omega) ⟨ht.1, ht.2.1, ht.2.2.1⟩)
    n 0 (a, body) (by omega)
    ⟨hw, hh, hlen, rfl, by simp, by
      intro c r _ hlt
      simp at hlt⟩
  obtain ⟨st, hl, hP⟩ := key
  refine ⟨st, ?_, ?_⟩
  · unfold UArray2_map_row_major
    rw [hw, hh, Int.toNat_ofNat, Int.toNat_ofNat]
    simpa using hl
  · simp only [Nat.zero_add] at hP
    obtain ⟨p1, p2, p3, p4, p5, p6⟩ := hP
    exact ⟨p1, p2, p3, p4, by rw [p5, Nat.mul_comm n m], p6⟩

/-- On a header that `compress40` prints for even dimensions, followed by at
least one codeword for each block, `decompress40` succeeds: the image has the
dimensions of the header and the denominator 255, and the four pixels of each
block are those decoded from the codeword of the block. -/
theorem decompress40_stream (arith : Arith40) (w h : Nat) (hw : w < 2 ^ 31) (hh : h < 2 ^ 31)
    (hwe : w % 2 = 0) (hhe : h % 2 = 0) (body : List Nat)
    (hbody : 4 * (w / 2 * (h / 2)) ≤ body.length) :
    ∃ image, decompress40 arith (compress40_header w h ++ body) = .ok image ∧
      image.width = w ∧ image.height = h ∧ image.denominator = 255 ∧ Pnm_ppm_wf image ∧
      image.pixels.elementSize = sizeof_Pnm_rgb ∧
      ∀ c r, c < w → r < h →
        UArray2_cell image.pixels c r =
          some (decoded_pixel arith (stream_codeword body (r / 2 * (w / 2) + c / 2))
            (c % 2 + 2 * (r % 2))) := by
  obtain ⟨a, hnew, aw, ah, asz, ael⟩ := UArray2_new_of_dims Pnm_rgb_zero w h sizeof_Pnm_rgb
    (by decide)
  have hw2 : w = 2 * (w / 2) := by omega
  have hh2 : h = 2 * (h / 2) := by omega
  have alen : a.elements.length = 2 * (w / 2) * (2 * (h / 2)) := by
    rw [ael, List.length_replicate, ← hw2, ← hh2]
  obtain ⟨st, hmap, sw, sh, sl, ssz, _, sdec⟩ := map_row_major_applyDecompress arith body a
    (w / 2) (h / 2) (by rw [aw, ← hw2]) (by rw [ah, ← hh2]) alen hbody
  rw [← hw2] at sw sl sdec
  rw [← hh2] at sh sl
  refine ⟨{ width := w, height := h, denominator := DECOMPRESSION_IMAGE_DENOMINATOR,
            pixels := st.1 }, ?_, rfl, rfl, rfl, ?_, by rw [ssz, asz], ?_⟩
  · unfold decompress40
    simp only [fscanf_run_header w h (by omega) (by omega) body, getc]
    rw [toInt32_of_lt w hw, toInt32_of_lt h hh]
    simp only [hnew, hmap]
    simp
  · refine ⟨sw, sh, ⟨?_, ?_, ?_⟩, hw, hh⟩
    · rw [sw]; positivity
    · rw [sh]; positivity
    · rw [sl, sw, sh]; push_cast; ring
  · intro c r hc hr
    refine sdec c r hc ?_
    have hc2 : c / 2 < w / 2 := by omega
    have hr2 : r / 2 < h / 2 := by omega
    have := index_lt (w / 2) (h / 2) (c / 2) (r / 2) hc2 hr2
    rw [Nat.mul_comm (h / 2) (w / 2)]
    exact this

/-! ## A full cycle on a block of four equal pixels -/

theorem round_half_away_zero : round_half_away 0 = 0 := by
  unfold round_half_away
  rw [if_pos (le_refl _)]
  exact floor_eq_of_bounds _ 0 (by norm_num) (by norm_num)

/-- The codeword of an in-bounds block whose four pixels are equal. -/
theorem compress_block_uniform (arith : Arith40)
    (harith : ∀ x, arith.Arith40_index_of_chroma x ≤ 15) (image : Pnm_ppm)
    (hwf : Pnm_ppm_wf image) (col row : Nat) (hc : col + 1 < image.width)
    (hr : row + 1 < image.height) (p : Pnm_rgb)
    (h0 : UArray2_cell image.pixels col row = some p)
    (h1 : UArray2_cell image.pixels (col + 1) row = some p)
    (h2 : UArray2_cell image.pixels col (row + 1) = some p)
    (h3 : UArray2_cell image.pixels (col + 1) (row + 1) = some p) :
    compress_block arith image image.pixels (col : Int) (row : Int)
      = .ok (uniform_codeword arith p image.denominator) := by
  obtain ⟨p0, p1, p2, p3, a0, a1, a2, a3, hloop⟩ := applyCompress_loop_ok image hwf col row hc hr
  obtain ⟨q0, b0, c0⟩ := UArray2_at_of_wf image hwf col row (by omega) (by omega)
  obtain ⟨q1, b1, c1⟩ := UArray2_at_of_wf image hwf (col + 1) row (by omega) (by omega)
  obtain ⟨q2, b2, c2⟩ := UArray2_at_of_wf image hwf col (row + 1) (by omega) (by omega)
  obtain ⟨q3, b3, c3⟩ := UArray2_at_of_wf image hwf (col + 1) (row + 1) (by omega) (by omega)
  have e0 : p0 = p := by
    rw [a0] at b0; rw [h0] at c0; cases b0; cases c0; rfl
  have e1 : p1 = p := by
    rw [a1] at b1; rw [h1] at c1; cases b1; cases c1; rfl
  have e2 : p2 = p := by
    rw [a2] at b2; rw [h2] at c2; cases b2; cases c2; rfl
  have e3 : p3 = p := by
    rw [a3] at b3; rw [h3] at c3; cases b3; cases c3; rfl
  rw [e0, e1, e2, e3] at hloop
  unfold compress_block
  rw [hloop]
  simp only
  generalize hcv : RGB_to_ComponentVideo p image.denominator = cv
  have hq := abcd_quantization_bounds
    (discrete_Cosine_Transform (block_of_pixels image.denominator p p p p))
  have ha : (abcd_quantization (discrete_Cosine_Transform
      (block_of_pixels image.denominator p p p p))).quantized_abcd 0
      = ((round_half_away (clamp cv.y 0.0 1.0 * 511.0)).toNat : Int) := by
    have hr0 := round_half_away_nonneg (clamp cv.y 0.0 1.0 * 511.0) (by
      have := clamp_bounds cv.y 0.0 1.0 (by norm_num)
      nlinarith [this.1, this.2])
    have hr1 := (round_half_away_bounds (clamp cv.y 0.0 1.0 * 511.0) 511 (by
      have := clamp_bounds cv.y 0.0 1.0 (by norm_num)
      push_cast
      nlinarith [this.1, this.2]) (by
      have := clamp_bounds cv.y 0.0 1.0 (by norm_num)
      push_cast
      nlinarith [this.1, this.2])).2
    have hy : (cv.y + cv.y + cv.y + cv.y) / ((BLOCKAREA : Nat) : ℚ) = cv.y := by
      simp [BLOCKAREA, BLOCKSIZE]
      ring
    simp only [abcd_quantization, discrete_Cosine_Transform, block_of_pixels, Function.update,
      hcv]
    have hti : toInt32 (round_half_away (clamp cv.y 0.0 1.0 * 511.0)).toNat
        = ((round_half_away (clamp cv.y 0.0 1.0 * 511.0)).toNat : Int) :=
      toInt32_of_lt _ (by omega)
    simp [hy, hti]
  have hb : ∀ i, i = 1 ∨ i = 2 ∨ i = 3 → (abcd_quantization (discrete_Cosine_Transform
      (block_of_pixels image.denominator p p p p))).quantized_abcd i = 0 := by
    intro i hi
    have hz : clamp (0 : ℚ) (-0.3) 0.3 * 50.0 = 0 := by
      unfold clamp
      norm_num
    rcases hi with rfl | rfl | rfl <;>
      simp [abcd_quantization, discrete_Cosine_Transform, block_of_pixels, Function.update,
        hcv, hz, round_half_away_zero]
  have hpb : (chroma_quantization arith (abcd_quantization (discrete_Cosine_Transform
      (block_of_pixels image.denominator p p p p)))).pb_chromaIndex
      = arith.Arith40_index_of_chroma cv.pb := by
    simp [chroma_quantization, chroma_sum, abcd_quantization, discrete_Cosine_Transform,
      block_of_pixels, Function.update, hcv, BLOCKAREA, BLOCKSIZE]
    congr 1
    ring
  have hpr : (chroma_quantization arith (abcd_quantization (discrete_Cosine_Transform
      (block_of_pixels image.denominator p p p p)))).pr_chromaIndex
      = arith.Arith40_index_of_chroma cv.pr := by
    simp [chroma_quantization, chroma_sum, abcd_quantization, discrete_Cosine_Transform,
      block_of_pixels, Function.update, hcv, BLOCKAREA, BLOCKSIZE]
    congr 1
    ring
  have hcq : ∀ b : Block_Pixel_Info,
      (chroma_quantization arith b).quantized_abcd = b.quantized_abcd := fun _ => rfl
  rw [hcq, ha, hb 1 (Or.inl rfl), hb 2 (Or.inr (Or.inl rfl)), hb 3 (Or.inr (Or.inr rfl)), hpb,
    hpr]
  rw [ha] at hq
  rw [pack_codeword_eq _ 0 0 0 _ _ hq.1.1 hq.1.2 (by norm_num) (by norm_num) (by norm_num)
    (by norm_num) (by norm_num) (by norm_num) (harith _) (harith _)]
  unfold uniform_codeword
  rw [hcv, Int.toNat_ofNat]
  norm_num

theorem uniform_image_2x2_wf (p : Pnm_rgb) (denominator : Nat) :
    Pnm_ppm_wf (uniform_image_2x2 p denominator) := by
  refine ⟨rfl, rfl, ⟨?_, ?_, ?_⟩, ?_, ?_⟩ <;> simp [uniform_image_2x2, Pnm_ppm_of]

theorem uniform_image_2x2_cell (p : Pnm_rgb) (denominator c r : Nat) (hc : c < 2) (hr : r < 2) :
    UArray2_cell (uniform_image_2x2 p denominator).pixels c r = some p := by
  interval_cases c <;> interval_cases r <;> rfl

theorem codeword_stream_one (codewords : Nat → Nat → Nat) :
    codeword_stream codewords 1 1 = codeword_bytes (codewords 0 0) := by
  simp [codeword_stream, List.range_succ]

/-- The stream that `compress40` writes for a 2x2 image whose four pixels are
equal. -/
theorem compress40_of_uniform (arith : Arith40)
    (harith : ∀ x, arith.Arith40_index_of_chroma x ≤ 15) (image : Pnm_ppm)
    (hwf : Pnm_ppm_wf image) (hw : image.width = 2) (hh : image.height = 2) (p : Pnm_rgb)
    (hcells : ∀ c r, c < 2 → r < 2 → UArray2_cell image.pixels c r = some p) :
    compress40 arith image =
      .ok (compress40_header 2 2 ++ codeword_bytes (uniform_codeword arith p image.denominator)) := by
  rw [compress40_even arith harith image hwf (by rw [hw]) (by rw [hh]), hw, hh]
  have hb : block_codeword arith image 0 0 = uniform_codeword arith p image.denominator := by
    unfold block_codeword
    have := compress_block_uniform arith harith image hwf 0 0 (by omega) (by omega) p
      (hcells 0 0 (by omega) (by omega)) (hcells 1 0 (by omega) (by omega))
      (hcells 0 1 (by omega) (by omega)) (hcells 1 1 (by omega) (by omega))
    simp only [Nat.mul_zero]
    rw [this]
  rw [show (2 : Nat) / 2 = 1 from rfl, codeword_stream_one, hb]

theorem uniform_codeword_fields (arith : Arith40) (p : Pnm_rgb) (denominator : Nat) :
    ∃ qa : Nat, qa ≤ 511 ∧
      (qa : Int) = round_half_away
        (clamp (RGB_to_ComponentVideo p denominator).y 0.0 1.0 * 511.0) ∧
      uniform_codeword arith p denominator = qa * 2 ^ 23
        + arith.Arith40_index_of_chroma (RGB_to_ComponentVideo p denominator).pb * 2 ^ 4
        + arith.Arith40_index_of_chroma (RGB_to_ComponentVideo p denominator).pr := by
  have hc := clamp_bounds (RGB_to_ComponentVideo p denominator).y 0.0 1.0 (by norm_num)
  have hr0 := round_half_away_nonneg
    (clamp (RGB_to_ComponentVideo p denominator).y 0.0 1.0 * 511.0)
    (by nlinarith [hc.1, hc.2])
  have hr1 := (round_half_away_bounds
    (clamp (RGB_to_ComponentVideo p denominator).y 0.0 1.0 * 511.0) 511
    (by push_cast; nlinarith [hc.1, hc.2]) (by push_cast; nlinarith [hc.1, hc.2])).2
  exact ⟨_, by omega, Int.toNat_of_nonneg hr0, rfl⟩

theorem stream_codeword_bytes (cw : Nat) (h : cw < 2 ^ 32) :
    stream_codeword (codeword_bytes cw) 0 = cw := by
  simp only [stream_codeword, codeword_bytes, codeword_of_bytes, List.getD_eq_getElem?_getD]
  simp
  omega

theorem eq_uniform_image_2x2 (image : Pnm_ppm) (p : Pnm_rgb) (hwf : Pnm_ppm_wf image)
    (hw : image.width = 2) (hh : image.height = 2)
    (hsz : image.pixels.elementSize = sizeof_Pnm_rgb)
    (hcells : ∀ c r, c < 2 → r < 2 → UArray2_cell image.pixels c r = some p) :
    image = uniform_image_2x2 p image.denominator := by
  obtain ⟨width, height, denominator, ⟨pw, ph, psz, els⟩⟩ := image
  obtain ⟨h1, h2, ⟨_, _, h3⟩, _, _⟩ := hwf
  simp only at hw hh hsz h1 h2 h3
  subst hw hh hsz
  subst h1 h2
  have c00 := hcells 0 0 (by omega) (by omega)
  have c10 := hcells 1 0 (by omega) (by omega)
  have c01 := hcells 0 1 (by omega) (by omega)
  have c11 := hcells 1 1 (by omega) (by omega)
  have hlen : els.length = 4 := by
    have : ((els.length : Nat) : Int) = 4 := by rw [h3]; norm_num
    exact_mod_cast this
  rcases els with _ | ⟨a, _ | ⟨b, _ | ⟨c, _ | ⟨d, _ | ⟨e, t⟩⟩⟩⟩⟩ <;> simp at hlen
  simp [UArray2_cell] at c00 c10 c01 c11
  subst c00 c10 c01 c11
  rfl

/-- The image that `decompress40` builds from a stream with the header of a
2x2 image and one codeword whose four decoded pixels are equal. -/
theorem decompress40_one_block (arith : Arith40) (cw : Nat) (h : cw < 2 ^ 32) (P : Pnm_rgb)
    (hP : ∀ i, i < 4 → decoded_pixel arith cw i = P) :
    decompress40 arith (compress40_header 2 2 ++ codeword_bytes cw)
      = .ok (uniform_image_2x2 P 255) := by
  obtain ⟨image, hd, hw, hh, hden, hwf, hsz, hcells⟩ := decompress40_stream arith 2 2
    (by norm_num) (by norm_num) rfl rfl (codeword_bytes cw) (by simp [codeword_bytes])
  have hc : ∀ c r, c < 2 → r < 2 → UArray2_cell image.pixels c r = some P := by
    intro c r hc hr
    rw [hcells c r hc hr]
    have e : r / 2 * (2 / 2) + c / 2 = 0 := by omega
    rw [e, stream_codeword_bytes cw h, hP _ (by omega)]
  rw [hd, eq_uniform_image_2x2 image P hwf hw hh hsz hc, hden]

theorem ComponentVideo_to_RGB_luma (pb_mean pr_mean : ℚ) (compvid : ComponentVideo)
    (denominator : Nat) (pixel : Pnm_rgb) :
    ComponentVideo_to_RGB pb_mean pr_mean compvid denominator pixel =
      ComponentVideo_to_RGB pb_mean pr_mean { y := compvid.y, pb := 0, pr := 0 } denominator
        Pnm_rgb_zero := rfl

theorem signed_field5_zero : signed_field5 0 = 0 := by decide

/-- The four pixels decoded from a codeword whose fields `b`, `c`, `d` are
zero are equal. -/
theorem decoded_pixel_uniform (arith : Arith40) (qa ipb ipr : Nat) (hqa : qa ≤ 511)
    (hpb : ipb ≤ 15) (hpr : ipr ≤ 15) (i : Nat) (hi : i < 4) :
    decoded_pixel arith (qa * 2 ^ 23 + ipb * 2 ^ 4 + ipr) i =
      ComponentVideo_to_RGB (arith.Arith40_chroma_of_index ipb)
        (arith.Arith40_chroma_of_index ipr) { y := (qa : ℚ) / 511, pb := 0, pr := 0 } 255
        Pnm_rgb_zero := by
  obtain ⟨block, hblock, bpb, bpr, y0, y1, y2, y3⟩ :=
    decode_block_ok arith (qa * 2 ^ 23 + ipb * 2 ^ 4 + ipr)
  have fa : (qa * 2 ^ 23 + ipb * 2 ^ 4 + ipr) / 2 ^ 23 % 2 ^ 9 = qa := by omega
  have fb : (qa * 2 ^ 23 + ipb * 2 ^ 4 + ipr) / 2 ^ 18 % 2 ^ 5 = 0 := by omega
  have fc : (qa * 2 ^ 23 + ipb * 2 ^ 4 + ipr) / 2 ^ 13 % 2 ^ 5 = 0 := by omega
  have fd : (qa * 2 ^ 23 + ipb * 2 ^ 4 + ipr) / 2 ^ 8 % 2 ^ 5 = 0 := by omega
  have fpb : (qa * 2 ^ 23 + ipb * 2 ^ 4 + ipr) / 2 ^ 4 % 2 ^ 4 = ipb := by omega
  have fpr : (qa * 2 ^ 23 + ipb * 2 ^ 4 + ipr) % 2 ^ 4 = ipr := by omega
  rw [fpb] at bpb
  rw [fpr] at bpr
  rw [fa, fb, fc, fd, signed_field5_zero] at y0 y1 y2 y3
  have hy : (block.compvidArr i).y = (qa : ℚ) / 511 := by
    interval_cases i
    · rw [y0]; norm_num
    · rw [y1]; norm_num
    · rw [y2]; norm_num
    · rw [y3]; norm_num
  unfold decoded_pixel
  rw [hblock]
  simp only
  rw [ComponentVideo_to_RGB_luma, hy, bpb, bpr]

theorem RGB_to_ComponentVideo_gray (v denominator : Nat) (hd : 0 < denominator) :
    RGB_to_ComponentVideo { red := v, green := v, blue := v } denominator
      = { y := (v : ℚ) / (denominator : ℚ), pb := 0, pr := 0 } := by
  have hd0 : (denominator : ℚ) ≠ 0 := by exact_mod_cast (Nat.pos_iff_ne_zero.mp hd)
  simp only [RGB_to_ComponentVideo]
  congr 1 <;> field_simp <;> ring

theorem float_to_unsigned_lt (x : ℚ) (n : Nat) (hn : 0 < n) (h : x < (n : ℚ)) :
    float_to_unsigned x < n := by
  unfold float_to_unsigned
  have : ⌊x⌋ < (n : Int) := Int.floor_lt.mpr (by exact_mod_cast h)
  omega

theorem float_to_unsigned_pos (x : ℚ) (h : 1 ≤ x) : 1 ≤ float_to_unsigned x := by
  unfold float_to_unsigned
  have : (1 : Int) ≤ ⌊x⌋ := Int.le_floor.mpr (by exact_mod_cast h)
  omega

theorem clamp_lt (x hi n : ℚ) (hn : 0 < n) (h : x < n) : clamp x 0 hi < n := by
  unfold clamp
  split
  · exact hn
  · split
    · rename_i h2
      linarith
    · exact h

theorem clamp_ge_one (x hi : ℚ) (hhi : 1 ≤ hi) (h : 1 ≤ x) : 1 ≤ clamp x 0 hi := by
  unfold clamp
  rw [if_neg (by linarith)]
  split
  · exact hhi
  · exact h

theorem round_half_away_pos (x : ℚ) (h : 1 / 2 ≤ x) : 1 ≤ round_half_away x := by
  unfold round_half_away
  rw [if_pos (by linarith)]
  exact Int.le_floor.mpr (by push_cast; linarith)

theorem round_half_away_le_one (x : ℚ) (h0 : 0 ≤ x) (h : x < 3 / 2) :
    round_half_away x ≤ 1 := by
  unfold round_half_away
  rw [if_pos h0]
  have : ⌊x + 1 / 2⌋ < 2 := Int.floor_lt.mpr (by push_cast; linarith)
  omega

theorem codeword_bytes_inj (a b : Nat) (ha : a < 2 ^ 32) (hb : b < 2 ^ 32)
    (h : codeword_bytes a = codeword_bytes b) : a = b := by
  simp only [codeword_bytes, List.cons.injEq, and_true] at h
  omega

/-- The luma field of the codeword of four equal pixels `p` at denominator
255, as a function of the channels. -/
theorem uniform_codeword_luma (p : Pnm_rgb) :
    (RGB_to_ComponentVideo p 255).y =
      (0.299 * (p.red : ℚ) + 0.587 * (p.green : ℚ) + 0.114 * (p.blue : ℚ)) / 255 := by
  simp only [RGB_to_ComponentVideo]
  push_cast
  ring

/-- A full cycle on a 2x2 image of four equal pixels: the three results. -/
theorem cycle_uniform (arith : Arith40) (harith : ∀ x, arith.Arith40_index_of_chroma x ≤ 15)
    (p : Pnm_rgb) (denominator : Nat) (P : Pnm_rgb)
    (hP : ∀ i, i < 4 → decoded_pixel arith (uniform_codeword arith p denominator) i = P) :
    compress40 arith (uniform_image_2x2 p denominator) =
      .ok (compress40_header 2 2 ++ codeword_bytes (uniform_codeword arith p denominator)) ∧
    decompress40 arith
        (compress40_header 2 2 ++ codeword_bytes (uniform_codeword arith p denominator)) =
      .ok (uniform_image_2x2 P 255) ∧
    compress40 arith (uniform_image_2x2 P 255) =
      .ok (compress40_header 2 2 ++ codeword_bytes (uniform_codeword arith P 255)) := by
  obtain ⟨qa, hqa, _, hcw⟩ := uniform_codeword_fields arith p denominator
  have hlt : uniform_codeword arith p denominator < 2 ^ 32 := by
    have h1 := harith (RGB_to_ComponentVideo p denominator).pb
    have h2 := harith (RGB_to_ComponentVideo p denominator).pr
    omega
  refine ⟨?_, decompress40_one_block arith _ hlt P hP, ?_⟩
  · exact compress40_of_uniform arith harith _ (uniform_image_2x2_wf p denominator) rfl rfl p
      (fun c r hc hr => uniform_image_2x2_cell p denominator c r hc hr)
  · exact compress40_of_uniform arith harith _ (uniform_image_2x2_wf P 255) rfl rfl P
      (fun c r hc hr => uniform_image_2x2_cell P 255 c r hc hr)

theorem float_to_unsigned_eq (x : ℚ) (n : Nat) (h1 : (n : ℚ) ≤ x) (h2 : x < (n : ℚ) + 1) :
    float_to_unsigned x = n := by
  unfold float_to_unsigned
  rw [floor_eq_of_bounds x (n : Int) (by exact_mod_cast h1) (by exact_mod_cast h2)]
  rfl

theorem round_half_away_eq (x : ℚ) (n : Nat) (h1 : (n : ℚ) - 1 / 2 ≤ x) (h2 : x < (n : ℚ) + 1 / 2)
    (h0 : 0 ≤ x) : round_half_away x = (n : Int) := by
  unfold round_half_away
  rw [if_pos h0]
  exact floor_eq_of_bounds _ _ (by push_cast; linarith) (by push_cast; linarith)

theorem clamp_of_mem (x lo hi : ℚ) (h1 : lo ≤ x) (h2 : x ≤ hi) : clamp x lo hi = x := by
  unfold clamp
  rw [if_neg (by linarith), if_neg (by linarith)]

theorem clamp_of_lt (x lo hi : ℚ) (h1 : x < lo) : clamp x lo hi = lo := by
  unfold clamp
  rw [if_pos h1]

theorem sample_uniform_codeword_black :
    uniform_codeword sample_arith { red := 0, green := 0, blue := 0 } 255 = 136 := by
  unfold uniform_codeword
  rw [RGB_to_ComponentVideo_gray 0 255 (by norm_num)]
  have h1 : clamp (((0 : Nat) : ℚ) / ((255 : Nat) : ℚ)) 0.0 1.0 * 511.0 = 0 := by
    rw [clamp_of_mem _ _ _ (by norm_num) (by norm_num)]
    norm_num
  rw [h1, round_half_away_zero]
  simp [sample_arith, sample_index_of_chroma]
  norm_num

theorem sample_decoded_pixel_black (i : Nat) (hi : i < 4) :
    decoded_pixel sample_arith 136 i = { red := 3, green := 0, blue := 4 } := by
  have := decoded_pixel_uniform sample_arith 0 8 8 (by norm_num) (by norm_num) (by norm_num)
    i hi
  rw [show 0 * 2 ^ 23 + 8 * 2 ^ 4 + 8 = 136 from rfl] at this
  rw [this]
  have hc : sample_arith.Arith40_chroma_of_index 8 = 0.011 := by
    simp [sample_arith, sample_chroma_values]
  rw [hc]
  simp only [ComponentVideo_to_RGB]
  have r : float_to_unsigned (clamp ((1.0 * (((0 : Nat) : ℚ) / 511) + 0.0 * 0.011
      + 1.402 * 0.011) * ((255 : Nat) : ℚ)) 0 ((255 : Nat) : ℚ)) = 3 := by
    rw [clamp_of_mem _ _ _ (by norm_num) (by norm_num)]
    exact float_to_unsigned_eq _ 3 (by norm_num) (by norm_num)
  have g : float_to_unsigned (clamp ((1.0 * (((0 : Nat) : ℚ) / 511) - 0.344136 * 0.011
      - 0.714136 * 0.011) * ((255 : Nat) : ℚ)) 0 ((255 : Nat) : ℚ)) = 0 := by
    rw [clamp_of_lt _ _ _ (by norm_num)]
    exact float_to_unsigned_eq _ 0 (by norm_num) (by norm_num)
  have b : float_to_unsigned (clamp ((1.0 * (((0 : Nat) : ℚ) / 511) + 1.772 * 0.011
      + 0.0 * 0.011) * ((255 : Nat) : ℚ)) 0 ((255 : Nat) : ℚ)) = 4 := by
    rw [clamp_of_mem _ _ _ (by norm_num) (by norm_num)]
    exact float_to_unsigned_eq _ 4 (by norm_num) (by norm_num)
  rw [r, g, b]

theorem sample_uniform_codeword_second :
    uniform_codeword sample_arith { red := 3, green := 0, blue := 4 } 255 = 25165960 := by
  unfold uniform_codeword
  have hy : (RGB_to_ComponentVideo { red := 3, green := 0, blue := 4 } 255).y = 1353 / 255000 := by
    simp only [RGB_to_ComponentVideo]
    norm_num
  have hpb : (RGB_to_ComponentVideo { red := 3, green := 0, blue := 4 } 255).pb
      = 1493792 / 255000000 := by
    simp only [RGB_to_ComponentVideo]
    norm_num
  have hpr : (RGB_to_ComponentVideo { red := 3, green := 0, blue := 4 } 255).pr
      = 1174752 / 255000000 := by
    simp only [RGB_to_ComponentVideo]
    norm_num
  rw [hy, hpb, hpr]
  have h1 : round_half_away (clamp (1353 / 255000 : ℚ) 0.0 1.0 * 511.0) = ((3 : Nat) : Int) := by
    rw [clamp_of_mem _ _ _ (by norm_num) (by norm_num)]
    exact round_half_away_eq _ 3 (by norm_num) (by norm_num) (by norm_num)
  rw [h1]
  simp [sample_arith, sample_index_of_chroma]
  norm_num

/-! ## The color round trip -/

/-- The three scaled channels that `ComponentVideo_to_RGB` computes from the
output of `RGB_to_ComponentVideo`, before clamping: the original channel plus
a residue of the two matrices, which are not exact inverses. -/
theorem roundtrip_scaled (p : Pnm_rgb) (d : Nat) (hd : 0 < d) :
    (1.0 * (RGB_to_ComponentVideo p d).y + 0.0 * (RGB_to_ComponentVideo p d).pb
        + 1.402 * (RGB_to_ComponentVideo p d).pr) * (d : ℚ)
      = (p.red : ℚ) - 9 / 15625000 * (p.green : ℚ) + 9 / 15625000 * (p.blue : ℚ) ∧
    (1.0 * (RGB_to_ComponentVideo p d).y - 0.344136 * (RGB_to_ComponentVideo p d).pb
        - 0.714136 * (RGB_to_ComponentVideo p d).pr) * (d : ℚ)
      = (p.green : ℚ) + 129 / 976562500 * (p.red : ℚ) + 81 / 1953125000 * (p.green : ℚ)
        - 339 / 1953125000 * (p.blue : ℚ) ∧
    (1.0 * (RGB_to_ComponentVideo p d).y + 1.772 * (RGB_to_ComponentVideo p d).pb
        + 0.0 * (RGB_to_ComponentVideo p d).pr) * (d : ℚ)
      = (p.blue : ℚ) - 3 / 15625000 * (p.red : ℚ) + 3 / 15625000 * (p.green : ℚ) := by
  have hd0 : (d : ℚ) ≠ 0 := by exact_mod_cast (Nat.pos_iff_ne_zero.mp hd)
  simp only [RGB_to_ComponentVideo]
  refine ⟨?_, ?_, ?_⟩ <;> field_simp <;> ring

/-- Truncation of a clamped value that is within one unit of `n`. -/
theorem float_to_unsigned_near (x : ℚ) (n d : Nat) (hn : n ≤ d) (h1 : (n : ℚ) - 1 < x)
    (h2 : x < (n : ℚ) + 1) :
    float_to_unsigned (clamp x 0 (d : ℚ)) ≤ n ∧ n ≤ float_to_unsigned (clamp x 0 (d : ℚ)) + 1 := by
  have hs := float_to_unsigned_spec (clamp x 0 (d : ℚ)) (clamp_nonneg x d)
  have hnd : (n : ℚ) ≤ (d : ℚ) := by exact_mod_cast hn
  have hc : (n : ℚ) - 1 < clamp x 0 (d : ℚ) ∧ clamp x 0 (d : ℚ) < (n : ℚ) + 1 := by
    unfold clamp
    split
    · constructor <;> linarith
    · split
      · constructor <;> linarith
      · exact ⟨h1, h2⟩
  constructor
  · have : ((float_to_unsigned (clamp x 0 (d : ℚ)) : Nat) : ℚ) < (n : ℚ) + 1 := by linarith
    have : ((float_to_unsigned (clamp x 0 (d : ℚ)) : Nat) : ℚ) < ((n + 1 : Nat) : ℚ) := by
      push_cast; linarith
    have := Nat.cast_lt.mp this
    omega
  · have : (n : ℚ) < ((float_to_unsigned (clamp x 0 (d : ℚ)) + 2 : Nat) : ℚ) := by
      push_cast; linarith
    have := Nat.cast_lt.mp this
    omega

/-- C17 (the claim as stated fails): at the denominator 4000000 the pixel
`(2000000, 4000000, 0)`, whose channels lie in `[0, d]`, comes back with the
red channel 1999997, three units below the original. -/
theorem ComponentVideo_RGB_roundtrip_large_denominator :
    (2000000 ≤ 4000000 ∧ 4000000 ≤ 4000000 ∧ 0 ≤ 4000000) ∧
    (ComponentVideo_to_RGB
      (RGB_to_ComponentVideo { red := 2000000, green := 4000000, blue := 0 } 4000000).pb
      (RGB_to_ComponentVideo { red := 2000000, green := 4000000, blue := 0 } 4000000).pr
      (RGB_to_ComponentVideo { red := 2000000, green := 4000000, blue := 0 } 4000000)
      4000000 { red := 2000000, green := 4000000, blue := 0 }).red = 1999997 := by
  refine ⟨by decide, ?_⟩
  have h := (roundtrip_scaled { red := 2000000, green := 4000000, blue := 0 } 4000000
    (by norm_num)).1
  simp only [ComponentVideo_to_RGB]
  rw [h, clamp_of_mem _ _ _ (by norm_num) (by norm_num)]
  exact float_to_unsigned_eq _ 1999997 (by norm_num) (by norm_num)

/-- C17 (amended): for every denominator `d` with `0 < d ≤ 65535` (the range
of a PPM maxval) and every pixel whose three channels lie in `[0, d]`, taking
the arithmetic as exact, `ComponentVideo_to_RGB` applied with denominator `d`
to the (Y, Pb, Pr) that `RGB_to_ComponentVideo` produces yields a pixel each
of whose channels is the original channel or one less. -/
theorem ComponentVideo_RGB_roundtrip (p : Pnm_rgb) (d : Nat) (hd : 0 < d) (hd1 : d ≤ 65535)
    (hr : p.red ≤ d) (hg : p.green ≤ d) (hb : p.blue ≤ d) :
    ((ComponentVideo_to_RGB (RGB_to_ComponentVideo p d).pb (RGB_to_ComponentVideo p d).pr
        (RGB_to_ComponentVideo p d) d p).red ≤ p.red ∧
      p.red ≤ (ComponentVideo_to_RGB (RGB_to_ComponentVideo p d).pb
        (RGB_to_ComponentVideo p d).pr (RGB_to_ComponentVideo p d) d p).red + 1) ∧
    ((ComponentVideo_to_RGB (RGB_to_ComponentVideo p d).pb (RGB_to_ComponentVideo p d).pr
        (RGB_to_ComponentVideo p d) d p).green ≤ p.green ∧
      p.green ≤ (ComponentVideo_to_RGB (RGB_to_ComponentVideo p d).pb
        (RGB_to_ComponentVideo p d).pr (RGB_to_ComponentVideo p d) d p).green + 1) ∧
    ((ComponentVideo_to_RGB (RGB_to_ComponentVideo p d).pb (RGB_to_ComponentVideo p d).pr
        (RGB_to_ComponentVideo p d) d p).blue ≤ p.blue ∧
      p.blue ≤ (ComponentVideo_to_RGB (RGB_to_ComponentVideo p d).pb
        (RGB_to_ComponentVideo p d).pr (RGB_to_ComponentVideo p d) d p).blue + 1) := by
  obtain ⟨h1, h2, h3⟩ := roundtrip_scaled p d hd
  have r0 : (0 : ℚ) ≤ (p.red : ℚ) := Nat.cast_nonneg _
  have g0 : (0 : ℚ) ≤ (p.green : ℚ) := Nat.cast_nonneg _
  have b0 : (0 : ℚ) ≤ (p.blue : ℚ) := Nat.cast_nonneg _
  have r1 : (p.red : ℚ) ≤ 65535 := by exact_mod_cast (le_trans hr hd1)
  have g1 : (p.green : ℚ) ≤ 65535 := by exact_mod_cast (le_trans hg hd1)
  have b1 : (p.blue : ℚ) ≤ 65535 := by exact_mod_cast (le_trans hb hd1)
  simp only [ComponentVideo_to_RGB]
  rw [h1, h2]
  have h3' : (1.0 * (RGB_to_ComponentVideo p d).y + 1.772 * (RGB_to_ComponentVideo p d).pb
      + 0.0 * (RGB_to_ComponentVideo p d).pr) * (d : ℚ)
      = (p.blue : ℚ) - 3 / 15625000 * (p.red : ℚ) + 3 / 15625000 * (p.green : ℚ) := h3
  rw [h3']
  exact ⟨float_to_unsigned_near _ p.red d hr (by linarith) (by linarith),
    float_to_unsigned_near _ p.green d hg (by linarith) (by linarith),
    float_to_unsigned_near _ p.blue d hb (by linarith) (by linarith)⟩

theorem ComponentVideo_RGB_roundtrip_witness :
    ((ComponentVideo_to_RGB (RGB_to_ComponentVideo { red := 200, green := 17, blue := 255 } 255).pb
        (RGB_to_ComponentVideo { red := 200, green := 17, blue := 255 } 255).pr
        (RGB_to_ComponentVideo { red := 200, green := 17, blue := 255 } 255) 255
        { red := 200, green := 17, blue := 255 }).red ≤ 200 ∧
      200 ≤ (ComponentVideo_to_RGB
        (RGB_to_ComponentVideo { red := 200, green := 17, blue := 255 } 255).pb
        (RGB_to_ComponentVideo { red := 200, green := 17, blue := 255 } 255).pr
        (RGB_to_ComponentVideo { red := 200, green := 17, blue := 255 } 255) 255
        { red := 200, green := 17, blue := 255 }).red + 1) ∧
    ((ComponentVideo_to_RGB (RGB_to_ComponentVideo { red := 200, green := 17, blue := 255 } 255).pb
        (RGB_to_ComponentVideo { red := 200, green := 17, blue := 255 } 255).pr
        (RGB_to_ComponentVideo { red := 200, green := 17, blue := 255 } 255) 255
        { red := 200, green := 17, blue := 255 }).green ≤ 17 ∧
      17 ≤ (ComponentVideo_to_RGB
        (RGB_to_ComponentVideo { red := 200, green := 17, blue := 255 } 255).pb
        (RGB_to_ComponentVideo { red := 200, green := 17, blue := 255 } 255).pr
        (RGB_to_ComponentVideo { red := 200, green := 17, blue := 255 } 255) 255
        { red := 200, green := 17, blue := 255 }).green + 1) ∧
    ((ComponentVideo_to_RGB (RGB_to_ComponentVideo { red := 200, green := 17, blue := 255 } 255).pb
        (RGB_to_ComponentVideo { red := 200, green := 17, blue := 255 } 255).pr
        (RGB_to_ComponentVideo { red := 200, green := 17, blue := 255 } 255) 255
        { red := 200, green := 17, blue := 255 }).blue ≤ 255 ∧
      255 ≤ (ComponentVideo_to_RGB
        (RGB_to_ComponentVideo { red := 200, green := 17, blue := 255 } 255).pb
        (RGB_to_ComponentVideo { red := 200, green := 17, blue := 255 } 255).pr
        (RGB_to_ComponentVideo { red := 200, green := 17, blue := 255 } 255) 255
        { red := 200, green := 17, blue := 255 }).blue + 1) :=
  ComponentVideo_RGB_roundtrip { red := 200, green := 17, blue := 255 } 255 (by decide)
    (by decide) (by decide) (by decide) (by decide)

/-! ## Claims about the decompressed pixels and the full cycle -/

theorem UArray2_at_mem {α : Type} (uarray2 : UArray2_T α) (col row : Int) (p : α)
    (h : UArray2_at uarray2 col row = .ok p) : p ∈ uarray2.elements := by
  unfold UArray2_at UArray_at at h
  split at h
  · exact absurd h (by simp)
  · split at h
    · exact absurd h (by simp)
    · simp only at h
      split at h
      · exact absurd h (by simp)
      · split at h
        · exact absurd h (by simp)
        · rename_i x hx
          cases h
          obtain ⟨hlt, hget⟩ := List.getElem?_eq_some_iff.mp hx
          rw [← hget]
          exact List.getElem_mem _

/-- C20 (the claim as stated fails): with the sample chroma table, a black
2x2 image of denominator 255 compresses to the codeword bytes `0 0 0 136`;
these decompress to four pixels `(3, 0, 4)`, because the table has no entry
for chroma zero, and compressing that raster gives the codeword bytes
`1 128 0 136`: the second stream is not the first. -/
theorem compress40_cycle_not_identical :
    compress40 sample_arith (uniform_image_2x2 { red := 0, green := 0, blue := 0 } 255) =
      .ok (compress40_header 2 2 ++ [0, 0, 0, 136]) ∧
    decompress40 sample_arith (compress40_header 2 2 ++ [0, 0, 0, 136]) =
      .ok (uniform_image_2x2 { red := 3, green := 0, blue := 4 } 255) ∧
    compress40 sample_arith (uniform_image_2x2 { red := 3, green := 0, blue := 4 } 255) =
      .ok (compress40_header 2 2 ++ [1, 128, 0, 136]) ∧
    compress40_header 2 2 ++ [0, 0, 0, 136] ≠ compress40_header 2 2 ++ [1, 128, 0, 136] := by
  have h := cycle_uniform sample_arith sample_arith_index_le { red := 0, green := 0, blue := 0 }
    255 { red := 3, green := 0, blue := 4 } (by
      rw [sample_uniform_codeword_black]
      exact sample_decoded_pixel_black)
  rw [sample_uniform_codeword_black, sample_uniform_codeword_second] at h
  have b1 : codeword_bytes 136 = [0, 0, 0, 136] := by decide
  have b2 : codeword_bytes 25165960 = [1, 128, 0, 136] := by decide
  rw [b1, b2] at h
  exact ⟨h.1, h.2.1, h.2.2, by decide⟩

/-- C20 (amended): for every well-formed raster and every chroma lookup with
indices in 0..15, the three steps of a compress, decompress, compress cycle
succeed; the decompressed raster has the trimmed dimensions and the
denominator 255; the second stream has the same header as the first and the
same number of codeword bytes. The codewords themselves may differ. -/
theorem compress40_cycle_format (arith : Arith40)
    (harith : ∀ x, arith.Arith40_index_of_chroma x ≤ 15) (image : Pnm_ppm)
    (hwf : Pnm_ppm_wf image) :
    ∃ (img : Pnm_ppm) (codewords1 codewords2 : Nat → Nat → Nat),
      compress40 arith image =
        .ok (compress40_header (image.width - image.width % 2)
            (image.height - image.height % 2)
          ++ codeword_stream codewords1 ((image.width - image.width % 2) / 2)
            ((image.height - image.height % 2) / 2)) ∧
      decompress40 arith
        (compress40_header (image.width - image.width % 2) (image.height - image.height % 2)
          ++ codeword_stream codewords1 ((image.width - image.width % 2) / 2)
            ((image.height - image.height % 2) / 2)) = .ok img ∧
      img.width = image.width - image.width % 2 ∧
      img.height = image.height - image.height % 2 ∧
      img.denominator = 255 ∧
      compress40 arith img =
        .ok (compress40_header (image.width - image.width % 2)
            (image.height - image.height % 2)
          ++ codeword_stream codewords2 ((image.width - image.width % 2) / 2)
            ((image.height - image.height % 2) / 2)) ∧
      (codeword_stream codewords2 ((image.width - image.width % 2) / 2)
          ((image.height - image.height % 2) / 2)).length =
        (codeword_stream codewords1 ((image.width - image.width % 2) / 2)
          ((image.height - image.height % 2) / 2)).length := by
  obtain ⟨t, _, tw, th, _, twf, _, hc1⟩ := compress40_stream arith harith image hwf
  rw [tw, th] at hc1
  have hw31 : image.width - image.width % 2 < 2 ^ 31 := by have := hwf.2.2.2.1; omega
  have hh31 : image.height - image.height % 2 < 2 ^ 31 := by have := hwf.2.2.2.2; omega
  obtain ⟨img, hd, iw, ih, iden, iwf, _, _⟩ := decompress40_stream arith
    (image.width - image.width % 2) (image.height - image.height % 2) hw31 hh31 (by omega)
    (by omega)
    (codeword_stream (block_codeword arith t) ((image.width - image.width % 2) / 2)
      ((image.height - image.height % 2) / 2))
    (by rw [codeword_stream_length])
  have hc2 := compress40_even arith harith img iwf (by rw [iw]; omega) (by rw [ih]; omega)
  rw [iw, ih] at hc2
  exact ⟨img, block_codeword arith t, block_codeword arith img, hc1, hd, iw, ih, iden, hc2,
    by rw [codeword_stream_length, codeword_stream_length]⟩

theorem compress40_cycle_format_witness :
    (∀ x, sample_arith.Arith40_index_of_chroma x ≤ 15) ∧ Pnm_ppm_wf sample_image_3x5 ∧
    ∃ (img : Pnm_ppm) (codewords1 codewords2 : Nat → Nat → Nat),
      compress40 sample_arith sample_image_3x5 =
        .ok (compress40_header (sample_image_3x5.width - sample_image_3x5.width % 2)
            (sample_image_3x5.height - sample_image_3x5.height % 2)
          ++ codeword_stream codewords1
            ((sample_image_3x5.width - sample_image_3x5.width % 2) / 2)
            ((sample_image_3x5.height - sample_image_3x5.height % 2) / 2)) ∧
      decompress40 sample_arith
        (compress40_header (sample_image_3x5.width - sample_image_3x5.width % 2)
            (sample_image_3x5.height - sample_image_3x5.height % 2)
          ++ codeword_stream codewords1
            ((sample_image_3x5.width - sample_image_3x5.width % 2) / 2)
            ((sample_image_3x5.height - sample_image_3x5.height % 2) / 2)) = .ok img ∧
      img.width = sample_image_3x5.width - sample_image_3x5.width % 2 ∧
      img.height = sample_image_3x5.height - sample_image_3x5.height % 2 ∧
      img.denominator = 255 ∧
      compress40 sample_arith img =
        .ok (compress40_header (sample_image_3x5.width - sample_image_3x5.width % 2)
            (sample_image_3x5.height - sample_image_3x5.height % 2)
          ++ codeword_stream codewords2
            ((sample_image_3x5.width - sample_image_3x5.width % 2) / 2)
            ((sample_image_3x5.height - sample_image_3x5.height % 2) / 2)) ∧
      (codeword_stream codewords2 ((sample_image_3x5.width - sample_image_3x5.width % 2) / 2)
          ((sample_image_3x5.height - sample_image_3x5.height % 2) / 2)).length =
        (codeword_stream codewords1 ((sample_image_3x5.width - sample_image_3x5.width % 2) / 2)
          ((sample_image_3x5.height - sample_image_3x5.height % 2) / 2)).length :=
  ⟨sample_arith_index_le, sample_image_3x5_wf,
    compress40_cycle_format sample_arith sample_arith_index_le sample_image_3x5
      sample_image_3x5_wf⟩

/-! ## Claims about the UArray2 interface -/

/-- C28: on an array that satisfies the representation invariant,
`UArray2_at(a, col, row)` is a checked runtime error if and only if `col < 0`,
`col >= width`, `row < 0` or `row >= height`; otherwise it returns the element
at the linear index `row * width + col`, which is not negative and below
`width * height`, and two in-bounds pairs with the same linear index are
equal. -/
theorem UArray2_at_contract {α : Type} (a : UArray2_T α) (hwf : UArray2_wf a) (col row : Int) :
    (UArray2_at a col row = .error .CRE ↔
      (col < 0 ∨ col ≥ a.width ∨ row < 0 ∨ row ≥ a.height)) ∧
    (¬ (col < 0 ∨ col ≥ a.width ∨ row < 0 ∨ row ≥ a.height) →
      0 ≤ row * a.width + col ∧ row * a.width + col < a.width * a.height ∧
      ∃ x, UArray2_at a col row = .ok x ∧
        a.elements[(row * a.width + col).toNat]? = some x) ∧
    (∀ col1 row1 : Int, ¬ (col < 0 ∨ col ≥ a.width ∨ row < 0 ∨ row ≥ a.height) →
      ¬ (col1 < 0 ∨ col1 ≥ a.width ∨ row1 < 0 ∨ row1 ≥ a.height) →
      row * a.width + col = row1 * a.width + col1 → col = col1 ∧ row = row1) := by
  obtain ⟨W, H, hw, hh, hlen⟩ := UArray2_wf_dims a hwf
  have inb : ∀ col row : Int, ¬ (col < 0 ∨ col ≥ a.width ∨ row < 0 ∨ row ≥ a.height) →
      ∃ c r : Nat, col = (c : Int) ∧ row = (r : Int) ∧ c < W ∧ r < H := by
    intro col row h
    refine ⟨col.toNat, row.toNat, ?_, ?_, ?_, ?_⟩ <;> omega
  refine ⟨?_, ?_, ?_⟩
  · constructor
    · intro herr
      by_contra hin
      obtain ⟨c, r, rfl, rfl, hc, hr⟩ := inb _ _ hin
      obtain ⟨x, hx, _⟩ := UArray2_at_of_dims a W H hw hh hlen c r hc hr
      rw [hx] at herr
      exact absurd herr (by simp)
    · intro hout
      unfold UArray2_at
      by_cases h1 : col ≥ 0 ∧ col < a.width
      · rw [if_neg (not_not.mpr h1), if_pos (by omega)]
      · rw [if_pos h1]
  · intro hin
    obtain ⟨c, r, rfl, rfl, hc, hr⟩ := inb _ _ hin
    obtain ⟨x, hx, hcell⟩ := UArray2_at_of_dims a W H hw hh hlen c r hc hr
    have hidx := index_lt W H c r hc hr
    have hcast : ((r : Int) * (W : Int) + (c : Int)) = ((r * W + c : Nat) : Int) := by
      push_cast; ring
    rw [hw, hh, hcast]
    refine ⟨by positivity, ?_, x, hx, ?_⟩
    · have : ((W : Int) * (H : Int)) = ((W * H : Nat) : Int) := by push_cast; ring
      rw [this]
      exact_mod_cast hidx
    · rw [Int.toNat_ofNat]
      unfold UArray2_cell at hcell
      rw [hw, Int.toNat_ofNat] at hcell
      exact hcell
  · intro col1 row1 hin hin1 heq
    obtain ⟨c, r, rfl, rfl, hc, hr⟩ := inb _ _ hin
    obtain ⟨c1, r1, rfl, rfl, hc1, hr1⟩ := inb _ _ hin1
    rw [hw] at heq
    have heq2 : r * W + c = r1 * W + c1 := by exact_mod_cast heq
    obtain ⟨e1, e2⟩ := index_inj W c r c1 r1 hc hc1 heq2
    exact ⟨by rw [e1], by rw [e2]⟩

theorem UArray2_at_contract_witness :
    UArray2_wf sample_uarray2_3x2 ∧
    UArray2_at sample_uarray2_3x2 2 1 = .ok 22 ∧
    UArray2_at sample_uarray2_3x2 3 1 = .error .CRE ∧
    ((UArray2_at sample_uarray2_3x2 2 1 = .error .CRE ↔
      ((2 : Int) < 0 ∨ (2 : Int) ≥ sample_uarray2_3x2.width ∨ (1 : Int) < 0
        ∨ (1 : Int) ≥ sample_uarray2_3x2.height)) ∧
    (¬ ((2 : Int) < 0 ∨ (2 : Int) ≥ sample_uarray2_3x2.width ∨ (1 : Int) < 0
        ∨ (1 : Int) ≥ sample_uarray2_3x2.height) →
      0 ≤ (1 : Int) * sample_uarray2_3x2.width + 2 ∧
      (1 : Int) * sample_uarray2_3x2.width + 2
        < sample_uarray2_3x2.width * sample_uarray2_3x2.height ∧
      ∃ x, UArray2_at sample_uarray2_3x2 2 1 = .ok x ∧
        sample_uarray2_3x2.elements[((1 : Int) * sample_uarray2_3x2.width + 2).toNat]?
          = some x) ∧
    (∀ col1 row1 : Int,
      ¬ ((2 : Int) < 0 ∨ (2 : Int) ≥ sample_uarray2_3x2.width ∨ (1 : Int) < 0
        ∨ (1 : Int) ≥ sample_uarray2_3x2.height) →
      ¬ (col1 < 0 ∨ col1 ≥ sample_uarray2_3x2.width ∨ row1 < 0
        ∨ row1 ≥ sample_uarray2_3x2.height) →
      (1 : Int) * sample_uarray2_3x2.width + 2 = row1 * sample_uarray2_3x2.width + col1 →
      (2 : Int) = col1 ∧ (1 : Int) = row1)) :=
  ⟨⟨by decide, by decide, by decide⟩, by decide, by decide,
    UArray2_at_contract sample_uarray2_3x2 ⟨by decide, by decide, by decide⟩ 2 1⟩

/-! ## Claims about the command line -/

theorem main_loop_usage_error (args : List String) :
    ∀ (decompress : Bool),
      ((∃ arg ∈ args, starts_with_dash arg = true ∧ arg ≠ "-c" ∧ arg ≠ "-d") ∨
        2 ≤ (args.filter (fun arg => ! starts_with_dash arg)).length) →
      main_loop decompress args = .exit_failure ∨ main_loop decompress args = .assert_failed := by
  induction args with
  | nil =>
    intro decompress h
    rcases h with ⟨arg, hmem, _⟩ | h
    · exact absurd hmem (List.not_mem_nil arg)
    · simp at h
  | cons arg rest ih =>
    intro decompress h
    have hrest : (arg = "-c" ∨ arg = "-d") →
        ((∃ a ∈ rest, starts_with_dash a = true ∧ a ≠ "-c" ∧ a ≠ "-d") ∨
          2 ≤ (rest.filter (fun a => ! starts_with_dash a)).length) := by
      intro hcd
      have hdash : starts_with_dash arg = true := by
        rcases hcd with rfl | rfl <;> decide
      rcases h with ⟨a, hmem, h1, h2, h3⟩ | h
      · rcases List.mem_cons.mp hmem with rfl | hm
        · rcases hcd with hc | hd
          · exact absurd hc h2
          · exact absurd hd h3
        · exact Or.inl ⟨a, hm, h1, h2, h3⟩
      · right
        rw [List.filter_cons] at h
        simpa [hdash] using h
    unfold main_loop
    by_cases hc : arg = "-c"
    · rw [if_pos hc]
      exact ih false (hrest (Or.inl hc))
    · rw [if_neg hc]
      by_cases hd : arg = "-d"
      · rw [if_pos hd]
        exact ih true (hrest (Or.inr hd))
      · rw [if_neg hd]
        by_cases hdash : starts_with_dash arg = true
        · rw [if_pos hdash]
          exact Or.inl rfl
        · rw [if_neg hdash]
          by_cases h2 : (arg :: rest).length > 2
          · rw [if_pos h2]
            exact Or.inl rfl
          · rw [if_neg h2]
            by_cases h1 : (arg :: rest).length ≤ 1
            · exfalso
              have hnil : rest = [] := by
                cases rest with
                | nil => rfl
                | cons b t => simp at h1
              subst hnil
              rcases h with ⟨a, hmem, ha, _, _⟩ | h
              · rcases List.mem_cons.mp hmem with rfl | hm
                · exact hdash ha
                · exact absurd hm (List.not_mem_nil a)
              · simp [List.filter_cons] at h
                split at h <;> simp at h
            · rw [if_pos h1]
              exact Or.inr rfl

/-- C27: for every argument list, if an argument that begins with `-` other
than `-c` and `-d` appears, or if more than one argument that does not begin
with `-` (a filename) is given, `main` ends in `exit(1)` or in the failure of
its `assert`, and neither `compress40` nor `decompress40` is called. An
unknown option and three or more remaining arguments end in `exit(1)`; two
remaining arguments end in the failed `assert(argc - i <= 1)`. -/
theorem main_usage_error (args : List String)
    (h : (∃ arg ∈ args, starts_with_dash arg = true ∧ arg ≠ "-c" ∧ arg ≠ "-d") ∨
      2 ≤ (args.filter (fun arg => ! starts_with_dash arg)).length) :
    (main args = .exit_failure ∨ main args = .assert_failed) ∧
    (∀ decompress filename, main args ≠ .run decompress filename) ∧
    main ["-x"] = .exit_failure ∧
    main ["-d", "a.ppm", "b.ppm"] = .assert_failed ∧
    main ["a.ppm", "b.ppm", "c.ppm"] = .exit_failure ∧
    main ["-d", "a.ppm"] = .run true (some "a.ppm") := by
  have h1 := main_loop_usage_error args false h
  refine ⟨h1, ?_, by decide, by decide, by decide, by decide⟩
  intro decompress filename heq
  unfold main at heq
  rcases h1 with h1 | h1 <;> rw [h1] at heq <;> exact absurd heq (by simp)

theorem main_usage_error_witness :
    ((∃ arg ∈ ["-c", "a.ppm", "-q"], starts_with_dash arg = true ∧ arg ≠ "-c" ∧ arg ≠ "-d") ∨
      2 ≤ ((["-c", "a.ppm", "-q"] : List String).filter
        (fun arg => ! starts_with_dash arg)).length) ∧
    main ["-c", "a.ppm", "-q"] = .assert_failed ∧
    ((main ["-c", "a.ppm", "-q"] = .exit_failure ∨ main ["-c", "a.ppm", "-q"] = .assert_failed) ∧
    (∀ decompress filename, main ["-c", "a.ppm", "-q"] ≠ .run decompress filename) ∧
    main ["-x"] = .exit_failure ∧
    main ["-d", "a.ppm", "b.ppm"] = .assert_failed ∧
    main ["a.ppm", "b.ppm", "c.ppm"] = .exit_failure ∧
    main ["-d", "a.ppm"] = .run true (some "a.ppm")) :=
  ⟨Or.inl ⟨"-q", by decide, by decide, by decide, by decide⟩, by decide,
    main_usage_error ["-c", "a.ppm", "-q"]
      (Or.inl ⟨"-q", by decide, by decide, by decide, by decide⟩)⟩

/-! ## Overflow of pack_codeword -/

/-- A step of `pack_codeword` on an unsigned field: the field is inserted if
the value fits, `Bitpack_Overflow` is raised if it does not. -/
theorem pack_step_unsigned (word value width lsb : Nat) (hw : width ≤ 64)
    (h : width + lsb ≤ 64) (hv : value < 2 ^ 64) :
    pack_step word { value := value, isSigned := false, width := width, lsb := lsb } =
      if value < 2 ^ width then
        .ok (word &&& bitNot64 (fieldMask width lsb) ||| left_shift value lsb)
      else .error .Overflow := by
  simp only [pack_step, Bool.false_eq_true, if_false]
  exact newu_eq word width lsb value hw h hv

/-- A step of `pack_codeword` on a signed five-bit field that holds the `int`
`v`. -/
theorem pack_step_signed5 (word lsb : Nat) (v : Int) (h : 5 + lsb ≤ 64) (hv0 : -2 ^ 31 ≤ v)
    (hv1 : v < 2 ^ 31) :
    (-16 ≤ v ∧ v ≤ 15 → ∃ word1,
      pack_step word { value := toUInt64 v, isSigned := true, width := 5, lsb := lsb }
        = .ok word1) ∧
    (¬ (-16 ≤ v ∧ v ≤ 15) →
      pack_step word { value := toUInt64 v, isSigned := true, width := 5, lsb := lsb }
        = .error .Overflow) := by
  have hf := fitss_eq v 5 (by omega) (by omega) (by norm_num) (by norm_num)
  have hrt : toInt64 (toUInt64 v) = v := toInt64_toUInt64 v (by omega) (by omega)
  simp only [pack_step, if_true, hrt]
  constructor
  · intro hr
    have : Bitpack_fitss v 5 = .ok true := by
      rw [hf]
      simp only [Except.ok.injEq, decide_eq_true_eq]
      norm_num
      exact hr
    exact ⟨_, news_of_fits word 5 lsb v (by norm_num) h this⟩
  · intro hr
    have : Bitpack_fitss v 5 = .ok false := by
      rw [hf]
      simp only [Except.ok.injEq, decide_eq_false_iff_not]
      norm_num
      intro h0
      by_contra h1
      exact hr ⟨h0, by omega⟩
    exact news_of_not_fits word 5 lsb v (by norm_num) h this

/-- C24: for six field values of the types that `applyCompress` stores (four
`int` and two `unsigned`), `pack_codeword` raises `Bitpack_Overflow` if and
only if at least one value is outside the range of its field (`a` outside
0..511, `b`, `c` or `d` outside -16..15, a chroma index above 15), which is
when its fits predicate is false; when it returns a word, every field read
back from the word is the value that was given: nothing is truncated. -/
theorem pack_codeword_overflow_iff (a b c d : Int) (pb pr : Nat) (ha0 : -2 ^ 31 ≤ a)
    (ha1 : a < 2 ^ 31) (hb0 : -2 ^ 31 ≤ b) (hb1 : b < 2 ^ 31) (hc0 : -2 ^ 31 ≤ c)
    (hc1 : c < 2 ^ 31) (hd0 : -2 ^ 31 ≤ d) (hd1 : d < 2 ^ 31) (hpb : pb < 2 ^ 32)
    (hpr : pr < 2 ^ 32) :
    (pack_codeword (assign_code_elems a b c d pb pr) = .error .Overflow ↔
      ¬ ((0 ≤ a ∧ a ≤ 511) ∧ (-16 ≤ b ∧ b ≤ 15) ∧ (-16 ≤ c ∧ c ≤ 15) ∧ (-16 ≤ d ∧ d ≤ 15) ∧
        pb ≤ 15 ∧ pr ≤ 15)) ∧
    (((0 ≤ a ∧ a ≤ 511) ∧ (-16 ≤ b ∧ b ≤ 15) ∧ (-16 ≤ c ∧ c ≤ 15) ∧ (-16 ≤ d ∧ d ≤ 15) ∧
        pb ≤ 15 ∧ pr ≤ 15) ↔
      (Bitpack_fitsu (toUInt64 a) 9 = .ok true ∧ Bitpack_fitss b 5 = .ok true ∧
        Bitpack_fitss c 5 = .ok true ∧ Bitpack_fitss d 5 = .ok true ∧
        Bitpack_fitsu pb 4 = .ok true ∧ Bitpack_fitsu pr 4 = .ok true)) ∧
    (∀ W, pack_codeword (assign_code_elems a b c d pb pr) = .ok W →
      Bitpack_getu W 9 23 = .ok a.toNat ∧ 0 ≤ a ∧ Bitpack_gets W 5 18 = .ok b ∧
      Bitpack_gets W 5 13 = .ok c ∧ Bitpack_gets W 5 8 = .ok d ∧
      Bitpack_getu W 4 4 = .ok pb ∧ Bitpack_getu W 4 0 = .ok pr) := by
  have fa := fitsu_eq (toUInt64 a) 9 (toUInt64_lt a) (by norm_num)
  have fb := fitss_eq b 5 (by omega) (by omega) (by norm_num) (by norm_num)
  have fc := fitss_eq c 5 (by omega) (by omega) (by norm_num) (by norm_num)
  have fd := fitss_eq d 5 (by omega) (by omega) (by norm_num) (by norm_num)
  have fpb := fitsu_eq pb 4 (by omega) (by norm_num)
  have fpr := fitsu_eq pr 4 (by omega) (by norm_num)
  have hau : toUInt64 a < 2 ^ 9 ↔ (0 ≤ a ∧ a ≤ 511) := by
    unfold toUInt64
    omega
  -- the result when every field fits
  have hfit : ((0 ≤ a ∧ a ≤ 511) ∧ (-16 ≤ b ∧ b ≤ 15) ∧ (-16 ≤ c ∧ c ≤ 15) ∧
      (-16 ≤ d ∧ d ≤ 15) ∧ pb ≤ 15 ∧ pr ≤ 15) →
      pack_codeword (assign_code_elems a b c d pb pr) =
        .ok (a.toNat * 2 ^ 23 + (b % 32).toNat * 2 ^ 18 + (c % 32).toNat * 2 ^ 13 +
          (d % 32).toNat * 2 ^ 8 + pb * 2 ^ 4 + pr) := by
    intro ⟨h1, h2, h3, h4, h5, h6⟩
    exact pack_codeword_eq a b c d pb pr h1.1 h1.2 h2.1 h2.2 h3.1 h3.2 h4.1 h4.2 h5 h6
  -- the result when one does not
  have hover : ¬ ((0 ≤ a ∧ a ≤ 511) ∧ (-16 ≤ b ∧ b ≤ 15) ∧ (-16 ≤ c ∧ c ≤ 15) ∧
      (-16 ≤ d ∧ d ≤ 15) ∧ pb ≤ 15 ∧ pr ≤ 15) →
      pack_codeword (assign_code_elems a b c d pb pr) = .error .Overflow := by
    intro hn
    have sa := pack_step_unsigned 0 (toUInt64 a) 9 23 (by norm_num) (by norm_num)
      (toUInt64_lt a)
    simp only [pack_codeword, assign_code_elems, NUM_CODEWORD_ELEMENTS, List.take, pack_loop,
      CODEWORD_A, CODEWORD_B, CODEWORD_C, CODEWORD_D, CODEWORD_PB, CODEWORD_PR, sa]
    by_cases h1 : 0 ≤ a ∧ a ≤ 511
    · rw [if_pos (hau.mpr h1)]
      simp only
      generalize (0 &&& bitNot64 (fieldMask 9 23) ||| left_shift (toUInt64 a) 23) = w1
      by_cases h2 : -16 ≤ b ∧ b ≤ 15
      · obtain ⟨w2, e2⟩ := (pack_step_signed5 w1 18 b (by norm_num) hb0 hb1).1 h2
        rw [e2]
        simp only
        by_cases h3 : -16 ≤ c ∧ c ≤ 15
        · obtain ⟨w3, e3⟩ := (pack_step_signed5 w2 13 c (by norm_num) hc0 hc1).1 h3
          rw [e3]
          simp only
          by_cases h4 : -16 ≤ d ∧ d ≤ 15
          · obtain ⟨w4, e4⟩ := (pack_step_signed5 w3 8 d (by norm_num) hd0 hd1).1 h4
            rw [e4]
            simp only
            have sb := pack_step_unsigned w4 (pb % 2 ^ 64) 4 4 (by norm_num) (by norm_num)
              (Nat.mod_lt _ (by norm_num))
            rw [sb]
            by_cases h5 : pb ≤ 15
            · rw [if_pos (by omega)]
              simp only
              have sr := pack_step_unsigned
                (w4 &&& bitNot64 (fieldMask 4 4) ||| left_shift (pb % 2 ^ 64) 4)
                (pr % 2 ^ 64) 4 0 (by norm_num) (by norm_num) (Nat.mod_lt _ (by norm_num))
              rw [sr]
              have h6 : ¬ pr ≤ 15 := fun h6 => hn ⟨h1, h2, h3, h4, h5, h6⟩
              rw [if_neg (by omega)]
            · rw [if_neg (by omega)]
          · rw [(pack_step_signed5 w3 8 d (by norm_num) hd0 hd1).2 h4]
        · rw [(pack_step_signed5 w2 13 c (by norm_num) hc0 hc1).2 h3]
      · rw [(pack_step_signed5 w1 18 b (by norm_num) hb0 hb1).2 h2]
    · rw [if_neg (fun h => h1 (hau.mp h))]
  refine ⟨⟨?_, hover⟩, ?_, ?_⟩
  · intro herr hall
    rw [hfit hall] at herr
    exact absurd herr (by simp)
  · rw [fa, fb, fc, fd, fpb, fpr]
    simp only [Except.ok.injEq, decide_eq_true_eq]
    rw [hau]
    norm_num
    intros
    omega
  · intro W hW
    by_cases hall : ((0 ≤ a ∧ a ≤ 511) ∧ (-16 ≤ b ∧ b ≤ 15) ∧ (-16 ≤ c ∧ c ≤ 15) ∧
        (-16 ≤ d ∧ d ≤ 15) ∧ pb ≤ 15 ∧ pr ≤ 15)
    · rw [hfit hall] at hW
      cases hW
      obtain ⟨h1, h2, h3, h4, h5, h6⟩ := hall
      refine ⟨?_, h1.1, gets5_of_layout _ 18 b (by norm_num) h2.1 h2.2 (by omega),
        gets5_of_layout _ 13 c (by norm_num) h3.1 h3.2 (by omega),
        gets5_of_layout _ 8 d (by norm_num) h4.1 h4.2 (by omega), ?_, ?_⟩
      · rw [getu_eq _ 9 23 (by norm_num) (by norm_num)]
        simp only [Except.ok.injEq]
        omega
      · rw [getu_eq _ 4 4 (by norm_num) (by norm_num)]
        simp only [Except.ok.injEq]
        omega
      · rw [getu_eq _ 4 0 (by norm_num) (by norm_num)]
        simp only [Except.ok.injEq]
        omega
    · rw [hover hall] at hW
      exact absurd hW (by simp)

theorem pack_codeword_overflow_iff_witness :
    pack_codeword (assign_code_elems 511 (-17) 15 0 3 4) = .error .Overflow ∧
    ((pack_codeword (assign_code_elems 511 (-17) 15 0 3 4) = .error .Overflow ↔
      ¬ (((0 : Int) ≤ 511 ∧ (511 : Int) ≤ 511) ∧ ((-16 : Int) ≤ -17 ∧ (-17 : Int) ≤ 15) ∧
        ((-16 : Int) ≤ 15 ∧ (15 : Int) ≤ 15) ∧ ((-16 : Int) ≤ 0 ∧ (0 : Int) ≤ 15) ∧
        3 ≤ 15 ∧ 4 ≤ 15)) ∧
    ((((0 : Int) ≤ 511 ∧ (511 : Int) ≤ 511) ∧ ((-16 : Int) ≤ -17 ∧ (-17 : Int) ≤ 15) ∧
        ((-16 : Int) ≤ 15 ∧ (15 : Int) ≤ 15) ∧ ((-16 : Int) ≤ 0 ∧ (0 : Int) ≤ 15) ∧
        3 ≤ 15 ∧ 4 ≤ 15) ↔
      (Bitpack_fitsu (toUInt64 511) 9 = .ok true ∧ Bitpack_fitss (-17) 5 = .ok true ∧
        Bitpack_fitss 15 5 = .ok true ∧ Bitpack_fitss 0 5 = .ok true ∧
        Bitpack_fitsu 3 4 = .ok true ∧ Bitpack_fitsu 4 4 = .ok true)) ∧
    (∀ W, pack_codeword (assign_code_elems 511 (-17) 15 0 3 4) = .ok W →
      Bitpack_getu W 9 23 = .ok (511 : Int).toNat ∧ (0 : Int) ≤ 511 ∧
      Bitpack_gets W 5 18 = .ok (-17) ∧
      Bitpack_gets W 5 13 = .ok 15 ∧ Bitpack_gets W 5 8 = .ok 0 ∧
      Bitpack_getu W 4 4 = .ok 3 ∧ Bitpack_getu W 4 0 = .ok 4)) :=
  ⟨by decide,
    pack_codeword_overflow_iff 511 (-17) 15 0 3 4 (by decide) (by decide) (by decide)
      (by decide) (by decide) (by decide) (by decide) (by decide) (by decide) (by decide)⟩

/-! ## The order of UArray2_map_row_major -/

theorem visit_positions_append {α σ : Type}
    (apply : Int → Int → UArray2_T α → α → σ → Except Failure (UArray2_T α × σ))
    (l1 l2 : List (Nat × Nat)) (st : UArray2_T α × σ) :
    visit_positions apply (l1 ++ l2) st =
      match visit_positions apply l1 st with
      | .error e => .error e
      | .ok st1 => visit_positions apply l2 st1 := by
  induction l1 generalizing st with
  | nil => rfl
  | cons p rest ih =>
    simp only [List.cons_append, visit_positions]
    cases h : map_row_major_cell apply p.2 p.1 st with
    | error e => rfl
    | ok st1 => exact ih st1

theorem loopFrom_cells_visit {α σ : Type}
    (apply : Int → Int → UArray2_T α → α → σ → Except Failure (UArray2_T α × σ)) (row : Nat) :
    ∀ (k i : Nat) (st : UArray2_T α × σ),
      loopFrom (map_row_major_cell apply row) i k st =
        visit_positions apply ((List.range' i k).map (fun col => (col, row))) st := by
  intro k
  induction k with
  | zero => intro i st; rfl
  | succ k ih =>
    intro i st
    simp only [loopFrom, List.range'_succ, List.map_cons, visit_positions]
    cases h : map_row_major_cell apply row i st with
    | error e => rfl
    | ok st1 => exact ih (i + 1) st1

theorem loopFrom_rows_visit {α σ : Type}
    (apply : Int → Int → UArray2_T α → α → σ → Except Failure (UArray2_T α × σ)) (W : Nat) :
    ∀ (k i : Nat) (st : UArray2_T α × σ),
      loopFrom (map_row_major_row apply W) i k st =
        visit_positions apply
          ((List.range' i k).flatMap (fun row => (List.range W).map (fun col => (col, row))))
          st := by
  intro k
  induction k with
  | zero => intro i st; rfl
  | succ k ih =>
    intro i st
    simp only [loopFrom, List.range'_succ, List.flatMap_cons]
    rw [visit_positions_append]
    have hrow : map_row_major_row apply W i st =
        visit_positions apply ((List.range W).map (fun col => (col, i))) st := by
      unfold map_row_major_row
      rw [loopFrom_cells_visit, List.range_eq_range']
    rw [hrow]
    cases h : visit_positions apply ((List.range W).map (fun col => (col, i))) st with
    | error e => rfl
    | ok st1 => exact ih (i + 1) st1

theorem row_major_positions_eq (W H : Nat) :
    row_major_positions W H = (List.range (W * H)).map (fun k => (k % W, k / W)) := by
  unfold row_major_positions
  induction H with
  | zero => simp
  | succ H ih =>
    rw [flatMap_range_succ, ih, Nat.mul_succ, List.range_add, List.map_append, List.map_map]
    congr 1
    apply List.map_congr_left
    intro c hc
    have hcW : c < W := List.mem_range.mp hc
    have hW : 0 < W := by omega
    simp only [Function.comp]
    rw [Nat.mul_add_mod, Nat.mod_eq_of_lt hcW, Nat.mul_comm W H, Nat.add_comm,
      Nat.add_mul_div_right _ _ hW, Nat.div_eq_of_lt hcW, Nat.zero_add]

theorem map_row_major_visit {α σ : Type} (a : UArray2_T α)
    (apply : Int → Int → UArray2_T α → α → σ → Except Failure (UArray2_T α × σ)) (cl : σ) :
    UArray2_map_row_major a apply cl =
      visit_positions apply (row_major_positions a.width.toNat a.height.toNat) (a, cl) := by
  unfold UArray2_map_row_major row_major_positions
  rw [loopFrom_rows_visit]
  simp only [List.range_eq_range']

theorem visit_positions_record {α : Type} (a : UArray2_T α) (W H : Nat)
    (hw : a.width = (W : Int)) (hh : a.height = (H : Int)) (hlen : a.elements.length = W * H) :
    ∀ n, n ≤ W * H →
      ∃ log : List (Int × Int × α),
        visit_positions record_call ((List.range n).map (fun k => (k % W, k / W))) (a, [])
          = .ok (a, log) ∧
        log.length = n ∧
        ∀ k, k < n → ∃ x, log[k]? = some (((k % W : Nat) : Int), ((k / W : Nat) : Int), x) ∧
          a.elements[k]? = some x := by
  intro n
  induction n with
  | zero =>
    intro _
    exact ⟨[], rfl, rfl, fun k hk => absurd hk (Nat.not_lt_zero k)⟩
  | succ n ih =>
    intro hn
    obtain ⟨log, hv, hl, hk⟩ := ih (by omega)
    have hnlt : n < W * H := by omega
    have hW : 0 < W := by
      rcases Nat.eq_zero_or_pos W with h0 | h0
      · rw [h0] at hnlt; simp at hnlt
      · exact h0
    have hc : n % W < W := Nat.mod_lt _ hW
    have hr : n / W < H := Nat.div_lt_of_lt_mul hnlt
    obtain ⟨x, hx, hcell⟩ := UArray2_at_of_dims a W H hw hh hlen (n % W) (n / W) hc hr
    have hidx : n / W * W + n % W = n := by
      rw [Nat.mul_comm]; exact Nat.div_add_mod n W
    unfold UArray2_cell at hcell
    rw [hw, Int.toNat_ofNat, hidx] at hcell
    refine ⟨log ++ [(((n % W : Nat) : Int), ((n / W : Nat) : Int), x)], ?_, ?_, ?_⟩
    · rw [List.range_succ, List.map_append, visit_positions_append, hv]
      simp only [List.map_cons, List.map_nil, visit_positions, map_row_major_cell, hx,
        record_call]
    · simp [hl]
    · intro k hkn
      by_cases hkn2 : k < n
      · obtain ⟨y, hy1, hy2⟩ := hk k hkn2
        exact ⟨y, by rw [List.getElem?_append_left (by omega)]; exact hy1, hy2⟩
      · have hkeq : k = n := by omega
        subst hkeq
        refine ⟨x, ?_, hcell⟩
        rw [List.getElem?_append_right (by omega), hl]
        simp

/-- C29: `UArray2_map_row_major` calls `apply` at the positions of the array
in row-major order, once each: the call number `k` (from 0) is at column
`k mod width` and row `k div width`, so the column varies faster, and on an
array that satisfies the representation invariant the element passed is the
one stored for that cell (the element `k` of the underlying array); an array
of width 0 or height 0 causes no call. -/
theorem UArray2_map_row_major_order {α σ : Type} (a : UArray2_T α)
    (apply : Int → Int → UArray2_T α → α → σ → Except Failure (UArray2_T α × σ)) (cl : σ) :
    UArray2_map_row_major a apply cl =
      visit_positions apply (row_major_positions a.width.toNat a.height.toNat) (a, cl) ∧
    row_major_positions a.width.toNat a.height.toNat =
      (List.range (a.width.toNat * a.height.toNat)).map
        (fun k => (k % a.width.toNat, k / a.width.toNat)) ∧
    (a.width.toNat = 0 ∨ a.height.toNat = 0 → UArray2_map_row_major a apply cl = .ok (a, cl)) ∧
    (UArray2_wf a →
      ∃ log : List (Int × Int × α),
        UArray2_map_row_major a record_call [] = .ok (a, log) ∧
        log.length = a.width.toNat * a.height.toNat ∧
        ∀ k, k < a.width.toNat * a.height.toNat →
          ∃ x, log[k]? = some (((k % a.width.toNat : Nat) : Int),
              ((k / a.width.toNat : Nat) : Int), x) ∧
            a.elements[k]? = some x) := by
  refine ⟨map_row_major_visit a apply cl, row_major_positions_eq _ _, ?_, ?_⟩
  · intro h
    rw [map_row_major_visit, row_major_positions_eq]
    have : a.width.toNat * a.height.toNat = 0 := by
      rcases h with h | h <;> rw [h] <;> simp
    rw [this]
    rfl
  · intro hwf
    obtain ⟨W, H, hw, hh, hlen⟩ := UArray2_wf_dims a hwf
    rw [map_row_major_visit, row_major_positions_eq, hw, hh, Int.toNat_ofNat, Int.toNat_ofNat]
    exact visit_positions_record a W H hw hh hlen (W * H) (le_refl _)

/-! ## Block independence -/

/-- The codeword of an in-bounds block is the encode chain on its four
pixels and the denominator. -/
theorem compress_block_of_cells (arith : Arith40) (image : Pnm_ppm) (hwf : Pnm_ppm_wf image)
    (col row : Nat) (hc : col + 1 < image.width) (hr : row + 1 < image.height)
    (p0 p1 p2 p3 : Pnm_rgb)
    (h0 : UArray2_cell image.pixels col row = some p0)
    (h1 : UArray2_cell image.pixels (col + 1) row = some p1)
    (h2 : UArray2_cell image.pixels col (row + 1) = some p2)
    (h3 : UArray2_cell image.pixels (col + 1) (row + 1) = some p3) :
    compress_block arith image image.pixels (col : Int) (row : Int)
      = encode_block arith image.denominator p0 p1 p2 p3 := by
  obtain ⟨q0, q1, q2, q3, a0, a1, a2, a3, hloop⟩ := applyCompress_loop_ok image hwf col row hc hr
  obtain ⟨r0, b0, c0⟩ := UArray2_at_of_wf image hwf col row (by omega) (by omega)
  obtain ⟨r1, b1, c1⟩ := UArray2_at_of_wf image hwf (col + 1) row (by omega) (by omega)
  obtain ⟨r2, b2, c2⟩ := UArray2_at_of_wf image hwf col (row + 1) (by omega) (by omega)
  obtain ⟨r3, b3, c3⟩ := UArray2_at_of_wf image hwf (col + 1) (row + 1) (by omega) (by omega)
  have e0 : q0 = p0 := by
    rw [a0] at b0; rw [h0] at c0; cases b0; cases c0; rfl
  have e1 : q1 = p1 := by
    rw [a1] at b1; rw [h1] at c1; cases b1; cases c1; rfl
  have e2 : q2 = p2 := by
    rw [a2] at b2; rw [h2] at c2; cases b2; cases c2; rfl
  have e3 : q3 = p3 := by
    rw [a3] at b3; rw [h3] at c3; cases b3; cases c3; rfl
  rw [e0, e1, e2, e3] at hloop
  unfold compress_block
  rw [hloop]
  rfl

/-- Two images with the same denominator that agree on the four pixels of a
block give the block the same codeword. -/
theorem block_codeword_congr (arith : Arith40) (image1 image2 : Pnm_ppm)
    (hwf1 : Pnm_ppm_wf image1) (hwf2 : Pnm_ppm_wf image2)
    (hw : image2.width = image1.width) (hh : image2.height = image1.height)
    (hden : image2.denominator = image1.denominator) (bx by1 : Nat)
    (hbx : 2 * bx + 1 < image1.width) (hby : 2 * by1 + 1 < image1.height)
    (hagree : ∀ dc dr, dc < 2 → dr < 2 →
      UArray2_cell image1.pixels (2 * bx + dc) (2 * by1 + dr) =
        UArray2_cell image2.pixels (2 * bx + dc) (2 * by1 + dr)) :
    block_codeword arith image1 bx by1 = block_codeword arith image2 bx by1 := by
  obtain ⟨p0, _, c0⟩ := UArray2_at_of_wf image1 hwf1 (2 * bx) (2 * by1) (by omega) (by omega)
  obtain ⟨p1, _, c1⟩ := UArray2_at_of_wf image1 hwf1 (2 * bx + 1) (2 * by1) (by omega)
    (by omega)
  obtain ⟨p2, _, c2⟩ := UArray2_at_of_wf image1 hwf1 (2 * bx) (2 * by1 + 1) (by omega)
    (by omega)
  obtain ⟨p3, _, c3⟩ := UArray2_at_of_wf image1 hwf1 (2 * bx + 1) (2 * by1 + 1) (by omega)
    (by omega)
  have d0 := hagree 0 0 (by omega) (by omega)
  have d1 := hagree 1 0 (by omega) (by omega)
  have d2 := hagree 0 1 (by omega) (by omega)
  have d3 := hagree 1 1 (by omega) (by omega)
  simp only [Nat.add_zero] at d0 d1 d2 d3
  rw [c0] at d0
  rw [c1] at d1
  rw [c2] at d2
  rw [c3] at d3
  unfold block_codeword
  rw [compress_block_of_cells arith image1 hwf1 (2 * bx) (2 * by1) hbx hby p0 p1 p2 p3 c0 c1 c2
      c3,
    compress_block_of_cells arith image2 hwf2 (2 * bx) (2 * by1) (by omega) (by omega)
      p0 p1 p2 p3 d0.symm d1.symm d2.symm d3.symm, hden]

theorem sample_image_4x2_alt_wf : Pnm_ppm_wf sample_image_4x2_alt := by
  refine ⟨rfl, rfl, ⟨by decide, by decide, by decide⟩, by decide, by decide⟩

/-- C25: for two rasters of the same even dimensions and the same
denominator, `compress40` writes for each the header followed by the
codewords of its blocks in block order, codeword `k` being that of the block
with block column `k mod (w/2)` and block row `k div (w/2)`; if the two
rasters agree on the four pixels of block `k`, codeword `k` is the same for
both, whatever the other pixels are. -/
theorem compress40_block_independence (arith : Arith40)
    (harith : ∀ x, arith.Arith40_index_of_chroma x ≤ 15) (image1 image2 : Pnm_ppm)
    (hwf1 : Pnm_ppm_wf image1) (hwf2 : Pnm_ppm_wf image2)
    (hw : image2.width = image1.width) (hh : image2.height = image1.height)
    (hwe : image1.width % 2 = 0) (hhe : image1.height % 2 = 0)
    (hden : image2.denominator = image1.denominator) (k : Nat)
    (hk : k < image1.width / 2 * (image1.height / 2))
    (hagree : ∀ dc dr, dc < 2 → dr < 2 →
      UArray2_cell image1.pixels (2 * (k % (image1.width / 2)) + dc)
          (2 * (k / (image1.width / 2)) + dr) =
        UArray2_cell image2.pixels (2 * (k % (image1.width / 2)) + dc)
          (2 * (k / (image1.width / 2)) + dr)) :
    compress40 arith image1 =
      .ok (compress40_header image1.width image1.height ++
        (List.range (image1.width / 2 * (image1.height / 2))).flatMap (fun j =>
          codeword_bytes (block_codeword arith image1 (j % (image1.width / 2))
            (j / (image1.width / 2))))) ∧
    compress40 arith image2 =
      .ok (compress40_header image1.width image1.height ++
        (List.range (image1.width / 2 * (image1.height / 2))).flatMap (fun j =>
          codeword_bytes (block_codeword arith image2 (j % (image1.width / 2))
            (j / (image1.width / 2))))) ∧
    block_codeword arith image1 (k % (image1.width / 2)) (k / (image1.width / 2)) =
      block_codeword arith image2 (k % (image1.width / 2)) (k / (image1.width / 2)) := by
  have hm : 0 < image1.width / 2 := by
    rcases Nat.eq_zero_or_pos (image1.width / 2) with h0 | h0
    · rw [h0] at hk; simp at hk
    · exact h0
  have hbx : k % (image1.width / 2) < image1.width / 2 := Nat.mod_lt _ hm
  have hby : k / (image1.width / 2) < image1.height / 2 := Nat.div_lt_of_lt_mul hk
  refine ⟨?_, ?_, ?_⟩
  · rw [compress40_even arith harith image1 hwf1 hwe hhe, codeword_stream_flat]
  · rw [compress40_even arith harith image2 hwf2 (by rw [hw]; exact hwe)
      (by rw [hh]; exact hhe), codeword_stream_flat, hw, hh]
  · exact block_codeword_congr arith image1 image2 hwf1 hwf2 hw hh hden _ _ (by omega)
      (by omega) hagree

theorem compress40_block_independence_witness :
    sample_image_4x2.pixels ≠ sample_image_4x2_alt.pixels ∧
    (compress40 sample_arith sample_image_4x2 =
      .ok (compress40_header sample_image_4x2.width sample_image_4x2.height ++
        (List.range (sample_image_4x2.width / 2 * (sample_image_4x2.height / 2))).flatMap
          (fun j => codeword_bytes (block_codeword sample_arith sample_image_4x2
            (j % (sample_image_4x2.width / 2)) (j / (sample_image_4x2.width / 2))))) ∧
    compress40 sample_arith sample_image_4x2_alt =
      .ok (compress40_header sample_image_4x2.width sample_image_4x2.height ++
        (List.range (sample_image_4x2.width / 2 * (sample_image_4x2.height / 2))).flatMap
          (fun j => codeword_bytes (block_codeword sample_arith sample_image_4x2_alt
            (j % (sample_image_4x2.width / 2)) (j / (sample_image_4x2.width / 2))))) ∧
    block_codeword sample_arith sample_image_4x2 (0 % (sample_image_4x2.width / 2))
        (0 / (sample_image_4x2.width / 2)) =
      block_codeword sample_arith sample_image_4x2_alt (0 % (sample_image_4x2.width / 2))
        (0 / (sample_image_4x2.width / 2))) :=
  ⟨by decide,
    compress40_block_independence sample_arith sample_arith_index_le sample_image_4x2
      sample_image_4x2_alt sample_image_4x2_wf sample_image_4x2_alt_wf rfl rfl (by decide)
      (by decide) rfl 0 (by decide)
      (by intro dc dr hdc hdr; interval_cases dc <;> interval_cases dr <;> decide)⟩

/-! ## The header check of decompress40 -/

theorem decompress40_congr (arith : Arith40) (input1 input2 : List Nat)
    (h : fscanf_run decompress40_format [] input1 = fscanf_run decompress40_format [] input2) :
    decompress40 arith input1 = decompress40 arith input2 := by
  unfold decompress40
  simp only [h]

theorem fscanf_run_literals (lits : List Nat) (ds : List ScanDirective) :
    ∀ (assigned input : List Nat), input.take lits.length ≠ lits →
      (fscanf_run (lits.map ScanDirective.literal ++ ds) assigned input).1 = assigned := by
  induction lits with
  | nil =>
    intro assigned input h
    exact absurd (by simp) h
  | cons c cs ih =>
    intro assigned input h
    cases input with
    | nil => simp [fscanf_run]
    | cons x rest =>
      simp only [List.map_cons, List.cons_append, fscanf_run]
      by_cases hx : x = c
      · rw [if_pos hx]
        apply ih
        intro hcs
        apply h
        simp [hx, hcs]
      · rw [if_neg hx]

theorem decompress40_format_literals :
    decompress40_format =
      (string_bytes "COMP40").map ScanDirective.literal ++
        scan_format (string_bytes " Compressed image format 2\n%u %u") := by decide

/-- C22 (the claim as stated fails): a stream whose header has two spaces
between the width and the height, and a stream whose header has no white
space between the words nor a newline before the width, do not begin with the
text that `compress40` prints, and `decompress40` accepts both: `fscanf`
matches white space loosely. -/
theorem decompress40_accepts_loose_header :
    (string_bytes "COMP40 Compressed image format 2\n2  2\n").take
        (compress40_header 2 2).length ≠ compress40_header 2 2 ∧
    decompress40 sample_arith
        (string_bytes "COMP40 Compressed image format 2\n2  2\n" ++ [0, 0, 0, 136]) =
      .ok (uniform_image_2x2 { red := 3, green := 0, blue := 4 } 255) ∧
    (string_bytes "COMP40Compressedimageformat2 2 2\n").take
        (compress40_header 2 2).length ≠ compress40_header 2 2 ∧
    decompress40 sample_arith
        (string_bytes "COMP40Compressedimageformat2 2 2\n" ++ [0, 0, 0, 136]) =
      .ok (uniform_image_2x2 { red := 3, green := 0, blue := 4 } 255) := by
  have hok := decompress40_one_block sample_arith 136 (by norm_num) _ sample_decoded_pixel_black
  have b1 : codeword_bytes 136 = [0, 0, 0, 136] := by decide
  rw [b1] at hok
  have h0 := fscanf_run_header 2 2 (by norm_num) (by norm_num) [0, 0, 0, 136]
  refine ⟨by decide, ?_, by decide, ?_⟩
  · rw [← hok]
    apply decompress40_congr
    rw [h0]
    decide
  · rw [← hok]
    apply decompress40_congr
    rw [h0]
    decide

/-! ## The skip rule of applyDecompress -/

/-- C23 (the claim as stated fails): for a header that declares the
dimensions 1x1, the position `(0, 0)` is even-aligned and its block does not
fit; `applyDecompress` does not skip it: its `assert` fails, and
`decompress40` ends in a checked runtime error. -/
theorem applyDecompress_odd_dimensions_fail :
    UArray2_new Pnm_rgb_zero 1 1 sizeof_Pnm_rgb =
      .ok { width := 1, height := 1, elementSize := 12, elements := [Pnm_rgb_zero] } ∧
    applyDecompress sample_arith 0 0
        { width := 1, height := 1, elementSize := 12, elements := [Pnm_rgb_zero] }
        Pnm_rgb_zero [0, 0, 0, 136] = .error .CRE ∧
    decompress40 sample_arith
        (string_bytes "COMP40 Compressed image format 2\n1 1\n" ++ [0, 0, 0, 136])
      = .error .CRE := by
  refine ⟨by decide, by decide, ?_⟩
  have h0 := fscanf_run_header 1 1 (by norm_num) (by norm_num) [0, 0, 0, 136]
  have e : string_bytes "COMP40 Compressed image format 2\n1 1\n" ++ [0, 0, 0, 136]
      = compress40_header 1 1 ++ [0, 0, 0, 136] := by decide
  rw [e]
  unfold decompress40
  simp only [h0, getc]
  have hnew : UArray2_new Pnm_rgb_zero (toInt32 1) (toInt32 1) sizeof_Pnm_rgb =
      .ok { width := 1, height := 1, elementSize := 12, elements := [Pnm_rgb_zero] } := by
    decide
  have hmap : UArray2_map_row_major
      ({ width := 1, height := 1, elementSize := 12, elements := [Pnm_rgb_zero] } :
        UArray2_T Pnm_rgb) (applyDecompress sample_arith) [0, 0, 0, 136] = .error .CRE := by
    decide
  simp [hnew, hmap]

/-- C23 (amended): `applyDecompress` reads and decodes a codeword only at a
position whose column and row are both multiples of 2. At a position with an
odd column or an odd row it returns without reading a byte and without
failing. At an even-aligned position whose 2x2 block does not fit inside the
raster (odd width or height) its `assert` fails: a checked runtime error, not
a skip. At an even-aligned position whose block fits, it fails in
`read_codeword` if fewer than four bytes remain, and otherwise consumes
exactly four bytes and stores the four pixels decoded from them. -/
theorem applyDecompress_skip_rule (arith : Arith40) (col row : Nat)
    (uarray2 : UArray2_T Pnm_rgb) (elem : Pnm_rgb) (input : List Nat) :
    (col % 2 ≠ 0 ∨ row % 2 ≠ 0 →
      applyDecompress arith (col : Int) (row : Int) uarray2 elem input = .ok (uarray2, input)) ∧
    (col % 2 = 0 → row % 2 = 0 →
      ¬ ((col : Int) + 1 < uarray2.width ∧ (row : Int) + 1 < uarray2.height) →
      applyDecompress arith (col : Int) (row : Int) uarray2 elem input = .error .CRE) ∧
    (col % 2 = 0 → row % 2 = 0 →
      ((col : Int) + 1 < uarray2.width ∧ (row : Int) + 1 < uarray2.height) →
      input.length < 4 →
      read_codeword input = .error .CRE ∧
      applyDecompress arith (col : Int) (row : Int) uarray2 elem input = .error .CRE) ∧
    (col % 2 = 0 → row % 2 = 0 →
      ((col : Int) + 1 < uarray2.width ∧ (row : Int) + 1 < uarray2.height) →
      UArray2_wf uarray2 →
      ∀ b3 b2 b1 b0 rest, input = b3 :: b2 :: b1 :: b0 :: rest →
        ∃ uarray21, applyDecompress arith (col : Int) (row : Int) uarray2 elem input
            = .ok (uarray21, rest) ∧
          uarray21.width = uarray2.width ∧ uarray21.height = uarray2.height ∧
          ∀ c r : Nat, (c : Int) < uarray2.width → UArray2_cell uarray21 c r =
            if (c = col ∨ c = col + 1) ∧ (r = row ∨ r = row + 1) then
              some (decoded_pixel arith (codeword_of_bytes b3 b2 b1 b0)
                ((c - col) + 2 * (r - row)))
            else UArray2_cell uarray2 c r) := by
  have hodd2 : ∀ n : Nat, n % 2 = 0 → ¬ (Int.tmod (n : Int) 2 ≠ 0) := by
    intro n hn
    rw [tmod_two_natCast, hn]
    simp
  have hshort : input.length < 4 → read_codeword input = .error .CRE := by
    intro hlen
    have s1 : ∀ b3 : Nat, Bitpack_newu 0 8 (3 * 8) (b3 % 256) = .ok (b3 % 256 * 2 ^ 24) := by
      intro b3
      rw [newu_arith 0 8 (3 * 8) _ (by norm_num) (by norm_num) (by norm_num) (by omega)]
      simp only [Except.ok.injEq]
      omega
    have s2 : ∀ b3 b2 : Nat, Bitpack_newu (b3 % 256 * 2 ^ 24) 8 (2 * 8) (b2 % 256) =
        .ok (b3 % 256 * 2 ^ 24 + b2 % 256 * 2 ^ 16) := by
      intro b3 b2
      rw [newu_arith _ 8 (2 * 8) _ (by omega) (by norm_num) (by norm_num) (by omega)]
      simp only [Except.ok.injEq]
      omega
    have s3 : ∀ b3 b2 b1 : Nat,
        Bitpack_newu (b3 % 256 * 2 ^ 24 + b2 % 256 * 2 ^ 16) 8 (1 * 8) (b1 % 256) =
        .ok (b3 % 256 * 2 ^ 24 + b2 % 256 * 2 ^ 16 + b1 % 256 * 2 ^ 8) := by
      intro b3 b2 b1
      rw [newu_arith _ 8 (1 * 8) _ (by omega) (by norm_num) (by norm_num) (by omega)]
      simp only [Except.ok.injEq]
      omega
    rcases input with _ | ⟨b3, _ | ⟨b2, _ | ⟨b1, _ | ⟨b0, t⟩⟩⟩⟩
    · simp [read_codeword, read_codeword_loop, getc]
    · simp only [read_codeword, read_codeword_loop, getc, s1]
    · simp only [read_codeword, read_codeword_loop, getc, s1, s2]
    · simp only [read_codeword, read_codeword_loop, getc, s1, s2, s3]
    · simp at hlen
      omega
  refine ⟨?_, ?_, ?_, ?_⟩
  · intro hodd
    unfold applyDecompress
    simp only [BLOCKSIZE, Nat.cast_ofNat, tmod_two_natCast]
    rw [if_pos (by
      rcases hodd with h | h
      · left; exact_mod_cast h
      · right; exact_mod_cast h)]
  · intro hc hr hfit
    unfold applyDecompress
    simp only [BLOCKSIZE, Nat.cast_ofNat, UArray2_width, UArray2_height]
    rw [if_neg (by
      intro h
      rcases h with h | h
      · exact hodd2 col hc h
      · exact hodd2 row hr h),
      if_pos (by
        intro h
        apply hfit
        constructor <;> omega)]
  · intro hc hr hfit hlen
    refine ⟨hshort hlen, ?_⟩
    unfold applyDecompress
    simp only [BLOCKSIZE, Nat.cast_ofNat, UArray2_width, UArray2_height]
    rw [if_neg (by
      intro h
      rcases h with h | h
      · exact hodd2 col hc h
      · exact hodd2 row hr h),
      if_neg (by
        intro h
        apply h
        constructor <;> omega)]
    simp only [hshort hlen]
  · intro hc hr hfit hwf b3 b2 b1 b0 rest hin
    obtain ⟨W, H, hw, hh, hlen⟩ := UArray2_wf_dims uarray2 hwf
    obtain ⟨block, hblock, _⟩ := decode_block_ok arith (codeword_of_bytes b3 b2 b1 b0)
    obtain ⟨a1, ha1, hw1, hh1, _, _, hcells⟩ := applyDecompress_loop_ok block uarray2 W H hw hh
      hlen col row (by omega) (by omega)
    refine ⟨a1, ?_, by rw [hw1, hw], by rw [hh1, hh], ?_⟩
    · unfold applyDecompress
      simp only [BLOCKSIZE, Nat.cast_ofNat, UArray2_width, UArray2_height]
      rw [if_neg (by
        intro h
        rcases h with h | h
        · exact hodd2 col hc h
        · exact hodd2 row hr h),
        if_neg (by
          intro h
          apply h
          constructor <;> omega)]
      rw [hin, read_codeword_cons]
      simp only [hblock]
      have := ha1
      simp only [BLOCKSIZE] at this
      rw [this]
    · intro c r hcW
      rw [hcells c r (by rw [hw] at hcW; exact_mod_cast hcW)]
      unfold decoded_pixel
      rw [hblock]

/-! ## The white block -/

theorem clamp_ge (x hi n : ℚ) (hn0 : 0 ≤ n) (hn : n ≤ hi) (h : n ≤ x) : n ≤ clamp x 0 hi := by
  unfold clamp
  rw [if_neg (by linarith)]
  split
  · exact hn
  · exact h

theorem float_to_unsigned_ge (x : ℚ) (n : Nat) (h : (n : ℚ) ≤ x) : n ≤ float_to_unsigned x := by
  unfold float_to_unsigned
  have : (n : Int) ≤ ⌊x⌋ := Int.le_floor.mpr (by exact_mod_cast h)
  omega

/-- The codeword of a white block: the luma field is 511 and both chroma
indices are the index that the lookup gives to the chroma 0. -/
theorem uniform_codeword_white (arith : Arith40) :
    uniform_codeword arith { red := 255, green := 255, blue := 255 } 255 =
      511 * 2 ^ 23 + arith.Arith40_index_of_chroma 0 * 2 ^ 4 + arith.Arith40_index_of_chroma 0 := by
  unfold uniform_codeword
  rw [RGB_to_ComponentVideo_gray 255 255 (by norm_num)]
  have h1 : round_half_away (clamp (((255 : Nat) : ℚ) / ((255 : Nat) : ℚ)) 0.0 1.0 * 511.0)
      = ((511 : Nat) : Int) := by
    rw [clamp_of_mem _ _ _ (by norm_num) (by norm_num)]
    exact round_half_away_eq _ 511 (by norm_num) (by norm_num) (by norm_num)
  rw [h1]
  rfl

/-- C26 (the claim as stated fails): with the sample chroma table, whose
value nearest to the chroma 0 is 0.011, the white 2x2 image of denominator 255
compresses to the codeword bytes `255 128 0 136` and these decompress to four
pixels `(255, 252, 255)`: the green channel is three units below 255. -/
theorem white_block_not_within_one :
    compress40 sample_arith (uniform_image_2x2 { red := 255, green := 255, blue := 255 } 255) =
      .ok (compress40_header 2 2 ++ [255, 128, 0, 136]) ∧
    decompress40 sample_arith (compress40_header 2 2 ++ [255, 128, 0, 136]) =
      .ok (uniform_image_2x2 { red := 255, green := 252, blue := 255 } 255) := by
  have hi : sample_arith.Arith40_index_of_chroma 0 = 8 := by
    simp [sample_arith, sample_index_of_chroma]
    norm_num
  have hcw : uniform_codeword sample_arith { red := 255, green := 255, blue := 255 } 255
      = 4286578824 := by
    rw [uniform_codeword_white, hi]
    rfl
  have hpix : ∀ i, i < 4 → decoded_pixel sample_arith 4286578824 i
      = { red := 255, green := 252, blue := 255 } := by
    intro i hi4
    have := decoded_pixel_uniform sample_arith 511 8 8 (by norm_num) (by norm_num)
      (by norm_num) i hi4
    rw [show 511 * 2 ^ 23 + 8 * 2 ^ 4 + 8 = 4286578824 from rfl] at this
    rw [this]
    have hc : sample_arith.Arith40_chroma_of_index 8 = 0.011 := by
      simp [sample_arith, sample_chroma_values]
    rw [hc]
    simp only [ComponentVideo_to_RGB]
    have r : float_to_unsigned (clamp ((1.0 * (((511 : Nat) : ℚ) / 511) + 0.0 * 0.011
        + 1.402 * 0.011) * ((255 : Nat) : ℚ)) 0 ((255 : Nat) : ℚ)) = 255 := by
      have : clamp ((1.0 * (((511 : Nat) : ℚ) / 511) + 0.0 * 0.011
          + 1.402 * 0.011) * ((255 : Nat) : ℚ)) 0 ((255 : Nat) : ℚ) = 255 := by
        unfold clamp
        norm_num
      rw [this]
      exact float_to_unsigned_eq _ 255 (by norm_num) (by norm_num)
    have g : float_to_unsigned (clamp ((1.0 * (((511 : Nat) : ℚ) / 511) - 0.344136 * 0.011
        - 0.714136 * 0.011) * ((255 : Nat) : ℚ)) 0 ((255 : Nat) : ℚ)) = 252 := by
      rw [clamp_of_mem _ _ _ (by norm_num) (by norm_num)]
      exact float_to_unsigned_eq _ 252 (by norm_num) (by norm_num)
    have b : float_to_unsigned (clamp ((1.0 * (((511 : Nat) : ℚ) / 511) + 1.772 * 0.011
        + 0.0 * 0.011) * ((255 : Nat) : ℚ)) 0 ((255 : Nat) : ℚ)) = 255 := by
      have : clamp ((1.0 * (((511 : Nat) : ℚ) / 511) + 1.772 * 0.011
          + 0.0 * 0.011) * ((255 : Nat) : ℚ)) 0 ((255 : Nat) : ℚ) = 255 := by
        unfold clamp
        norm_num
      rw [this]
      exact float_to_unsigned_eq _ 255 (by norm_num) (by norm_num)
    rw [r, g, b]
  have h := cycle_uniform sample_arith sample_arith_index_le
    { red := 255, green := 255, blue := 255 } 255 { red := 255, green := 252, blue := 255 }
    (by rw [hcw]; exact hpix)
  rw [hcw] at h
  have b1 : codeword_bytes 4286578824 = [255, 128, 0, 136] := by decide
  rw [b1] at h
  exact ⟨h.1, h.2.1⟩

/-- C26 (amended): for every chroma lookup with indices in 0..15, compressing
the 2x2 image whose four pixels are RGB (255, 255, 255) with denominator 255
and decompressing the result yields four equal pixels with channels at most
255. Their distance to 255 depends on the value `c` that the lookup returns
for the index of the chroma 0: the pixels are exactly (255, 255, 255) when
`c = 0`, and every channel is at least 250 when `|c| ≤ 0.011`. -/
theorem white_block_roundtrip (arith : Arith40)
    (harith : ∀ x, arith.Arith40_index_of_chroma x ≤ 15) :
    ∃ (codeword : Nat) (P : Pnm_rgb),
      compress40 arith (uniform_image_2x2 { red := 255, green := 255, blue := 255 } 255) =
        .ok (compress40_header 2 2 ++ codeword_bytes codeword) ∧
      decompress40 arith (compress40_header 2 2 ++ codeword_bytes codeword) =
        .ok (uniform_image_2x2 P 255) ∧
      (P.red ≤ 255 ∧ P.green ≤ 255 ∧ P.blue ≤ 255) ∧
      (arith.Arith40_chroma_of_index (arith.Arith40_index_of_chroma 0) = 0 →
        P = { red := 255, green := 255, blue := 255 }) ∧
      (-0.011 ≤ arith.Arith40_chroma_of_index (arith.Arith40_index_of_chroma 0) →
        arith.Arith40_chroma_of_index (arith.Arith40_index_of_chroma 0) ≤ 0.011 →
        250 ≤ P.red ∧ 250 ≤ P.green ∧ 250 ≤ P.blue) := by
  have hpix : ∀ i, i < 4 →
      decoded_pixel arith
        (uniform_codeword arith { red := 255, green := 255, blue := 255 } 255) i =
      ComponentVideo_to_RGB (arith.Arith40_chroma_of_index (arith.Arith40_index_of_chroma 0))
        (arith.Arith40_chroma_of_index (arith.Arith40_index_of_chroma 0))
        { y := ((511 : Nat) : ℚ) / 511, pb := 0, pr := 0 } 255 Pnm_rgb_zero := by
    intro i hi
    rw [uniform_codeword_white]
    exact decoded_pixel_uniform arith 511 _ _ (by norm_num) (harith 0) (harith 0) i hi
  have h := cycle_uniform arith harith { red := 255, green := 255, blue := 255 } 255 _ hpix
  refine ⟨_, _, h.1, h.2.1, ComponentVideo_to_RGB_le _ _ _ 255 _, ?_, ?_⟩
  · intro hc0
    rw [hc0]
    simp only [ComponentVideo_to_RGB]
    have e : float_to_unsigned (clamp ((1.0 * (((511 : Nat) : ℚ) / 511) + 0.0 * 0
        + 1.402 * 0) * ((255 : Nat) : ℚ)) 0 ((255 : Nat) : ℚ)) = 255 := by
      rw [clamp_of_mem _ _ _ (by norm_num) (by norm_num)]
      exact float_to_unsigned_eq _ 255 (by norm_num) (by norm_num)
    have e2 : float_to_unsigned (clamp ((1.0 * (((511 : Nat) : ℚ) / 511) - 0.344136 * 0
        - 0.714136 * 0) * ((255 : Nat) : ℚ)) 0 ((255 : Nat) : ℚ)) = 255 := by
      rw [clamp_of_mem _ _ _ (by norm_num) (by norm_num)]
      exact float_to_unsigned_eq _ 255 (by norm_num) (by norm_num)
    have e3 : float_to_unsigned (clamp ((1.0 * (((511 : Nat) : ℚ) / 511) + 1.772 * 0
        + 0.0 * 0) * ((255 : Nat) : ℚ)) 0 ((255 : Nat) : ℚ)) = 255 := by
      rw [clamp_of_mem _ _ _ (by norm_num) (by norm_num)]
      exact float_to_unsigned_eq _ 255 (by norm_num) (by norm_num)
    rw [e, e2, e3]
  · intro hlo hhi
    generalize arith.Arith40_chroma_of_index (arith.Arith40_index_of_chroma 0) = c at hlo hhi
    simp only [ComponentVideo_to_RGB]
    refine ⟨?_, ?_, ?_⟩
    · exact float_to_unsigned_ge _ 250 (clamp_ge _ _ _ (by norm_num) (by norm_num)
        (by norm_num; linarith))
    · exact float_to_unsigned_ge _ 250 (clamp_ge _ _ _ (by norm_num) (by norm_num)
        (by norm_num; linarith))
    · exact float_to_unsigned_ge _ 250 (clamp_ge _ _ _ (by norm_num) (by norm_num)
        (by norm_num; linarith))

theorem white_block_roundtrip_witness :
    (∀ x, sample_arith.Arith40_index_of_chroma x ≤ 15) ∧
    ∃ (codeword : Nat) (P : Pnm_rgb),
      compress40 sample_arith
          (uniform_image_2x2 { red := 255, green := 255, blue := 255 } 255) =
        .ok (compress40_header 2 2 ++ codeword_bytes codeword) ∧
      decompress40 sample_arith (compress40_header 2 2 ++ codeword_bytes codeword) =
        .ok (uniform_image_2x2 P 255) ∧
      (P.red ≤ 255 ∧ P.green ≤ 255 ∧ P.blue ≤ 255) ∧
      (sample_arith.Arith40_chroma_of_index (sample_arith.Arith40_index_of_chroma 0) = 0 →
        P = { red := 255, green := 255, blue := 255 }) ∧
      (-0.011 ≤ sample_arith.Arith40_chroma_of_index (sample_arith.Arith40_index_of_chroma 0) →
        sample_arith.Arith40_chroma_of_index (sample_arith.Arith40_index_of_chroma 0) ≤ 0.011 →
        250 ≤ P.red ∧ 250 ≤ P.green ∧ 250 ≤ P.blue) :=
  ⟨sample_arith_index_le, white_block_roundtrip sample_arith sample_arith_index_le⟩

/-! ## Decompression of a truncated stream -/

theorem loopFrom_append {σ : Type} (f : Nat → σ → Except Failure σ) :
    ∀ (a b i : Nat) (s : σ),
      loopFrom f i (a + b) s =
        match loopFrom f i a s with
        | .error e => .error e
        | .ok s1 => loopFrom f (i + a) b s1 := by
  intro a
  induction a with
  | zero =>
    intro b i s
    simp [loopFrom]
  | succ a ih =>
    intro b i s
    have e : a + 1 + b = (a + b) + 1 := by omega
    rw [e]
    cases hf : f i s with
    | error e1 =>
      rw [loopFrom_succ_error f i (a + b) s e1 hf, loopFrom_succ_error f i a s e1 hf]
    | ok s1 =>
      rw [loopFrom_succ_ok f i (a + b) s s1 hf, loopFrom_succ_ok f i a s s1 hf, ih b (i + 1) s1]
      have e2 : i + 1 + a = i + (a + 1) := by omega
      rw [e2]

theorem read_codeword_short (input : List Nat) (hlen : input.length < 4) :
    read_codeword input = .error .CRE := by
  have s1 : ∀ b3 : Nat, Bitpack_newu 0 8 (3 * 8) (b3 % 256) = .ok (b3 % 256 * 2 ^ 24) := by
    intro b3
    rw [newu_arith 0 8 (3 * 8) _ (by norm_num) (by norm_num) (by norm_num) (by omega)]
    simp only [Except.ok.injEq]
    omega
  have s2 : ∀ b3 b2 : Nat, Bitpack_newu (b3 % 256 * 2 ^ 24) 8 (2 * 8) (b2 % 256) =
      .ok (b3 % 256 * 2 ^ 24 + b2 % 256 * 2 ^ 16) := by
    intro b3 b2
    rw [newu_arith _ 8 (2 * 8) _ (by omega) (by norm_num) (by norm_num) (by omega)]
    simp only [Except.ok.injEq]
    omega
  have s3 : ∀ b3 b2 b1 : Nat,
      Bitpack_newu (b3 % 256 * 2 ^ 24 + b2 % 256 * 2 ^ 16) 8 (1 * 8) (b1 % 256) =
      .ok (b3 % 256 * 2 ^ 24 + b2 % 256 * 2 ^ 16 + b1 % 256 * 2 ^ 8) := by
    intro b3 b2 b1
    rw [newu_arith _ 8 (1 * 8) _ (by omega) (by norm_num) (by norm_num) (by omega)]
    simp only [Except.ok.injEq]
    omega
  rcases input with _ | ⟨b3, _ | ⟨b2, _ | ⟨b1, _ | ⟨b0, t⟩⟩⟩⟩
  · simp [read_codeword, read_codeword_loop, getc]
  · simp only [read_codeword, read_codeword_loop, getc, s1]
  · simp only [read_codeword, read_codeword_loop, getc, s1, s2]
  · simp only [read_codeword, read_codeword_loop, getc, s1, s2, s3]
  · simp at hlen
    omega

/-- The first `2 * j0` columns of the block row `i`, when the stream holds
the codewords of the blocks visited. -/
theorem decompress_cells_prefix (arith : Arith40) (body : List Nat) (m n i j0 : Nat)
    (hi : i < n) (hj0 : j0 ≤ m) (hbody : 4 * (i * m + j0) ≤ body.length)
    (s : UArray2_T Pnm_rgb × List Nat) (hs : decompress_inv arith body m n (i * m) s) :
    ∃ s1, loopFrom (map_row_major_cell (applyDecompress arith) (2 * i)) 0 (2 * j0) s = .ok s1 ∧
      decompress_inv arith body m n (i * m + j0) s1 := by
  have hm2 : 2 * m / 2 = m := by omega
  have key := loopFrom_even_invariant (map_row_major_cell (applyDecompress arith) (2 * i))
    (fun j t => decompress_inv arith body m n (i * m + j) t) (2 * j0)
    (by
      intro j t hj ⟨tw, th, tl, tin, tdec⟩
      have hjm : j < m := by omega
      obtain ⟨s1, h1, w1, h1h, l1, _, in1, c1⟩ :=
        map_row_major_cell_applyDecompress_block arith body t (2 * m) (2 * n) tw th tl i j
          (i * m + j) (by omega) (by omega) tin (by omega)
      refine ⟨s1, h1, w1, h1h, l1, in1, ?_⟩
      intro c r hc hlt
      rw [hm2] at hlt
      rw [c1 c r hc, hm2]
      by_cases hb : c / 2 = j ∧ r / 2 = i
      · rw [if_pos hb, hb.1, hb.2]
      · rw [if_neg hb]
        have hne : r / 2 * m + c / 2 ≠ i * m + j := by
          intro heq
          have := index_inj m (c / 2) (r / 2) j i (by omega) hjm heq
          exact hb this
        have := tdec c r hc (by rw [hm2]; omega)
        rw [hm2] at this
        exact this)
    (by
      intro j t hj ⟨tw, th, tl, _, _⟩
      exact map_row_major_cell_applyDecompress_odd arith t (2 * m) (2 * n) tw th tl
        (2 * j + 1) (2 * i) (by omega) (by omega) (Or.inl (by omega)))
    j0 0 s (by omega) (by simpa using hs)
  obtain ⟨s1, hl, hP⟩ := key
  exact ⟨s1, by simpa using hl, by simpa using hP⟩

theorem decompress_odd_row (arith : Arith40) (m n i : Nat) (hi : i < n)
    (s : UArray2_T Pnm_rgb × List Nat) (sw : s.1.width = ((2 * m : Nat) : Int))
    (sh : s.1.height = ((2 * n : Nat) : Int)) (sl : s.1.elements.length = 2 * m * (2 * n)) :
    map_row_major_row (applyDecompress arith) (2 * m) (2 * i + 1) s = .ok s := by
  obtain ⟨s1, hl, hP⟩ := loopFrom_invariant
    (map_row_major_cell (applyDecompress arith) (2 * i + 1)) (fun _ t => t = s) (2 * m) 0 s
    rfl
    (by
      intro j t _ hj ht
      subst ht
      exact ⟨t, map_row_major_cell_applyDecompress_odd arith t (2 * m) (2 * n) sw sh sl j
        (2 * i + 1) (by omega) (by omega) (Or.inr (by omega)), rfl⟩)
  unfold map_row_major_row
  rw [hl, hP]

/-- The first `2 * i0` rows, when the stream holds the codewords of the
blocks visited. -/
theorem decompress_rows_prefix (arith : Arith40) (body : List Nat) (m n i0 : Nat)
    (hi0 : i0 ≤ n) (hbody : 4 * (i0 * m) ≤ body.length)
    (s : UArray2_T Pnm_rgb × List Nat) (hs : decompress_inv arith body m n 0 s) :
    ∃ s1, loopFrom (map_row_major_row (applyDecompress arith) (2 * m)) 0 (2 * i0) s = .ok s1 ∧
      decompress_inv arith body m n (i0 * m) s1 := by
  have key := loopFrom_even_invariant (map_row_major_row (applyDecompress arith) (2 * m))
    (fun i t => decompress_inv arith body m n (i * m) t) (2 * i0)
    (by
      intro i t hi ht
      have hin : i < n := by omega
      have hle : (i + 1) * m ≤ i0 * m := Nat.mul_le_mul_right m (by omega)
      obtain ⟨s1, hl, hP⟩ := decompress_cells_prefix arith body m n i m hin (le_refl m)
        (by rw [Nat.add_mul, Nat.one_mul] at hle; omega) t ht
      refine ⟨s1, ?_, ?_⟩
      · unfold map_row_major_row
        exact hl
      · have e : i * m + m = (i + 1) * m := by rw [Nat.add_mul]; omega
        show decompress_inv arith body m n ((i + 1) * m) s1
        rw [← e]
        exact hP)
    (by
      intro i t hi ht
      exact decompress_odd_row arith m n i (by omega) t ht.1 ht.2.1 ht.2.2.1)
    i0 0 s (by omega) (by simpa using hs)
  obtain ⟨s1, hl, hP⟩ := key
  exact ⟨s1, by simpa using hl, by simpa using hP⟩

/-- At the origin of a block, with fewer than four bytes left, the visit
fails in `read_codeword`. -/
theorem decompress_cell_fails (arith : Arith40) (body : List Nat) (m n i j k : Nat)
    (hi : i < n) (hj : j < m) (hk : body.length < 4 * k + 4)
    (t : UArray2_T Pnm_rgb × List Nat) (ht : decompress_inv arith body m n k t) :
    map_row_major_cell (applyDecompress arith) (2 * i) (2 * j) t = .error .CRE := by
  obtain ⟨tw, th, tl, tin, _⟩ := ht
  obtain ⟨p, hp, _⟩ := UArray2_at_of_dims t.1 (2 * m) (2 * n) tw th tl (2 * j) (2 * i)
    (by omega) (by omega)
  have hread : read_codeword t.2 = .error .CRE := by
    apply read_codeword_short
    rw [tin, List.length_drop]
    omega
  unfold map_row_major_cell
  simp only [hp]
  unfold applyDecompress
  simp only [BLOCKSIZE, Nat.cast_ofNat, tmod_two_natCast, UArray2_width, UArray2_height, tw, th]
  rw [if_neg (by
    intro h
    rcases h with h | h
    · exact absurd (by exact_mod_cast h) (by omega : ¬ (2 * j) % 2 ≠ 0)
    · exact absurd (by exact_mod_cast h) (by omega : ¬ (2 * i) % 2 ≠ 0)),
    if_neg (by push_cast; omega)]
  simp only [hread]

/-- The visit of `decompress40` fails in `read_codeword` when the stream is
shorter than one codeword for each block. -/
theorem map_row_major_applyDecompress_truncated (arith : Arith40) (body : List Nat)
    (a : UArray2_T Pnm_rgb) (m n : Nat) (hw : a.width = ((2 * m : Nat) : Int))
    (hh : a.height = ((2 * n : Nat) : Int)) (hlen : a.elements.length = 2 * m * (2 * n))
    (hbody : body.length < 4 * (m * n)) :
    UArray2_map_row_major a (applyDecompress arith) body = .error .CRE := by
  have hm : 0 < m := by
    rcases Nat.eq_zero_or_pos m with h0 | h0
    · rw [h0] at hbody; simp at hbody
    · exact h0
  have hk0 : body.length / 4 < m * n := by omega
  have hi0 : body.length / 4 / m < n := Nat.div_lt_of_lt_mul hk0
  have hj0 : body.length / 4 % m < m := Nat.mod_lt _ hm
  have hdm : body.length / 4 / m * m + body.length / 4 % m = body.length / 4 := by
    rw [Nat.mul_comm]; exact Nat.div_add_mod _ m
  generalize hi0d : body.length / 4 / m = i0 at hi0 hdm
  generalize hj0d : body.length / 4 % m = j0 at hj0 hdm
  have hinv0 : decompress_inv arith body m n 0 (a, body) :=
    ⟨hw, hh, hlen, by simp, by
      intro c r _ hlt
      simp at hlt⟩
  obtain ⟨s1, hrows, hP1⟩ := decompress_rows_prefix arith body m n i0 (by omega) (by omega)
    (a, body) hinv0
  obtain ⟨s2, hcells, hP2⟩ := decompress_cells_prefix arith body m n i0 j0 hi0 (by omega)
    (by omega) s1 hP1
  have hfail := decompress_cell_fails arith body m n i0 j0 (i0 * m + j0) hi0 hj0 (by omega)
    s2 hP2
  have hrowfail : map_row_major_row (applyDecompress arith) (2 * m) (2 * i0) s1
      = .error .CRE := by
    unfold map_row_major_row
    have e : 2 * m = 2 * j0 + ((2 * m - 2 * j0 - 1) + 1) := by omega
    rw [e, loopFrom_append, hcells]
    simp only [Nat.zero_add]
    exact loopFrom_succ_error _ _ _ _ _ hfail
  unfold UArray2_map_row_major
  rw [hw, hh, Int.toNat_ofNat, Int.toNat_ofNat]
  have e : 2 * n = 2 * i0 + ((2 * n - 2 * i0 - 1) + 1) := by omega
  rw [e, loopFrom_append, hrows]
  simp only [Nat.zero_add]
  exact loopFrom_succ_error _ _ _ _ _ hrowfail

/-- C21: for a stream whose header is matched by `fscanf` and declares an
even width `w` and an even height `h` (below 2^31), if fewer than
`4 * (w/2) * (h/2)` bytes follow the newline of the header (so `w > 0` and
`h > 0`), `decompress40`
ends in a checked runtime error and hands no raster to `Pnm_ppmwrite`. The
error is the failed `assert(curr_char != EOF)` of `read_codeword`, which
fails on what is left of the stream after the last complete codeword; with
fewer than four bytes it fails on the first block. -/
theorem decompress40_truncated (arith : Arith40) (input body : List Nat) (w h : Nat)
    (hscan : fscanf_run decompress40_format [] input = ([w, h], 10 :: body))
    (hw : w < 2 ^ 31) (hh : h < 2 ^ 31) (hwe : w % 2 = 0) (hhe : h % 2 = 0)
    (hlen : body.length < 4 * (w / 2 * (h / 2))) :
    decompress40 arith input = .error .CRE ∧
    read_codeword (body.drop (4 * (body.length / 4))) = .error .CRE ∧
    (body.length < 4 → read_codeword body = .error .CRE) ∧
    ∀ image, decompress40 arith input ≠ .ok image := by
  have hmain : decompress40 arith input = .error .CRE := by
    obtain ⟨a, hnew, aw, ah, _, ael⟩ := UArray2_new_of_dims Pnm_rgb_zero w h sizeof_Pnm_rgb
      (by decide)
    have hw2 : w = 2 * (w / 2) := by omega
    have hh2 : h = 2 * (h / 2) := by omega
    have alen : a.elements.length = 2 * (w / 2) * (2 * (h / 2)) := by
      rw [ael, List.length_replicate, ← hw2, ← hh2]
    have hmap := map_row_major_applyDecompress_truncated arith body a (w / 2) (h / 2)
      (by rw [aw, ← hw2]) (by rw [ah, ← hh2]) alen hlen
    unfold decompress40
    simp only [hscan, getc]
    rw [toInt32_of_lt w hw, toInt32_of_lt h hh]
    simp only [hnew, hmap]
    simp
  refine ⟨hmain, ?_, read_codeword_short body, ?_⟩
  · apply read_codeword_short
    rw [List.length_drop]
    omega
  · intro image himg
    rw [hmain] at himg
    exact absurd himg (by simp)

theorem decompress40_truncated_witness :
    fscanf_run decompress40_format [] (compress40_header 4 2 ++ [0, 0, 0, 136, 1, 128, 0])
      = ([4, 2], 10 :: [0, 0, 0, 136, 1, 128, 0]) ∧
    ([0, 0, 0, 136, 1, 128, 0] : List Nat).length < 4 * (4 / 2 * (2 / 2)) ∧
    (decompress40 sample_arith (compress40_header 4 2 ++ [0, 0, 0, 136, 1, 128, 0])
        = .error .CRE ∧
      read_codeword (([0, 0, 0, 136, 1, 128, 0] : List Nat).drop
        (4 * (([0, 0, 0, 136, 1, 128, 0] : List Nat).length / 4))) = .error .CRE ∧
      (([0, 0, 0, 136, 1, 128, 0] : List Nat).length < 4 →
        read_codeword [0, 0, 0, 136, 1, 128, 0] = .error .CRE) ∧
      ∀ image, decompress40 sample_arith
        (compress40_header 4 2 ++ [0, 0, 0, 136, 1, 128, 0]) ≠ .ok image) :=
  ⟨fscanf_run_header 4 2 (by norm_num) (by norm_num) _, by decide,
    decompress40_truncated sample_arith _ [0, 0, 0, 136, 1, 128, 0] 4 2
      (fscanf_run_header 4 2 (by norm_num) (by norm_num) _) (by norm_num) (by norm_num)
      (by decide) (by decide) (by decide)⟩

/-! ## Claims about the bytes and the layout of a codeword -/

/-- C39: for every codeword, `read_codeword` applied to the four bytes that
`print_codeword` writes (followed by any rest of the stream) returns the
codeword modulo 2^32, which is the codeword itself when it is below 2^32, and
leaves the rest of the stream; on every input `read_codeword` either fails
with a checked runtime error (fewer than four bytes) or returns a word below
2^32 made of the first four bytes: it never raises `Bitpack_Overflow`. -/
theorem read_codeword_print_codeword (codeword : Nat) (out rest : List Nat) :
    print_codeword codeword out = .ok (out ++ codeword_bytes codeword) ∧
    read_codeword (codeword_bytes codeword ++ rest) = .ok (codeword % 2 ^ 32, rest) ∧
    (codeword < 2 ^ 32 → read_codeword (codeword_bytes codeword ++ rest) = .ok (codeword, rest)) ∧
    (∀ input : List Nat, read_codeword input ≠ .error .Overflow) ∧
    (∀ (input : List Nat) (word : Nat) (rest1 : List Nat),
      read_codeword input = .ok (word, rest1) → word < 2 ^ 32) ∧
    (∀ input : List Nat, input.length < 4 → read_codeword input = .error .CRE) := by
  have hall : ∀ input : List Nat, read_codeword input = .error .CRE ∨
      ∃ b3 b2 b1 b0 rest1, read_codeword input = .ok (codeword_of_bytes b3 b2 b1 b0, rest1) := by
    intro input
    by_cases hlen : input.length < 4
    · exact Or.inl (read_codeword_short input hlen)
    · right
      rcases input with _ | ⟨b3, _ | ⟨b2, _ | ⟨b1, _ | ⟨b0, t⟩⟩⟩⟩
      · simp at hlen
      · simp at hlen
      · simp at hlen
      · simp at hlen
      · exact ⟨b3, b2, b1, b0, t, read_codeword_cons b3 b2 b1 b0 t⟩
  have hmod : read_codeword (codeword_bytes codeword ++ rest) = .ok (codeword % 2 ^ 32, rest) := by
    have hb : codeword_bytes codeword = codeword_bytes (codeword % 2 ^ 32) := by
      unfold codeword_bytes
      simp only [List.cons.injEq, and_true]
      omega
    rw [hb]
    exact codeword_of_codeword_bytes (codeword % 2 ^ 32) (Nat.mod_lt _ (by norm_num)) rest
  refine ⟨print_codeword_bytes codeword out, hmod,
    fun h => codeword_of_codeword_bytes codeword h rest, ?_, ?_, read_codeword_short⟩
  · intro input h
    rcases hall input with h1 | ⟨b3, b2, b1, b0, r, h1⟩ <;> rw [h1] at h <;> cases h
  · intro input word rest1 h
    rcases hall input with h1 | ⟨b3, b2, b1, b0, r, h1⟩
    · rw [h1] at h
      cases h
    · rw [h1] at h
      cases h
      exact codeword_of_bytes_lt b3 b2 b1 b0

theorem signed_field5_range (u : Nat) (hu : u < 32) :
    -16 ≤ signed_field5 u ∧ signed_field5 u ≤ 15 ∧ (signed_field5 u % 32).toNat = u := by
  unfold signed_field5
  split <;> omega

/-- The array that `extract_bitpack` returns for a word, in the form in which
`applyCompress` builds it. -/
theorem extract_bitpack_eq (cw : Nat) :
    extract_bitpack cw code_elems_template =
      .ok (assign_code_elems ((cw / 2 ^ 23 % 2 ^ 9 : Nat) : Int)
        (signed_field5 (cw / 2 ^ 18 % 2 ^ 5)) (signed_field5 (cw / 2 ^ 13 % 2 ^ 5))
        (signed_field5 (cw / 2 ^ 8 % 2 ^ 5)) (cw / 2 ^ 4 % 2 ^ 4) (cw % 2 ^ 4)) := by
  have ga := getu_eq cw 9 23 (by norm_num) (by norm_num)
  have gb := gets_eq cw 5 18 (by norm_num) (by norm_num) (by norm_num)
  have gc := gets_eq cw 5 13 (by norm_num) (by norm_num) (by norm_num)
  have gd := gets_eq cw 5 8 (by norm_num) (by norm_num) (by norm_num)
  have gpb := getu_eq cw 4 4 (by norm_num) (by norm_num)
  have gpr := getu_eq cw 4 0 (by norm_num) (by norm_num)
  have hs : ∀ u : Nat,
      (if u < 2 ^ (5 - 1) then (u : Int) else (u : Int) - 2 ^ 5) = signed_field5 u := by
    intro u
    unfold signed_field5
    norm_num
  rw [hs] at gb gc gd
  have ea : toUInt64 ((cw / 2 ^ 23 % 2 ^ 9 : Nat) : Int) = cw / 2 ^ 23 % 2 ^ 9 :=
    toUInt64_ofNat _ (by omega)
  have epb : cw / 2 ^ 4 % 2 ^ 4 % 2 ^ 64 = cw / 2 ^ 4 % 2 ^ 4 := by omega
  have epr : cw % 2 ^ 4 % 2 ^ 64 = cw / 2 ^ 0 % 2 ^ 4 := by omega
  simp only [extract_bitpack, code_elems_template, assign_code_elems, NUM_CODEWORD_ELEMENTS,
    List.take, List.drop, extract_loop, extract_step, CODEWORD_A, CODEWORD_B, CODEWORD_C,
    CODEWORD_D, CODEWORD_PB, CODEWORD_PR, ga, gb, gc, gd, gpb, gpr, Bool.false_eq_true,
    if_false, if_true, List.append_nil, ea, epb, epr]

/-- C35: for every word, `extract_bitpack` returns six fields within their
widths (`a` in 0..511, `b`, `c`, `d` in -16..15, both indices in 0..15), and
`pack_codeword` of the array that `extract_bitpack` returns is the word
modulo 2^32: the word itself when it is below 2^32, so the six fields cover
the 32 bits and the layout is a bijection on 32-bit words. -/
theorem pack_codeword_extract_bitpack (cw : Nat) :
    ∃ (a b c d : Int) (pb pr : Nat),
      extract_bitpack cw code_elems_template = .ok (assign_code_elems a b c d pb pr) ∧
      read_code_elems (assign_code_elems a b c d pb pr) = some (a, b, c, d, pb, pr) ∧
      (0 ≤ a ∧ a ≤ 511) ∧ (-16 ≤ b ∧ b ≤ 15) ∧ (-16 ≤ c ∧ c ≤ 15) ∧ (-16 ≤ d ∧ d ≤ 15) ∧
      pb ≤ 15 ∧ pr ≤ 15 ∧
      Bitpack_fitsu (toUInt64 a) 9 = .ok true ∧ Bitpack_fitss b 5 = .ok true ∧
      Bitpack_fitss c 5 = .ok true ∧ Bitpack_fitss d 5 = .ok true ∧
      Bitpack_fitsu pb 4 = .ok true ∧ Bitpack_fitsu pr 4 = .ok true ∧
      pack_codeword (assign_code_elems a b c d pb pr) = .ok (cw % 2 ^ 32) ∧
      (cw < 2 ^ 32 → pack_codeword (assign_code_elems a b c d pb pr) = .ok cw) := by
  obtain ⟨b0, b1, b2⟩ := signed_field5_range (cw / 2 ^ 18 % 2 ^ 5) (by omega)
  obtain ⟨c0, c1, c2⟩ := signed_field5_range (cw / 2 ^ 13 % 2 ^ 5) (by omega)
  obtain ⟨d0, d1, d2⟩ := signed_field5_range (cw / 2 ^ 8 % 2 ^ 5) (by omega)
  have hpack : pack_codeword (assign_code_elems ((cw / 2 ^ 23 % 2 ^ 9 : Nat) : Int)
      (signed_field5 (cw / 2 ^ 18 % 2 ^ 5)) (signed_field5 (cw / 2 ^ 13 % 2 ^ 5))
      (signed_field5 (cw / 2 ^ 8 % 2 ^ 5)) (cw / 2 ^ 4 % 2 ^ 4) (cw % 2 ^ 4))
      = .ok (cw % 2 ^ 32) := by
    rw [pack_codeword_eq _ _ _ _ _ _ (by omega) (by omega) b0 b1 c0 c1 d0 d1 (by omega)
      (by omega), b2, c2, d2, Int.toNat_ofNat]
    simp only [Except.ok.injEq]
    omega
  refine ⟨_, _, _, _, _, _, extract_bitpack_eq cw,
    read_assign_code_elems _ _ _ _ _ _ (by omega) (by omega) (by omega) (by omega) (by omega)
      (by omega) (by omega) (by omega) (by omega) (by omega),
    ⟨by omega, by omega⟩, ⟨b0, b1⟩, ⟨c0, c1⟩, ⟨d0, d1⟩, by omega, by omega, ?_, ?_, ?_, ?_, ?_,
    ?_, hpack, ?_⟩
  · rw [fitsu_eq _ 9 (toUInt64_lt _) (by norm_num), toUInt64_ofNat _ (by omega)]
    simp only [Except.ok.injEq, decide_eq_true_eq]
    omega
  · rw [fitss_eq _ 5 (by omega) (by omega) (by norm_num) (by norm_num)]
    simp only [Except.ok.injEq, decide_eq_true_eq]
    norm_num
    exact ⟨b0, b1⟩
  · rw [fitss_eq _ 5 (by omega) (by omega) (by norm_num) (by norm_num)]
    simp only [Except.ok.injEq, decide_eq_true_eq]
    norm_num
    exact ⟨c0, c1⟩
  · rw [fitss_eq _ 5 (by omega) (by omega) (by norm_num) (by norm_num)]
    simp only [Except.ok.injEq, decide_eq_true_eq]
    norm_num
    exact ⟨d0, d1⟩
  · rw [fitsu_eq _ 4 (by omega) (by norm_num)]
    simp only [Except.ok.injEq, decide_eq_true_eq]
    omega
  · rw [fitsu_eq _ 4 (by omega) (by norm_num)]
    simp only [Except.ok.injEq, decide_eq_true_eq]
    omega
  · intro h
    rw [hpack, Nat.mod_eq_of_lt h]

/-! ## Re-inserting an extracted field -/

theorem field_reassemble (word w lsb : Nat) :
    2 ^ lsb * (2 ^ w * (word / 2 ^ (lsb + w)) + word / 2 ^ lsb % 2 ^ w) + word % 2 ^ lsb =
      word := by
  rw [pow_add, ← Nat.div_div_eq_div_mul, Nat.div_add_mod, Nat.div_add_mod]

theorem toUInt64_signed_field (u w : Nat) (hw1 : 1 ≤ w) (hw : w ≤ 64) (hu : u < 2 ^ w) :
    toUInt64 (if u < 2 ^ (w - 1) then (u : Int) else (u : Int) - 2 ^ w) % 2 ^ w = u := by
  have hP : (2 : Nat) ^ 64 = 2 ^ w * 2 ^ (64 - w) := by
    rw [← pow_add]
    congr 1
    omega
  have hQ : 0 < (2 : Nat) ^ (64 - w) := by positivity
  have hPpos : 0 < (2 : Nat) ^ w := by positivity
  have hle : (2 : Nat) ^ w ≤ 2 ^ 64 := Nat.pow_le_pow_right (by norm_num) hw
  split
  · rw [toUInt64_ofNat u (by omega)]
    exact Nat.mod_eq_of_lt hu
  · have hval : toUInt64 ((u : Int) - 2 ^ w) = 2 ^ w * (2 ^ (64 - w) - 1) + u := by
      unfold toUInt64
      have h1 : ((u : Int) - 2 ^ w) % 2 ^ 64 = (u : Int) - 2 ^ w + 2 ^ 64 := by
        have hle2 : ((2 : Int) ^ w) ≤ 2 ^ 64 := by exact_mod_cast hle
        have hu2 : (u : Int) < 2 ^ w := by exact_mod_cast hu
        rw [← Int.add_emod_self]
        exact Int.emod_eq_of_lt (by omega) (by omega)
      rw [h1]
      have h2 : (u : Int) - 2 ^ w + 2 ^ 64 = ((2 ^ w * (2 ^ (64 - w) - 1) + u : Nat) : Int) := by
        have h3 : 2 ^ w * (2 ^ (64 - w) - 1) + u + 2 ^ w = 2 ^ 64 + u := by
          rw [hP, Nat.mul_sub, Nat.mul_one]
          have : 2 ^ w ≤ 2 ^ w * 2 ^ (64 - w) := Nat.le_mul_of_pos_right _ hQ
          omega
        have h4 : ((2 ^ w * (2 ^ (64 - w) - 1) + u + 2 ^ w : Nat) : Int) = ((2 ^ 64 + u : Nat) : Int) := by
          rw [h3]
        push_cast at h4 ⊢
        linarith
      rw [h2, Int.toNat_ofNat]
    rw [hval, Nat.mul_add_mod, Nat.mod_eq_of_lt hu]

/-- C40: for every 64-bit word, every width `w` and every `lsb` with
`w + lsb <= 64` (so `w` is in 0..64), `Bitpack_getu` and `Bitpack_gets`
return a field that satisfies `Bitpack_fitsu`, respectively `Bitpack_fitss`,
for the width `w`, and writing the field back at the same place with
`Bitpack_newu`, respectively `Bitpack_news`, returns the word unchanged. -/
theorem Bitpack_reinsert_extracted_field (word w lsb : Nat) (hword : word < 2 ^ 64)
    (h : w + lsb ≤ 64) :
    ∃ (u : Nat) (s : Int),
      Bitpack_getu word w lsb = .ok u ∧ Bitpack_gets word w lsb = .ok s ∧
      Bitpack_fitsu u w = .ok true ∧ Bitpack_fitss s w = .ok true ∧
      Bitpack_newu word w lsb u = .ok word ∧ Bitpack_news word w lsb s = .ok word := by
  have hw : w ≤ 64 := by omega
  have hu : word / 2 ^ lsb % 2 ^ w < 2 ^ w := getu_lt word w lsb
  have hnewu : Bitpack_newu word w lsb (word / 2 ^ lsb % 2 ^ w) = .ok word := by
    rw [newu_arith word w lsb _ hword hw h hu, field_reassemble]
  rcases Nat.eq_zero_or_pos w with h0 | hw1
  · subst h0
    refine ⟨0, 0, ?_, ?_, ?_, ?_, ?_, ?_⟩
    · rw [getu_eq word 0 lsb hw h, pow_zero, Nat.mod_one]
    · have hm : lsb % 2 ^ 32 = lsb := by omega
      simp [Bitpack_gets, hm]
      omega
    · simp [Bitpack_fitsu]
    · simp [Bitpack_fitss]
    · rw [pow_zero, Nat.mod_one] at hnewu
      exact hnewu
    · rw [news_of_fits word 0 lsb 0 hw h (by simp [Bitpack_fitss]),
        insert_eq_arith word 0 lsb _ hword hw h (by rw [pow_zero, Nat.mod_one]; norm_num)]
      have := field_reassemble word 0 lsb
      simp only [pow_zero, Nat.mod_one] at this ⊢
      rw [this]
  · have hle : (2 : Nat) ^ w ≤ 2 ^ 64 := Nat.pow_le_pow_right (by norm_num) hw
    have hhalf : (2 : Nat) ^ w = 2 * 2 ^ (w - 1) := by
      rw [← pow_succ']
      congr 1
      omega
    have hle1 : (2 : Nat) ^ (w - 1) ≤ 2 ^ 63 := Nat.pow_le_pow_right (by norm_num) (by omega)
    have hhalfZ : (2 : Int) ^ w = 2 * 2 ^ (w - 1) := by exact_mod_cast hhalf
    have hle1Z : (2 : Int) ^ (w - 1) ≤ 2 ^ 63 := by exact_mod_cast hle1
    have hposZ : (0 : Int) < 2 ^ (w - 1) := by positivity
    generalize hudef : word / 2 ^ lsb % 2 ^ w = u at hu hnewu
    have hs : -2 ^ (w - 1) ≤ (if u < 2 ^ (w - 1) then (u : Int) else (u : Int) - 2 ^ w) ∧
        (if u < 2 ^ (w - 1) then (u : Int) else (u : Int) - 2 ^ w) ≤ 2 ^ (w - 1) - 1 := by
      have huZ : (u : Int) < 2 ^ w := by exact_mod_cast hu
      split
      · rename_i hlt
        have : (u : Int) < 2 ^ (w - 1) := by exact_mod_cast hlt
        constructor <;> omega
      · rename_i hge
        have : (2 : Int) ^ (w - 1) ≤ u := by
          have := Nat.le_of_not_lt hge
          exact_mod_cast this
        constructor <;> omega
    refine ⟨u, if u < 2 ^ (w - 1) then (u : Int) else (u : Int) - 2 ^ w, ?_, ?_, ?_, ?_, hnewu, ?_⟩
    · rw [getu_eq word w lsb hw h, hudef]
    · rw [gets_eq word w lsb hw1 hw h, hudef]
    · rw [fitsu_eq u w (by omega) hw]
      simp [hu]
    · rw [fitss_eq _ w (by omega) (by omega) hw1 hw]
      simp only [Except.ok.injEq, decide_eq_true_eq]
      exact hs
    · rw [news_arith word w lsb _ hword hw1 hw h (by omega) (by omega) hs,
        toUInt64_signed_field u w hw1 hw hu, ← hudef, field_reassemble]

/-- The re-insertion identity on the five bits at 18 of `0xDEADBEEF`. -/
theorem Bitpack_reinsert_extracted_field_witness :
    (3735928559 < 2 ^ 64 ∧ 5 + 18 ≤ 64) ∧
    ∃ (u : Nat) (s : Int),
      Bitpack_getu 3735928559 5 18 = .ok u ∧ Bitpack_gets 3735928559 5 18 = .ok s ∧
      Bitpack_fitsu u 5 = .ok true ∧ Bitpack_fitss s 5 = .ok true ∧
      Bitpack_newu 3735928559 5 18 u = .ok 3735928559 ∧
      Bitpack_news 3735928559 5 18 s = .ok 3735928559 :=
  ⟨⟨by norm_num, by norm_num⟩,
    Bitpack_reinsert_extracted_field 3735928559 5 18 (by norm_num) (by norm_num)⟩

/-! ## Quantization of the luma coefficients -/

theorem round_half_away_intCast (n : Int) : round_half_away (n : ℚ) = n := by
  unfold round_half_away
  by_cases h : (n : ℚ) ≥ 0
  · rw [if_pos h]
    exact floor_eq_of_bounds _ n (by linarith) (by linarith)
  · rw [if_neg h]
    have : ⌊-(n : ℚ) + 1 / 2⌋ = -n :=
      floor_eq_of_bounds _ (-n) (by push_cast; linarith) (by push_cast; linarith)
    rw [this, neg_neg]

theorem round_half_away_near (x : ℚ) : |((round_half_away x : Int) : ℚ) - x| ≤ 1 / 2 := by
  unfold round_half_away
  by_cases h : x ≥ 0
  · rw [if_pos h, abs_le]
    have h1 := Int.floor_le (x + 1 / 2)
    have h2 := Int.lt_floor_add_one (x + 1 / 2)
    constructor <;> linarith
  · rw [if_neg h, abs_le]
    have h1 := Int.floor_le (-x + 1 / 2)
    have h2 := Int.lt_floor_add_one (-x + 1 / 2)
    push_cast
    constructor <;> linarith

theorem round_half_away_tie_up (n : Int) (hn : 0 ≤ n) :
    round_half_away ((n : ℚ) + 1 / 2) = n + 1 := by
  have hq : (0 : ℚ) ≤ (n : ℚ) := by exact_mod_cast hn
  unfold round_half_away
  rw [if_pos (by linarith)]
  exact floor_eq_of_bounds _ (n + 1) (by push_cast; linarith) (by push_cast; linarith)

theorem round_half_away_tie_down (n : Int) (hn : n ≤ 0) :
    round_half_away ((n : ℚ) - 1 / 2) = n - 1 := by
  have hq : (n : ℚ) ≤ 0 := by exact_mod_cast hn
  unfold round_half_away
  rw [if_neg (by linarith)]
  have : ⌊-((n : ℚ) - 1 / 2) + 1 / 2⌋ = -n + 1 :=
    floor_eq_of_bounds _ (-n + 1) (by push_cast; linarith) (by push_cast; linarith)
  rw [this]
  ring

/-- The four entries that `abcd_quantization` stores in `quantized_abcd`. -/
theorem abcd_quantization_values (block : Block_Pixel_Info) :
    (abcd_quantization block).quantized_abcd 0 =
      round_half_away (511 * clamp (block.discreteCosineArr 0) 0 1) ∧
    (abcd_quantization block).quantized_abcd 1 =
      round_half_away (50 * clamp (block.discreteCosineArr 1) (-3 / 10) (3 / 10)) ∧
    (abcd_quantization block).quantized_abcd 2 =
      round_half_away (50 * clamp (block.discreteCosineArr 2) (-3 / 10) (3 / 10)) ∧
    (abcd_quantization block).quantized_abcd 3 =
      round_half_away (50 * clamp (block.discreteCosineArr 3) (-3 / 10) (3 / 10)) := by
  have ha := clamp_bounds (block.discreteCosineArr 0) 0.0 1.0 (by norm_num)
  have ra := round_half_away_bounds (clamp (block.discreteCosineArr 0) 0.0 1.0 * 511.0) 511
    (by push_cast; nlinarith [ha.1, ha.2]) (by push_cast; nlinarith [ha.1, ha.2])
  have ra0 := round_half_away_nonneg (clamp (block.discreteCosineArr 0) 0.0 1.0 * 511.0)
    (by nlinarith [ha.1, ha.2])
  have qa : toInt32 (round_half_away (clamp (block.discreteCosineArr 0) 0.0 1.0 * 511.0)).toNat
      = round_half_away (clamp (block.discreteCosineArr 0) 0.0 1.0 * 511.0) := by
    rw [toInt32_of_lt _ (by omega)]
    exact Int.toNat_of_nonneg ra0
  have e0 : (0.0 : ℚ) = 0 := by norm_num
  have e1 : (1.0 : ℚ) = 1 := by norm_num
  have e3 : (0.3 : ℚ) = 3 / 10 := by norm_num
  have e3n : (-0.3 : ℚ) = -3 / 10 := by norm_num
  have e511 : (511.0 : ℚ) = 511 := by norm_num
  have e50 : (50.0 : ℚ) = 50 := by norm_num
  simp only [abcd_quantization, Function.update, qa]
  simp only [e0, e1, e3, e3n, e511, e50]
  refine ⟨?_, ?_, ?_, ?_⟩ <;> simp [mul_comm, neg_div]

/-! ## Range of the color transform -/

/-- C38: for every denominator `d > 0` and every pixel whose channels are at
most `d`, `RGB_to_ComponentVideo` (the arithmetic taken as exact) yields `Y`
in `[0, 1]` and `Pb`, `Pr` in `[-0.5, 0.5]`; a gray pixel (red = green =
blue) yields `Pb = Pr = 0` and `Y = red / d`. -/
theorem RGB_to_ComponentVideo_range (pixel : Pnm_rgb) (denominator : Nat)
    (hd : 0 < denominator) (hr : pixel.red ≤ denominator) (hg : pixel.green ≤ denominator)
    (hb : pixel.blue ≤ denominator) :
    (0 ≤ (RGB_to_ComponentVideo pixel denominator).y ∧
      (RGB_to_ComponentVideo pixel denominator).y ≤ 1) ∧
    (-1 / 2 ≤ (RGB_to_ComponentVideo pixel denominator).pb ∧
      (RGB_to_ComponentVideo pixel denominator).pb ≤ 1 / 2) ∧
    (-1 / 2 ≤ (RGB_to_ComponentVideo pixel denominator).pr ∧
      (RGB_to_ComponentVideo pixel denominator).pr ≤ 1 / 2) ∧
    (pixel.red = pixel.green ∧ pixel.green = pixel.blue →
      (RGB_to_ComponentVideo pixel denominator).pb = 0 ∧
      (RGB_to_ComponentVideo pixel denominator).pr = 0 ∧
      (RGB_to_ComponentVideo pixel denominator).y = (pixel.red : ℚ) / (denominator : ℚ)) := by
  have hdq : (0 : ℚ) < (denominator : ℚ) := by exact_mod_cast hd
  have bound : ∀ v : Nat, v ≤ denominator →
      0 ≤ (v : ℚ) / (denominator : ℚ) ∧ (v : ℚ) / (denominator : ℚ) ≤ 1 := by
    intro v hv
    have hvq : (v : ℚ) ≤ (denominator : ℚ) := by exact_mod_cast hv
    exact ⟨div_nonneg (Nat.cast_nonneg v) hdq.le, (div_le_one hdq).mpr hvq⟩
  obtain ⟨r0, r1⟩ := bound pixel.red hr
  obtain ⟨g0, g1⟩ := bound pixel.green hg
  obtain ⟨b0, b1⟩ := bound pixel.blue hb
  refine ⟨?_, ?_, ?_, ?_⟩
  · simp only [RGB_to_ComponentVideo]
    constructor <;> norm_num <;> linarith
  · simp only [RGB_to_ComponentVideo]
    constructor <;> norm_num <;> linarith
  · simp only [RGB_to_ComponentVideo]
    constructor <;> norm_num <;> linarith
  · rintro ⟨e1, e2⟩
    have hp : pixel = { red := pixel.red, green := pixel.red, blue := pixel.red } := by
      cases pixel
      simp only at e1 e2
      subst e1
      subst e2
      rfl
    rw [hp, RGB_to_ComponentVideo_gray _ _ hd]
    exact ⟨rfl, rfl, rfl⟩

/-- The range of the color transform on a pixel of the sample image. -/
theorem RGB_to_ComponentVideo_range_witness :
    (0 < 255 ∧ 30 ≤ 255 ∧ 225 ≤ 255 ∧ 9 ≤ 255) ∧
    (0 ≤ (RGB_to_ComponentVideo { red := 30, green := 225, blue := 9 } 255).y ∧
      (RGB_to_ComponentVideo { red := 30, green := 225, blue := 9 } 255).y ≤ 1) ∧
    (-1 / 2 ≤ (RGB_to_ComponentVideo { red := 30, green := 225, blue := 9 } 255).pb ∧
      (RGB_to_ComponentVideo { red := 30, green := 225, blue := 9 } 255).pb ≤ 1 / 2) ∧
    (-1 / 2 ≤ (RGB_to_ComponentVideo { red := 30, green := 225, blue := 9 } 255).pr ∧
      (RGB_to_ComponentVideo { red := 30, green := 225, blue := 9 } 255).pr ≤ 1 / 2) :=
  ⟨by decide,
    (RGB_to_ComponentVideo_range { red := 30, green := 225, blue := 9 } 255 (by decide)
      (by decide) (by decide) (by decide)).1,
    (RGB_to_ComponentVideo_range { red := 30, green := 225, blue := 9 } 255 (by decide)
      (by decide) (by decide) (by decide)).2.1,
    (RGB_to_ComponentVideo_range { red := 30, green := 225, blue := 9 } 255 (by decide)
      (by decide) (by decide) (by decide)).2.2.1⟩

/-! ## The encode chain never overflows -/

theorem UArray2_at_not_overflow {α : Type} (uarray2 : UArray2_T α) (col row : Int) :
    UArray2_at uarray2 col row ≠ .error .Overflow := by
  unfold UArray2_at UArray_at
  split
  · simp
  · split
    · simp
    · simp only
      split
      · simp
      · split <;> simp

theorem applyCompress_loop_not_overflow (image : Pnm_ppm) (uarray2 : UArray2_T Pnm_rgb)
    (col row : Int) (k : Nat) :
    ∀ (block_i : Nat) (block : Block_Pixel_Info),
      applyCompress_loop image uarray2 col row block_i k block ≠ .error .Overflow := by
  induction k with
  | zero =>
    intro block_i block
    simp [applyCompress_loop]
  | succ k ih =>
    intro block_i block
    unfold applyCompress_loop
    simp only
    split
    · rename_i e he
      intro h
      cases h
      exact UArray2_at_not_overflow _ _ _ he
    · exact ih _ _

/-- The codeword of a quantized block: `pack_codeword` accepts the six fields
whatever the block was. -/
theorem quantize_block_pack_ok (arith : Arith40)
    (harith : ∀ x, arith.Arith40_index_of_chroma x ≤ 15) (block : Block_Pixel_Info) :
    ∃ codeword,
      pack_codeword (assign_code_elems ((quantize_block arith block).quantized_abcd 0)
        ((quantize_block arith block).quantized_abcd 1)
        ((quantize_block arith block).quantized_abcd 2)
        ((quantize_block arith block).quantized_abcd 3)
        (quantize_block arith block).pb_chromaIndex
        (quantize_block arith block).pr_chromaIndex) = .ok codeword ∧ codeword < 2 ^ 32 := by
  have hq := abcd_quantization_bounds (discrete_Cosine_Transform block)
  have hcq : (quantize_block arith block).quantized_abcd =
      (abcd_quantization (discrete_Cosine_Transform block)).quantized_abcd := rfl
  have hpb : (quantize_block arith block).pb_chromaIndex ≤ 15 := harith _
  have hpr : (quantize_block arith block).pr_chromaIndex ≤ 15 := harith _
  rw [hcq]
  obtain ⟨⟨a0, a1⟩, ⟨b0, b1⟩, ⟨c0, c1⟩, ⟨d0, d1⟩⟩ := hq
  refine ⟨_, pack_codeword_eq _ _ _ _ _ _ a0 a1 (by omega) b1 (by omega) c1 (by omega) d1
    hpb hpr, ?_⟩
  omega

/-- C36: for every block of four pixels with arbitrary channel values, every
denominator above 0 and every chroma table that returns indices in 0..15,
the quantized block has `qa` in 0..511 and `qb`, `qc`, `qd` in -15..15, every
element passed to `pack_codeword` satisfies the width test of its field, the
encode chain returns a codeword below 2^32, and `applyCompress` never fails
with `Bitpack_Overflow` on any raster, position and output. -/
theorem applyCompress_never_overflows (arith : Arith40)
    (harith : ∀ x, arith.Arith40_index_of_chroma x ≤ 15) (denominator : Nat)
    (_hd : 0 < denominator) (p0 p1 p2 p3 : Pnm_rgb) :
    ((0 ≤ (quantize_block arith (block_of_pixels denominator p0 p1 p2 p3)).quantized_abcd 0 ∧
        (quantize_block arith (block_of_pixels denominator p0 p1 p2 p3)).quantized_abcd 0
          ≤ 511) ∧
      (∀ i, 1 ≤ i ∧ i ≤ 3 →
        -15 ≤ (quantize_block arith (block_of_pixels denominator p0 p1 p2 p3)).quantized_abcd i ∧
        (quantize_block arith (block_of_pixels denominator p0 p1 p2 p3)).quantized_abcd i
          ≤ 15) ∧
      (quantize_block arith (block_of_pixels denominator p0 p1 p2 p3)).pb_chromaIndex ≤ 15 ∧
      (quantize_block arith (block_of_pixels denominator p0 p1 p2 p3)).pr_chromaIndex ≤ 15) ∧
    (∀ element ∈ assign_code_elems
        ((quantize_block arith (block_of_pixels denominator p0 p1 p2 p3)).quantized_abcd 0)
        ((quantize_block arith (block_of_pixels denominator p0 p1 p2 p3)).quantized_abcd 1)
        ((quantize_block arith (block_of_pixels denominator p0 p1 p2 p3)).quantized_abcd 2)
        ((quantize_block arith (block_of_pixels denominator p0 p1 p2 p3)).quantized_abcd 3)
        (quantize_block arith (block_of_pixels denominator p0 p1 p2 p3)).pb_chromaIndex
        (quantize_block arith (block_of_pixels denominator p0 p1 p2 p3)).pr_chromaIndex,
      (if element.isSigned then Bitpack_fitss (toInt64 element.value) element.width
        else Bitpack_fitsu element.value element.width) = .ok true) ∧
    (∃ codeword, encode_block arith denominator p0 p1 p2 p3 = .ok codeword ∧
      codeword < 2 ^ 32) ∧
    (∀ (image : Pnm_ppm) (col row : Int) (uarray2 : UArray2_T Pnm_rgb) (elem : Pnm_rgb)
        (out : List Nat), image.denominator = denominator →
      applyCompress arith image col row uarray2 elem out ≠ .error .Overflow) := by
  generalize hblk : block_of_pixels denominator p0 p1 p2 p3 = blk
  have hq := abcd_quantization_bounds (discrete_Cosine_Transform blk)
  have hcq : (quantize_block arith blk).quantized_abcd =
      (abcd_quantization (discrete_Cosine_Transform blk)).quantized_abcd := rfl
  have hpb : (quantize_block arith blk).pb_chromaIndex ≤ 15 := harith _
  have hpr : (quantize_block arith blk).pr_chromaIndex ≤ 15 := harith _
  obtain ⟨⟨a0, a1⟩, ⟨b0, b1⟩, ⟨c0, c1⟩, ⟨d0, d1⟩⟩ := hq
  rw [← hcq] at a0 a1 b0 b1 c0 c1 d0 d1
  have fs : ∀ v : Int, -15 ≤ v → v ≤ 15 →
      Bitpack_fitss (toInt64 (toUInt64 v)) 5 = .ok true := by
    intro v h1 h2
    rw [toInt64_toUInt64 v (by omega) (by omega),
      fitss_eq v 5 (by omega) (by omega) (by norm_num) (by norm_num)]
    simp only [Except.ok.injEq, decide_eq_true_eq]
    norm_num
    exact ⟨by omega, h2⟩
  have fu : ∀ n : Nat, n ≤ 15 → Bitpack_fitsu (n % 2 ^ 64) 4 = .ok true := by
    intro n hn
    rw [fitsu_eq _ 4 (Nat.mod_lt _ (by norm_num)) (by norm_num)]
    simp only [Except.ok.injEq, decide_eq_true_eq]
    omega
  refine ⟨⟨⟨a0, a1⟩, ?_, hpb, hpr⟩, ?_, ?_, ?_⟩
  · rintro i ⟨h1, h3⟩
    interval_cases i
    · exact ⟨b0, b1⟩
    · exact ⟨c0, c1⟩
    · exact ⟨d0, d1⟩
  · intro element hmem
    simp only [assign_code_elems, List.mem_cons, List.mem_singleton, List.not_mem_nil,
      or_false] at hmem
    rcases hmem with h | h | h | h | h | h <;> subst h
    · simp only [CODEWORD_A, Bool.false_eq_true, if_false]
      rw [fitsu_eq _ 9 (toUInt64_lt _) (by norm_num)]
      simp only [Except.ok.injEq, decide_eq_true_eq]
      unfold toUInt64
      omega
    · simp only [CODEWORD_B, if_true]
      exact fs _ b0 b1
    · simp only [CODEWORD_C, if_true]
      exact fs _ c0 c1
    · simp only [CODEWORD_D, if_true]
      exact fs _ d0 d1
    · simp only [CODEWORD_PB, Bool.false_eq_true, if_false]
      exact fu _ hpb
    · simp only [CODEWORD_PR, Bool.false_eq_true, if_false]
      exact fu _ hpr
  · have h := quantize_block_pack_ok arith harith blk
    rw [← hblk] at h
    exact h
  · intro image col row uarray2 elem out _
    unfold applyCompress
    split
    · simp
    · split
      · simp
      · have hcb : ∀ e, compress_block arith image uarray2 col row = .error e →
            e ≠ .Overflow := by
          intro e he
          unfold compress_block at he
          split at he
          · rename_i e1 hloop
            cases he
            intro h
            subst h
            exact applyCompress_loop_not_overflow _ _ _ _ _ _ _ hloop
          · rename_i block hloop
            obtain ⟨w, hw, _⟩ := quantize_block_pack_ok arith harith block
            have : pack_codeword (assign_code_elems ((quantize_block arith block).quantized_abcd 0)
                ((quantize_block arith block).quantized_abcd 1)
                ((quantize_block arith block).quantized_abcd 2)
                ((quantize_block arith block).quantized_abcd 3)
                (quantize_block arith block).pb_chromaIndex
                (quantize_block arith block).pr_chromaIndex) = .error e := he
            rw [hw] at this
            cases this
        split
        · rename_i e he
          intro h
          cases h
          exact hcb _ he rfl
        · rename_i cw hcw
          rw [print_codeword_bytes]
          simp

/-- The encode chain on four pixels whose channels exceed the denominator. -/
theorem applyCompress_never_overflows_witness :
    ((∀ x, sample_arith.Arith40_index_of_chroma x ≤ 15) ∧ 0 < 255) ∧
    ∃ codeword,
      encode_block sample_arith 255 { red := 1000, green := 0, blue := 70000 }
        { red := 0, green := 999, blue := 3 } { red := 256, green := 256, blue := 256 }
        { red := 0, green := 0, blue := 0 } = .ok codeword ∧ codeword < 2 ^ 32 :=
  ⟨⟨sample_arith_index_le, by decide⟩,
    (applyCompress_never_overflows sample_arith sample_arith_index_le 255 (by decide)
      { red := 1000, green := 0, blue := 70000 } { red := 0, green := 999, blue := 3 }
      { red := 256, green := 256, blue := 256 } { red := 0, green := 0, blue := 0 }).2.2.1⟩

/-! ## Decode then encode on the luma fields -/

theorem pack_step_insert (element : CodeWord_Element) (hfit : element_fits element) :
    ∃ u, u < 2 ^ element.width ∧ ∀ word, pack_step word element =
      .ok (word &&& bitNot64 (fieldMask element.width element.lsb) |||
        left_shift u element.lsb) := by
  obtain ⟨hv, h, hf⟩ := hfit
  have hw : element.width ≤ 64 := by omega
  by_cases hs : element.isSigned = true
  · rw [if_pos hs] at hf
    refine ⟨toUInt64 (toInt64 element.value) % 2 ^ element.width,
      Nat.mod_lt _ (by positivity), fun word => ?_⟩
    unfold pack_step
    simp only [hs, if_true]
    exact news_of_fits word _ _ _ hw h hf
  · rw [if_neg hs] at hf
    refine ⟨element.value, ?_, fun word => ?_⟩
    · rw [fitsu_eq _ _ hv hw] at hf
      simpa using hf
    · unfold pack_step
      simp only [hs, Bool.false_eq_true, if_false]
      exact newu_of_fits word _ _ _ hw h hf

theorem insert_comm (word w1 lsb1 v1 w2 lsb2 v2 : Nat) (hword : word < 2 ^ 64)
    (h1 : w1 + lsb1 ≤ 64) (h2 : w2 + lsb2 ≤ 64) (hv1 : v1 < 2 ^ w1) (hv2 : v2 < 2 ^ w2)
    (hdisj : ∀ i : Nat, ¬ ((lsb1 ≤ i ∧ i < lsb1 + w1) ∧ (lsb2 ≤ i ∧ i < lsb2 + w2))) :
    ((word &&& bitNot64 (fieldMask w1 lsb1) ||| left_shift v1 lsb1) &&&
        bitNot64 (fieldMask w2 lsb2) ||| left_shift v2 lsb2) =
    ((word &&& bitNot64 (fieldMask w2 lsb2) ||| left_shift v2 lsb2) &&&
        bitNot64 (fieldMask w1 lsb1) ||| left_shift v1 lsb1) := by
  apply Nat.eq_of_testBit_eq
  intro i
  rw [testBit_insert _ w2 lsb2 v2 i (insert_lt word w1 lsb1 v1 hword) (by omega) h2 hv2,
    testBit_insert _ w1 lsb1 v1 i (insert_lt word w2 lsb2 v2 hword) (by omega) h1 hv1,
    testBit_insert word w1 lsb1 v1 i hword (by omega) h1 hv1,
    testBit_insert word w2 lsb2 v2 i hword (by omega) h2 hv2]
  have hd := hdisj i
  by_cases c1 : lsb1 ≤ i ∧ i < lsb1 + w1
  · by_cases c2 : lsb2 ≤ i ∧ i < lsb2 + w2
    · exact absurd ⟨c1, c2⟩ hd
    · simp only [if_neg c2, if_pos c1]
  · by_cases c2 : lsb2 ≤ i ∧ i < lsb2 + w2
    · simp only [if_pos c2, if_neg c1]
    · simp only [if_neg c2, if_neg c1]

theorem pack_step_lt (element : CodeWord_Element) (hfit : element_fits element) (word : Nat)
    (hword : word < 2 ^ 64) : ∃ w, pack_step word element = .ok w ∧ w < 2 ^ 64 := by
  obtain ⟨u, _, hu⟩ := pack_step_insert element hfit
  exact ⟨_, hu word, insert_lt word _ _ _ hword⟩

theorem pack_step_comm (e1 e2 : CodeWord_Element) (hf1 : element_fits e1)
    (hf2 : element_fits e2) (hdisj : fields_disjoint e1 e2) (word : Nat)
    (hword : word < 2 ^ 64) :
    ∃ w1 w2 w, pack_step word e1 = .ok w1 ∧ pack_step w1 e2 = .ok w ∧
      pack_step word e2 = .ok w2 ∧ pack_step w2 e1 = .ok w ∧ w < 2 ^ 64 := by
  obtain ⟨u1, hu1, s1⟩ := pack_step_insert e1 hf1
  obtain ⟨u2, hu2, s2⟩ := pack_step_insert e2 hf2
  refine ⟨_, _, _, s1 word, s2 _, s2 word, ?_, insert_lt _ _ _ _ (insert_lt word _ _ _ hword)⟩
  rw [s1, insert_comm word e1.width e1.lsb u1 e2.width e2.lsb u2 hword hf1.2.1 hf2.2.1 hu1 hu2
    hdisj]

theorem fields_disjoint_symm (e1 e2 : CodeWord_Element) (h : fields_disjoint e1 e2) :
    fields_disjoint e2 e1 := fun i hi => h i ⟨hi.2, hi.1⟩

theorem pack_loop_ok (l : List CodeWord_Element) (hfit : ∀ e ∈ l, element_fits e) :
    ∀ word, word < 2 ^ 64 → ∃ w, pack_loop word l = .ok w ∧ w < 2 ^ 64 := by
  induction l with
  | nil =>
    intro word hword
    exact ⟨word, rfl, hword⟩
  | cons e rest ih =>
    intro word hword
    obtain ⟨w1, hw1, hlt⟩ := pack_step_lt e (hfit e (List.mem_cons_self _ _)) word hword
    obtain ⟨w, hw, hwlt⟩ := ih (fun x hx => hfit x (List.mem_cons_of_mem _ hx)) w1 hlt
    refine ⟨w, ?_, hwlt⟩
    rw [pack_loop, hw1]
    exact hw

/-- Folding a list of fitting elements with pairwise disjoint fields gives
the same word for every order of the list. -/
theorem pack_loop_perm (l1 l2 : List CodeWord_Element) (hp : l1.Perm l2) :
    (∀ e ∈ l1, element_fits e) → l1.Pairwise fields_disjoint →
    ∀ word, word < 2 ^ 64 → pack_loop word l1 = pack_loop word l2 := by
  induction hp with
  | nil =>
    intro _ _ word _
    rfl
  | cons x _ ih =>
    intro hfit hpw word hword
    obtain ⟨w1, hw1, hlt⟩ := pack_step_lt x (hfit x (List.mem_cons_self _ _)) word hword
    rw [pack_loop, pack_loop, hw1]
    exact ih (fun e he => hfit e (List.mem_cons_of_mem _ he)) (List.Pairwise.of_cons hpw) w1 hlt
  | swap x y l =>
    intro hfit hpw word hword
    have hy : element_fits y := hfit y (List.mem_cons_self _ _)
    have hx : element_fits x := hfit x (List.mem_cons_of_mem _ (List.mem_cons_self _ _))
    have hd : fields_disjoint y x := (List.pairwise_cons.mp hpw).1 x (List.mem_cons_self _ _)
    obtain ⟨w1, w2, w, a1, a2, a3, a4, _⟩ := pack_step_comm y x hy hx hd word hword
    simp only [pack_loop, a1, a2, a3, a4]
  | trans h12 _ ih1 ih2 =>
    intro hfit hpw word hword
    rw [ih1 hfit hpw word hword]
    exact ih2 (fun e he => hfit e (h12.mem_iff.mpr he))
      ((h12.pairwise_iff (fun {a b} h => fields_disjoint_symm a b h)).mp hpw) word hword

theorem assign_code_elems_fits (a b c d : Int) (pb pr : Nat) (ha0 : 0 ≤ a) (ha1 : a ≤ 511)
    (hb0 : -16 ≤ b) (hb1 : b ≤ 15) (hc0 : -16 ≤ c) (hc1 : c ≤ 15) (hd0 : -16 ≤ d)
    (hd1 : d ≤ 15) (hpb : pb ≤ 15) (hpr : pr ≤ 15) :
    ∀ e ∈ assign_code_elems a b c d pb pr, element_fits e := by
  have fs : ∀ v : Int, -16 ≤ v → v ≤ 15 →
      Bitpack_fitss (toInt64 (toUInt64 v)) 5 = .ok true := by
    intro v h1 h2
    rw [toInt64_toUInt64 v (by omega) (by omega),
      fitss_eq v 5 (by omega) (by omega) (by norm_num) (by norm_num)]
    simp only [Except.ok.injEq, decide_eq_true_eq]
    norm_num
    exact ⟨h1, h2⟩
  have fu : ∀ n : Nat, n ≤ 15 → Bitpack_fitsu (n % 2 ^ 64) 4 = .ok true := by
    intro n hn
    rw [fitsu_eq _ 4 (Nat.mod_lt _ (by norm_num)) (by norm_num)]
    simp only [Except.ok.injEq, decide_eq_true_eq]
    omega
  intro e hmem
  simp only [assign_code_elems, List.mem_cons, List.mem_singleton, List.not_mem_nil,
    or_false] at hmem
  rcases hmem with h | h | h | h | h | h <;> subst h
  · refine ⟨toUInt64_lt _, by simp [CODEWORD_A], ?_⟩
    simp only [CODEWORD_A, Bool.false_eq_true, if_false]
    rw [fitsu_eq _ 9 (toUInt64_lt _) (by norm_num)]
    simp only [Except.ok.injEq, decide_eq_true_eq]
    unfold toUInt64
    omega
  · refine ⟨toUInt64_lt _, by simp [CODEWORD_B], ?_⟩
    simp only [CODEWORD_B, if_true]
    exact fs _ hb0 hb1
  · refine ⟨toUInt64_lt _, by simp [CODEWORD_C], ?_⟩
    simp only [CODEWORD_C, if_true]
    exact fs _ hc0 hc1
  · refine ⟨toUInt64_lt _, by simp [CODEWORD_D], ?_⟩
    simp only [CODEWORD_D, if_true]
    exact fs _ hd0 hd1
  · refine ⟨Nat.mod_lt _ (by norm_num), by simp [CODEWORD_PB], ?_⟩
    simp only [CODEWORD_PB, Bool.false_eq_true, if_false]
    exact fu _ hpb
  · refine ⟨Nat.mod_lt _ (by norm_num), by simp [CODEWORD_PR], ?_⟩
    simp only [CODEWORD_PR, Bool.false_eq_true, if_false]
    exact fu _ hpr

theorem assign_code_elems_disjoint (a b c d : Int) (pb pr : Nat) :
    (assign_code_elems a b c d pb pr).Pairwise fields_disjoint := by
  simp only [assign_code_elems, List.pairwise_cons, List.mem_cons, List.mem_singleton,
    List.not_mem_nil, or_false, forall_eq_or_imp, forall_eq, List.Pairwise.nil, and_true,
    IsEmpty.forall_iff, implies_true, fields_disjoint, CODEWORD_A, CODEWORD_B, CODEWORD_C,
    CODEWORD_D, CODEWORD_PB, CODEWORD_PR]
  refine ⟨⟨?_, ?_, ?_, ?_, ?_⟩, ⟨?_, ?_, ?_, ?_⟩, ⟨?_, ?_, ?_⟩, ⟨?_, ?_⟩, ?_⟩ <;>
    intro i <;> omega

/-- C34: for every 64-bit word and every two elements whose fields have
disjoint bit ranges and whose values fit, the two insertions of the loop of
`pack_codeword` (`Bitpack_newu` for an unsigned element, `Bitpack_news` for a
signed one) succeed in both orders and give the same word; hence folding the
six codeword fields, with values in their ranges, into the word 0 in any
order yields the codeword that `pack_codeword` returns. -/
theorem pack_codeword_order_irrelevant :
    (∀ (word width lsb value : Nat),
      pack_step word { value := value, isSigned := false, width := width, lsb := lsb }
        = Bitpack_newu word width lsb value ∧
      pack_step word { value := value, isSigned := true, width := width, lsb := lsb }
        = Bitpack_news word width lsb (toInt64 value)) ∧
    (∀ (e1 e2 : CodeWord_Element) (word : Nat), word < 2 ^ 64 → element_fits e1 →
      element_fits e2 → fields_disjoint e1 e2 →
      ∃ w1 w2 w, pack_step word e1 = .ok w1 ∧ pack_step w1 e2 = .ok w ∧
        pack_step word e2 = .ok w2 ∧ pack_step w2 e1 = .ok w) ∧
    (∀ (a b c d : Int) (pb pr : Nat), 0 ≤ a ∧ a ≤ 511 → -16 ≤ b ∧ b ≤ 15 →
      -16 ≤ c ∧ c ≤ 15 → -16 ≤ d ∧ d ≤ 15 → pb ≤ 15 → pr ≤ 15 →
      (assign_code_elems a b c d pb pr).Pairwise fields_disjoint ∧
      (∀ e ∈ assign_code_elems a b c d pb pr, element_fits e) ∧
      ∃ codeword, pack_codeword (assign_code_elems a b c d pb pr) = .ok codeword ∧
        ∀ l : List CodeWord_Element, l.Perm (assign_code_elems a b c d pb pr) →
          pack_loop 0 l = .ok codeword) := by
  refine ⟨fun word width lsb value => ⟨rfl, rfl⟩, ?_, ?_⟩
  · intro e1 e2 word hword hf1 hf2 hd
    obtain ⟨w1, w2, w, a1, a2, a3, a4, _⟩ := pack_step_comm e1 e2 hf1 hf2 hd word hword
    exact ⟨w1, w2, w, a1, a2, a3, a4⟩
  · intro a b c d pb pr ha hb hc hd hpb hpr
    have hfit := assign_code_elems_fits a b c d pb pr ha.1 ha.2 hb.1 hb.2 hc.1 hc.2 hd.1 hd.2
      hpb hpr
    have hpw := assign_code_elems_disjoint a b c d pb pr
    have htake : pack_codeword (assign_code_elems a b c d pb pr) =
        pack_loop 0 (assign_code_elems a b c d pb pr) := rfl
    obtain ⟨cw, hcw, _⟩ := pack_loop_ok _ hfit 0 (by norm_num)
    refine ⟨hpw, hfit, cw, htake.trans hcw, fun l hl => ?_⟩
    rw [← hcw]
    exact (pack_loop_perm _ _ hl.symm hfit hpw 0 (by norm_num)).symm

/-! ## The order of the samples of a block -/

theorem block_of_pixels_samples (denominator : Nat) (p0 p1 p2 p3 : Pnm_rgb) :
    (block_of_pixels denominator p0 p1 p2 p3).compvidArr 0
      = RGB_to_ComponentVideo p0 denominator ∧
    (block_of_pixels denominator p0 p1 p2 p3).compvidArr 1
      = RGB_to_ComponentVideo p1 denominator ∧
    (block_of_pixels denominator p0 p1 p2 p3).compvidArr 2
      = RGB_to_ComponentVideo p2 denominator ∧
    (block_of_pixels denominator p0 p1 p2 p3).compvidArr 3
      = RGB_to_ComponentVideo p3 denominator := by
  refine ⟨?_, ?_, ?_, ?_⟩ <;> simp [block_of_pixels, Function.update]

theorem Pnm_ppm_wf_length (image : Pnm_ppm) (hwf : Pnm_ppm_wf image) :
    image.pixels.elements.length = image.width * image.height := by
  obtain ⟨hw, hh, ⟨_, _, hlen⟩, _, _⟩ := hwf
  rw [hw, hh] at hlen
  exact_mod_cast hlen

/-- C33: for an in-bounds block with origin `(col, row)`, the loop of
`applyCompress` reads sample `i` (`i` = 0..3) from the pixel at
`(col + i mod 2, row + i div 2)`, so sample 0 is the top-left pixel, 1 the
top-right, 2 the bottom-left and 3 the bottom-right one, and the loop of
`applyDecompress` stores the pixel made from sample `i` at that same
position and changes no cell outside the block. -/
theorem block_sample_order (image : Pnm_ppm) (hwf : Pnm_ppm_wf image) (col row : Nat)
    (hc : col + 1 < image.width) (hr : row + 1 < image.height) (block : Block_Pixel_Info) :
    (∃ samples, applyCompress_loop image image.pixels (col : Int) (row : Int) 0
        (BLOCKSIZE * BLOCKSIZE) Block_Pixel_Info_zero = .ok samples ∧
      ∀ i, i < 4 → ∃ pixel,
        UArray2_at image.pixels ((col + i % 2 : Nat) : Int) ((row + i / 2 : Nat) : Int)
          = .ok pixel ∧
        UArray2_cell image.pixels (col + i % 2) (row + i / 2) = some pixel ∧
        samples.compvidArr i = RGB_to_ComponentVideo pixel image.denominator) ∧
    (∃ written, applyDecompress_loop block (col : Int) (row : Int) 0 (BLOCKSIZE * BLOCKSIZE)
        image.pixels = .ok written ∧
      (∀ i, i < 4 → UArray2_cell written (col + i % 2) (row + i / 2) =
        some (ComponentVideo_to_RGB block.pb_mean block.pr_mean (block.compvidArr i) 255
          Pnm_rgb_zero)) ∧
      (∀ c r, c < image.width → ¬ ((c = col ∨ c = col + 1) ∧ (r = row ∨ r = row + 1)) →
        UArray2_cell written c r = UArray2_cell image.pixels c r)) := by
  constructor
  · obtain ⟨p0, p1, p2, p3, h0, h1, h2, h3, hloop⟩ := applyCompress_loop_ok image hwf col row hc hr
    obtain ⟨s0, s1, s2, s3⟩ := block_of_pixels_samples image.denominator p0 p1 p2 p3
    obtain ⟨q0, g0, k0⟩ := UArray2_at_of_wf image hwf col row (by omega) (by omega)
    obtain ⟨q1, g1, k1⟩ := UArray2_at_of_wf image hwf (col + 1) row (by omega) (by omega)
    obtain ⟨q2, g2, k2⟩ := UArray2_at_of_wf image hwf col (row + 1) (by omega) (by omega)
    obtain ⟨q3, g3, k3⟩ := UArray2_at_of_wf image hwf (col + 1) (row + 1) (by omega) (by omega)
    rw [h0] at g0
    rw [h1] at g1
    rw [h2] at g2
    rw [h3] at g3
    cases g0
    cases g1
    cases g2
    cases g3
    refine ⟨_, hloop, fun i hi => ?_⟩
    interval_cases i
    · exact ⟨p0, h0, k0, s0⟩
    · exact ⟨p1, h1, k1, s1⟩
    · exact ⟨p2, h2, k2, s2⟩
    · exact ⟨p3, h3, k3, s3⟩
  · obtain ⟨a1, hloop, _, _, _, _, hcells⟩ := applyDecompress_loop_ok block image.pixels
      image.width image.height hwf.1 hwf.2.1 (Pnm_ppm_wf_length image hwf) col row hc hr
    refine ⟨a1, hloop, fun i hi => ?_, fun c r hcw hout => ?_⟩
    · rw [hcells _ _ (by omega), if_pos (by omega)]
      have e : col + i % 2 - col + 2 * (row + i / 2 - row) = i := by omega
      rw [e]
    · rw [hcells c r hcw, if_neg hout]

/-- The sample order on the right block of the sample image of width 4. -/
theorem block_sample_order_witness :
    (Pnm_ppm_wf sample_image_4x2 ∧ 2 + 1 < sample_image_4x2.width ∧
      0 + 1 < sample_image_4x2.height) ∧
    (∃ samples, applyCompress_loop sample_image_4x2 sample_image_4x2.pixels ((2 : Nat) : Int)
        ((0 : Nat) : Int) 0 (BLOCKSIZE * BLOCKSIZE) Block_Pixel_Info_zero = .ok samples ∧
      ∀ i, i < 4 → ∃ pixel,
        UArray2_at sample_image_4x2.pixels ((2 + i % 2 : Nat) : Int) ((0 + i / 2 : Nat) : Int)
          = .ok pixel ∧
        UArray2_cell sample_image_4x2.pixels (2 + i % 2) (0 + i / 2) = some pixel ∧
        samples.compvidArr i = RGB_to_ComponentVideo pixel sample_image_4x2.denominator) :=
  ⟨⟨sample_image_4x2_wf, by decide, by decide⟩,
    (block_sample_order sample_image_4x2 sample_image_4x2_wf 2 0 (by decide) (by decide)
      Block_Pixel_Info_zero).1⟩

/-! ## Chroma is carried per block -/

theorem round_half_even_eq (x : ℚ) (n : Int) (h1 : (n : ℚ) - 1 / 2 < x)
    (h2 : x < (n : ℚ) + 1 / 2) : round_half_even x = n := by
  unfold round_half_even
  by_cases hx : (n : ℚ) ≤ x
  · have hf : ⌊x⌋ = n := floor_eq_of_bounds x n hx (by linarith)
    rw [hf, if_pos (by linarith)]
  · have hx1 : x < (n : ℚ) := lt_of_not_ge hx
    have hf : ⌊x⌋ = n - 1 :=
      floor_eq_of_bounds x (n - 1) (by push_cast; linarith) (by push_cast; linarith)
    rw [hf, if_neg (by push_cast; linarith), if_pos (by push_cast; linarith)]
    ring

theorem round_half_even_tie (m : Int) :
    round_half_even ((m : ℚ) + 1 / 2) = if m % 2 = 0 then m else m + 1 := by
  have hf : ⌊(m : ℚ) + 1 / 2⌋ = m := floor_eq_of_bounds _ m (by linarith) (by linarith)
  unfold round_half_even
  rw [hf, if_neg (by linarith), if_neg (by linarith)]

theorem round_half_even_intCast (n : Int) : round_half_even (n : ℚ) = n :=
  round_half_even_eq _ n (by linarith) (by linarith)

theorem round_half_even_nonneg (x : ℚ) (h : 0 ≤ x) : 0 ≤ round_half_even x := by
  have hf : 0 ≤ ⌊x⌋ := Int.floor_nonneg.mpr h
  unfold round_half_even
  split
  · exact hf
  · split
    · omega
    · split <;> omega

theorem round_half_even_le (x : ℚ) : ((round_half_even x : Int) : ℚ) ≤ x + 1 / 2 := by
  have h1 := Int.floor_le x
  unfold round_half_even
  split
  · linarith
  · split
    · rename_i h2 h3
      have := Int.lt_floor_add_one x
      push_cast
      linarith
    · rename_i h2 h3
      have h4 : x - ⌊x⌋ = 1 / 2 := le_antisymm (not_lt.mp h3) (not_lt.mp h2)
      split
      · linarith
      · push_cast
        linarith

theorem log_two_eq (x : ℚ) (e : Int) (hlo : (2 : ℚ) ^ e ≤ x) (hhi : x < (2 : ℚ) ^ (e + 1)) :
    Int.log 2 x = e := by
  have hpos : 0 < x := lt_of_lt_of_le (by positivity) hlo
  have h1 : e ≤ Int.log 2 x := (Int.zpow_le_iff_le_log (by norm_num) hpos).mp (by exact_mod_cast hlo)
  have h2 : Int.log 2 x < e + 1 :=
    (Int.lt_zpow_iff_log_lt (by norm_num) hpos).mp (by exact_mod_cast hhi)
  omega

/-- The rounding of a positive number of the binade `e`. -/
theorem round_to_format_of_pos (p : Nat) (emin : Int) (x : ℚ) (e : Int)
    (hlo : (2 : ℚ) ^ e ≤ x) (hhi : x < (2 : ℚ) ^ (e + 1)) :
    round_to_format p emin x =
      (round_half_even (x / (2 : ℚ) ^ (max e emin - ((p : Int) - 1))) : ℚ)
        * (2 : ℚ) ^ (max e emin - ((p : Int) - 1)) := by
  have hpos : 0 < x := lt_of_lt_of_le (by positivity) hlo
  unfold round_to_format
  simp only [abs_of_pos hpos, log_two_eq x e hlo hhi]

/-- The rounding of a negative number of the binade `e`. -/
theorem round_to_format_of_neg (p : Nat) (emin : Int) (x : ℚ) (e : Int)
    (hlo : (2 : ℚ) ^ e ≤ -x) (hhi : -x < (2 : ℚ) ^ (e + 1)) :
    round_to_format p emin x =
      (round_half_even (x / (2 : ℚ) ^ (max e emin - ((p : Int) - 1))) : ℚ)
        * (2 : ℚ) ^ (max e emin - ((p : Int) - 1)) := by
  have hpos : 0 < -x := lt_of_lt_of_le (by positivity) hlo
  unfold round_to_format
  simp only [abs_of_neg (neg_pos.mp hpos), log_two_eq (-x) e hlo hhi]

theorem round_to_format_zero (p : Nat) (emin : Int) : round_to_format p emin 0 = 0 := by
  unfold round_to_format
  simp only [zero_div]
  have h0 : round_half_even 0 = 0 := by
    have := round_half_even_intCast 0
    simpa using this
  rw [h0]
  simp

theorem round_to_format_nonneg (p : Nat) (emin : Int) (x : ℚ) (h : 0 ≤ x) :
    0 ≤ round_to_format p emin x := by
  unfold round_to_format
  simp only
  have hq : (0 : ℚ) < (2 : ℚ) ^ (max (Int.log 2 |x|) emin - ((p : Int) - 1)) := by positivity
  have hr := round_half_even_nonneg (x / (2 : ℚ) ^ (max (Int.log 2 |x|) emin - ((p : Int) - 1)))
    (div_nonneg h hq.le)
  have hr2 : (0 : ℚ) ≤ (round_half_even
      (x / (2 : ℚ) ^ (max (Int.log 2 |x|) emin - ((p : Int) - 1))) : ℚ) := by exact_mod_cast hr
  exact mul_nonneg hr2 hq.le

/-- A natural number below `2 ^ p` is a number of the format. -/
theorem round_to_format_natCast (p : Nat) (emin : Int) (hemin : emin ≤ 0) (d : Nat)
    (hd : d < 2 ^ p) : round_to_format p emin (d : ℚ) = (d : ℚ) := by
  rcases Nat.eq_zero_or_pos d with h0 | hpos
  · subst h0
    simpa using round_to_format_zero p emin
  · have hp1 : 1 ≤ p := by
      rcases Nat.eq_zero_or_pos p with hp | hp
      · subst hp
        simp at hd
        omega
      · exact hp
    have hlog : Nat.log 2 d < p := by
      by_contra hcon
      have h1 : 2 ^ p ≤ 2 ^ Nat.log 2 d := Nat.pow_le_pow_right (by norm_num) (not_lt.mp hcon)
      have h2 : 2 ^ Nat.log 2 d ≤ d := Nat.pow_log_le_self 2 (by omega)
      omega
    have hdq : (0 : ℚ) ≤ (d : ℚ) := Nat.cast_nonneg d
    unfold round_to_format
    simp only [abs_of_nonneg hdq, Int.log_natCast]
    have hmax : max ((Nat.log 2 d : Nat) : Int) emin = ((Nat.log 2 d : Nat) : Int) :=
      max_eq_left (by omega)
    rw [hmax]
    obtain ⟨k, hk⟩ : ∃ k : Nat, ((Nat.log 2 d : Nat) : Int) - ((p : Int) - 1) = -(k : Int) :=
      ⟨p - 1 - Nat.log 2 d, by omega⟩
    rw [hk, zpow_neg, zpow_natCast, div_inv_eq_mul]
    have hint : (d : ℚ) * (2 : ℚ) ^ k = (((d * 2 ^ k : Nat) : Int) : ℚ) := by push_cast; ring
    rw [hint, round_half_even_intCast]
    push_cast
    field_simp

theorem to_float_natCast (d : Nat) (hd : d ≤ 2 ^ 24) : to_float (d : ℚ) = (d : ℚ) := by
  rcases Nat.lt_or_ge d (2 ^ 24) with h | h
  · exact round_to_format_natCast 24 (-126) (by norm_num) d h
  · have e : d = 2 ^ 24 := le_antisymm hd h
    subst e
    unfold to_float
    rw [round_to_format_of_pos 24 (-126) _ 24 (by norm_num) (by norm_num),
      round_half_even_eq _ 8388608 (by norm_num) (by norm_num)]
    norm_num

theorem to_double_natCast (d : Nat) (hd : d < 2 ^ 53) : to_double (d : ℚ) = (d : ℚ) :=
  round_to_format_natCast 53 (-1022) (by norm_num) d hd

theorem to_float_zero : to_float 0 = 0 := round_to_format_zero 24 (-126)

theorem to_float_nonneg (x : ℚ) (h : 0 ≤ x) : 0 ≤ to_float x :=
  round_to_format_nonneg 24 (-126) x h

/-! ## Evaluation of a rounding -/

theorem to_float_of_pos (x y : ℚ) (e k n : Int) (hk : k = max e (-126) - 23)
    (hlo : (2 : ℚ) ^ e ≤ x) (hhi : x < (2 : ℚ) ^ (e + 1))
    (h1 : (n : ℚ) - 1 / 2 < x / (2 : ℚ) ^ k) (h2 : x / (2 : ℚ) ^ k < (n : ℚ) + 1 / 2)
    (hy : y = (n : ℚ) * (2 : ℚ) ^ k) : to_float x = y := by
  unfold to_float
  rw [round_to_format_of_pos 24 (-126) x e hlo hhi]
  have hk2 : max e (-126) - (((24 : Nat) : Int) - 1) = k := by
    rw [hk]
    norm_num
  rw [hk2, round_half_even_eq _ n h1 h2, hy]

theorem to_float_of_neg (x y : ℚ) (e k n : Int) (hk : k = max e (-126) - 23)
    (hlo : (2 : ℚ) ^ e ≤ -x) (hhi : -x < (2 : ℚ) ^ (e + 1))
    (h1 : (n : ℚ) - 1 / 2 < x / (2 : ℚ) ^ k) (h2 : x / (2 : ℚ) ^ k < (n : ℚ) + 1 / 2)
    (hy : y = (n : ℚ) * (2 : ℚ) ^ k) : to_float x = y := by
  unfold to_float
  rw [round_to_format_of_neg 24 (-126) x e hlo hhi]
  have hk2 : max e (-126) - (((24 : Nat) : Int) - 1) = k := by
    rw [hk]
    norm_num
  rw [hk2, round_half_even_eq _ n h1 h2, hy]

theorem to_float_of_pos_tie (x y : ℚ) (e k m : Int) (hk : k = max e (-126) - 23)
    (hlo : (2 : ℚ) ^ e ≤ x) (hhi : x < (2 : ℚ) ^ (e + 1))
    (ht : x / (2 : ℚ) ^ k = (m : ℚ) + 1 / 2)
    (hy : y = ((if m % 2 = 0 then m else m + 1 : Int) : ℚ) * (2 : ℚ) ^ k) :
    to_float x = y := by
  unfold to_float
  rw [round_to_format_of_pos 24 (-126) x e hlo hhi]
  have hk2 : max e (-126) - (((24 : Nat) : Int) - 1) = k := by
    rw [hk]
    norm_num
  rw [hk2, ht, round_half_even_tie, hy]

theorem to_double_of_pos (x y : ℚ) (e k n : Int) (hk : k = max e (-1022) - 52)
    (hlo : (2 : ℚ) ^ e ≤ x) (hhi : x < (2 : ℚ) ^ (e + 1))
    (h1 : (n : ℚ) - 1 / 2 < x / (2 : ℚ) ^ k) (h2 : x / (2 : ℚ) ^ k < (n : ℚ) + 1 / 2)
    (hy : y = (n : ℚ) * (2 : ℚ) ^ k) : to_double x = y := by
  unfold to_double
  rw [round_to_format_of_pos 53 (-1022) x e hlo hhi]
  have hk2 : max e (-1022) - (((53 : Nat) : Int) - 1) = k := by
    rw [hk]
    norm_num
  rw [hk2, round_half_even_eq _ n h1 h2, hy]

/-- The `float` constants of `abcd_quantization`; `0.3` becomes
`5033165 / 2^24`, a little above three tenths. -/
theorem abcd_quantization_constants :
    to_float (to_double 0.0) = 0 ∧ to_float (to_double 1.0) = 1 ∧
    to_float (to_double 511.0) = 511 ∧ to_float (to_double 50.0) = 50 ∧
    to_float (to_double 0.3) = 5033165 / 16777216 ∧
    to_float (-(to_double 0.3)) = -(5033165 / 16777216) := by
  have c0 : (0.0 : ℚ) = ((0 : Nat) : ℚ) := by norm_num
  have c1 : (1.0 : ℚ) = ((1 : Nat) : ℚ) := by norm_num
  have c511 : (511.0 : ℚ) = ((511 : Nat) : ℚ) := by norm_num
  have c50 : (50.0 : ℚ) = ((50 : Nat) : ℚ) := by norm_num
  have d3 : to_double 0.3 = 5404319552844595 / 18014398509481984 :=
    to_double_of_pos _ _ (-2) (-54) 5404319552844595 (by norm_num) (by norm_num) (by norm_num)
      (by norm_num) (by norm_num) (by norm_num)
  refine ⟨?_, ?_, ?_, ?_, ?_, ?_⟩
  · rw [c0, to_double_natCast 0 (by norm_num), to_float_natCast 0 (by norm_num)]
    norm_num
  · rw [c1, to_double_natCast 1 (by norm_num), to_float_natCast 1 (by norm_num)]
    norm_num
  · rw [c511, to_double_natCast 511 (by norm_num), to_float_natCast 511 (by norm_num)]
    norm_num
  · rw [c50, to_double_natCast 50 (by norm_num), to_float_natCast 50 (by norm_num)]
    norm_num
  · rw [d3]
    exact to_float_of_pos _ _ (-2) (-25) 10066330 (by norm_num) (by norm_num) (by norm_num)
      (by norm_num) (by norm_num) (by norm_num)
  · rw [d3]
    exact to_float_of_neg _ _ (-2) (-25) (-10066330) (by norm_num) (by norm_num) (by norm_num)
      (by norm_num) (by norm_num) (by norm_num)

/-! ## The quantization in binary32 -/

theorem round_to_format_le (p : Nat) (emin : Int) (hp : 1 ≤ p) (hemin : emin ≤ 0) (x : ℚ)
    (hx : 0 ≤ x) : round_to_format p emin x ≤ 2 * x + 1 := by
  rcases eq_or_lt_of_le hx with h0 | hpos
  · rw [← h0, round_to_format_zero]
    norm_num
  · unfold round_to_format
    simp only [abs_of_pos hpos]
    have hq : (0 : ℚ) < (2 : ℚ) ^ (max (Int.log 2 x) emin - ((p : Int) - 1)) := by positivity
    have hr := round_half_even_le (x / (2 : ℚ) ^ (max (Int.log 2 x) emin - ((p : Int) - 1)))
    have hqle : (2 : ℚ) ^ (max (Int.log 2 x) emin - ((p : Int) - 1)) ≤ x + 1 := by
      rcases le_total (Int.log 2 x) emin with h | h
      · rw [max_eq_right h]
        have h3 : (2 : ℚ) ^ (emin - ((p : Int) - 1)) ≤ (2 : ℚ) ^ (0 : Int) :=
          zpow_le_zpow_right₀ (by norm_num) (by omega)
        have h4 : (2 : ℚ) ^ (0 : Int) = 1 := by norm_num
        linarith
      · rw [max_eq_left h]
        have h3 : (2 : ℚ) ^ (Int.log 2 x - ((p : Int) - 1)) ≤ (2 : ℚ) ^ (Int.log 2 x) :=
          zpow_le_zpow_right₀ (by norm_num) (by omega)
        have h4 : (2 : ℚ) ^ (Int.log 2 x) ≤ x := by
          have := @Int.zpow_log_le_self ℚ _ _ 2 x (by norm_num) hpos
          exact_mod_cast this
        linarith
    generalize (2 : ℚ) ^ (max (Int.log 2 x) emin - ((p : Int) - 1)) = q at hq hr hqle
    calc ((round_half_even (x / q) : Int) : ℚ) * q ≤ (x / q + 1 / 2) * q :=
          mul_le_mul_of_nonneg_right hr hq.le
      _ = x + q / 2 := by
        field_simp
        ring
      _ ≤ 2 * x + 1 := by linarith

theorem to_float_le (x : ℚ) (hx : 0 ≤ x) : to_float x ≤ 2 * x + 1 :=
  round_to_format_le 24 (-126) (by norm_num) (by norm_num) x hx

/-- The four entries that `abcd_quantization` stores in `quantized_abcd` when
the products are rounded to binary32. -/
theorem abcd_quantization_binary32_values (block : Block_Pixel_Info) :
    (abcd_quantization_binary32 block).quantized_abcd 0 =
      round_half_away (to_float (511 * clamp (block.discreteCosineArr 0) 0 1)) ∧
    (abcd_quantization_binary32 block).quantized_abcd 1 =
      round_half_away (to_float (50 * clamp (block.discreteCosineArr 1)
        (-(5033165 / 16777216)) (5033165 / 16777216))) ∧
    (abcd_quantization_binary32 block).quantized_abcd 2 =
      round_half_away (to_float (50 * clamp (block.discreteCosineArr 2)
        (-(5033165 / 16777216)) (5033165 / 16777216))) ∧
    (abcd_quantization_binary32 block).quantized_abcd 3 =
      round_half_away (to_float (50 * clamp (block.discreteCosineArr 3)
        (-(5033165 / 16777216)) (5033165 / 16777216))) := by
  obtain ⟨k0, k1, k511, k50, k3, k3n⟩ := abcd_quantization_constants
  have ha := clamp_bounds (block.discreteCosineArr 0) 0 1 (by norm_num)
  have hprod : (0 : ℚ) ≤ clamp (block.discreteCosineArr 0) 0 1 * 511 := by nlinarith [ha.1]
  have hv0 := to_float_nonneg _ hprod
  have hv1 := to_float_le _ hprod
  have ra0 := round_half_away_nonneg _ hv0
  have ra := round_half_away_bounds (to_float (clamp (block.discreteCosineArr 0) 0 1 * 511)) 1023
    (by push_cast; linarith) (by push_cast; nlinarith [ha.2])
  have qa : toInt32 (round_half_away
        (to_float (clamp (block.discreteCosineArr 0) 0 1 * 511))).toNat
      = round_half_away (to_float (clamp (block.discreteCosineArr 0) 0 1 * 511)) := by
    rw [toInt32_of_lt _ (by omega)]
    exact Int.toNat_of_nonneg ra0
  simp only [abcd_quantization_binary32, Function.update, k0, k1, k511, k50, k3, k3n, qa]
  refine ⟨?_, ?_, ?_, ?_⟩ <;> simp [mul_comm]

/-- C31 (the claim as stated fails): for the coefficient `a = 4498001 / 2^25`,
a `float` in `[0, 1]`, the product `511 * a` is about `68.49999997`, whose
nearest integer is 68, but the `float` product of the code is rounded to
binary32, which gives `68.5`, and `round` stores 69. -/
theorem abcd_quantization_binary32_not_round :
    sample_coefficient_block.discreteCosineArr 0 = 4498001 / 33554432 ∧
    to_float (4498001 / 33554432) = 4498001 / 33554432 ∧
    (abcd_quantization_binary32 sample_coefficient_block).quantized_abcd 0 = 69 ∧
    round_half_away (511 * clamp (4498001 / 33554432) 0 1) = 68 := by
  have hc : clamp (4498001 / 33554432) 0 1 = 4498001 / 33554432 :=
    clamp_of_mem _ _ _ (by norm_num) (by norm_num)
  have hf : to_float (511 * (4498001 / 33554432)) = 137 / 2 :=
    to_float_of_pos _ _ 6 (-17) 8978432 (by norm_num) (by norm_num) (by norm_num)
      (by norm_num) (by norm_num) (by norm_num)
  refine ⟨rfl, ?_, ?_, ?_⟩
  · exact to_float_of_pos _ _ (-3) (-26) 8996002 (by norm_num) (by norm_num) (by norm_num)
      (by norm_num) (by norm_num) (by norm_num)
  · rw [(abcd_quantization_binary32_values sample_coefficient_block).1]
    have e : sample_coefficient_block.discreteCosineArr 0 = 4498001 / 33554432 := rfl
    rw [e, hc, hf]
    exact round_half_away_eq _ 69 (by norm_num) (by norm_num) (by norm_num)
  · rw [hc]
    exact round_half_away_eq _ 68 (by norm_num) (by norm_num) (by norm_num)

/-- C31 (amended): `abcd_quantization` clamps `a` to `[0, 1]` and `b`, `c`,
`d` to `[-0.3f, 0.3f]`, where `0.3f = 5033165 / 2^24` is the `float` nearest
to three tenths, multiplies by 511, respectively 50, in `float` arithmetic
(the product is rounded to binary32) and rounds the `float` product to the
nearest integer, a tie going away from zero; the other members are kept.
Taking the arithmetic as exact, the stored values are
`round(511 * clamp(a, 0, 1))` and `round(50 * clamp(x, -0.3, 0.3))`. `clamp`
returns the bound that its argument passes, else the argument; `round` is
within one half of its argument and sends a tie away from zero. -/
theorem abcd_quantization_clamp_scale_round (block : Block_Pixel_Info) :
    ((abcd_quantization_binary32 block).quantized_abcd 0 =
        round_half_away (to_float (511 * clamp (block.discreteCosineArr 0) 0 1)) ∧
      (abcd_quantization_binary32 block).quantized_abcd 1 =
        round_half_away (to_float (50 * clamp (block.discreteCosineArr 1)
          (-(5033165 / 16777216)) (5033165 / 16777216))) ∧
      (abcd_quantization_binary32 block).quantized_abcd 2 =
        round_half_away (to_float (50 * clamp (block.discreteCosineArr 2)
          (-(5033165 / 16777216)) (5033165 / 16777216))) ∧
      (abcd_quantization_binary32 block).quantized_abcd 3 =
        round_half_away (to_float (50 * clamp (block.discreteCosineArr 3)
          (-(5033165 / 16777216)) (5033165 / 16777216)))) ∧
    ((abcd_quantization_binary32 block).discreteCosineArr = block.discreteCosineArr ∧
      (abcd_quantization_binary32 block).compvidArr = block.compvidArr ∧
      ∀ i, 4 ≤ i → (abcd_quantization_binary32 block).quantized_abcd i
        = block.quantized_abcd i) ∧
    (to_float (to_double 0.3) = 5033165 / 16777216 ∧
      to_float (to_double 511.0) = 511 ∧ to_float (to_double 50.0) = 50) ∧
    ((abcd_quantization block).quantized_abcd 0 =
        round_half_away (511 * clamp (block.discreteCosineArr 0) 0 1) ∧
      (abcd_quantization block).quantized_abcd 1 =
        round_half_away (50 * clamp (block.discreteCosineArr 1) (-3 / 10) (3 / 10)) ∧
      (abcd_quantization block).quantized_abcd 2 =
        round_half_away (50 * clamp (block.discreteCosineArr 2) (-3 / 10) (3 / 10)) ∧
      (abcd_quantization block).quantized_abcd 3 =
        round_half_away (50 * clamp (block.discreteCosineArr 3) (-3 / 10) (3 / 10))) ∧
    (∀ value lo hi : ℚ, lo ≤ hi →
      clamp value lo hi = max lo (min value hi) ∧
      lo ≤ clamp value lo hi ∧ clamp value lo hi ≤ hi ∧
      (lo ≤ value ∧ value ≤ hi → clamp value lo hi = value)) ∧
    (∀ x : ℚ, |((round_half_away x : Int) : ℚ) - x| ≤ 1 / 2) ∧
    (∀ n : Int, round_half_away (n : ℚ) = n) ∧
    (∀ n : Int, 0 ≤ n → round_half_away ((n : ℚ) + 1 / 2) = n + 1) ∧
    (∀ n : Int, n ≤ 0 → round_half_away ((n : ℚ) - 1 / 2) = n - 1) := by
  obtain ⟨_, _, k511, k50, k3, _⟩ := abcd_quantization_constants
  refine ⟨abcd_quantization_binary32_values block, ⟨rfl, rfl, ?_⟩, ⟨k3, k511, k50⟩,
    abcd_quantization_values block, ?_, round_half_away_near,
    round_half_away_intCast, round_half_away_tie_up, round_half_away_tie_down⟩
  · intro i hi
    simp only [abcd_quantization_binary32, Function.update]
    rw [dif_neg (by omega), dif_neg (by omega), dif_neg (by omega), dif_neg (by omega)]
  · intro value lo hi h
    refine ⟨?_, (clamp_bounds value lo hi h).1, (clamp_bounds value lo hi h).2,
      fun hm => clamp_of_mem value lo hi hm.1 hm.2⟩
    unfold clamp
    by_cases h1 : value < lo
    · rw [if_pos h1, min_eq_left (by linarith), max_eq_left (by linarith)]
    · by_cases h2 : value > hi
      · rw [if_neg h1, if_pos h2, min_eq_right (by linarith), max_eq_right h]
      · rw [if_neg h1, if_neg h2, min_eq_left (by linarith), max_eq_right (by linarith)]

/-! ## The transform round trip -/

theorem discrete_Cosine_Transform_binary32_values (block : Block_Pixel_Info) :
    (discrete_Cosine_Transform_binary32 block).discreteCosineArr 0 =
      to_float (to_float (to_float (to_float ((block.compvidArr 3).y + (block.compvidArr 2).y)
        + (block.compvidArr 1).y) + (block.compvidArr 0).y) / to_float (BLOCKAREA : ℚ)) ∧
    (discrete_Cosine_Transform_binary32 block).discreteCosineArr 1 =
      to_float (to_float (to_float (to_float ((block.compvidArr 3).y + (block.compvidArr 2).y)
        - (block.compvidArr 1).y) - (block.compvidArr 0).y) / to_float (BLOCKAREA : ℚ)) ∧
    (discrete_Cosine_Transform_binary32 block).discreteCosineArr 2 =
      to_float (to_float (to_float (to_float ((block.compvidArr 3).y - (block.compvidArr 2).y)
        + (block.compvidArr 1).y) - (block.compvidArr 0).y) / to_float (BLOCKAREA : ℚ)) ∧
    (discrete_Cosine_Transform_binary32 block).discreteCosineArr 3 =
      to_float (to_float (to_float (to_float ((block.compvidArr 3).y - (block.compvidArr 2).y)
        - (block.compvidArr 1).y) + (block.compvidArr 0).y) / to_float (BLOCKAREA : ℚ)) := by
  refine ⟨?_, ?_, ?_, ?_⟩ <;> simp [discrete_Cosine_Transform_binary32, Function.update]

theorem inverse_luma_binary32_values (block : Block_Pixel_Info) (a b c d : ℚ) :
    ((inverse_luma_binary32 block a b c d).compvidArr 0).y =
      to_float (to_float (to_float (a - b) - c) + d) ∧
    ((inverse_luma_binary32 block a b c d).compvidArr 1).y =
      to_float (to_float (to_float (a - b) + c) - d) ∧
    ((inverse_luma_binary32 block a b c d).compvidArr 2).y =
      to_float (to_float (to_float (a + b) - c) - d) ∧
    ((inverse_luma_binary32 block a b c d).compvidArr 3).y =
      to_float (to_float (to_float (a + b) + c) + d) := by
  refine ⟨?_, ?_, ?_, ?_⟩ <;> simp [inverse_luma_binary32, Function.update]

theorem sample_luma_block_coefficients :
    (discrete_Cosine_Transform_binary32 sample_luma_block).discreteCosineArr 0 = 1 / 4 ∧
    (discrete_Cosine_Transform_binary32 sample_luma_block).discreteCosineArr 1
      = -(16777215 / 67108864) ∧
    (discrete_Cosine_Transform_binary32 sample_luma_block).discreteCosineArr 2
      = -(16777215 / 67108864) ∧
    (discrete_Cosine_Transform_binary32 sample_luma_block).discreteCosineArr 3 = 1 / 4 := by
  have y0 : (sample_luma_block.compvidArr 0).y = 1 := rfl
  have y1 : (sample_luma_block.compvidArr 1).y = 0 := rfl
  have y2 : (sample_luma_block.compvidArr 2).y = 0 := rfl
  have y3 : (sample_luma_block.compvidArr 3).y = 1 / 16777216 := rfl
  have e4 : to_float (BLOCKAREA : ℚ) = 4 := by
    rw [to_float_natCast BLOCKAREA (by decide)]
    norm_num [BLOCKAREA, BLOCKSIZE]
  have s1 : to_float ((1 : ℚ) / 16777216) = 1 / 16777216 :=
    to_float_of_pos _ _ (-24) (-47) 8388608 (by norm_num) (by norm_num) (by norm_num)
      (by norm_num) (by norm_num) (by norm_num)
  have s2 : to_float ((1 : ℚ) / 16777216 + 1) = 1 :=
    to_float_of_pos_tie _ _ 0 (-23) 8388608 (by norm_num) (by norm_num) (by norm_num)
      (by norm_num) (by norm_num)
  have s3 : to_float ((1 : ℚ) / 4) = 1 / 4 :=
    to_float_of_pos _ _ (-2) (-25) 8388608 (by norm_num) (by norm_num) (by norm_num)
      (by norm_num) (by norm_num) (by norm_num)
  have s4 : to_float ((1 : ℚ) / 16777216 - 1) = -(16777215 / 16777216) :=
    to_float_of_neg _ _ (-1) (-24) (-16777215) (by norm_num) (by norm_num) (by norm_num)
      (by norm_num) (by norm_num) (by norm_num)
  have s5 : to_float (-((16777215 : ℚ) / 16777216) / 4) = -(16777215 / 67108864) :=
    to_float_of_neg _ _ (-3) (-26) (-16777215) (by norm_num) (by norm_num) (by norm_num)
      (by norm_num) (by norm_num) (by norm_num)
  obtain ⟨v0, v1, v2, v3⟩ := discrete_Cosine_Transform_binary32_values sample_luma_block
  rw [y0, y1, y2, y3, e4] at v0 v1 v2 v3
  simp only [add_zero, sub_zero] at v0 v1 v2 v3
  simp only [s1] at v0 v1 v2 v3
  refine ⟨?_, ?_, ?_, ?_⟩
  · rw [v0, s2, s3]
  · rw [v1, s4, s5]
  · rw [v2, s4, s5]
  · rw [v3, s2, s3]

/-- C16 (the claim as stated fails): the four luma samples `(1, 0, 0, 2^-24)`
are `float` values; in binary32 the sum `2^-24 + 1` is rounded to 1, the
coefficients that `discrete_Cosine_Transform` stores are
`(1/4, -(1 - 2^-24)/4, -(1 - 2^-24)/4, 1/4)`, and the inverse formula
`a + b + c + d` gives `2^-25` for the fourth sample, not `2^-24`. -/
theorem discrete_Cosine_Transform_binary32_not_exact :
    (∀ i, to_float (sample_luma_block.compvidArr i).y = (sample_luma_block.compvidArr i).y) ∧
    (sample_luma_block.compvidArr 3).y = 1 / 16777216 ∧
    ((inverse_luma_binary32 Block_Pixel_Info_zero
        ((discrete_Cosine_Transform_binary32 sample_luma_block).discreteCosineArr 0)
        ((discrete_Cosine_Transform_binary32 sample_luma_block).discreteCosineArr 1)
        ((discrete_Cosine_Transform_binary32 sample_luma_block).discreteCosineArr 2)
        ((discrete_Cosine_Transform_binary32 sample_luma_block).discreteCosineArr 3)).compvidArr
        3).y = 1 / 33554432 := by
  obtain ⟨c0, c1, c2, c3⟩ := sample_luma_block_coefficients
  have s1 : to_float ((1 : ℚ) / 16777216) = 1 / 16777216 :=
    to_float_of_pos _ _ (-24) (-47) 8388608 (by norm_num) (by norm_num) (by norm_num)
      (by norm_num) (by norm_num) (by norm_num)
  have t1 : to_float ((1 : ℚ) / 4 + -(16777215 / 67108864)) = 1 / 67108864 :=
    to_float_of_pos _ _ (-26) (-49) 8388608 (by norm_num) (by norm_num) (by norm_num)
      (by norm_num) (by norm_num) (by norm_num)
  have t2 : to_float ((1 : ℚ) / 67108864 + -(16777215 / 67108864)) = -(8388607 / 33554432) :=
    to_float_of_neg _ _ (-3) (-26) (-16777214) (by norm_num) (by norm_num) (by norm_num)
      (by norm_num) (by norm_num) (by norm_num)
  have t3 : to_float (-((8388607 : ℚ) / 33554432) + 1 / 4) = 1 / 33554432 :=
    to_float_of_pos _ _ (-25) (-48) 8388608 (by norm_num) (by norm_num) (by norm_num)
      (by norm_num) (by norm_num) (by norm_num)
  refine ⟨?_, rfl, ?_⟩
  · intro i
    have hy : (sample_luma_block.compvidArr i).y
        = if i = 0 then 1 else if i = 3 then 1 / 16777216 else 0 := rfl
    rw [hy]
    split
    · have := to_float_natCast 1 (by norm_num)
      simpa using this
    · split
      · exact s1
      · exact to_float_zero
  · rw [(inverse_luma_binary32_values _ _ _ _ _).2.2.2, c0, c1, c2, c3, t1, t2, t3]

/-- C16 (amended): taking the arithmetic as exact, for every four luma
samples `Y1..Y4` the coefficients that `discrete_Cosine_Transform` stores are
`a = (Y4+Y3+Y2+Y1)/4`, `b = (Y4+Y3-Y2-Y1)/4`, `c = (Y4-Y3+Y2-Y1)/4`,
`d = (Y4-Y3-Y2+Y1)/4`, and the inverse formulas `Y1 = a-b-c+d`,
`Y2 = a-b+c-d`, `Y3 = a+b-c-d`, `Y4 = a+b+c+d` of
`inverse_discrete_Cosine_Transform`, applied to these coefficients without
quantization, store the four samples `Y1..Y4` whatever the destination block
held before; the chroma members of the destination are kept. -/
theorem inverse_luma_discrete_Cosine_Transform (block target : Block_Pixel_Info) :
    (∀ i, i < 4 →
      ((inverse_luma target
          ((discrete_Cosine_Transform block).discreteCosineArr 0)
          ((discrete_Cosine_Transform block).discreteCosineArr 1)
          ((discrete_Cosine_Transform block).discreteCosineArr 2)
          ((discrete_Cosine_Transform block).discreteCosineArr 3)).compvidArr i).y
        = (block.compvidArr i).y ∧
      ((inverse_luma target
          ((discrete_Cosine_Transform block).discreteCosineArr 0)
          ((discrete_Cosine_Transform block).discreteCosineArr 1)
          ((discrete_Cosine_Transform block).discreteCosineArr 2)
          ((discrete_Cosine_Transform block).discreteCosineArr 3)).compvidArr i).pb
        = (target.compvidArr i).pb ∧
      ((inverse_luma target
          ((discrete_Cosine_Transform block).discreteCosineArr 0)
          ((discrete_Cosine_Transform block).discreteCosineArr 1)
          ((discrete_Cosine_Transform block).discreteCosineArr 2)
          ((discrete_Cosine_Transform block).discreteCosineArr 3)).compvidArr i).pr
        = (target.compvidArr i).pr) ∧
    ((discrete_Cosine_Transform block).discreteCosineArr 0 =
        ((block.compvidArr 3).y + (block.compvidArr 2).y + (block.compvidArr 1).y
          + (block.compvidArr 0).y) / 4 ∧
      (discrete_Cosine_Transform block).discreteCosineArr 1 =
        ((block.compvidArr 3).y + (block.compvidArr 2).y - (block.compvidArr 1).y
          - (block.compvidArr 0).y) / 4 ∧
      (discrete_Cosine_Transform block).discreteCosineArr 2 =
        ((block.compvidArr 3).y - (block.compvidArr 2).y + (block.compvidArr 1).y
          - (block.compvidArr 0).y) / 4 ∧
      (discrete_Cosine_Transform block).discreteCosineArr 3 =
        ((block.compvidArr 3).y - (block.compvidArr 2).y - (block.compvidArr 1).y
          + (block.compvidArr 0).y) / 4) ∧
    (∀ a b c d : ℚ,
      ((inverse_luma target a b c d).compvidArr 0).y = a - b - c + d ∧
      ((inverse_luma target a b c d).compvidArr 1).y = a - b + c - d ∧
      ((inverse_luma target a b c d).compvidArr 2).y = a + b - c - d ∧
      ((inverse_luma target a b c d).compvidArr 3).y = a + b + c + d) := by
  refine ⟨?_, ?_, ?_⟩
  · intro i hi
    simp only [inverse_luma, discrete_Cosine_Transform, BLOCKAREA, BLOCKSIZE]
    interval_cases i <;> refine ⟨?_, ?_, ?_⟩ <;> simp [Function.update] <;> ring
  · simp only [discrete_Cosine_Transform, BLOCKAREA, BLOCKSIZE]
    refine ⟨?_, ?_, ?_, ?_⟩ <;> simp [Function.update]
  · intro a b c d
    simp only [inverse_luma]
    refine ⟨?_, ?_, ?_, ?_⟩ <;> simp [Function.update]

/-! ## The conversion to RGB in binary32 -/

theorem to_double_zero : to_double 0 = 0 := round_to_format_zero 53 (-1022)

theorem to_double_nonneg (x : ℚ) (h : 0 ≤ x) : 0 ≤ to_double x :=
  round_to_format_nonneg 53 (-1022) x h

/-- Every channel that the binary32 conversion stores is the integer part of
a value clamped to `[0, (float) denominator]`. -/
theorem ComponentVideo_to_RGB_binary32_le (pb_mean pr_mean : ℚ) (compvid : ComponentVideo)
    (denominator : Nat) (pixel : Pnm_rgb) (hd : to_float (denominator : ℚ) = denominator) :
    (ComponentVideo_to_RGB_binary32 pb_mean pr_mean compvid denominator pixel).red
      ≤ denominator ∧
    (ComponentVideo_to_RGB_binary32 pb_mean pr_mean compvid denominator pixel).green
      ≤ denominator ∧
    (ComponentVideo_to_RGB_binary32 pb_mean pr_mean compvid denominator pixel).blue
      ≤ denominator := by
  simp only [ComponentVideo_to_RGB_binary32, hd, to_float_zero]
  exact ⟨float_to_unsigned_le _ _ (clamp_le _ _), float_to_unsigned_le _ _ (clamp_le _ _),
    float_to_unsigned_le _ _ (clamp_le _ _)⟩

/-- C19 (the claim as stated fails): the denominator 16777219 is not a
`float`; `(float) denominator` is 16777220, which is the upper bound that
`clamp` receives. For `Y = 2`, `Pb = Pr = 0` the scaled red value 33554440 is
clamped to 16777220, and the stored red channel 16777220 is above the
denominator. -/
theorem ComponentVideo_to_RGB_binary32_above_denominator :
    to_float ((16777219 : Nat) : ℚ) = 16777220 ∧
    (ComponentVideo_to_RGB_binary32 0 0 { y := 2, pb := 0, pr := 0 } 16777219
      Pnm_rgb_zero).red = 16777220 ∧
    (16777219 : Nat) < 16777220 := by
  have c1 : (1.0 : ℚ) = ((1 : Nat) : ℚ) := by norm_num
  have d1 : to_double 1.0 = 1 := by
    rw [c1, to_double_natCast 1 (by norm_num)]
    norm_num
  have d2 : to_double 2 = 2 := by
    have := to_double_natCast 2 (by norm_num)
    simpa using this
  have f2 : to_float 2 = 2 := by
    have := to_float_natCast 2 (by norm_num)
    simpa using this
  have fd : to_float ((16777219 : Nat) : ℚ) = 16777220 :=
    to_float_of_pos_tie _ _ 24 1 8388609 (by norm_num) (by norm_num) (by norm_num)
      (by norm_num) (by norm_num)
  have fp : to_float (2 * 16777220) = 33554440 :=
    to_float_of_pos _ _ 25 2 8388610 (by norm_num) (by norm_num) (by norm_num)
      (by norm_num) (by norm_num) (by norm_num)
  have hc : clamp (33554440 : ℚ) 0 16777220 = 16777220 := by
    unfold clamp
    norm_num
  have hfl : float_to_unsigned (16777220 : ℚ) = 16777220 := by
    unfold float_to_unsigned
    have : ⌊(16777220 : ℚ)⌋ = 16777220 := floor_eq_of_bounds _ 16777220 (by norm_num) (by norm_num)
    rw [this]
    rfl
  refine ⟨fd, ?_, by norm_num⟩
  simp only [ComponentVideo_to_RGB_binary32, mul_zero, to_double_zero, add_zero, d1, one_mul, d2,
    f2, fd, to_float_zero, fp, hc, hfl]

/-- C19 (amended): for every `(Y, Pb, Pr)` and every denominator that a
`float` represents exactly, which every denominator up to `2^24` is, each
channel that `ComponentVideo_to_RGB` stores (every operation rounded as in
the C code) is at most the denominator, so it lies in `[0, denominator]`;
`decompress40` converts with the denominator 255, and every pixel of a raster
that it produces, whether taken from the cells or read with `UArray2_at`, has
its three channels in `[0, 255]`. -/
theorem ComponentVideo_to_RGB_clamped (arith : Arith40) (input : List Nat) (image : Pnm_ppm)
    (h : decompress40 arith input = .ok image) :
    (∀ (pb_mean pr_mean : ℚ) (compvid : ComponentVideo) (denominator : Nat) (pixel : Pnm_rgb),
      to_float (denominator : ℚ) = denominator →
      (ComponentVideo_to_RGB_binary32 pb_mean pr_mean compvid denominator pixel).red
        ≤ denominator ∧
      (ComponentVideo_to_RGB_binary32 pb_mean pr_mean compvid denominator pixel).green
        ≤ denominator ∧
      (ComponentVideo_to_RGB_binary32 pb_mean pr_mean compvid denominator pixel).blue
        ≤ denominator) ∧
    (∀ denominator : Nat, denominator ≤ 2 ^ 24 → to_float (denominator : ℚ) = denominator) ∧
    (∀ (pb_mean pr_mean : ℚ) (compvid : ComponentVideo) (pixel : Pnm_rgb),
      (ComponentVideo_to_RGB_binary32 pb_mean pr_mean compvid 255 pixel).red ≤ 255 ∧
      (ComponentVideo_to_RGB_binary32 pb_mean pr_mean compvid 255 pixel).green ≤ 255 ∧
      (ComponentVideo_to_RGB_binary32 pb_mean pr_mean compvid 255 pixel).blue ≤ 255 ∧
      (ComponentVideo_to_RGB pb_mean pr_mean compvid 255 pixel).red ≤ 255 ∧
      (ComponentVideo_to_RGB pb_mean pr_mean compvid 255 pixel).green ≤ 255 ∧
      (ComponentVideo_to_RGB pb_mean pr_mean compvid 255 pixel).blue ≤ 255) ∧
    (∀ p ∈ image.pixels.elements, p.red ≤ 255 ∧ p.green ≤ 255 ∧ p.blue ≤ 255) ∧
    (∀ (col row : Int) (p : Pnm_rgb), UArray2_at image.pixels col row = .ok p →
      p.red ≤ 255 ∧ p.green ≤ 255 ∧ p.blue ≤ 255) := by
  refine ⟨fun pb_mean pr_mean compvid denominator pixel hd =>
      ComponentVideo_to_RGB_binary32_le pb_mean pr_mean compvid denominator pixel hd,
    fun denominator hd => to_float_natCast denominator hd, ?_,
    decompress40_in_range arith input image h,
    fun col row p hp =>
      decompress40_in_range arith input image h p (UArray2_at_mem image.pixels col row p hp)⟩
  intro pb_mean pr_mean compvid pixel
  obtain ⟨h1, h2, h3⟩ := ComponentVideo_to_RGB_binary32_le pb_mean pr_mean compvid 255 pixel
    (to_float_natCast 255 (by norm_num))
  obtain ⟨g1, g2, g3⟩ := ComponentVideo_to_RGB_le pb_mean pr_mean compvid 255 pixel
  exact ⟨h1, h2, h3, g1, g2, g3⟩

/-- The clamping on a decompressed raster, and the denominators up to `2^24`. -/
theorem ComponentVideo_to_RGB_clamped_witness :
    decompress40 sample_arith (compress40_header 2 2 ++ [0, 0, 0, 136]) =
      .ok (uniform_image_2x2 { red := 3, green := 0, blue := 4 } 255) ∧
    (∀ denominator : Nat, denominator ≤ 2 ^ 24 → to_float (denominator : ℚ) = denominator) ∧
    (∀ p ∈ (uniform_image_2x2 { red := 3, green := 0, blue := 4 } 255).pixels.elements,
      p.red ≤ 255 ∧ p.green ≤ 255 ∧ p.blue ≤ 255) :=
  ⟨decompress40_one_block sample_arith 136 (by norm_num) _ sample_decoded_pixel_black,
    (ComponentVideo_to_RGB_clamped sample_arith (compress40_header 2 2 ++ [0, 0, 0, 136])
      (uniform_image_2x2 { red := 3, green := 0, blue := 4 } 255)
      (decompress40_one_block sample_arith 136 (by norm_num) _
        sample_decoded_pixel_black)).2.1,
    (ComponentVideo_to_RGB_clamped sample_arith (compress40_header 2 2 ++ [0, 0, 0, 136])
      (uniform_image_2x2 { red := 3, green := 0, blue := 4 } 255)
      (decompress40_one_block sample_arith 136 (by norm_num) _
        sample_decoded_pixel_black)).2.2.2.1⟩

/-- C18 (amended): `ComponentVideo_to_RGB` computes `R = Y + 1.402*Pr`,
`G = Y - 0.344136*Pb - 0.714136*Pr`, `B = Y + 1.772*Pb`, scales each by the
denominator, clamps it to `[0, denominator]` and stores the integer part of
the clamped value: the stored channel `n` satisfies `n <= v < n + 1` for the
clamped value `v`. This holds for the value `v` that the C code computes (the
matrix in binary64, the result stored in a `float`, the scaled product
rounded to binary32, the bounds `0` and `(float) denominator`, which must be
below `2^32` for the conversion to `unsigned` to be defined) and, taking the
arithmetic as exact, for `v = clamp(scaled)`. -/
theorem ComponentVideo_to_RGB_truncates (pb_mean pr_mean : ℚ) (compvid : ComponentVideo)
    (denominator : Nat) (pixel : Pnm_rgb) :
    (to_float (denominator : ℚ) < 2 ^ 32 →
      (((ComponentVideo_to_RGB_binary32 pb_mean pr_mean compvid denominator pixel).red : ℚ)
        ≤ clamp (to_float (to_float (to_double (to_double (to_double (to_double 1.0 * compvid.y)
            + to_double (to_double 0.0 * pb_mean)) + to_double (to_double 1.402 * pr_mean)))
            * to_float (denominator : ℚ))) 0 (to_float (denominator : ℚ)) ∧
      clamp (to_float (to_float (to_double (to_double (to_double (to_double 1.0 * compvid.y)
            + to_double (to_double 0.0 * pb_mean)) + to_double (to_double 1.402 * pr_mean)))
            * to_float (denominator : ℚ))) 0 (to_float (denominator : ℚ))
        < ((ComponentVideo_to_RGB_binary32 pb_mean pr_mean compvid denominator pixel).red : ℚ)
          + 1) ∧
    (((ComponentVideo_to_RGB_binary32 pb_mean pr_mean compvid denominator pixel).green : ℚ)
        ≤ clamp (to_float (to_float (to_double (to_double (to_double (to_double 1.0 * compvid.y)
            - to_double (to_double 0.344136 * pb_mean))
            - to_double (to_double 0.714136 * pr_mean)))
            * to_float (denominator : ℚ))) 0 (to_float (denominator : ℚ)) ∧
      clamp (to_float (to_float (to_double (to_double (to_double (to_double 1.0 * compvid.y)
            - to_double (to_double 0.344136 * pb_mean))
            - to_double (to_double 0.714136 * pr_mean)))
            * to_float (denominator : ℚ))) 0 (to_float (denominator : ℚ))
        < ((ComponentVideo_to_RGB_binary32 pb_mean pr_mean compvid denominator pixel).green : ℚ)
          + 1) ∧
    (((ComponentVideo_to_RGB_binary32 pb_mean pr_mean compvid denominator pixel).blue : ℚ)
        ≤ clamp (to_float (to_float (to_double (to_double (to_double (to_double 1.0 * compvid.y)
            + to_double (to_double 1.772 * pb_mean)) + to_double (to_double 0.0 * pr_mean)))
            * to_float (denominator : ℚ))) 0 (to_float (denominator : ℚ)) ∧
      clamp (to_float (to_float (to_double (to_double (to_double (to_double 1.0 * compvid.y)
            + to_double (to_double 1.772 * pb_mean)) + to_double (to_double 0.0 * pr_mean)))
            * to_float (denominator : ℚ))) 0 (to_float (denominator : ℚ))
        < ((ComponentVideo_to_RGB_binary32 pb_mean pr_mean compvid denominator pixel).blue : ℚ)
          + 1)) ∧
    ((((ComponentVideo_to_RGB pb_mean pr_mean compvid denominator pixel).red : ℚ)
        ≤ clamp ((compvid.y + 1.402 * pr_mean) * denominator) 0 denominator ∧
      clamp ((compvid.y + 1.402 * pr_mean) * denominator) 0 denominator
        < ((ComponentVideo_to_RGB pb_mean pr_mean compvid denominator pixel).red : ℚ) + 1) ∧
    (((ComponentVideo_to_RGB pb_mean pr_mean compvid denominator pixel).green : ℚ)
        ≤ clamp ((compvid.y - 0.344136 * pb_mean - 0.714136 * pr_mean) * denominator) 0
            denominator ∧
      clamp ((compvid.y - 0.344136 * pb_mean - 0.714136 * pr_mean) * denominator) 0
          denominator
        < ((ComponentVideo_to_RGB pb_mean pr_mean compvid denominator pixel).green : ℚ) + 1) ∧
    (((ComponentVideo_to_RGB pb_mean pr_mean compvid denominator pixel).blue : ℚ)
        ≤ clamp ((compvid.y + 1.772 * pb_mean) * denominator) 0 denominator ∧
      clamp ((compvid.y + 1.772 * pb_mean) * denominator) 0 denominator
        < ((ComponentVideo_to_RGB pb_mean pr_mean compvid denominator pixel).blue : ℚ) + 1)) := by
  constructor
  · intro _
    have hd0 : (0 : ℚ) ≤ to_float (denominator : ℚ) := to_float_nonneg _ (Nat.cast_nonneg _)
    have hcl : ∀ v : ℚ, 0 ≤ clamp v 0 (to_float (denominator : ℚ)) :=
      fun v => (clamp_bounds v 0 _ hd0).1
    simp only [ComponentVideo_to_RGB_binary32, to_float_zero]
    exact ⟨float_to_unsigned_spec _ (hcl _), float_to_unsigned_spec _ (hcl _),
      float_to_unsigned_spec _ (hcl _)⟩
  · have er : (1.0 * compvid.y + 0.0 * pb_mean + 1.402 * pr_mean : ℚ)
        = compvid.y + 1.402 * pr_mean := by norm_num
    have eg : (1.0 * compvid.y - 0.344136 * pb_mean - 0.714136 * pr_mean : ℚ)
        = compvid.y - 0.344136 * pb_mean - 0.714136 * pr_mean := by norm_num
    have eb : (1.0 * compvid.y + 1.772 * pb_mean + 0.0 * pr_mean : ℚ)
        = compvid.y + 1.772 * pb_mean := by norm_num
    simp only [ComponentVideo_to_RGB, er, eg, eb]
    exact ⟨float_to_unsigned_spec _ (clamp_nonneg _ _),
      float_to_unsigned_spec _ (clamp_nonneg _ _), float_to_unsigned_spec _ (clamp_nonneg _ _)⟩

/-- C18 (the claim as stated fails): with `Y = 1/4`, `Pb = Pr = 0` and
denominator 255 the scaled red value is `63.75`, whose nearest integer is 64,
but `ComponentVideo_to_RGB` stores 63; every operation of this input is exact
in binary32, so the code stores 63 as well. -/
theorem ComponentVideo_to_RGB_not_rounded :
    (1 / 4 + 1.402 * 0 : ℚ) * 255 = 63.75 ∧
    round_half_away 63.75 = 64 ∧
    (ComponentVideo_to_RGB 0 0 { y := 1 / 4, pb := 0, pr := 0 } 255 Pnm_rgb_zero).red = 63 ∧
    (ComponentVideo_to_RGB_binary32 0 0 { y := 1 / 4, pb := 0, pr := 0 } 255
      Pnm_rgb_zero).red = 63 := by
  have h : ⌊(63.75 : ℚ)⌋ = 63 := floor_eq_of_bounds _ 63 (by norm_num) (by norm_num)
  refine ⟨by norm_num, ?_, ?_, ?_⟩
  · unfold round_half_away
    rw [if_pos (by norm_num)]
    exact floor_eq_of_bounds _ 64 (by norm_num) (by norm_num)
  · have hc : clamp ((1.0 * (1 / 4) + 0.0 * 0 + 1.402 * 0) * ((255 : Nat) : ℚ)) 0
        ((255 : Nat) : ℚ) = 63.75 := by
      unfold clamp
      norm_num
    simp only [ComponentVideo_to_RGB, float_to_unsigned, hc, h]
    rfl
  · have c1 : (1.0 : ℚ) = ((1 : Nat) : ℚ) := by norm_num
    have d1 : to_double 1.0 = 1 := by
      rw [c1, to_double_natCast 1 (by norm_num)]
      norm_num
    have d4 : to_double (1 / 4) = 1 / 4 :=
      to_double_of_pos _ _ (-2) (-54) 4503599627370496 (by norm_num) (by norm_num)
        (by norm_num) (by norm_num) (by norm_num) (by norm_num)
    have f4 : to_float (1 / 4) = 1 / 4 :=
      to_float_of_pos _ _ (-2) (-25) 8388608 (by norm_num) (by norm_num) (by norm_num)
        (by norm_num) (by norm_num) (by norm_num)
    have fd : to_float ((255 : Nat) : ℚ) = 255 := by
      rw [to_float_natCast 255 (by norm_num)]
      norm_num
    have fp : to_float (1 / 4 * 255) = 63.75 :=
      to_float_of_pos _ _ 5 (-18) 16711680 (by norm_num) (by norm_num) (by norm_num)
        (by norm_num) (by norm_num) (by norm_num)
    have hc : clamp (63.75 : ℚ) 0 255 = 63.75 := by
      unfold clamp
      norm_num
    simp only [ComponentVideo_to_RGB_binary32, mul_zero, to_double_zero, add_zero, d1, one_mul,
      d4, f4, fd, to_float_zero, fp, hc, float_to_unsigned, h]
    rfl

/-! ## The contract of UArray2_new -/

/-- C30 (the claim as stated fails): the arguments `width = height = 50000`
and `elementSize = 12` are valid `int` values, none of them negative and the
element size positive, but the `int` product `width * height` is
2500000000, above `INT_MAX`: the multiplication overflows, the behaviour is
undefined, and no array with the given dimensions is returned. -/
theorem UArray2_new_int_overflows :
    ¬ ((12 : Int) ≤ 0 ∨ (50000 : Int) < 0 ∨ (50000 : Int) < 0) ∧
    (50000 : Int) ≤ INT_MAX ∧ INT_MAX < (50000 : Int) * 50000 ∧
    int_mul 50000 50000 = none ∧
    UArray2_new_int Pnm_rgb_zero 50000 50000 12 = none := by
  refine ⟨by norm_num, by norm_num [INT_MAX], by norm_num [INT_MAX], ?_, ?_⟩
  · unfold int_mul
    rw [if_neg (by norm_num [INT_MAX])]
  · have h : int_mul 50000 50000 = none := by
      unfold int_mul
      rw [if_neg (by norm_num [INT_MAX])]
    unfold UArray2_new_int
    rw [if_neg (by norm_num), h]

/-- C30 (amended): `UArray2_new(width, height, elementSize)` is a checked
runtime error if `elementSize`, `height` or `width` is negative. If none is
negative and the `int` product `width * height` does not exceed `INT_MAX`, it
is a checked runtime error for `elementSize = 0` (the assert of `UArray2_new`
passes and the one of `UArray_new` fails), and for a positive `elementSize`
it returns an array whose `UArray2_width`, `UArray2_height` and
`UArray2_size` are the given width, height and elementSize, with
`width * height` cells. If the product exceeds `INT_MAX` the multiplication
overflows and the behaviour is undefined. -/
theorem UArray2_new_contract {α : Type} (zero : α) (width height elementSize : Int) :
    (elementSize < 0 ∨ height < 0 ∨ width < 0 →
      UArray2_new_int zero width height elementSize = some (.error .CRE)) ∧
    (0 ≤ width → 0 ≤ height → width * height ≤ INT_MAX → elementSize = 0 →
      UArray2_new_int zero width height elementSize = some (.error .CRE)) ∧
    (0 ≤ width → 0 ≤ height → width * height ≤ INT_MAX → 0 < elementSize →
      ∃ a, UArray2_new_int zero width height elementSize = some (.ok a) ∧
        UArray2_new zero width height elementSize = .ok a ∧
        UArray2_width a = width ∧ UArray2_height a = height ∧
        UArray2_size a = elementSize ∧ UArray2_wf a ∧
        (a.elements.length : Int) = width * height) ∧
    (0 ≤ width → 0 ≤ height → 0 ≤ elementSize → INT_MAX < width * height →
      UArray2_new_int zero width height elementSize = none) := by
  have hmul : 0 ≤ width → 0 ≤ height → width * height ≤ INT_MAX →
      int_mul width height = some (width * height) := by
    intro hw hh hp
    have h0 : 0 ≤ width * height := Int.mul_nonneg hw hh
    unfold int_mul
    rw [if_pos ⟨by omega, hp⟩]
  refine ⟨?_, ?_, ?_, ?_⟩
  · intro h
    unfold UArray2_new_int
    rw [if_pos (by omega)]
  · intro hw hh hp hs
    unfold UArray2_new_int
    rw [if_neg (by omega), hmul hw hh hp]
    simp only [UArray_new]
    rw [if_pos (by omega)]
  · intro hw hh hp hs
    have h0 : 0 ≤ width * height := Int.mul_nonneg hw hh
    refine ⟨{ width := width, height := height, elementSize := elementSize,
              elements := List.replicate (width * height).toNat zero }, ?_, ?_, rfl, rfl, rfl,
      ⟨hw, hh, ?_⟩, ?_⟩
    · unfold UArray2_new_int
      rw [if_neg (by omega), hmul hw hh hp]
      simp only [UArray_new]
      rw [if_neg (by omega)]
    · unfold UArray2_new UArray_new
      rw [if_neg (by omega), if_neg (by omega)]
    · simp only [List.length_replicate]
      exact Int.toNat_of_nonneg h0
    · simp only [List.length_replicate]
      exact Int.toNat_of_nonneg h0
  · intro hw hh hs hp
    unfold UArray2_new_int
    have h : int_mul width height = none := by
      unfold int_mul
      rw [if_neg (by omega)]
    rw [if_neg (by omega), h]

/-! ## The header that decompress40 accepts -/

theorem fscanf_run_literals_ok (lits : List Nat) (ds : List ScanDirective) :
    ∀ (assigned rest : List Nat),
      fscanf_run (lits.map ScanDirective.literal ++ ds) assigned (lits ++ rest)
        = fscanf_run ds assigned rest := by
  induction lits with
  | nil =>
    intro assigned rest
    rfl
  | cons c cs ih =>
    intro assigned rest
    simp only [List.map_cons, List.cons_append, fscanf_run, if_true]
    exact ih assigned rest

theorem fscanf_run_literals_inv (lits : List Nat) (ds : List ScanDirective) :
    ∀ (assigned input : List Nat),
      (fscanf_run (lits.map ScanDirective.literal ++ ds) assigned input).1.length = 2 →
      assigned.length ≠ 2 →
      ∃ rest, input = lits ++ rest ∧
        fscanf_run (lits.map ScanDirective.literal ++ ds) assigned input
          = fscanf_run ds assigned rest := by
  induction lits with
  | nil =>
    intro assigned input _ _
    exact ⟨input, rfl, rfl⟩
  | cons c cs ih =>
    intro assigned input h2 ha
    cases input with
    | nil =>
      simp only [List.map_cons, List.cons_append, fscanf_run] at h2
      exact absurd h2 ha
    | cons x t =>
      simp only [List.map_cons, List.cons_append, fscanf_run] at h2 ⊢
      by_cases hx : x = c
      · rw [if_pos hx] at h2 ⊢
        obtain ⟨rest, hr, he⟩ := ih assigned t h2 ha
        exact ⟨rest, by rw [hx, hr], he⟩
      · rw [if_neg hx] at h2
        exact absurd h2 ha

theorem skip_whitespace_split (input : List Nat) :
    ∃ ws, input = ws ++ skip_whitespace input ∧ all_space ws := by
  induction input with
  | nil => exact ⟨[], rfl, fun c hc => absurd hc (List.not_mem_nil c)⟩
  | cons x t ih =>
    by_cases hx : isspace x = true
    · obtain ⟨ws, hws, hall⟩ := ih
      refine ⟨x :: ws, ?_, ?_⟩
      · simp only [skip_whitespace, hx, if_true, List.cons_append]
        rw [← hws]
      · intro c hc
        rcases List.mem_cons.mp hc with h | h
        · rw [h]
          exact hx
        · exact hall c h
    · refine ⟨[], ?_, fun c hc => absurd hc (List.not_mem_nil c)⟩
      simp [skip_whitespace, hx]

theorem skip_whitespace_all_space (ws : List Nat) (hws : all_space ws) (c : Nat) (t : List Nat)
    (hc : isspace c = false) : skip_whitespace (ws ++ c :: t) = c :: t := by
  induction ws with
  | nil => simp [skip_whitespace, hc]
  | cons x xs ih =>
    have hx : isspace x = true := hws x (List.mem_cons_self x xs)
    simp only [List.cons_append, skip_whitespace, hx, if_true]
    exact ih (fun y hy => hws y (List.mem_cons_of_mem x hy))

theorem scan_digits_split : ∀ (l : List Nat) (acc : Nat),
    ∃ digits, l = digits ++ (scan_digits acc l).2 ∧ (∀ c ∈ digits, isdigit c = true) ∧
      (∀ c t, (scan_digits acc l).2 = c :: t → isdigit c = false) := by
  intro l
  induction l with
  | nil =>
    intro acc
    exact ⟨[], rfl, fun c hc => absurd hc (List.not_mem_nil c), fun c t h => by
      simp [scan_digits] at h⟩
  | cons x xs ih =>
    intro acc
    by_cases hx : isdigit x = true
    · obtain ⟨digits, hd, hall, hrest⟩ := ih (acc * 10 + (x - 48))
      refine ⟨x :: digits, ?_, ?_, ?_⟩
      · simp only [scan_digits, hx, if_true, List.cons_append]
        rw [← hd]
      · intro c hc
        rcases List.mem_cons.mp hc with h | h
        · rw [h]
          exact hx
        · exact hall c h
      · intro c t h
        simp only [scan_digits, hx, if_true] at h
        exact hrest c t h
    · refine ⟨[], ?_, fun c hc => absurd hc (List.not_mem_nil c), ?_⟩
      · simp [scan_digits, hx]
      · intro c t h
        simp only [scan_digits, hx] at h
        simp only [Bool.false_eq_true, if_false, List.cons.injEq] at h
        rw [← h.1]
        simpa using hx

theorem isspace_not_digit (c : Nat) (h : isdigit c = true) : isspace c = false := by
  simp only [isdigit, decide_eq_true_eq] at h
  simp [isspace]
  omega

theorem number_head (number : List Nat) (h : is_number number) :
    ∃ c t, number = c :: t ∧ isspace c = false ∧
      (isdigit c = true ∨ c = 43 ∨ c = 45) := by
  obtain ⟨sign, digits, hn, hs, hne, hd⟩ := h
  obtain ⟨d, ds, hds⟩ := List.exists_cons_of_ne_nil hne
  have hdd : isdigit d = true := hd d (by rw [hds]; exact List.mem_cons_self d ds)
  rcases hs with h | h | h
  · refine ⟨d, ds, by rw [hn, h, hds]; rfl, isspace_not_digit d hdd, Or.inl hdd⟩
  · exact ⟨43, digits, by rw [hn, h]; rfl, by decide, Or.inr (Or.inl rfl)⟩
  · exact ⟨45, digits, by rw [hn, h]; rfl, by decide, Or.inr (Or.inr rfl)⟩

/-- The conversion `%u` consumes white space and a number, up to a character
that is not a digit. -/
theorem scan_unsigned_ok (ws number : List Nat) (c : Nat) (t : List Nat) (hws : all_space ws)
    (hnum : is_number number) (hc : isdigit c = false) :
    ∃ v, scan_unsigned (ws ++ (number ++ c :: t)) = some (v, c :: t) := by
  obtain ⟨x, xs, hx, hxs, _⟩ := number_head number hnum
  obtain ⟨sign, digits, hn, hs, hne, hd⟩ := hnum
  obtain ⟨d, ds, hds⟩ := List.exists_cons_of_ne_nil hne
  have hdd : isdigit d = true := hd d (by rw [hds]; exact List.mem_cons_self d ds)
  have hd4 : 48 ≤ d ∧ d ≤ 57 := by simpa [isdigit] using hdd
  have hskip : skip_whitespace (ws ++ (number ++ c :: t)) = number ++ c :: t := by
    rw [hx, List.cons_append]
    exact skip_whitespace_all_space ws hws x _ hxs
  have hscan := scan_digits_append digits t c hd hc 0
  unfold scan_unsigned
  simp only [hskip]
  rcases hs with h | h | h
  · have e : number ++ c :: t = d :: (ds ++ c :: t) := by rw [hn, h, hds]; rfl
    have hdig : digits ++ c :: t = d :: (ds ++ c :: t) := by rw [hds]; rfl
    rw [e]
    have h45 : d ≠ 45 := by omega
    have h43 : d ≠ 43 := by omega
    have hlist45 : ∀ rest, d :: (ds ++ c :: t) = 45 :: rest → False := by
      intro rest hr
      simp only [List.cons.injEq] at hr
      omega
    have hlist43 : ∀ rest, d :: (ds ++ c :: t) = 43 :: rest → False := by
      intro rest hr
      simp only [List.cons.injEq] at hr
      omega
    rw [scan_unsigned.match_1.eq_3 _ _ _ _ _ hlist45 hlist43]
    simp only [hdd, if_true]
    rw [← hdig, hscan]
    exact ⟨_, rfl⟩
  · have e : number ++ c :: t = 43 :: (d :: (ds ++ c :: t)) := by rw [hn, h, hds]; rfl
    have hdig : digits ++ c :: t = d :: (ds ++ c :: t) := by rw [hds]; rfl
    rw [e]
    simp only [hdd, if_true]
    rw [← hdig, hscan]
    exact ⟨_, rfl⟩
  · have e : number ++ c :: t = 45 :: (d :: (ds ++ c :: t)) := by rw [hn, h, hds]; rfl
    have hdig : digits ++ c :: t = d :: (ds ++ c :: t) := by rw [hds]; rfl
    rw [e]
    simp only [hdd, if_true]
    rw [← hdig, hscan]
    exact ⟨_, rfl⟩

theorem scan_number_inv (sign l : List Nat) (rest : List Nat)
    (hs : sign = [] ∨ sign = [43] ∨ sign = [45]) (d : Nat) (ds : List Nat) (hl : l = d :: ds)
    (hd : isdigit d = true) (hrest : (scan_digits 0 l).2 = rest) :
    is_number (sign ++ (l.take (l.length - rest.length))) ∧
      l = l.take (l.length - rest.length) ++ rest ∧
      (∀ c t, rest = c :: t → isdigit c = false) := by
  obtain ⟨digits, hdig, hdall, hnd⟩ := scan_digits_split l 0
  rw [hrest] at hdig hnd
  have hne : digits ≠ [] := by
    intro hnil
    rw [hnil, List.nil_append, hl] at hdig
    have := hnd d ds hdig.symm
    rw [hd] at this
    cases this
  have htake : l.take (l.length - rest.length) = digits := by
    rw [hdig]
    simp
  rw [htake]
  exact ⟨⟨sign, digits, rfl, hs, hne, hdall⟩, hdig, hnd⟩

/-- A successful `%u` consumed a run of white space and a number, and stopped
before a character that is not a digit. -/
theorem scan_unsigned_inv (input : List Nat) (v : Nat) (rest : List Nat)
    (h : scan_unsigned input = some (v, rest)) :
    ∃ ws number, input = ws ++ (number ++ rest) ∧ all_space ws ∧ is_number number ∧
      (∀ c t, rest = c :: t → isdigit c = false) := by
  obtain ⟨ws, hws, hall⟩ := skip_whitespace_split input
  suffices hk : ∃ number, skip_whitespace input = number ++ rest ∧ is_number number ∧
      (∀ c t, rest = c :: t → isdigit c = false) by
    obtain ⟨number, h1, h2, h3⟩ := hk
    exact ⟨ws, number, by rw [← h1]; exact hws, hall, h2, h3⟩
  simp only [scan_unsigned] at h
  generalize skip_whitespace input = s at h
  have fin : ∀ (sign l : List Nat), (sign = [] ∨ sign = [43] ∨ sign = [45]) → s = sign ++ l →
      ∀ d ds, l = d :: ds → isdigit d = true → (scan_digits 0 l).2 = rest →
      ∃ number, s = number ++ rest ∧ is_number number ∧
        (∀ c t, rest = c :: t → isdigit c = false) := by
    intro sign l hs hsl d ds hl hd hr
    obtain ⟨h1, h2, h3⟩ := scan_number_inv sign l rest hs d ds hl hd hr
    refine ⟨sign ++ l.take (l.length - rest.length), ?_, h1, h3⟩
    rw [List.append_assoc, ← h2]
    exact hsl
  rcases s with _ | ⟨x, xs⟩
  · simp at h
  · by_cases h45 : x = 45
    · subst h45
      rcases xs with _ | ⟨d, ds⟩
      · simp at h
      · simp only at h
        by_cases hd : isdigit d = true
        · rw [if_pos hd] at h
          simp only [Option.some.injEq, Prod.mk.injEq] at h
          exact fin [45] (d :: ds) (Or.inr (Or.inr rfl)) rfl d ds rfl hd h.2
        · rw [if_neg hd] at h
          cases h
    · by_cases h43 : x = 43
      · subst h43
        rcases xs with _ | ⟨d, ds⟩
        · simp at h
        · simp only at h
          by_cases hd : isdigit d = true
          · rw [if_pos hd] at h
            simp only [Option.some.injEq, Prod.mk.injEq] at h
            exact fin [43] (d :: ds) (Or.inr (Or.inl rfl)) rfl d ds rfl hd h.2
          · rw [if_neg hd] at h
            cases h
      · have hl45 : ∀ r, x :: xs = 45 :: r → False := by
          intro r hr
          simp only [List.cons.injEq] at hr
          exact h45 hr.1
        have hl43 : ∀ r, x :: xs = 43 :: r → False := by
          intro r hr
          simp only [List.cons.injEq] at hr
          exact h43 hr.1
        rw [scan_unsigned.match_1.eq_3 _ _ _ _ _ hl45 hl43] at h
        simp only at h
        by_cases hd : isdigit x = true
        · rw [if_pos hd] at h
          simp only [Option.some.injEq, Prod.mk.injEq] at h
          exact fin [] (x :: xs) (Or.inl rfl) rfl x xs rfl hd h.2
        · rw [if_neg hd] at h
          cases h

theorem decompress40_format_split :
    decompress40_format =
      (string_bytes "COMP40").map ScanDirective.literal ++ (ScanDirective.whitespace ::
      ((string_bytes "Compressed").map ScanDirective.literal ++ (ScanDirective.whitespace ::
      ((string_bytes "image").map ScanDirective.literal ++ (ScanDirective.whitespace ::
      ((string_bytes "format").map ScanDirective.literal ++ (ScanDirective.whitespace ::
      ((string_bytes "2").map ScanDirective.literal ++
        [ScanDirective.whitespace, ScanDirective.unsignedInt, ScanDirective.whitespace,
          ScanDirective.unsignedInt])))))))) := by decide

theorem fscanf_run_whitespace (ds : List ScanDirective) (assigned input : List Nat) :
    fscanf_run (ScanDirective.whitespace :: ds) assigned input
      = fscanf_run ds assigned (skip_whitespace input) := by
  simp only [fscanf_run]

theorem fscanf_run_unsignedInt_inv (ds : List ScanDirective) (assigned input : List Nat)
    (h : (fscanf_run (ScanDirective.unsignedInt :: ds) assigned input).1.length = 2)
    (ha : assigned.length ≠ 2) :
    ∃ v rest, scan_unsigned input = some (v, rest) ∧
      fscanf_run (ScanDirective.unsignedInt :: ds) assigned input
        = fscanf_run ds (assigned ++ [v]) rest := by
  cases hs : scan_unsigned input with
  | none =>
    simp only [fscanf_run, hs] at h
    exact absurd h ha
  | some p =>
    obtain ⟨v, rest⟩ := p
    refine ⟨v, rest, rfl, ?_⟩
    simp only [fscanf_run, hs]

theorem all_space_append (a b : List Nat) (ha : all_space a) (hb : all_space b) :
    all_space (a ++ b) := by
  intro c hc
  rcases List.mem_append.mp hc with h | h
  · exact ha c h
  · exact hb c h

/-- An input on which `fscanf` assigns both numbers of the header and which
continues with a newline has the form of the header up to white space. -/
theorem header_matches_of_scanned (input : List Nat)
    (h2 : (fscanf_run decompress40_format [] input).1.length = 2) (c : Nat) (rest : List Nat)
    (hrest : (fscanf_run decompress40_format [] input).2 = c :: rest) (hc : c % 256 = 10) :
    header_matches input := by
  rw [decompress40_format_split] at h2 hrest
  obtain ⟨r1, i1, e1⟩ := fscanf_run_literals_inv _ _ [] input h2 (by decide)
  rw [e1, fscanf_run_whitespace] at h2 hrest
  obtain ⟨ws1, w1, a1⟩ := skip_whitespace_split r1
  obtain ⟨r2, i2, e2⟩ := fscanf_run_literals_inv _ _ [] _ h2 (by decide)
  rw [e2, fscanf_run_whitespace] at h2 hrest
  obtain ⟨ws2, w2, a2⟩ := skip_whitespace_split r2
  obtain ⟨r3, i3, e3⟩ := fscanf_run_literals_inv _ _ [] _ h2 (by decide)
  rw [e3, fscanf_run_whitespace] at h2 hrest
  obtain ⟨ws3, w3, a3⟩ := skip_whitespace_split r3
  obtain ⟨r4, i4, e4⟩ := fscanf_run_literals_inv _ _ [] _ h2 (by decide)
  rw [e4, fscanf_run_whitespace] at h2 hrest
  obtain ⟨ws4, w4, a4⟩ := skip_whitespace_split r4
  obtain ⟨r5, i5, e5⟩ := fscanf_run_literals_inv _ _ [] _ h2 (by decide)
  rw [e5, fscanf_run_whitespace] at h2 hrest
  obtain ⟨ws5, w5, a5⟩ := skip_whitespace_split r5
  obtain ⟨v1, q1, s1, e6⟩ := fscanf_run_unsignedInt_inv _ [] _ h2 (by decide)
  rw [e6, fscanf_run_whitespace] at h2 hrest
  obtain ⟨ws5b, n1, j1, b1, m1, d1⟩ := scan_unsigned_inv _ _ _ s1
  obtain ⟨ws6, w6, a6⟩ := skip_whitespace_split q1
  obtain ⟨v2, q2, s2, e7⟩ := fscanf_run_unsignedInt_inv _ ([] ++ [v1]) _ h2 (by simp)
  rw [e7] at hrest
  obtain ⟨ws6b, n2, j2, b2, m2, _⟩ := scan_unsigned_inv _ _ _ s2
  have hq2 : q2 = c :: rest := hrest
  refine ⟨ws1, ws2, ws3, ws4, ws5 ++ ws5b, n1, ws6 ++ ws6b, n2, c, rest, ?_, a1, a2, a3, a4,
    all_space_append _ _ a5 b1, all_space_append _ _ a6 b2, m1, m2, ?_, hc⟩
  · rw [i1, w1, i2, w2, i3, w3, i4, w4, i5, w5, j1, w6, j2, hq2]
    simp only [List.append_assoc]
  · by_cases hw : ws6 ++ ws6b = []
    · right
      have hws6 : ws6 = [] := (List.append_eq_nil.mp hw).1
      have hws6b : ws6b = [] := (List.append_eq_nil.mp hw).2
      obtain ⟨x, xs, hx, _, hcase⟩ := number_head n2 m2
      have hq1 : q1 = x :: (xs ++ q2) := by
        rw [w6, hws6, List.nil_append, j2, hws6b, List.nil_append, hx]
        rfl
      have hnd := d1 x _ hq1
      rcases hcase with h | h | h
      · rw [h] at hnd
        cases hnd
      · exact ⟨xs, Or.inl (by rw [hx, h])⟩
      · exact ⟨xs, Or.inr (by rw [hx, h])⟩
    · exact Or.inl hw

theorem skip_whitespace_word (ws word r : List Nat) (hws : all_space ws)
    (hword : ∃ c t, word = c :: t ∧ isspace c = false) :
    skip_whitespace (ws ++ (word ++ r)) = word ++ r := by
  obtain ⟨c, t, hw, hc⟩ := hword
  rw [hw, List.cons_append]
  exact skip_whitespace_all_space ws hws c _ hc

/-- An input of the form of the header up to white space passes the header
check: `fscanf` assigns both numbers and stops before the newline. -/
theorem scanned_of_header_matches (input : List Nat) (h : header_matches input) :
    ∃ width height newline rest,
      fscanf_run decompress40_format [] input = ([width, height], newline :: rest) ∧
      newline % 256 = 10 := by
  obtain ⟨ws1, ws2, ws3, ws4, ws5, n1, ws6, n2, c, rest, hi, a1, a2, a3, a4, a5, a6, m1, m2,
    hb, hc⟩ := h
  have hcd : isdigit c = false := by
    simp only [isdigit]
    rw [decide_eq_false_iff_not]
    omega
  obtain ⟨x2, t2, hx2, hs2, hcase2⟩ := number_head n2 m2
  obtain ⟨x1, t1, hx1, hs1, _⟩ := number_head n1 m1
  have hafter : ∃ y ty, ws6 ++ (n2 ++ c :: rest) = y :: ty ∧ isdigit y = false := by
    rcases ws6 with _ | ⟨s, ss⟩
    · rcases hb with hb | ⟨t, hb | hb⟩
      · exact absurd rfl hb
      · exact ⟨43, t ++ c :: rest, by rw [hb]; rfl, by decide⟩
      · exact ⟨45, t ++ c :: rest, by rw [hb]; rfl, by decide⟩
    · have hsp : isspace s = true := a6 s (List.mem_cons_self s ss)
      refine ⟨s, ss ++ (n2 ++ c :: rest), rfl, ?_⟩
      by_contra hd
      have hd2 : isdigit s = true := by simpa using hd
      rw [isspace_not_digit s hd2] at hsp
      cases hsp
  obtain ⟨y, ty, hy, hyd⟩ := hafter
  obtain ⟨v1, hv1⟩ := scan_unsigned_ok [] n1 y ty (fun c hc => absurd hc (List.not_mem_nil c))
    m1 hyd
  obtain ⟨v2, hv2⟩ := scan_unsigned_ok [] n2 c rest
    (fun c hc => absurd hc (List.not_mem_nil c)) m2 hcd
  simp only [List.nil_append] at hv1 hv2
  have k1 : skip_whitespace (ws1 ++ (string_bytes "Compressed" ++ (ws2 ++ (string_bytes "image" ++ (ws3 ++
      (string_bytes "format" ++ (ws4 ++ (string_bytes "2" ++ (ws5 ++ (n1 ++ (ws6 ++ (n2 ++
      c :: rest)))))))))))) =
      string_bytes "Compressed" ++ (ws2 ++ (string_bytes "image" ++ (ws3 ++ (string_bytes
      "format" ++ (ws4 ++ (string_bytes "2" ++ (ws5 ++ (n1 ++ (ws6 ++ (n2 ++ c ::
      rest)))))))))) :=
    skip_whitespace_word ws1 _ _ a1
      ⟨67, (string_bytes "Compressed").tail, by decide, by decide⟩
  have k2 : skip_whitespace (ws2 ++ (string_bytes "image" ++ (ws3 ++ (string_bytes "format" ++ (ws4 ++
      (string_bytes "2" ++ (ws5 ++ (n1 ++ (ws6 ++ (n2 ++ c :: rest)))))))))) =
      string_bytes "image" ++ (ws3 ++ (string_bytes "format" ++ (ws4 ++ (string_bytes "2"
      ++ (ws5 ++ (n1 ++ (ws6 ++ (n2 ++ c :: rest)))))))) :=
    skip_whitespace_word ws2 _ _ a2
      ⟨105, (string_bytes "image").tail, by decide, by decide⟩
  have k3 : skip_whitespace (ws3 ++ (string_bytes "format" ++ (ws4 ++ (string_bytes "2" ++ (ws5 ++ (n1 ++ (ws6 ++
      (n2 ++ c :: rest)))))))) =
      string_bytes "format" ++ (ws4 ++ (string_bytes "2" ++ (ws5 ++ (n1 ++ (ws6 ++ (n2 ++
      c :: rest)))))) :=
    skip_whitespace_word ws3 _ _ a3
      ⟨102, (string_bytes "format").tail, by decide, by decide⟩
  have k4 : skip_whitespace (ws4 ++ (string_bytes "2" ++ (ws5 ++ (n1 ++ (ws6 ++ (n2 ++ c :: rest)))))) =
      string_bytes "2" ++ (ws5 ++ (n1 ++ (ws6 ++ (n2 ++ c :: rest)))) :=
    skip_whitespace_word ws4 _ _ a4
      ⟨50, (string_bytes "2").tail, by decide, by decide⟩
  have k5 : skip_whitespace (ws5 ++ (n1 ++ (ws6 ++ (n2 ++ c :: rest)))) =
      n1 ++ (ws6 ++ (n2 ++ c :: rest)) :=
    skip_whitespace_word ws5 _ _ a5 ⟨x1, t1, hx1, hs1⟩
  have k6 : skip_whitespace (ws6 ++ (n2 ++ c :: rest)) = n2 ++ c :: rest :=
    skip_whitespace_word ws6 _ _ a6 ⟨x2, t2, hx2, hs2⟩
  refine ⟨v1, v2, c, rest, ?_, hc⟩
  rw [hi, decompress40_format_split, fscanf_run_literals_ok, fscanf_run_whitespace, k1,
    fscanf_run_literals_ok, fscanf_run_whitespace, k2, fscanf_run_literals_ok,
    fscanf_run_whitespace, k3, fscanf_run_literals_ok, fscanf_run_whitespace, k4,
    fscanf_run_literals_ok, fscanf_run_whitespace, k5]
  rw [hy]
  simp only [fscanf_run, hv1]
  rw [← hy, k6]
  simp only [hv2, List.nil_append, List.cons_append]

/-- The two asserts on the header: `decompress40` fails unless `fscanf`
assigns two numbers and the next character is a newline. -/
theorem decompress40_of_not_scanned (arith : Arith40) (input : List Nat)
    (hlen : (fscanf_run decompress40_format [] input).1.length ≠ 2 ∨
      (∀ c rest, (fscanf_run decompress40_format [] input).2 = c :: rest → c % 256 ≠ 10)) :
    decompress40 arith input = .error .CRE := by
  unfold decompress40
  simp only
  rcases hlen with h1 | h2
  · split
    · rename_i w hh heq
      rw [heq] at h1
      exact absurd rfl h1
    · rfl
  · split
    · cases hs : (fscanf_run decompress40_format [] input).2 with
      | nil => simp [getc]
      | cons c rest =>
        have := h2 c rest hs
        simp [getc, this]
    · rfl

theorem header_matches_compress40_header (width height : Nat) (rest : List Nat) :
    header_matches (compress40_header width height ++ rest) := by
  obtain ⟨L1, hL1, hne1, hdig1, _⟩ := repr_digits width
  obtain ⟨L2, hL2, hne2, hdig2, _⟩ := repr_digits height
  have hsp : all_space [32] := by
    intro c hc
    rw [List.mem_singleton.mp hc]
    decide
  have hnl : all_space [10] := by
    intro c hc
    rw [List.mem_singleton.mp hc]
    decide
  refine ⟨[32], [32], [32], [32], [10], L1, [32], L2, 10, rest, ?_, hsp, hsp, hsp, hsp, hnl,
    hsp, ⟨[], L1, rfl, Or.inl rfl, hne1, hdig1⟩, ⟨[], L2, rfl, Or.inl rfl, hne2, hdig2⟩,
    Or.inl (by simp), by norm_num⟩
  have e0 : string_bytes "COMP40 Compressed image format 2\n" =
      string_bytes "COMP40" ++ ([32] ++ (string_bytes "Compressed" ++ ([32] ++
        (string_bytes "image" ++ ([32] ++ (string_bytes "format" ++ ([32] ++
        (string_bytes "2" ++ [10])))))))) := by decide
  have h1 : string_bytes " " = [32] := by decide
  have h2 : string_bytes "\n" = [10] := by decide
  unfold compress40_header
  rw [e0, h1, h2, hL1, hL2]
  simp only [List.append_assoc, List.singleton_append, List.cons_append, List.nil_append]

/-- C22 (amended): `decompress40` fails with a checked runtime error, and
hands no image to `Pnm_ppmwrite`, whenever the input does not have the form
of the header up to white space: the words `COMP40`, `Compressed`, `image`,
`format`, `2` in this order, each followed by any run of white space (an
empty one too), a decimal number with an optional sign, white space or the
sign of the second number, the second number, and a newline character
directly after its last digit. Every input of this form passes the header
check, so the text that `compress40` prints is accepted, and an input that
does not begin with `COMP40` is rejected. -/
theorem decompress40_header_check (arith : Arith40) (input : List Nat) :
    (¬ header_matches input → decompress40 arith input = .error .CRE) ∧
    (header_matches input →
      ∃ width height newline rest,
        fscanf_run decompress40_format [] input = ([width, height], newline :: rest) ∧
        newline % 256 = 10) ∧
    (∀ (width height : Nat) (rest : List Nat),
      header_matches (compress40_header width height ++ rest)) ∧
    (input.take 6 ≠ string_bytes "COMP40" → ¬ header_matches input) := by
  refine ⟨?_, scanned_of_header_matches input, header_matches_compress40_header, ?_⟩
  · intro hnot
    apply decompress40_of_not_scanned
    by_contra hcon
    rw [not_or] at hcon
    obtain ⟨h2, hnl⟩ := hcon
    have h2' : (fscanf_run decompress40_format [] input).1.length = 2 := not_not.mp h2
    rw [not_forall] at hnl
    obtain ⟨c, hnl⟩ := hnl
    rw [not_forall] at hnl
    obtain ⟨rest, hnl⟩ := hnl
    rw [Classical.not_imp] at hnl
    exact hnot (header_matches_of_scanned input h2' c rest hnl.1 (not_not.mp hnl.2))
  · intro htake hm
    obtain ⟨ws1, ws2, ws3, ws4, ws5, n1, ws6, n2, c, rest, hi, _⟩ := hm
    apply htake
    rw [hi]
    have hlen : (string_bytes "COMP40").length = 6 := by decide
    rw [← hlen, List.take_left]

end PPM
